import Mathlib

/-!
# Shallow embedding of `dbc_fft.h`

This file embeds the FFT engine of `dbc_fft.h` (the scalar configuration:
`DBC_FFT_NO_SIMD`, bit-reverse table enabled, `DBCF_TMP_BUF_LOG2 = 10`,
NPOT enabled, default allocator modelled by an explicit success flag) and
proves the frozen claims about it.

Modelling conventions:
* The element type `DBCF_Type` is interpreted as `ℝ` (exact arithmetic).
  The complex-exponential seed routines (`dbcF_cexpm1`, `dbcF_cexpm1_npot`),
  which the source implements by sub-ULP tables / Taylor series, are
  interpreted as the exact values they tabulate.
* The index type `dbcf_index` is interpreted as `ℤ` (for strides, addresses
  and the public `num_elements`) or `ℕ` (for loop counters and `log2*`
  quantities that are non-negative in every reachable call).
* Memory is a total function `ℤ → ℝ` from element addresses to values;
  pointers are addresses (`ℤ`), nullable pointers are `Option ℤ`.
  The stack scratch buffer of a driver call (`tmp` in `dbcF_fft_pot`) and
  the heap scratch of the Bluestein driver are modelled as separate address
  spaces based at 0 (the C guarantees they are disjoint from all user
  buffers); they are uninitialized in C and modelled as all-zero, every cell
  being written before it is read.
* Reading through a null pointer (C undefined behavior) makes the Bluestein
  driver return `none`; all defined executions return `some (ret, mem)`.
-/

namespace DbcFft

/-- Specification bit reversal: `bitrev b i` is the reversal of the low `b`
bits of `i` (higher bits of `i` are discarded). -/
def bitrev : ℕ → ℕ → ℕ
  | 0, _ => 0
  | b + 1, i => i % 2 * 2 ^ b + bitrev b (i / 2)

/-- One block of the 8-bit reversal table: `dbcF_R k n c` mirrors the
`DBCF_R<k>(n,c)` macro of the source (`DBCF_R1(n,c) = n, n+c`;
`DBCF_R<j+1>(n,c) = DBCF_R<j>(n,2c), DBCF_R<j>(n+c,2c)`). -/
def dbcF_R : ℕ → ℕ → ℕ → List ℕ
  | 0, n, _ => [n]
  | k + 1, n, c => dbcF_R k n (2 * c) ++ dbcF_R k (n + c) (2 * c)

/-- The 512-entry static table `dbcF_bitreverse_table`:
`0,0,DBCF_R1(0,1),DBCF_R2(0,1),...,DBCF_R8(0,1)`. -/
def dbcF_bitreverse_table_list : List ℕ :=
  [0, 0] ++ dbcF_R 1 0 1 ++ dbcF_R 2 0 1 ++ dbcF_R 3 0 1 ++ dbcF_R 4 0 1 ++
    dbcF_R 5 0 1 ++ dbcF_R 6 0 1 ++ dbcF_R 7 0 1 ++ dbcF_R 8 0 1

/-- Lookup in the static table (out-of-range reads, which never occur in
reachable calls, default to 0). -/
def dbcF_bitreverse_table (i : ℕ) : ℕ := dbcF_bitreverse_table_list.getD i 0

/-- `dbcF_bitreverse`, default (table-based) variant:
reverses the low `bits` bits of `i`.  `(dbcF_bitreverse_table+DBCF_POW2(bits))[i]`
is table lookup at offset `2^bits + i`; `i&255` is `i % 256`; `i>>8` is `i / 256`. -/
def dbcF_bitreverse (i bits : ℕ) : ℕ :=
  if bits ≤ 8 then dbcF_bitreverse_table (2 ^ bits + i)
  else dbcF_bitreverse_table (256 + i % 256) <<< (bits - 8) ^^^ dbcF_bitreverse (i / 256) (bits - 8)
termination_by bits
decreasing_by omega

/-- `dbcF_bitreverse`, branch-free variant (`DBC_FFT_NO_BITREVERSE_TABLE`
configuration): 4-2-1 nibble swap on the low byte, then recursion on the
higher bytes. -/
def dbcF_bitreverse_nt (i bits : ℕ) : ℕ :=
  let j0 := i % 256
  let b := min bits 8
  let j1 := j0 >>> 4 ^^^ j0 <<< 4
  let j2 := (j1 &&& 0xCC) >>> 2 ^^^ (j1 &&& 0x33) <<< 2
  let j3 := (j2 &&& 0xAA) >>> 1 ^^^ (j2 &&& 0x55) <<< 1
  let j4 := j3 >>> (8 - b)
  if 8 < bits then j4 <<< (bits - 8) ^^^ dbcF_bitreverse_nt (i / 256) (bits - 8) else j4
termination_by bits
decreasing_by omega

/-! ## Memory model -/

noncomputable section

/-- Memory: a total function from element addresses to values. -/
abbrev Mem := ℤ → ℝ

/-- Store `v` at address `a`. -/
def mset (m : Mem) (a : ℤ) (v : ℝ) : Mem := fun x => if x = a then v else m x

/-- Read through a nullable pointer at a byte offset; `none` models the
all-zero dummy cell that `dbcF_fft_pot` substitutes for null sources. -/
def memRead (m : Mem) (p : Option ℤ) (off : ℤ) : ℝ :=
  match p with
  | none => 0
  | some b => m (b + off)

/-! ## Configuration constants (defaults of the scalar build) -/

def DBCF_TMP_BUF_LOG2 : ℕ := 10
def DBCF_TMP_BUF_SIZE : ℕ := 2 ^ DBCF_TMP_BUF_LOG2
def DBCF_TWIDDLES_BUF_LOG2 : ℕ := DBCF_TMP_BUF_LOG2 - 1
def DBCF_TWIDDLES_BUF_SIZE : ℕ := 2 ^ DBCF_TWIDDLES_BUF_LOG2
def DBCF_Q : ℕ := min (DBCF_TMP_BUF_LOG2 / 2) 6

/-! ## Complex-exponential seeds

The source computes `exp(2πi/2^log2n) − 1` from a sub-ULP literal table
(`log2n ≤ 16`) or a Taylor expansion, and `exp(2πi·p/q) − 1` from a 33-term
evaluation of the cosine/sine series.  The claims interpret arithmetic
exactly, so the embedding uses the exact values these routines tabulate. -/

/-- `dbcF_cexpm1`: exact value of `exp(2πi/2^log2n) − 1` as `(re, im)`. -/
def dbcF_cexpm1 (log2n : ℕ) : ℝ × ℝ :=
  (Real.cos (2 * Real.pi / 2 ^ log2n) - 1, Real.sin (2 * Real.pi / 2 ^ log2n))

/-- `dbcF_cexp`: `1 + dbcF_cexpm1` on the real part. -/
def dbcF_cexp (log2n : ℕ) : ℝ × ℝ :=
  (1 + (dbcF_cexpm1 log2n).1, (dbcF_cexpm1 log2n).2)

/-- `dbcF_cexpm1_npot`: exact value of `exp(2πi·p/q) − 1`. -/
def dbcF_cexpm1_npot (p q : ℕ) : ℝ × ℝ :=
  (Real.cos (2 * Real.pi * p / q) - 1, Real.sin (2 * Real.pi * p / q))

/-! ## Twiddle generation (`dbcF_compute_twiddles`)

The twiddle buffers live in the scratch memory; `rB`/`iB` are the base
addresses of `real`/`imag` (the arrays have stride 1). -/

/-- Inner doubling loop of `dbcF_compute_twiddles` (and of the NPOT variant,
which has the identical body): for `j < cnt`,
`real[k+j] = (x*real[j] - y*imag[j]) + (x + real[j])`,
`imag[k+j] = (y*real[j] + x*imag[j]) + (y + imag[j])`. -/
def dbcF_twiddle_fill (x y : ℝ) (rB iB : ℤ) (k : ℕ) : ℕ → Mem → Mem
  | 0, w => w
  | j + 1, w =>
    let w' := dbcF_twiddle_fill x y rB iB k j w
    let r := w' (rB + j)
    let s := w' (iB + j)
    mset (mset w' (rB + (k + j : ℕ)) ((x * r - y * s) + (x + r)))
      (iB + (k + j : ℕ)) ((y * r + x * s) + (y + s))

/-- Outer loop of `dbcF_compute_twiddles` over `i < log2b`
(`k = 2^i`, seed `dbcF_cexpm1 (log2n - i)`, `y` negated unless inverse). -/
def dbcF_compute_twiddles_outer (log2n : ℕ) (rB iB : ℤ) (inverse : Bool) : ℕ → Mem → Mem
  | 0, w => w
  | i + 1, w =>
    let w' := dbcF_compute_twiddles_outer log2n rB iB inverse i w
    let k := 2 ^ i
    let xy := dbcF_cexpm1 (log2n - i)
    let x := xy.1
    let y := if inverse then xy.2 else -xy.2
    dbcF_twiddle_fill x y rB iB k k w'

/-- Final loop of `dbcF_compute_twiddles`: `real[i] = 1 + real[i]` for `i < cnt`. -/
def dbcF_twiddle_addone (rB : ℤ) : ℕ → Mem → Mem
  | 0, w => w
  | i + 1, w =>
    let w' := dbcF_twiddle_addone rB i w
    mset w' (rB + i) (1 + w' (rB + i))

/-- `dbcF_compute_twiddles(log2n, log2b, real, imag, inverse)`.
(The source indexes the seed table at `log2n - i`, which is non-negative in
every reachable call; the embedding uses truncated subtraction.) -/
def dbcF_compute_twiddles (log2n log2b : ℕ) (rB iB : ℤ) (inverse : Bool) (w : Mem) : Mem :=
  dbcF_twiddle_addone rB (2 ^ log2b)
    (dbcF_compute_twiddles_outer log2n rB iB inverse log2b
      (mset (mset w rB 0) iB 0))

/-! ## NPOT twiddle generation (`dbcF_compute_twiddles_npot`) -/

/-- Doubling phase of `dbcF_compute_twiddles_npot`: iteration `e` has `i = 2^e`
and runs while `i < h` (the source increments `i *= 2`; iterations with
`2^e ≥ h` do nothing). -/
def dbcF_compute_twiddles_npot_outer (n : ℕ) (rB iB : ℤ) (inverse : Bool) (h : ℕ) :
    ℕ → Mem → Mem
  | 0, w => w
  | e + 1, w =>
    let w' := dbcF_compute_twiddles_npot_outer n rB iB inverse h e w
    let i := 2 ^ e
    if i < h then
      let XY := dbcF_cexpm1_npot i n
      let X := XY.1
      let Y := if inverse then XY.2 else -XY.2
      let j := if h < i * 2 then h - i else i
      dbcF_twiddle_fill X Y rB iB i j w'
    else w'

/-- Mirror loop: for `i ∈ [h, m)`, `real[i] = -real[m-i]`, `imag[i] = imag[m-i]`. -/
def dbcF_npot_mirror (rB iB : ℤ) (m h : ℕ) : ℕ → Mem → Mem
  | 0, w => w
  | c + 1, w =>
    let w' := dbcF_npot_mirror rB iB m h c w
    let i := h + c
    mset (mset w' (rB + i) (-(w' (rB + (m - i : ℕ))))) (iB + i) (w' (iB + (m - i : ℕ)))

/-- Negate-second-half loop: for `i ∈ [0, m)`,
`real[m+i] = -real[i]`, `imag[m+i] = -imag[i]`. -/
def dbcF_npot_neghalf (rB iB : ℤ) (m : ℕ) : ℕ → Mem → Mem
  | 0, w => w
  | i + 1, w =>
    let w' := dbcF_npot_neghalf rB iB m i w
    mset (mset w' (rB + (m + i : ℕ)) (-(w' (rB + i)))) (iB + (m + i : ℕ)) (-(w' (iB + i)))

/-- `dbcF_compute_twiddles_npot(n, real, imag, inverse)` (always called with even `n`). -/
def dbcF_compute_twiddles_npot (n : ℕ) (rB iB : ℤ) (inverse : Bool) (w : Mem) : Mem :=
  if n < 1 then w
  else
    let m := n / 2
    let h := (m + 2) / 2
    dbcF_npot_neghalf rB iB m m
      (dbcF_npot_mirror rB iB m h (m - h)
        (dbcF_twiddle_addone rB h
          (dbcF_compute_twiddles_npot_outer n rB iB inverse h n
            (mset (mset w rB 0) iB 0))))

/-! ## Bit-reversal permutation -/

/-- Loop of `dbcF_bitreversal_swap` for `log2n ≤ 8`: for each `i < 2^log2n`,
swap `src[i*src_stride]` with `dst[rev(i)*dst_stride]`
(the reversal comes from the static table). -/
def dbcF_bitreversal_swap_loop (log2n : ℕ) (src ss dst ds : ℤ) : ℕ → Mem → Mem
  | 0, m => m
  | i + 1, m =>
    let m' := dbcF_bitreversal_swap_loop log2n src ss dst ds i m
    let j := dbcF_bitreverse_table (2 ^ log2n + i)
    let x := m' (src + i * ss)
    let y := m' (dst + j * ds)
    mset (mset m' (src + i * ss) y) (dst + (j : ℤ) * ds) x

/-- `dbcF_bitreversal_swap(log2n, src, src_stride, dst, dst_stride)`. -/
def dbcF_bitreversal_swap (log2n : ℕ) (src ss dst ds : ℤ) (m : Mem) : Mem :=
  if log2n ≤ 8 then dbcF_bitreversal_swap_loop log2n src ss dst ds (2 ^ log2n) m
  else
    dbcF_bitreversal_swap (log2n - 1) (src + ss) (2 * ss) (dst + (2 ^ (log2n - 1) : ℕ) * ds) ds
      (dbcF_bitreversal_swap (log2n - 1) src (2 * ss) dst ds m)
termination_by log2n
decreasing_by all_goals omega

/-- Broadcast loop (`src_stride == 0` regime): `dst[i*dst_stride] = x`. -/
def dbcF_brp_broadcast (x : ℝ) (dst ds : ℤ) : ℕ → Mem → Mem
  | 0, m => m
  | i + 1, m => mset (dbcF_brp_broadcast x dst ds i m) (dst + i * ds) x

/-- In-place loop for `log2n ≤ 8`: swap `dst[i]` and `dst[rev(i)]` when `i < rev(i)`. -/
def dbcF_brp_inplace_small (log2n : ℕ) (dst ds : ℤ) : ℕ → Mem → Mem
  | 0, m => m
  | i + 1, m =>
    let m' := dbcF_brp_inplace_small log2n dst ds i m
    let j := dbcF_bitreverse_table (2 ^ log2n + i)
    if i < j then
      let x := m' (dst + i * ds)
      let y := m' (dst + (j : ℤ) * ds)
      mset (mset m' (dst + i * ds) y) (dst + (j : ℤ) * ds) x
    else m'

/-- Out-of-place scatter for `log2n ≤ 8`: `dst[rev(i)*dst_stride] = src[i*src_stride]`. -/
def dbcF_brp_scatter (log2n : ℕ) (src : Option ℤ) (ss dst ds : ℤ) : ℕ → Mem → Mem
  | 0, m => m
  | i + 1, m =>
    let m' := dbcF_brp_scatter log2n src ss dst ds i m
    let j := dbcF_bitreverse_table (2 ^ log2n + i)
    mset m' (dst + (j : ℤ) * ds) (memRead m' src (i * ss))

/-- Split pass of the large out-of-place regime:
`dst[i] = src[2i]`, `dst[i+h] = src[2i+1]` for `i < h`. -/
def dbcF_brp_split (src : Option ℤ) (ss dst ds : ℤ) (h : ℕ) : ℕ → Mem → Mem
  | 0, m => m
  | i + 1, m =>
    let m' := dbcF_brp_split src ss dst ds h i m
    let m'' := mset m' (dst + i * ds) (memRead m' src (2 * i * ss))
    mset m'' (dst + ((i : ℤ) + h) * ds) (memRead m'' src ((2 * i + 1) * ss))

/-- Carter–Gatlin tile load, inner (`c`) loop:
`tmp[(a<<Q)^c] = dst[((a<<(log2n-Q))^(b<<Q)^c)*dst_stride]`. -/
def dbcF_cg_load_c (log2n : ℕ) (dst ds : ℤ) (mem : Mem) (b a : ℕ) : ℕ → Mem → Mem
  | 0, tmp => tmp
  | c + 1, tmp =>
    let tmp' := dbcF_cg_load_c log2n dst ds mem b a c tmp
    mset tmp' ((a <<< DBCF_Q ^^^ c : ℕ) : ℤ)
      (mem (dst + ((a <<< (log2n - DBCF_Q) ^^^ b <<< DBCF_Q ^^^ c : ℕ) : ℤ) * ds))

/-- Carter–Gatlin tile load, outer (`a`) loop. -/
def dbcF_cg_load_a (log2n : ℕ) (dst ds : ℤ) (mem : Mem) (b : ℕ) : ℕ → Mem → Mem
  | 0, tmp => tmp
  | a + 1, tmp =>
    dbcF_cg_load_c log2n dst ds mem b a (2 ^ DBCF_Q)
      (dbcF_cg_load_a log2n dst ds mem b a tmp)

/-- Carter–Gatlin swap, inner (`a`) loop: at
`i = (rev(c)<<(log2n-Q))^(rev(b)<<Q)^rev(a)`, exchange `dst[i*dst_stride]` with
`tmp[(a<<Q)^c]`.  State is `(mem, tmp)`. -/
def dbcF_cg_swap_a (log2n : ℕ) (dst ds : ℤ) (ib ic c : ℕ) : ℕ → Mem × Mem → Mem × Mem
  | 0, st => st
  | a + 1, st =>
    let st' := dbcF_cg_swap_a log2n dst ds ib ic c a st
    let ia := dbcF_bitreverse a DBCF_Q
    let i := ic <<< (log2n - DBCF_Q) ^^^ ib <<< DBCF_Q ^^^ ia
    let t := st'.1 (dst + (i : ℤ) * ds)
    (mset st'.1 (dst + (i : ℤ) * ds) (st'.2 ((a <<< DBCF_Q ^^^ c : ℕ) : ℤ)),
     mset st'.2 ((a <<< DBCF_Q ^^^ c : ℕ) : ℤ) t)

/-- Carter–Gatlin swap, outer (`c`) loop (computes `ic = rev(c)`). -/
def dbcF_cg_swap_c (log2n : ℕ) (dst ds : ℤ) (ib : ℕ) : ℕ → Mem × Mem → Mem × Mem
  | 0, st => st
  | c + 1, st =>
    let st' := dbcF_cg_swap_c log2n dst ds ib c st
    let ic := dbcF_bitreverse c DBCF_Q
    dbcF_cg_swap_a log2n dst ds ib ic c (2 ^ DBCF_Q) st'

/-- Carter–Gatlin write-back, inner (`c`) loop:
`dst[((a<<(log2n-Q))^(b<<Q)^c)*dst_stride] = tmp[(a<<Q)^c]`. -/
def dbcF_cg_store_c (log2n : ℕ) (dst ds : ℤ) (tmp : Mem) (b a : ℕ) : ℕ → Mem → Mem
  | 0, mem => mem
  | c + 1, mem =>
    let mem' := dbcF_cg_store_c log2n dst ds tmp b a c mem
    mset mem' (dst + ((a <<< (log2n - DBCF_Q) ^^^ b <<< DBCF_Q ^^^ c : ℕ) : ℤ) * ds)
      (tmp ((a <<< DBCF_Q ^^^ c : ℕ) : ℤ))

/-- Carter–Gatlin write-back, outer (`a`) loop. -/
def dbcF_cg_store_a (log2n : ℕ) (dst ds : ℤ) (tmp : Mem) (b : ℕ) : ℕ → Mem → Mem
  | 0, mem => mem
  | a + 1, mem =>
    dbcF_cg_store_c log2n dst ds tmp b a (2 ^ DBCF_Q)
      (dbcF_cg_store_a log2n dst ds tmp b a mem)

/-- One iteration of the Carter–Gatlin middle (`b`) loop. -/
def dbcF_cg_body (log2n log2m : ℕ) (dst ds : ℤ) (b : ℕ) (st : Mem × Mem) : Mem × Mem :=
  let ib := dbcF_bitreverse b log2m
  if ib < b then st
  else
    let tmp1 := dbcF_cg_load_a log2n dst ds st.1 b (2 ^ DBCF_Q) st.2
    let st2 := dbcF_cg_swap_c log2n dst ds ib (2 ^ DBCF_Q) (st.1, tmp1)
    if b ≠ ib then (dbcF_cg_store_a log2n dst ds st2.2 b (2 ^ DBCF_Q) st2.1, st2.2)
    else st2

/-- The Carter–Gatlin middle (`b`) loop. -/
def dbcF_cg_loop (log2n log2m : ℕ) (dst ds : ℤ) : ℕ → Mem × Mem → Mem × Mem
  | 0, st => st
  | b + 1, st => dbcF_cg_body log2n log2m dst ds b (dbcF_cg_loop log2n log2m dst ds b st)

/-- `dbcF_bitreversal_permutation(log2n, src, src_stride, dst, dst_stride, tmp)`.
State is `(mem, tmp)`; the scratch `tmp` is its own address space based at 0.
The in-place branch is selected by pointer equality `src == dst`. -/
def dbcF_bitreversal_permutation (log2n : ℕ) (src : Option ℤ) (ss : ℤ) (dst ds : ℤ)
    (st : Mem × Mem) : Mem × Mem :=
    if ss = 0 then
      (dbcF_brp_broadcast (memRead st.1 src 0) dst ds (2 ^ log2n) st.1, st.2)
    else if src = some dst then
      if log2n ≤ 8 then (dbcF_brp_inplace_small log2n dst ds (2 ^ log2n) st.1, st.2)
      else if log2n ≤ 2 * DBCF_Q + 2 ∨ log2n ≤ 16 then
        let h : ℕ := 2 ^ log2n / 2
        let m1 := dbcF_bitreversal_swap (log2n - 2) (dst + ds) (2 * ds) (dst + (h : ℤ) * ds)
          (2 * ds) st.1
        let st2 := dbcF_bitreversal_permutation (log2n - 2) (some dst) (2 * ds) dst (2 * ds)
          (m1, st.2)
        dbcF_bitreversal_permutation (log2n - 2) (some (dst + ((h : ℤ) + 1) * ds)) (2 * ds)
          (dst + ((h : ℤ) + 1) * ds) (2 * ds) st2
      else
        let log2m := log2n - 2 * DBCF_Q
        dbcF_cg_loop log2n log2m dst ds (2 ^ log2m) st
    else
      if log2n ≤ 8 then (dbcF_brp_scatter log2n src ss dst ds (2 ^ log2n) st.1, st.2)
      else if log2n ≤ 16 then
        let h : ℕ := 2 ^ log2n / 2
        let st1 := dbcF_bitreversal_permutation (log2n - 1) src (2 * ss) dst ds st
        dbcF_bitreversal_permutation (log2n - 1) (src.map (· + ss)) (2 * ss)
          (dst + (h : ℤ) * ds) ds st1
      else
        let h : ℕ := 2 ^ log2n / 2
        let m1 := dbcF_brp_split src ss dst ds h h st.1
        let st2 := dbcF_bitreversal_permutation (log2n - 1) (some dst) ds dst ds (m1, st.2)
        dbcF_bitreversal_permutation (log2n - 1) (some (dst + (h : ℤ) * ds)) ds
          (dst + (h : ℤ) * ds) ds st2
termination_by log2n
decreasing_by all_goals omega

/-! ## Hand-coded FFT-8 leaf -/

/-- `dbcF_fft8(real, imag, real_stride, imag_stride, inverse, c)`. -/
def dbcF_fft8 (real imag real_stride imag_stride : ℤ) (inverse : Bool) (c : ℝ)
    (mem : Mem) : Mem :=
  let r0 := mem (real + 0 * real_stride); let i0 := mem (imag + 0 * imag_stride)
  let r1 := mem (real + 1 * real_stride); let i1 := mem (imag + 1 * imag_stride)
  let r2 := mem (real + 2 * real_stride); let i2 := mem (imag + 2 * imag_stride)
  let r3 := mem (real + 3 * real_stride); let i3 := mem (imag + 3 * imag_stride)
  let r4 := mem (real + 4 * real_stride); let i4 := mem (imag + 4 * imag_stride)
  let r5 := mem (real + 5 * real_stride); let i5 := mem (imag + 5 * imag_stride)
  let r6 := mem (real + 6 * real_stride); let i6 := mem (imag + 6 * imag_stride)
  let r7 := mem (real + 7 * real_stride); let i7 := mem (imag + 7 * imag_stride)
  let R0 := r0 + r1; let R1 := r0 - r1; let I0 := i0 + i1; let I1 := i0 - i1
  let R2 := r2 + r3; let R3 := r2 - r3; let I2 := i2 + i3; let I3 := i2 - i3
  let R4 := r4 + r5; let R5 := r4 - r5; let I4 := i4 + i5; let I5 := i4 - i5
  let R6 := r6 + r7; let R7 := r6 - r7; let I6 := i6 + i7; let I7 := i6 - i7
  if inverse = false then
    let s0 := R0 + R2; let t0 := I0 + I2
    let s1 := R1 + I3; let t1 := I1 - R3
    let s2 := R0 - R2; let t2 := I0 - I2
    let s3 := R1 - I3; let t3 := I1 + R3
    let s4 := R4 + R6; let t4 := I4 + I6
    let s5 := R5 + I7; let t5 := I5 - R7
    let s6 := R4 - R6; let t6 := I4 - I6
    let s7 := R5 - I7; let t7 := I5 + R7
    let p5 := c * (s5 + t5); let m5 := c * (s5 - t5)
    let p7 := c * (s7 + t7); let m7 := c * (s7 - t7)
    mset (mset (mset (mset (mset (mset (mset (mset (mset (mset (mset (mset (mset (mset
      (mset (mset mem
        (real + 0 * real_stride) (s0 + s4)) (imag + 0 * imag_stride) (t0 + t4))
        (real + 1 * real_stride) (s1 + p5)) (imag + 1 * imag_stride) (t1 - m5))
        (real + 2 * real_stride) (s2 + t6)) (imag + 2 * imag_stride) (t2 - s6))
        (real + 3 * real_stride) (s3 - m7)) (imag + 3 * imag_stride) (t3 - p7))
        (real + 4 * real_stride) (s0 - s4)) (imag + 4 * imag_stride) (t0 - t4))
        (real + 5 * real_stride) (s1 - p5)) (imag + 5 * imag_stride) (t1 + m5))
        (real + 6 * real_stride) (s2 - t6)) (imag + 6 * imag_stride) (t2 + s6))
        (real + 7 * real_stride) (s3 + m7)) (imag + 7 * imag_stride) (t3 + p7)
  else
    let s0 := R0 + R2; let t0 := I0 + I2
    let s1 := R1 - I3; let t1 := I1 + R3
    let s2 := R0 - R2; let t2 := I0 - I2
    let s3 := R1 + I3; let t3 := I1 - R3
    let s4 := R4 + R6; let t4 := I4 + I6
    let s5 := R5 - I7; let t5 := I5 + R7
    let s6 := R4 - R6; let t6 := I4 - I6
    let s7 := R5 + I7; let t7 := I5 - R7
    let p5 := c * (s5 + t5); let m5 := c * (s5 - t5)
    let p7 := c * (s7 + t7); let m7 := c * (s7 - t7)
    mset (mset (mset (mset (mset (mset (mset (mset (mset (mset (mset (mset (mset (mset
      (mset (mset mem
        (real + 0 * real_stride) (s0 + s4)) (imag + 0 * imag_stride) (t0 + t4))
        (real + 1 * real_stride) (s1 + m5)) (imag + 1 * imag_stride) (t1 + p5))
        (real + 2 * real_stride) (s2 - t6)) (imag + 2 * imag_stride) (t2 + s6))
        (real + 3 * real_stride) (s3 - p7)) (imag + 3 * imag_stride) (t3 + m7))
        (real + 4 * real_stride) (s0 - s4)) (imag + 4 * imag_stride) (t0 - t4))
        (real + 5 * real_stride) (s1 - m5)) (imag + 5 * imag_stride) (t1 - p5))
        (real + 6 * real_stride) (s2 + t6)) (imag + 6 * imag_stride) (t2 - s6))
        (real + 7 * real_stride) (s3 + p7)) (imag + 7 * imag_stride) (t3 - m7)

/-! ## Butterfly block / pass / multipass -/

/-- Inner loop of `dbcF_butterfly_block` (enough precomputed twiddles):
twiddle `(c,s) = (C,S)·(tr[i],ti[i])`, then
`(L,H) ← (L + (c,s)·H, L − (c,s)·H)`.  The loop counters `j`,`k` of the source
advance by one stride per iteration, i.e. `j = i*real_stride`, `k = i*imag_stride`. -/
def dbcF_butterfly_block_loop (LR LI HR HI real_stride imag_stride : ℤ) (C S : ℝ)
    (trB tiB : ℤ) (tw : Mem) : ℕ → Mem → Mem
  | 0, mem => mem
  | i + 1, mem =>
    let mem' := dbcF_butterfly_block_loop LR LI HR HI real_stride imag_stride C S trB tiB tw i mem
    let c := C * tw (trB + i) - S * tw (tiB + i)
    let s := S * tw (trB + i) + C * tw (tiB + i)
    let j : ℤ := i * real_stride
    let k : ℤ := i * imag_stride
    let xl := mem' (LR + j); let yl := mem' (LI + k)
    let xr := mem' (HR + j); let yr := mem' (HI + k)
    let x := c * xr - s * yr
    let y := s * xr + c * yr
    mset (mset (mset (mset mem' (LR + j) (xl + x)) (LI + k) (yl + y)) (HR + j) (xl - x))
      (HI + k) (yl - y)

/-- `dbcF_butterfly_block(log2n, log2b, LR, LI, HR, HI, strides, C, S, inverse, tr, ti)`. -/
def dbcF_butterfly_block (log2n log2b : ℕ) (LR LI HR HI real_stride imag_stride : ℤ)
    (C S : ℝ) (inverse : Bool) (trB tiB : ℤ) (tw : Mem) (mem : Mem) : Mem :=
  if log2b ≤ DBCF_TWIDDLES_BUF_LOG2 then
    dbcF_butterfly_block_loop LR LI HR HI real_stride imag_stride C S trB tiB tw (2 ^ log2b) mem
  else
    let h : ℕ := 2 ^ log2b / 2
    let XY := dbcF_cexp (log2n - log2b + 1)
    let X := XY.1
    let Y := if inverse then XY.2 else -XY.2
    dbcF_butterfly_block log2n (log2b - 1) (LR + (h : ℤ) * real_stride)
      (LI + (h : ℤ) * imag_stride) (HR + (h : ℤ) * real_stride) (HI + (h : ℤ) * imag_stride)
      real_stride imag_stride (C * X - S * Y) (S * X + C * Y) inverse trB tiB tw
      (dbcF_butterfly_block log2n (log2b - 1) LR LI HR HI real_stride imag_stride C S inverse
        trB tiB tw mem)
termination_by log2b
decreasing_by all_goals omega

/-- One butterfly application at offset `d` with twiddle `(tr[d], ti[d])`
(body of the unrolled hot loop of `dbcF_butterfly_pass`). -/
def dbcF_pass_body (LR LI HR HI real_stride imag_stride trB tiB : ℤ) (tw : Mem) (d : ℕ)
    (mem : Mem) : Mem :=
  let C := tw (trB + d); let S := tw (tiB + d)
  let j : ℤ := d * real_stride
  let k : ℤ := d * imag_stride
  let xl := mem (LR + j); let yl := mem (LI + k)
  let xr := mem (HR + j); let yr := mem (HI + k)
  let x := C * xr - S * yr
  let y := S * xr + C * yr
  mset (mset (mset (mset mem (LR + j) (xl + x)) (LI + k) (yl + y)) (HR + j) (xl - x))
    (HI + k) (yl - y)

/-- The twice-unrolled inner loop of `dbcF_butterfly_pass`: `cnt2` steps of two
butterflies each (`d = 2*step` and `d = 2*step+1`). -/
def dbcF_pass_loop2 (LR LI HR HI real_stride imag_stride trB tiB : ℤ) (tw : Mem) :
    ℕ → Mem → Mem
  | 0, mem => mem
  | step + 1, mem =>
    let mem' := dbcF_pass_loop2 LR LI HR HI real_stride imag_stride trB tiB tw step mem
    dbcF_pass_body LR LI HR HI real_stride imag_stride trB tiB tw (2 * step + 1)
      (dbcF_pass_body LR LI HR HI real_stride imag_stride trB tiB tw (2 * step) mem')

/-- Block loop of `dbcF_butterfly_pass` in the `h > 1` regime (pointers advance
by `n*stride` per block). -/
def dbcF_pass_blocks (n : ℕ) (real imag real_stride imag_stride trB tiB : ℤ) (tw : Mem)
    (h2 : ℕ) : ℕ → Mem → Mem
  | 0, mem => mem
  | i + 1, mem =>
    let mem' := dbcF_pass_blocks n real imag real_stride imag_stride trB tiB tw h2 i mem
    dbcF_pass_loop2 (real + (i : ℤ) * n * real_stride) (imag + (i : ℤ) * n * imag_stride)
      (real + ((i : ℤ) * n + (n / 2 : ℕ)) * real_stride)
      (imag + ((i : ℤ) * n + (n / 2 : ℕ)) * imag_stride)
      real_stride imag_stride trB tiB tw h2 mem'

/-- Block loop of `dbcF_butterfly_pass` in the `h = 1` regime (twiddle-free). -/
def dbcF_pass_blocks_h1 (n : ℕ) (real imag real_stride imag_stride : ℤ) : ℕ → Mem → Mem
  | 0, mem => mem
  | i + 1, mem =>
    let mem' := dbcF_pass_blocks_h1 n real imag real_stride imag_stride i mem
    let LR := real + (i : ℤ) * n * real_stride; let LI := imag + (i : ℤ) * n * imag_stride
    let HR := LR + (n / 2 : ℕ) * real_stride; let HI := LI + (n / 2 : ℕ) * imag_stride
    let xl := mem' LR; let yl := mem' LI
    let xr := mem' HR; let yr := mem' HI
    mset (mset (mset (mset mem' LR (xl + xr)) LI (yl + yr)) HR (xl - xr)) HI (yl - yr)

/-- Block loop of `dbcF_butterfly_pass` in the recursive (`butterfly_block`) regime. -/
def dbcF_pass_blockrec (log2n : ℕ) (real imag real_stride imag_stride : ℤ) (inverse : Bool)
    (trB tiB : ℤ) (tw : Mem) : ℕ → Mem → Mem
  | 0, mem => mem
  | i + 1, mem =>
    let mem' := dbcF_pass_blockrec log2n real imag real_stride imag_stride inverse trB tiB tw i mem
    let n : ℕ := 2 ^ log2n
    let LR := real + (i : ℤ) * n * real_stride; let LI := imag + (i : ℤ) * n * imag_stride
    let HR := LR + (n / 2 : ℕ) * real_stride; let HI := LI + (n / 2 : ℕ) * imag_stride
    dbcF_butterfly_block log2n (log2n - 1) LR LI HR HI real_stride imag_stride 1 0 inverse
      trB tiB tw mem'

/-- `dbcF_butterfly_pass(log2n, log2c, real, imag, strides, inverse, log2t, tr, ti)`. -/
def dbcF_butterfly_pass (log2n log2c : ℕ) (real imag real_stride imag_stride : ℤ)
    (inverse : Bool) (log2t : ℕ) (trB tiB : ℤ) (tw : Mem) (mem : Mem) : Mem :=
  if log2n = 0 then mem
  else if log2n - 1 ≤ log2t then
    if 1 < 2 ^ log2n / 2 then
      dbcF_pass_blocks (2 ^ log2n) real imag real_stride imag_stride trB tiB tw
        (2 ^ log2n / 2 / 2) (2 ^ log2c) mem
    else dbcF_pass_blocks_h1 (2 ^ log2n) real imag real_stride imag_stride (2 ^ log2c) mem
  else dbcF_pass_blockrec log2n real imag real_stride imag_stride inverse trB tiB tw
    (2 ^ log2c) mem

/-- FFT-8 sweep of `dbcF_butterfly_multipass` (the `depth == log2n ≥ 3` case):
`m` leaves at `real+8j*real_stride`, `imag+8j*imag_stride`. -/
def dbcF_fft8_sweep (real imag real_stride imag_stride : ℤ) (inverse : Bool) (c : ℝ) :
    ℕ → Mem → Mem
  | 0, mem => mem
  | j + 1, mem =>
    dbcF_fft8 (real + 8 * (j : ℤ) * real_stride) (imag + 8 * (j : ℤ) * imag_stride)
      real_stride imag_stride inverse c
      (dbcF_fft8_sweep real imag real_stride imag_stride inverse c j mem)

/-- `dbcF_butterfly_multipass(log2n, log2c, depth, real, imag, strides, inverse, tr, ti)`.
State is `(mem, tw)` where `tw` is the scratch holding the twiddle buffers. -/
def dbcF_butterfly_multipass (log2n log2c : ℕ) (real imag real_stride imag_stride : ℤ)
    (inverse : Bool) (trB tiB : ℤ) (depth : ℕ) (st : Mem × Mem) : Mem × Mem :=
  if depth = 0 then st
  else if depth = log2n ∧ 3 ≤ depth then
    let XY := dbcF_cexp 3
    let tw' := mset (mset st.2 trB XY.1) tiB XY.2
    let mem' := dbcF_fft8_sweep real imag real_stride imag_stride inverse (tw' trB)
      (2 ^ (log2n + log2c - 3)) st.1
    dbcF_butterfly_multipass log2n log2c real imag real_stride imag_stride inverse trB tiB
      (depth - 3) (mem', tw')
  else
    let log2d := log2n - depth + 1
    let log2t := min (log2d - 1) DBCF_TWIDDLES_BUF_LOG2
    let tw' := dbcF_compute_twiddles log2d log2t trB tiB inverse st.2
    let mem' := dbcF_butterfly_pass log2d (log2c + log2n - log2d) real imag real_stride
      imag_stride inverse log2t trB tiB tw' st.1
    dbcF_butterfly_multipass log2n log2c real imag real_stride imag_stride inverse trB tiB
      (depth - 1) (mem', tw')
termination_by depth
decreasing_by all_goals omega

/-- `dbcF_butterfly(log2n, real, imag, strides, inverse, tmp)`: the driver.
In the scratch, `tr` is at offset 0 and `ti` at `DBCF_TWIDDLES_BUF_SIZE`. -/
def dbcF_butterfly (log2n : ℕ) (real imag real_stride imag_stride : ℤ) (inverse : Bool)
    (st : Mem × Mem) : Mem × Mem :=
  if 12 < log2n then
    let st1 := dbcF_butterfly (log2n - 1) real imag real_stride imag_stride inverse st
    let st2 := dbcF_butterfly (log2n - 1) (real + (2 ^ (log2n - 1) : ℕ) * real_stride)
      (imag + (2 ^ (log2n - 1) : ℕ) * imag_stride) real_stride imag_stride inverse st1
    dbcF_butterfly_multipass log2n 0 real imag real_stride imag_stride inverse 0
      (DBCF_TWIDDLES_BUF_SIZE : ℕ) 1 st2
  else
    dbcF_butterfly_multipass log2n 0 real imag real_stride imag_stride inverse 0
      (DBCF_TWIDDLES_BUF_SIZE : ℕ) log2n st
termination_by log2n
decreasing_by all_goals omega

/-! ## Power-of-two driver -/

/-- Final scaling loop of `dbcF_fft_pot`.  Note: the source indexes
`dst_real[i]` / `dst_imag[i]` — without the destination strides. -/
def dbcF_fft_pot_scale_loop (dst_real dst_imag : ℤ) (scale : ℝ) : ℕ → Mem → Mem
  | 0, mem => mem
  | i + 1, mem =>
    let mem' := dbcF_fft_pot_scale_loop dst_real dst_imag scale i mem
    let mem'' := mset mem' (dst_real + i) (mem' (dst_real + i) * scale)
    mset mem'' (dst_imag + i) (mem'' (dst_imag + i) * scale)

/-- `dbcF_fft_pot`: bit-reversal on both channels, butterfly, optional scaling.
Null sources become the zero dummy with stride 0.  The stack scratch `tmp`
(uninitialized in C; modelled as zeros) is threaded through permutation and
butterfly.  Always returns 0. -/
def dbcF_fft_pot (num_elements : ℕ) (src_real src_imag : Option ℤ)
    (src_real_stride src_imag_stride : ℤ) (dst_real dst_imag : ℤ)
    (dst_real_stride dst_imag_stride : ℤ) (inverse : Bool) (scale : ℝ) (mem : Mem) :
    ℤ × Mem :=
  let log2n := Nat.log2 num_elements
  let tmp0 : Mem := fun _ => 0
  let srs := if src_real = none then 0 else src_real_stride
  let sis := if src_imag = none then 0 else src_imag_stride
  let st1 := dbcF_bitreversal_permutation log2n src_real srs dst_real dst_real_stride
    (mem, tmp0)
  let st2 := dbcF_bitreversal_permutation log2n src_imag sis dst_imag dst_imag_stride st1
  let st3 := dbcF_butterfly log2n dst_real dst_imag dst_real_stride dst_imag_stride inverse st2
  let m4 := if scale = 1 then st3.1
    else dbcF_fft_pot_scale_loop dst_real dst_imag scale num_elements st3.1
  (0, m4)

/-! ## Bluestein (non-power-of-two) driver -/

/-- `log2m` of `dbcF_fft_npot`: the smallest `k` with `2^k ≥ 2n − 1`
(the source's `while(POW2(log2m) < 2*n-1) ++log2m`). -/
def dbcF_npot_log2m (n : ℕ) : ℕ := Nat.clog 2 (2 * n - 1)

/-- Chirp fill loop of `dbcF_fft_npot` (state: scratch and the running index
`j = i² mod 2n`; the source maintains `j` by `j += 2i+1; if (j ≥ 2n) j -= 2n`,
which equals reduction mod `2n` since `j < 2n` and `2i+1 < 2n`):
`a[i] = x·(c,s)`, `b[i] = (c,-s)`, and for `i > 0` also `b[m-i] = (c,-s)`. -/
def dbcF_npot_fill (mem : Mem) (srcR srcI : ℤ) (srs sis : ℤ)
    (arB aiB brB biB trB tiB : ℤ) (n mpow : ℕ) : ℕ → Mem × ℕ → Mem × ℕ
  | 0, wj => wj
  | i + 1, wj =>
    let wj' := dbcF_npot_fill mem srcR srcI srs sis arB aiB brB biB trB tiB n mpow i wj
    let w := wj'.1
    let j := wj'.2
    let c := w (trB + j); let s := w (tiB + j)
    let x := mem (srcR + i * srs); let y := mem (srcI + i * sis)
    let w1 := mset w (arB + i) (x * c - y * s)
    let w2 := mset w1 (aiB + i) (x * s + y * c)
    let w3 := mset w2 (brB + i) c
    let w4 := mset w3 (biB + i) (-s)
    let w5 := if 0 < i then
        mset (mset w4 (brB + (mpow - i : ℕ)) c) (biB + (mpow - i : ℕ)) (-s)
      else w4
    (w5, (j + (2 * i + 1)) % (2 * n))

/-- Zero-padding loop for `a`: `ar[i] = ai[i] = 0` for `i ∈ [n, m)`. -/
def dbcF_npot_zero_a (arB aiB : ℤ) (n : ℕ) : ℕ → Mem → Mem
  | 0, w => w
  | c + 1, w =>
    let w' := dbcF_npot_zero_a arB aiB n c w
    mset (mset w' (arB + (n + c : ℕ)) 0) (aiB + (n + c : ℕ)) 0

/-- Zero-padding loop for `b`: `br[i] = bi[i] = 0` for `i ∈ [n, m-n]`. -/
def dbcF_npot_zero_b (brB biB : ℤ) (n : ℕ) : ℕ → Mem → Mem
  | 0, w => w
  | c + 1, w =>
    let w' := dbcF_npot_zero_b brB biB n c w
    mset (mset w' (brB + (n + c : ℕ)) 0) (biB + (n + c : ℕ)) 0

/-- Point-wise product loop: `a[i] ← b[i]·a[i]` (complex product). -/
def dbcF_npot_mul (arB aiB brB biB : ℤ) : ℕ → Mem → Mem
  | 0, w => w
  | i + 1, w =>
    let w' := dbcF_npot_mul arB aiB brB biB i w
    let c := w' (brB + i); let s := w' (biB + i)
    let x := w' (arB + i); let y := w' (aiB + i)
    mset (mset w' (arB + i) (c * x - s * y)) (aiB + i) (c * y + s * x)

/-- Post-chirp output loop (state: user memory and the running index `j`):
`dst[i] = (c,s)·a[i]`. -/
def dbcF_npot_post (w : Mem) (dstR dstI drs dis : ℤ) (trB tiB arB aiB : ℤ) (n : ℕ) :
    ℕ → Mem × ℕ → Mem × ℕ
  | 0, mj => mj
  | i + 1, mj =>
    let mj' := dbcF_npot_post w dstR dstI drs dis trB tiB arB aiB n i mj
    let mem := mj'.1
    let j := mj'.2
    let c := w (trB + j); let s := w (tiB + j)
    let x := w (arB + i); let y := w (aiB + i)
    let mem1 := mset mem (dstR + i * drs) (c * x - s * y)
    let mem2 := mset mem1 (dstI + i * dis) (c * y + s * x)
    (mem2, (j + (2 * i + 1)) % (2 * n))

/-- `dbcF_fft_npot`: Bluestein's algorithm.  The heap scratch is its own
address space based at 0 with the source's layout
(`ar = 0`, `ai = m`, `br = 2m`, `bi = 3m`, `tr = 4m`, `ti = 4m + 2n`; in the
scalar configuration `alignment = 0`).  `allocOk = false` models
`dbcf_malloc` returning null.  Dereferencing a null source (which the source
does unconditionally in the chirp loop, unlike `dbcF_fft_pot`) yields `none`. -/
def dbcF_fft_npot (n : ℕ) (src_real src_imag : Option ℤ)
    (src_real_stride src_imag_stride : ℤ) (dst_real dst_imag : ℤ)
    (dst_real_stride dst_imag_stride : ℤ) (inverse : Bool) (scale : ℝ) (allocOk : Bool)
    (mem : Mem) : Option (ℤ × Mem) :=
  let log2m := dbcF_npot_log2m n
  let mpow : ℕ := 2 ^ log2m
  let M : ℝ := (mpow : ℝ)
  if allocOk = false then some (-2, mem)
  else
    match src_real, src_imag with
    | some srcR, some srcI =>
      let arB : ℤ := 0; let aiB : ℤ := mpow; let brB : ℤ := 2 * mpow; let biB : ℤ := 3 * mpow
      let trB : ℤ := 4 * mpow; let tiB : ℤ := 4 * mpow + 2 * n
      let w0 : Mem := fun _ => 0
      let w1 := dbcF_compute_twiddles_npot (2 * n) trB tiB inverse w0
      let w2 := (dbcF_npot_fill mem srcR srcI src_real_stride src_imag_stride arB aiB brB biB
        trB tiB n mpow n (w1, 0)).1
      let w3 := dbcF_npot_zero_a arB aiB n (mpow - n) w2
      let w4 := dbcF_npot_zero_b brB biB n (mpow - n - n + 1) w3
      let w5 := (dbcF_fft_pot mpow (some arB) (some aiB) 1 1 arB aiB 1 1 false (1 / M) w4).2
      let w6 := (dbcF_fft_pot mpow (some brB) (some biB) 1 1 brB biB 1 1 false 1 w5).2
      let w7 := dbcF_npot_mul arB aiB brB biB mpow w6
      let w8 := (dbcF_fft_pot mpow (some arB) (some aiB) 1 1 arB aiB 1 1 true scale w7).2
      let memOut := (dbcF_npot_post w8 dst_real dst_imag dst_real_stride dst_imag_stride
        trB tiB arB aiB n n (mem, 0)).1
      some (0, memOut)
    | _, _ => none

/-! ## Entry surface -/

/-- `dbcF_fft`: validation and dispatch.  `num_elements` is a signed index;
`dbcF_init` is a no-op in the scalar configuration.  `n & (n-1) ≠ 0` (on the
non-negative `n ≥ 1`) detects non-powers of two. -/
def dbcF_fft (num_elements : ℤ) (src_real src_imag : Option ℤ)
    (src_real_stride src_imag_stride : ℤ) (dst_real dst_imag : ℤ)
    (dst_real_stride dst_imag_stride : ℤ) (inverse : Bool) (scale : ℝ) (allocOk : Bool)
    (mem : Mem) : Option (ℤ × Mem) :=
  if num_elements < 1 then some (0, mem)
  else if src_real = some dst_real ∧ src_real_stride ≠ dst_real_stride then some (-1, mem)
  else if src_imag = some dst_imag ∧ src_imag_stride ≠ dst_imag_stride then some (-1, mem)
  else if src_imag = some dst_real then some (-1, mem)
  else if src_real = some dst_imag then some (-1, mem)
  else
    let n := num_elements.toNat
    if n &&& (n - 1) ≠ 0 then
      dbcF_fft_npot n src_real src_imag src_real_stride src_imag_stride dst_real dst_imag
        dst_real_stride dst_imag_stride inverse scale allocOk mem
    else
      some (dbcF_fft_pot n src_real src_imag src_real_stride src_imag_stride dst_real dst_imag
        dst_real_stride dst_imag_stride inverse scale mem)

/-- `dbc_fft_*c` (contiguous planar, forward). -/
def dbc_fft_c (num_elements : ℤ) (src_real src_imag : Option ℤ) (dst_real dst_imag : ℤ)
    (scale : ℝ) (allocOk : Bool) (mem : Mem) : Option (ℤ × Mem) :=
  dbcF_fft num_elements src_real src_imag 1 1 dst_real dst_imag 1 1 false scale allocOk mem

/-- `dbc_ifft_*c` (contiguous planar, inverse). -/
def dbc_ifft_c (num_elements : ℤ) (src_real src_imag : Option ℤ) (dst_real dst_imag : ℤ)
    (scale : ℝ) (allocOk : Bool) (mem : Mem) : Option (ℤ × Mem) :=
  dbcF_fft num_elements src_real src_imag 1 1 dst_real dst_imag 1 1 true scale allocOk mem

/-- `dbc_fft_*i` (interleaved, forward): source passes
`src, src?src+1:src, src?2:0, src?2:0, dst, dst+1, src?2:0, src?2:0`. -/
def dbc_fft_i (num_elements : ℤ) (src : Option ℤ) (dst : ℤ) (scale : ℝ) (allocOk : Bool)
    (mem : Mem) : Option (ℤ × Mem) :=
  dbcF_fft num_elements src (src.map (· + 1)) (if src.isSome then 2 else 0)
    (if src.isSome then 2 else 0) dst (dst + 1) (if src.isSome then 2 else 0)
    (if src.isSome then 2 else 0) false scale allocOk mem

/-- `dbc_ifft_*i` (interleaved, inverse). -/
def dbc_ifft_i (num_elements : ℤ) (src : Option ℤ) (dst : ℤ) (scale : ℝ) (allocOk : Bool)
    (mem : Mem) : Option (ℤ × Mem) :=
  dbcF_fft num_elements src (src.map (· + 1)) (if src.isSome then 2 else 0)
    (if src.isSome then 2 else 0) dst (dst + 1) (if src.isSome then 2 else 0)
    (if src.isSome then 2 else 0) true scale allocOk mem

/-- `dbc_fft_*s` (strided planar, forward). -/
def dbc_fft_s (num_elements : ℤ) (src_real src_imag : Option ℤ)
    (src_real_stride src_imag_stride : ℤ) (dst_real dst_imag : ℤ)
    (dst_real_stride dst_imag_stride : ℤ) (scale : ℝ) (allocOk : Bool) (mem : Mem) :
    Option (ℤ × Mem) :=
  dbcF_fft num_elements src_real src_imag src_real_stride src_imag_stride dst_real dst_imag
    dst_real_stride dst_imag_stride false scale allocOk mem

/-- `dbc_ifft_*s` (strided planar, inverse). -/
def dbc_ifft_s (num_elements : ℤ) (src_real src_imag : Option ℤ)
    (src_real_stride src_imag_stride : ℤ) (dst_real dst_imag : ℤ)
    (dst_real_stride dst_imag_stride : ℤ) (scale : ℝ) (allocOk : Bool) (mem : Mem) :
    Option (ℤ × Mem) :=
  dbcF_fft num_elements src_real src_imag src_real_stride src_imag_stride dst_real dst_imag
    dst_real_stride dst_imag_stride true scale allocOk mem

/-! ## Specification-side definitions (the DFT) -/

open Complex in
/-- The transform direction sign: `−1` forward, `+1` inverse. -/
def dftSgn (inverse : Bool) : ℝ := if inverse then 1 else -1

open Complex in
/-- The DFT/IDFT of the spec:
`Y[j] = Σ_{k<N} X[k] · exp(sgn·2πi·j·k/N)` (scaling applied separately). -/
def dftSpec (inverse : Bool) (N : ℕ) (x : ℕ → ℂ) (j : ℕ) : ℂ :=
  ∑ k ∈ Finset.range N,
    x k * Complex.exp (Complex.I * ((dftSgn inverse * (2 * Real.pi) * j * k / N : ℝ) : ℂ))

open Complex in
/-- The primitive twiddle `exp(sgn·2πi/n)`. -/
def Wc (inverse : Bool) (n : ℕ) : ℂ :=
  Complex.exp (Complex.I * ((dftSgn inverse * (2 * Real.pi) / n : ℝ) : ℂ))

/-- The complex sequence held by a strided pair of real/imag arrays. -/
def cview (mem : Mem) (rB rs iB istr : ℤ) (j : ℕ) : ℂ :=
  ⟨mem (rB + j * rs), mem (iB + j * istr)⟩

/-- Stage invariant of the radix-2 butterfly: after the passes for sub-block
size `2^s`, every aligned block of length `2^s` of the array holds the
`2^s`-point DFT of its own (bit-reversed) initial contents `v`. -/
def stageInv (inverse : Bool) (v arr : ℕ → ℂ) (s cnt : ℕ) : Prop :=
  ∀ g r : ℕ, g < cnt → r < 2 ^ s →
    arr (g * 2 ^ s + r)
      = ∑ t ∈ Finset.range (2 ^ s),
          v (g * 2 ^ s + bitrev s t) * Wc inverse (2 ^ s) ^ (r * t)

end

/-! # Theorems -/

/-! ## Bit-reversal arithmetic -/

theorem bitrev_lt (b : ℕ) : ∀ i, bitrev b i < 2 ^ b := by
  induction b with
  | zero => intro i; simp [bitrev]
  | succ b ih =>
    intro i
    have h1 : i % 2 ≤ 1 := by omega
    have h2 := ih (i / 2)
    calc bitrev (b + 1) i = i % 2 * 2 ^ b + bitrev b (i / 2) := rfl
      _ < 2 ^ (b + 1) := by
        have : i % 2 * 2 ^ b ≤ 2 ^ b := by
          calc i % 2 * 2 ^ b ≤ 1 * 2 ^ b := Nat.mul_le_mul_right _ h1
            _ = 2 ^ b := by ring
        have hpow : 2 ^ (b + 1) = 2 ^ b + 2 ^ b := by ring
        omega

theorem bitrev_zero_right (b : ℕ) : bitrev b 0 = 0 := by
  induction b with
  | zero => rfl
  | succ b ih => simp [bitrev, ih]

theorem bitrev_one_arg (x : ℕ) : bitrev 1 x = x % 2 := by
  simp [bitrev]

/-- Splitting a reversal: the low `a` bits go to the top, the high `b` bits
to the bottom. -/
theorem bitrev_split (a b : ℕ) : ∀ i, bitrev (a + b) i =
    bitrev a (i % 2 ^ a) * 2 ^ b + bitrev b (i / 2 ^ a) := by
  induction a with
  | zero => intro i; simp [bitrev]
  | succ a ih =>
    intro i
    have e1 : a + 1 + b = (a + b) + 1 := by omega
    rw [e1]
    show i % 2 * 2 ^ (a + b) + bitrev (a + b) (i / 2) = _
    rw [ih (i / 2)]
    have e2 : bitrev (a + 1) (i % 2 ^ (a + 1)) =
        i % 2 * 2 ^ a + bitrev a (i / 2 % 2 ^ a) := by
      show i % 2 ^ (a + 1) % 2 * 2 ^ a + bitrev a (i % 2 ^ (a + 1) / 2) = _
      have m1 : i % 2 ^ (a + 1) % 2 = i % 2 :=
        Nat.mod_mod_of_dvd i ⟨2 ^ a, by ring⟩
      have m2 : i % 2 ^ (a + 1) / 2 = i / 2 % 2 ^ a := by
        have : 2 ^ (a + 1) = 2 * 2 ^ a := by ring
        rw [this, Nat.mod_mul_right_div_self]
      rw [m1, m2]
    have e3 : i / 2 ^ (a + 1) = i / 2 / 2 ^ a := by
      rw [Nat.div_div_eq_div_mul]
      congr 1
      ring
    rw [e2, e3]
    ring

theorem bitrev_double {b i : ℕ} (h : i < 2 ^ b) : bitrev (b + 1) i = 2 * bitrev b i := by
  rw [bitrev_split b 1 i, Nat.mod_eq_of_lt h, Nat.div_eq_of_lt h, bitrev_zero_right]
  ring

theorem bitrev_double_add {b i : ℕ} (h : i < 2 ^ b) :
    bitrev (b + 1) (2 ^ b + i) = 2 * bitrev b i + 1 := by
  rw [bitrev_split b 1 (2 ^ b + i), Nat.add_mod_left, Nat.mod_eq_of_lt h]
  have : (2 ^ b + i) / 2 ^ b = 1 := by
    rw [Nat.add_div_left _ (Nat.two_pow_pos b), Nat.div_eq_of_lt h]
  rw [this, bitrev_one_arg]
  ring

theorem bitrev_bitrev {b : ℕ} : ∀ {i}, i < 2 ^ b → bitrev b (bitrev b i) = i := by
  induction b with
  | zero => intro i h; interval_cases i; rfl
  | succ b ih =>
    intro i h
    have hR : bitrev b (i / 2) < 2 ^ b := bitrev_lt b _
    show bitrev (b + 1) (i % 2 * 2 ^ b + bitrev b (i / 2)) = i
    rw [bitrev_split b 1]
    have m1 : (i % 2 * 2 ^ b + bitrev b (i / 2)) % 2 ^ b = bitrev b (i / 2) := by
      rw [Nat.add_comm, Nat.add_mul_mod_self_right]
      exact Nat.mod_eq_of_lt hR
    have m2 : (i % 2 * 2 ^ b + bitrev b (i / 2)) / 2 ^ b = i % 2 := by
      rw [Nat.add_comm, Nat.add_mul_div_right _ _ (Nat.two_pow_pos b),
        Nat.div_eq_of_lt hR]
      omega
    rw [m1, m2, ih (by omega : i / 2 < 2 ^ b), bitrev_one_arg]
    simp only [pow_one]
    omega

/-! ## The static table -/

theorem dbcF_R_length (k : ℕ) : ∀ n c, (dbcF_R k n c).length = 2 ^ k := by
  induction k with
  | zero => intro n c; rfl
  | succ k ih =>
    intro n c
    show (dbcF_R k n (2 * c) ++ dbcF_R k (n + c) (2 * c)).length = 2 ^ (k + 1)
    rw [List.length_append, ih, ih]
    ring

theorem dbcF_R_getD (k : ℕ) : ∀ n c j, j < 2 ^ k →
    (dbcF_R k n c).getD j 0 = n + c * bitrev k j := by
  induction k with
  | zero =>
    intro n c j hj
    interval_cases j
    simp [dbcF_R, bitrev]
  | succ k ih =>
    intro n c j hj
    show (dbcF_R k n (2 * c) ++ dbcF_R k (n + c) (2 * c)).getD j 0 = _
    by_cases hcase : j < 2 ^ k
    · rw [List.getD_append _ _ _ _ (by rw [dbcF_R_length]; exact hcase), ih n (2 * c) j hcase,
        bitrev_double hcase]
      ring
    · have hlen : (dbcF_R k n (2 * c)).length = 2 ^ k := dbcF_R_length k n (2 * c)
      rw [List.getD_append_right _ _ _ _ (by omega), hlen]
      have hj' : j - 2 ^ k < 2 ^ k := by
        have : 2 ^ (k + 1) = 2 ^ k + 2 ^ k := by ring
        omega
      rw [ih (n + c) (2 * c) _ hj']
      have hjj : j = 2 ^ k + (j - 2 ^ k) := by omega
      have e2 : bitrev (k + 1) j = 2 * bitrev k (j - 2 ^ k) + 1 := by
        conv_lhs => rw [hjj]
        exact bitrev_double_add hj'
      rw [e2]
      ring

/-- Skip a prefix when indexing an appended list. -/
theorem getD_skip (pre rest : List ℕ) (i : ℕ) :
    (pre ++ rest).getD (pre.length + i) 0 = rest.getD i 0 := by
  rw [List.getD_append_right _ _ _ _ (by omega)]
  congr 1
  omega

theorem dbcF_bitreverse_table_eq {bits i : ℕ} (hb : bits ≤ 8) (hi : i < 2 ^ bits) :
    dbcF_bitreverse_table (2 ^ bits + i) = bitrev bits i := by
  have len1 : ∀ k n c, (dbcF_R k n c).length = 2 ^ k := dbcF_R_length
  simp only [dbcF_bitreverse_table, dbcF_bitreverse_table_list, List.append_assoc]
  interval_cases bits
  · interval_cases i
    rfl
  · rw [(show (2 : ℕ) ^ 1 + i = ([0, 0] : List ℕ).length + i by
        simp only [List.length_cons, List.length_nil]; omega)]
    rw [getD_skip]
    rw [List.getD_append _ _ _ _ (by rw [len1]; omega)]
    rw [dbcF_R_getD 1 0 1 i hi]
    omega
  · rw [(show (2 : ℕ) ^ 2 + i = ([0, 0] : List ℕ).length + (2 + i) by
        simp only [List.length_cons, List.length_nil]; omega)]
    rw [getD_skip]
    rw [(show 2 + i = (dbcF_R 1 0 1).length + i by rw [len1]; omega)]
    rw [getD_skip]
    rw [List.getD_append _ _ _ _ (by rw [len1]; omega)]
    rw [dbcF_R_getD 2 0 1 i hi]
    omega
  · rw [(show (2 : ℕ) ^ 3 + i = ([0, 0] : List ℕ).length + (6 + i) by
        simp only [List.length_cons, List.length_nil]; omega)]
    rw [getD_skip]
    rw [(show 6 + i = (dbcF_R 1 0 1).length + (4 + i) by rw [len1]; omega)]
    rw [getD_skip]
    rw [(show 4 + i = (dbcF_R 2 0 1).length + i by rw [len1]; omega)]
    rw [getD_skip]
    rw [List.getD_append _ _ _ _ (by rw [len1]; omega)]
    rw [dbcF_R_getD 3 0 1 i hi]
    omega
  · rw [(show (2 : ℕ) ^ 4 + i = ([0, 0] : List ℕ).length + (14 + i) by
        simp only [List.length_cons, List.length_nil]; omega)]
    rw [getD_skip]
    rw [(show 14 + i = (dbcF_R 1 0 1).length + (12 + i) by rw [len1]; omega)]
    rw [getD_skip]
    rw [(show 12 + i = (dbcF_R 2 0 1).length + (8 + i) by rw [len1]; omega)]
    rw [getD_skip]
    rw [(show 8 + i = (dbcF_R 3 0 1).length + i by rw [len1]; omega)]
    rw [getD_skip]
    rw [List.getD_append _ _ _ _ (by rw [len1]; omega)]
    rw [dbcF_R_getD 4 0 1 i hi]
    omega
  · rw [(show (2 : ℕ) ^ 5 + i = ([0, 0] : List ℕ).length + (30 + i) by
        simp only [List.length_cons, List.length_nil]; omega)]
    rw [getD_skip]
    rw [(show 30 + i = (dbcF_R 1 0 1).length + (28 + i) by rw [len1]; omega)]
    rw [getD_skip]
    rw [(show 28 + i = (dbcF_R 2 0 1).length + (24 + i) by rw [len1]; omega)]
    rw [getD_skip]
    rw [(show 24 + i = (dbcF_R 3 0 1).length + (16 + i) by rw [len1]; omega)]
    rw [getD_skip]
    rw [(show 16 + i = (dbcF_R 4 0 1).length + i by rw [len1]; omega)]
    rw [getD_skip]
    rw [List.getD_append _ _ _ _ (by rw [len1]; omega)]
    rw [dbcF_R_getD 5 0 1 i hi]
    omega
  · rw [(show (2 : ℕ) ^ 6 + i = ([0, 0] : List ℕ).length + (62 + i) by
        simp only [List.length_cons, List.length_nil]; omega)]
    rw [getD_skip]
    rw [(show 62 + i = (dbcF_R 1 0 1).length + (60 + i) by rw [len1]; omega)]
    rw [getD_skip]
    rw [(show 60 + i = (dbcF_R 2 0 1).length + (56 + i) by rw [len1]; omega)]
    rw [getD_skip]
    rw [(show 56 + i = (dbcF_R 3 0 1).length + (48 + i) by rw [len1]; omega)]
    rw [getD_skip]
    rw [(show 48 + i = (dbcF_R 4 0 1).length + (32 + i) by rw [len1]; omega)]
    rw [getD_skip]
    rw [(show 32 + i = (dbcF_R 5 0 1).length + i by rw [len1]; omega)]
    rw [getD_skip]
    rw [List.getD_append _ _ _ _ (by rw [len1]; omega)]
    rw [dbcF_R_getD 6 0 1 i hi]
    omega
  · rw [(show (2 : ℕ) ^ 7 + i = ([0, 0] : List ℕ).length + (126 + i) by
        simp only [List.length_cons, List.length_nil]; omega)]
    rw [getD_skip]
    rw [(show 126 + i = (dbcF_R 1 0 1).length + (124 + i) by rw [len1]; omega)]
    rw [getD_skip]
    rw [(show 124 + i = (dbcF_R 2 0 1).length + (120 + i) by rw [len1]; omega)]
    rw [getD_skip]
    rw [(show 120 + i = (dbcF_R 3 0 1).length + (112 + i) by rw [len1]; omega)]
    rw [getD_skip]
    rw [(show 112 + i = (dbcF_R 4 0 1).length + (96 + i) by rw [len1]; omega)]
    rw [getD_skip]
    rw [(show 96 + i = (dbcF_R 5 0 1).length + (64 + i) by rw [len1]; omega)]
    rw [getD_skip]
    rw [(show 64 + i = (dbcF_R 6 0 1).length + i by rw [len1]; omega)]
    rw [getD_skip]
    rw [List.getD_append _ _ _ _ (by rw [len1]; omega)]
    rw [dbcF_R_getD 7 0 1 i hi]
    omega
  · rw [(show (2 : ℕ) ^ 8 + i = ([0, 0] : List ℕ).length + (254 + i) by
        simp only [List.length_cons, List.length_nil]; omega)]
    rw [getD_skip]
    rw [(show 254 + i = (dbcF_R 1 0 1).length + (252 + i) by rw [len1]; omega)]
    rw [getD_skip]
    rw [(show 252 + i = (dbcF_R 2 0 1).length + (248 + i) by rw [len1]; omega)]
    rw [getD_skip]
    rw [(show 248 + i = (dbcF_R 3 0 1).length + (240 + i) by rw [len1]; omega)]
    rw [getD_skip]
    rw [(show 240 + i = (dbcF_R 4 0 1).length + (224 + i) by rw [len1]; omega)]
    rw [getD_skip]
    rw [(show 224 + i = (dbcF_R 5 0 1).length + (192 + i) by rw [len1]; omega)]
    rw [getD_skip]
    rw [(show 192 + i = (dbcF_R 6 0 1).length + (128 + i) by rw [len1]; omega)]
    rw [getD_skip]
    rw [(show 128 + i = (dbcF_R 7 0 1).length + i by rw [len1]; omega)]
    rw [getD_skip]
    rw [dbcF_R_getD 8 0 1 i hi]
    omega
/-! ## Disjoint-bits xor arithmetic -/

theorem testBit_mul_pow_add {k : ℕ} : ∀ {y}, y < 2 ^ k → ∀ (x i : ℕ),
    (x * 2 ^ k + y).testBit i = if i < k then y.testBit i else x.testBit (i - k) := by
  induction k with
  | zero =>
    intro y hy x i
    interval_cases y
    simp
  | succ k ih =>
    intro y hy x i
    have hpow : (2 : ℕ) ^ (k + 1) = 2 * 2 ^ k := by ring
    have hdec : x * 2 ^ (k + 1) + y = 2 * (x * 2 ^ k + y / 2) + y % 2 := by
      rw [hpow]
      ring_nf
      omega
    rw [hdec]
    cases i with
    | zero =>
      have e0 : (2 * (x * 2 ^ k + y / 2) + y % 2) % 2 = y % 2 := by omega
      simp only [Nat.testBit_zero, e0]
      simp
    | succ i =>
      rw [Nat.testBit_add_one, Nat.testBit_add_one]
      have e1 : (2 * (x * 2 ^ k + y / 2) + y % 2) / 2 = x * 2 ^ k + y / 2 := by
        rw [Nat.mul_add_div (by norm_num : 0 < 2)]
        omega
      rw [e1, ih (by omega : y / 2 < 2 ^ k) x i]
      have e2 : i + 1 - (k + 1) = i - k := by omega
      rw [e2]
      by_cases hik : i < k
      · rw [if_pos hik, if_pos (by omega : i + 1 < k + 1)]
      · rw [if_neg hik, if_neg (by omega : ¬ (i + 1 < k + 1))]

theorem shiftLeft_xor_eq_add {x y k : ℕ} (hy : y < 2 ^ k) :
    x <<< k ^^^ y = x * 2 ^ k + y := by
  apply Nat.eq_of_testBit_eq
  intro i
  rw [Nat.testBit_xor, Nat.testBit_shiftLeft, testBit_mul_pow_add hy x i]
  by_cases hik : i < k
  · have hk : ¬ k ≤ i := by omega
    simp [hik, hk]
  · have hk : k ≤ i := by omega
    have hyi : y.testBit i = false :=
      Nat.testBit_lt_two_pow (lt_of_lt_of_le hy (Nat.pow_le_pow_right (by omega) (by omega)))
    simp [hik, hk, hyi]

/-! ## The two `dbcF_bitreverse` variants compute `bitrev` -/

/-- Both variants combine the reversed low byte and the reversed high part the
same way; this is the corresponding `bitrev` identity. -/
theorem bitrev_compose8 {bits i : ℕ} (h8 : 8 < bits) (hi : i < 2 ^ bits) :
    bitrev 8 (i % 256) <<< (bits - 8) ^^^ bitrev (bits - 8) (i / 256) = bitrev bits i := by
  have hlt : bitrev (bits - 8) (i / 256) < 2 ^ (bits - 8) := bitrev_lt _ _
  rw [shiftLeft_xor_eq_add hlt]
  have e : bits = 8 + (bits - 8) := by omega
  conv_rhs => rw [e]
  rw [bitrev_split 8 (bits - 8) i]
  norm_num

set_option maxRecDepth 4000 in
theorem dbcF_bitreverse_eq_bitrev : ∀ bits i, i < 2 ^ bits →
    dbcF_bitreverse i bits = bitrev bits i := by
  intro bits
  induction bits using Nat.strong_induction_on with
  | _ bits ih =>
    intro i hi
    rw [dbcF_bitreverse]
    by_cases hb : bits ≤ 8
    · rw [if_pos hb]
      exact dbcF_bitreverse_table_eq hb hi
    · rw [if_neg hb]
      have h8 : 8 < bits := by omega
      have hmod : i % 256 < 2 ^ 8 := by
        have := Nat.mod_lt i (show 0 < 256 by norm_num)
        norm_num
        omega
      have e1 : dbcF_bitreverse_table (256 + i % 256) = bitrev 8 (i % 256) := by
        have := dbcF_bitreverse_table_eq (le_refl 8) hmod
        norm_num at this
        exact this
      have hdiv : i / 256 < 2 ^ (bits - 8) := by
        have hsplit : (2 : ℕ) ^ bits = 2 ^ (bits - 8) * 256 := by
          rw [show (256 : ℕ) = 2 ^ 8 by norm_num, ← pow_add]
          congr 1
          omega
        rw [Nat.div_lt_iff_lt_mul (by norm_num : 0 < 256)]
        omega
      rw [e1, ih (bits - 8) (by omega) (i / 256) hdiv]
      exact bitrev_compose8 h8 hi

set_option maxRecDepth 10000 in
/-- The 4-2-1 nibble swap reverses a byte. -/
theorem nibble_swap_eq : ∀ j0 < 256,
    (((((j0 >>> 4 ^^^ j0 <<< 4) &&& 0xCC) >>> 2 ^^^ ((j0 >>> 4 ^^^ j0 <<< 4) &&& 0x33) <<< 2) &&&
            0xAA) >>>
          1 ^^^
        (((((j0 >>> 4 ^^^ j0 <<< 4) &&& 0xCC) >>> 2 ^^^
                  ((j0 >>> 4 ^^^ j0 <<< 4) &&& 0x33) <<< 2) &&&
              0x55) <<<
          1)) =
      bitrev 8 j0 := by
  decide

theorem dbcF_bitreverse_nt_eq_bitrev : ∀ bits i, i < 2 ^ bits →
    dbcF_bitreverse_nt i bits = bitrev bits i := by
  intro bits
  induction bits using Nat.strong_induction_on with
  | _ bits ih =>
    intro i hi
    rw [dbcF_bitreverse_nt]
    have hmod : i % 256 < 256 := Nat.mod_lt i (by norm_num)
    have hcore := nibble_swap_eq (i % 256) hmod
    by_cases hb : 8 < bits
    · rw [if_pos hb]
      have hdiv : i / 256 < 2 ^ (bits - 8) := by
        have hsplit : (2 : ℕ) ^ bits = 2 ^ (bits - 8) * 256 := by
          rw [show (256 : ℕ) = 2 ^ 8 by norm_num, ← pow_add]
          congr 1
          omega
        rw [Nat.div_lt_iff_lt_mul (by norm_num : 0 < 256)]
        omega
      have hbmin : min bits 8 = 8 := by omega
      rw [hbmin]
      norm_num
      rw [hcore, ih (bits - 8) (by omega) (i / 256) hdiv]
      exact bitrev_compose8 hb hi
    · rw [if_neg hb]
      have hbmin : min bits 8 = bits := by omega
      rw [hbmin]
      have hieq : i % 256 = i := by
        apply Nat.mod_eq_of_lt
        have : (2 : ℕ) ^ bits ≤ 2 ^ 8 := Nat.pow_le_pow_right (by omega) (by omega)
        norm_num at this
        omega
      rw [hcore, hieq]
      have e : (8 : ℕ) = bits + (8 - bits) := by omega
      rw [e, bitrev_split bits (8 - bits) i, Nat.mod_eq_of_lt hi, Nat.div_eq_of_lt hi,
        bitrev_zero_right, Nat.add_zero, Nat.shiftRight_eq_div_pow]
      have e3 : bits + (8 - bits) - bits = 8 - bits := by omega
      rw [e3, Nat.mul_div_cancel _ (Nat.two_pow_pos _)]

/-- C10: the bit-reverse helper is an involution on `[0, 2^b)` and its result
always lies in `[0, 2^b)`, for both the table-based and the branch-free
nibble-swap variants. -/
theorem c10_bitreverse_involution (b i : ℕ) (h : i < 2 ^ b) :
    dbcF_bitreverse i b < 2 ^ b ∧ dbcF_bitreverse (dbcF_bitreverse i b) b = i ∧
      dbcF_bitreverse_nt i b < 2 ^ b ∧ dbcF_bitreverse_nt (dbcF_bitreverse_nt i b) b = i := by
  have e1 := dbcF_bitreverse_eq_bitrev b i h
  have e2 := dbcF_bitreverse_nt_eq_bitrev b i h
  have hlt : bitrev b i < 2 ^ b := bitrev_lt b i
  refine ⟨by rw [e1]; exact hlt, ?_, by rw [e2]; exact hlt, ?_⟩
  · rw [e1, dbcF_bitreverse_eq_bitrev b _ hlt, bitrev_bitrev h]
  · rw [e2, dbcF_bitreverse_nt_eq_bitrev b _ hlt, bitrev_bitrev h]

theorem c10_bitreverse_involution_witness :
    (5 : ℕ) < 2 ^ 3 ∧
      (dbcF_bitreverse 5 3 < 2 ^ 3 ∧ dbcF_bitreverse (dbcF_bitreverse 5 3) 3 = 5 ∧
        dbcF_bitreverse_nt 5 3 < 2 ^ 3 ∧ dbcF_bitreverse_nt (dbcF_bitreverse_nt 5 3) 3 = 5) :=
  ⟨by norm_num, c10_bitreverse_involution 3 5 (by norm_num)⟩

/-! ## Memory basics -/

theorem mset_same (m : Mem) (a : ℤ) (v : ℝ) : mset m a v a = v := by
  simp [mset]

theorem mset_other (m : Mem) (a : ℤ) (v : ℝ) {x : ℤ} (h : x ≠ a) : mset m a v x = m x := by
  simp [mset, h]

/-! ## Guarded unfolding lemmas for the recursive routines

`simp` cannot safely unfold the well-founded recursive definitions (their
recursive calls sit inside not-yet-reduced branches), so each branch gets an
explicit guarded equation. -/

theorem dbcF_bitreversal_swap_small_eq (log2n : ℕ) (src ss dst ds : ℤ) (m : Mem)
    (h8 : log2n ≤ 8) :
    dbcF_bitreversal_swap log2n src ss dst ds m =
      dbcF_bitreversal_swap_loop log2n src ss dst ds (2 ^ log2n) m := by
  conv_lhs => rw [dbcF_bitreversal_swap.eq_def]
  rw [if_pos h8]

theorem dbcF_bitreversal_swap_rec_eq (log2n : ℕ) (src ss dst ds : ℤ) (m : Mem)
    (h8 : ¬ log2n ≤ 8) :
    dbcF_bitreversal_swap log2n src ss dst ds m =
      dbcF_bitreversal_swap (log2n - 1) (src + ss) (2 * ss)
        (dst + (2 ^ (log2n - 1) : ℕ) * ds) ds
        (dbcF_bitreversal_swap (log2n - 1) src (2 * ss) dst ds m) := by
  conv_lhs => rw [dbcF_bitreversal_swap.eq_def]
  rw [if_neg h8]

theorem dbcF_brp_broadcast_eq (log2n : ℕ) (src : Option ℤ) (ss dst ds : ℤ) (st : Mem × Mem)
    (h : ss = 0) :
    dbcF_bitreversal_permutation log2n src ss dst ds st =
      (dbcF_brp_broadcast (memRead st.1 src 0) dst ds (2 ^ log2n) st.1, st.2) := by
  conv_lhs => rw [dbcF_bitreversal_permutation.eq_def]
  rw [if_pos h]

theorem dbcF_brp_inplace_small_eq (log2n : ℕ) (src : Option ℤ) (ss dst ds : ℤ)
    (st : Mem × Mem) (h0 : ¬ ss = 0) (hsd : src = some dst) (h8 : log2n ≤ 8) :
    dbcF_bitreversal_permutation log2n src ss dst ds st =
      (dbcF_brp_inplace_small log2n dst ds (2 ^ log2n) st.1, st.2) := by
  conv_lhs => rw [dbcF_bitreversal_permutation.eq_def]
  rw [if_neg h0, if_pos hsd, if_pos h8]

theorem dbcF_brp_inplace_medium_eq (log2n : ℕ) (src : Option ℤ) (ss dst ds : ℤ)
    (st : Mem × Mem) (h0 : ¬ ss = 0) (hsd : src = some dst) (h8 : ¬ log2n ≤ 8)
    (h16 : log2n ≤ 16) :
    dbcF_bitreversal_permutation log2n src ss dst ds st =
      dbcF_bitreversal_permutation (log2n - 2)
        (some (dst + (((2 ^ log2n / 2 : ℕ) : ℤ) + 1) * ds)) (2 * ds)
        (dst + (((2 ^ log2n / 2 : ℕ) : ℤ) + 1) * ds) (2 * ds)
        (dbcF_bitreversal_permutation (log2n - 2) (some dst) (2 * ds) dst (2 * ds)
          (dbcF_bitreversal_swap (log2n - 2) (dst + ds) (2 * ds)
            (dst + ((2 ^ log2n / 2 : ℕ) : ℤ) * ds) (2 * ds) st.1, st.2)) := by
  conv_lhs => rw [dbcF_bitreversal_permutation.eq_def]
  rw [if_neg h0, if_pos hsd, if_neg h8, if_pos (Or.inr h16)]

theorem dbcF_brp_inplace_large_eq (log2n : ℕ) (src : Option ℤ) (ss dst ds : ℤ)
    (st : Mem × Mem) (h0 : ¬ ss = 0) (hsd : src = some dst) (h16 : 16 < log2n) :
    dbcF_bitreversal_permutation log2n src ss dst ds st =
      dbcF_cg_loop log2n (log2n - 2 * DBCF_Q) dst ds (2 ^ (log2n - 2 * DBCF_Q)) st := by
  have hq : DBCF_Q = 5 := rfl
  conv_lhs => rw [dbcF_bitreversal_permutation.eq_def]
  rw [if_neg h0, if_pos hsd, if_neg (by omega : ¬ log2n ≤ 8),
    if_neg (by rw [hq]; omega : ¬ (log2n ≤ 2 * DBCF_Q + 2 ∨ log2n ≤ 16))]

theorem dbcF_brp_oop_small_eq (log2n : ℕ) (src : Option ℤ) (ss dst ds : ℤ)
    (st : Mem × Mem) (h0 : ¬ ss = 0) (hsd : ¬ src = some dst) (h8 : log2n ≤ 8) :
    dbcF_bitreversal_permutation log2n src ss dst ds st =
      (dbcF_brp_scatter log2n src ss dst ds (2 ^ log2n) st.1, st.2) := by
  conv_lhs => rw [dbcF_bitreversal_permutation.eq_def]
  rw [if_neg h0, if_neg hsd, if_pos h8]

theorem dbcF_brp_oop_medium_eq (log2n : ℕ) (src : Option ℤ) (ss dst ds : ℤ)
    (st : Mem × Mem) (h0 : ¬ ss = 0) (hsd : ¬ src = some dst) (h8 : ¬ log2n ≤ 8)
    (h16 : log2n ≤ 16) :
    dbcF_bitreversal_permutation log2n src ss dst ds st =
      dbcF_bitreversal_permutation (log2n - 1) (src.map (· + ss)) (2 * ss)
        (dst + ((2 ^ log2n / 2 : ℕ) : ℤ) * ds) ds
        (dbcF_bitreversal_permutation (log2n - 1) src (2 * ss) dst ds st) := by
  conv_lhs => rw [dbcF_bitreversal_permutation.eq_def]
  rw [if_neg h0, if_neg hsd, if_neg h8, if_pos h16]

theorem dbcF_brp_oop_large_eq (log2n : ℕ) (src : Option ℤ) (ss dst ds : ℤ)
    (st : Mem × Mem) (h0 : ¬ ss = 0) (hsd : ¬ src = some dst) (h16 : 16 < log2n) :
    dbcF_bitreversal_permutation log2n src ss dst ds st =
      dbcF_bitreversal_permutation (log2n - 1)
        (some (dst + ((2 ^ log2n / 2 : ℕ) : ℤ) * ds)) ds
        (dst + ((2 ^ log2n / 2 : ℕ) : ℤ) * ds) ds
        (dbcF_bitreversal_permutation (log2n - 1) (some dst) ds dst ds
          (dbcF_brp_split src ss dst ds (2 ^ log2n / 2) (2 ^ log2n / 2) st.1, st.2)) := by
  conv_lhs => rw [dbcF_bitreversal_permutation.eq_def]
  rw [if_neg h0, if_neg hsd, if_neg (by omega : ¬ log2n ≤ 8),
    if_neg (by omega : ¬ log2n ≤ 16)]

theorem dbcF_butterfly_block_small_eq (log2n log2b : ℕ)
    (LR LI HR HI real_stride imag_stride : ℤ) (C S : ℝ) (inverse : Bool) (trB tiB : ℤ)
    (tw mem : Mem) (hb : log2b ≤ DBCF_TWIDDLES_BUF_LOG2) :
    dbcF_butterfly_block log2n log2b LR LI HR HI real_stride imag_stride C S inverse trB tiB
        tw mem =
      dbcF_butterfly_block_loop LR LI HR HI real_stride imag_stride C S trB tiB tw
        (2 ^ log2b) mem := by
  conv_lhs => rw [dbcF_butterfly_block.eq_def]
  rw [if_pos hb]

theorem dbcF_butterfly_block_rec_eq (log2n log2b : ℕ)
    (LR LI HR HI real_stride imag_stride : ℤ) (C S : ℝ) (inverse : Bool) (trB tiB : ℤ)
    (tw mem : Mem) (hb : ¬ log2b ≤ DBCF_TWIDDLES_BUF_LOG2) :
    dbcF_butterfly_block log2n log2b LR LI HR HI real_stride imag_stride C S inverse trB tiB
        tw mem =
      dbcF_butterfly_block log2n (log2b - 1)
        (LR + ((2 ^ log2b / 2 : ℕ) : ℤ) * real_stride)
        (LI + ((2 ^ log2b / 2 : ℕ) : ℤ) * imag_stride)
        (HR + ((2 ^ log2b / 2 : ℕ) : ℤ) * real_stride)
        (HI + ((2 ^ log2b / 2 : ℕ) : ℤ) * imag_stride) real_stride imag_stride
        (C * (dbcF_cexp (log2n - log2b + 1)).1 -
          S * (if inverse then (dbcF_cexp (log2n - log2b + 1)).2
            else -(dbcF_cexp (log2n - log2b + 1)).2))
        (S * (dbcF_cexp (log2n - log2b + 1)).1 +
          C * (if inverse then (dbcF_cexp (log2n - log2b + 1)).2
            else -(dbcF_cexp (log2n - log2b + 1)).2))
        inverse trB tiB tw
        (dbcF_butterfly_block log2n (log2b - 1) LR LI HR HI real_stride imag_stride C S
          inverse trB tiB tw mem) := by
  conv_lhs => rw [dbcF_butterfly_block.eq_def]
  rw [if_neg hb]

theorem dbcF_butterfly_multipass_zero_eq (log2n log2c : ℕ)
    (real imag real_stride imag_stride : ℤ) (inverse : Bool) (trB tiB : ℤ) (st : Mem × Mem) :
    dbcF_butterfly_multipass log2n log2c real imag real_stride imag_stride inverse trB tiB 0
      st = st := by
  conv_lhs => rw [dbcF_butterfly_multipass.eq_def]
  rw [if_pos rfl]

theorem dbcF_butterfly_multipass_fft8_eq (log2n log2c : ℕ)
    (real imag real_stride imag_stride : ℤ) (inverse : Bool) (trB tiB : ℤ) (depth : ℕ)
    (st : Mem × Mem) (h0 : ¬ depth = 0) (h3 : depth = log2n ∧ 3 ≤ depth) :
    dbcF_butterfly_multipass log2n log2c real imag real_stride imag_stride inverse trB tiB
        depth st =
      dbcF_butterfly_multipass log2n log2c real imag real_stride imag_stride inverse trB tiB
        (depth - 3)
        (dbcF_fft8_sweep real imag real_stride imag_stride inverse
          ((mset (mset st.2 trB (dbcF_cexp 3).1) tiB (dbcF_cexp 3).2) trB)
          (2 ^ (log2n + log2c - 3)) st.1,
         mset (mset st.2 trB (dbcF_cexp 3).1) tiB (dbcF_cexp 3).2) := by
  conv_lhs => rw [dbcF_butterfly_multipass.eq_def]
  rw [if_neg h0, if_pos h3]

theorem dbcF_butterfly_multipass_pass_eq (log2n log2c : ℕ)
    (real imag real_stride imag_stride : ℤ) (inverse : Bool) (trB tiB : ℤ) (depth : ℕ)
    (st : Mem × Mem) (h0 : ¬ depth = 0) (h3 : ¬ (depth = log2n ∧ 3 ≤ depth)) :
    dbcF_butterfly_multipass log2n log2c real imag real_stride imag_stride inverse trB tiB
        depth st =
      dbcF_butterfly_multipass log2n log2c real imag real_stride imag_stride inverse trB tiB
        (depth - 1)
        (dbcF_butterfly_pass (log2n - depth + 1) (log2c + log2n - (log2n - depth + 1)) real
          imag real_stride imag_stride inverse
          (min (log2n - depth + 1 - 1) DBCF_TWIDDLES_BUF_LOG2) trB tiB
          (dbcF_compute_twiddles (log2n - depth + 1)
            (min (log2n - depth + 1 - 1) DBCF_TWIDDLES_BUF_LOG2) trB tiB inverse st.2) st.1,
         dbcF_compute_twiddles (log2n - depth + 1)
          (min (log2n - depth + 1 - 1) DBCF_TWIDDLES_BUF_LOG2) trB tiB inverse st.2) := by
  conv_lhs => rw [dbcF_butterfly_multipass.eq_def]
  rw [if_neg h0, if_neg h3]

theorem dbcF_butterfly_small_eq (log2n : ℕ) (real imag real_stride imag_stride : ℤ)
    (inverse : Bool) (st : Mem × Mem) (h : ¬ 12 < log2n) :
    dbcF_butterfly log2n real imag real_stride imag_stride inverse st =
      dbcF_butterfly_multipass log2n 0 real imag real_stride imag_stride inverse 0
        (DBCF_TWIDDLES_BUF_SIZE : ℕ) log2n st := by
  conv_lhs => rw [dbcF_butterfly.eq_def]
  rw [if_neg h]

theorem dbcF_butterfly_large_eq (log2n : ℕ) (real imag real_stride imag_stride : ℤ)
    (inverse : Bool) (st : Mem × Mem) (h : 12 < log2n) :
    dbcF_butterfly log2n real imag real_stride imag_stride inverse st =
      dbcF_butterfly_multipass log2n 0 real imag real_stride imag_stride inverse 0
        (DBCF_TWIDDLES_BUF_SIZE : ℕ) 1
        (dbcF_butterfly (log2n - 1) (real + (2 ^ (log2n - 1) : ℕ) * real_stride)
          (imag + (2 ^ (log2n - 1) : ℕ) * imag_stride) real_stride imag_stride inverse
          (dbcF_butterfly (log2n - 1) real imag real_stride imag_stride inverse st)) := by
  conv_lhs => rw [dbcF_butterfly.eq_def]
  rw [if_pos h]

/-! ## Twiddle generation is exact (C9) -/

theorem dbcF_twiddle_fill_frame (x y : ℝ) (rB iB : ℤ) (k : ℕ) :
    ∀ (cnt : ℕ) (w : Mem) (addr : ℤ),
      (∀ t : ℕ, t < cnt → addr ≠ rB + (k + t : ℕ) ∧ addr ≠ iB + (k + t : ℕ)) →
      dbcF_twiddle_fill x y rB iB k cnt w addr = w addr := by
  intro cnt
  induction cnt with
  | zero => intro w addr _; rfl
  | succ j ih =>
    intro w addr haddr
    show (mset (mset _ _ _) _ _) addr = w addr
    rw [mset_other _ _ _ (haddr j (by omega)).2, mset_other _ _ _ (haddr j (by omega)).1]
    exact ih w addr fun t ht => haddr t (by omega)

theorem dbcF_twiddle_fill_spec (x y : ℝ) (rB iB : ℤ) (k : ℕ) (a b : ℕ → ℝ) (hk : 1 ≤ k) :
    ∀ (cnt : ℕ) (w : Mem), cnt ≤ k →
      (∀ t, t < cnt → w (rB + t) = a t ∧ w (iB + t) = b t) →
      (∀ u v : ℕ, u < k + cnt → v < k + cnt → rB + u ≠ iB + v) →
      ∀ t, t < cnt →
        dbcF_twiddle_fill x y rB iB k cnt w (rB + (k + t : ℕ)) =
            (x * a t - y * b t) + (x + a t) ∧
          dbcF_twiddle_fill x y rB iB k cnt w (iB + (k + t : ℕ)) =
            (y * a t + x * b t) + (y + b t) := by
  intro cnt
  induction cnt with
  | zero => intro w _ _ _ t ht; omega
  | succ j ih =>
    intro w hcnt hw hcross t ht
    have hcross' : ∀ u v : ℕ, u < k + j → v < k + j → rB + u ≠ iB + v :=
      fun u v hu hv => hcross u v (by omega) (by omega)
    have hrj : dbcF_twiddle_fill x y rB iB k j w (rB + j) = a j := by
      rw [dbcF_twiddle_fill_frame x y rB iB k j w (rB + j) ?_]
      · exact (hw j (by omega)).1
      · intro u hu
        constructor
        · intro hc
          have : (j : ℤ) = (k + u : ℕ) := by omega
          have : j = k + u := by exact_mod_cast this
          omega
        · exact hcross j (k + u) (by omega) (by omega)
    have hij : dbcF_twiddle_fill x y rB iB k j w (iB + j) = b j := by
      rw [dbcF_twiddle_fill_frame x y rB iB k j w (iB + j) ?_]
      · exact (hw j (by omega)).2
      · intro u hu
        constructor
        · exact fun hc => hcross (k + u) j (by omega) (by omega) hc.symm
        · intro hc
          have : (j : ℤ) = (k + u : ℕ) := by omega
          have : j = k + u := by exact_mod_cast this
          omega
    by_cases htj : t = j
    · subst htj
      constructor
      · show (mset (mset _ _ _) _ _) _ = _
        rw [mset_other _ _ _ (hcross (k + t) (k + t) (by omega) (by omega)),
          mset_same, hrj, hij]
      · show (mset (mset _ _ _) _ _) _ = _
        rw [mset_same, hrj, hij]
    · have htj' : t < j := by omega
      have prev := ih w (by omega) (fun u hu => hw u (by omega)) hcross' t htj'
      constructor
      · show (mset (mset _ _ _) _ _) _ = _
        rw [mset_other _ _ _ (hcross (k + t) (k + j) (by omega) (by omega)),
          mset_other, prev.1]
        intro hc
        have : ((k + t : ℕ) : ℤ) = ((k + j : ℕ) : ℤ) := by omega
        have : k + t = k + j := by exact_mod_cast this
        omega
      · show (mset (mset _ _ _) _ _) _ = _
        rw [mset_other, mset_other _ _ _ (fun hc =>
          hcross (k + j) (k + t) (by omega) (by omega) hc.symm), prev.2]
        intro hc
        have : ((k + t : ℕ) : ℤ) = ((k + j : ℕ) : ℤ) := by omega
        have : k + t = k + j := by exact_mod_cast this
        omega

/-- Unfolding of one doubling iteration. -/
theorem dbcF_compute_twiddles_outer_succ (log2n : ℕ) (rB iB : ℤ) (inverse : Bool) (c : ℕ)
    (w0 : Mem) :
    dbcF_compute_twiddles_outer log2n rB iB inverse (c + 1) w0 =
      dbcF_twiddle_fill (dbcF_cexpm1 (log2n - c)).1
        (if inverse then (dbcF_cexpm1 (log2n - c)).2 else -(dbcF_cexpm1 (log2n - c)).2)
        rB iB (2 ^ c) (2 ^ c) (dbcF_compute_twiddles_outer log2n rB iB inverse c w0) := rfl

/-- Values established by the doubling phase of `dbcF_compute_twiddles` after
`c` iterations: the `(cos − 1, ±sin)` prefix of length `2^c`. -/
theorem dbcF_compute_twiddles_outer_spec (log2n log2b : ℕ) (rB iB : ℤ) (inverse : Bool)
    (w : Mem) (hbn : log2b ≤ log2n)
    (hd : ∀ u v : ℕ, u < 2 ^ log2b → v < 2 ^ log2b → rB + u ≠ iB + v) :
    ∀ c, c ≤ log2b → ∀ t : ℕ, t < 2 ^ c →
      dbcF_compute_twiddles_outer log2n rB iB inverse c (mset (mset w rB 0) iB 0) (rB + t) =
          Real.cos (2 * Real.pi * t / 2 ^ log2n) - 1 ∧
        dbcF_compute_twiddles_outer log2n rB iB inverse c (mset (mset w rB 0) iB 0) (iB + t) =
          dftSgn inverse * Real.sin (2 * Real.pi * t / 2 ^ log2n) := by
  intro c
  induction c with
  | zero =>
    intro _ t ht
    interval_cases t
    have hne : rB + ((0 : ℕ) : ℤ) ≠ iB + ((0 : ℕ) : ℤ) :=
      hd 0 0 (Nat.two_pow_pos _) (Nat.two_pow_pos _)
    show (mset (mset w rB 0) iB 0) (rB + ((0 : ℕ) : ℤ)) = _ ∧
      (mset (mset w rB 0) iB 0) (iB + ((0 : ℕ) : ℤ)) = _
    push_cast
    push_cast at hne
    rw [add_zero, add_zero]
    rw [add_zero, add_zero] at hne
    constructor
    · rw [mset_other _ _ _ hne, mset_same]
      norm_num
    · rw [mset_same]
      norm_num
  | succ c ih =>
    intro hc t ht
    have hc' : c ≤ log2b := by omega
    have hcn : c ≤ log2n := by omega
    rw [dbcF_compute_twiddles_outer_succ]
    have hsplit : (2 : ℝ) ^ (log2n - c) * 2 ^ c = 2 ^ log2n := by
      rw [← pow_add]
      congr 1
      omega
    have hphi : (2 : ℝ) * Real.pi / 2 ^ (log2n - c) =
        2 * Real.pi * 2 ^ c / 2 ^ log2n := by
      rw [← hsplit]
      have hA : ((2 : ℝ) ^ (log2n - c)) ≠ 0 := pow_ne_zero _ two_ne_zero
      have hB : ((2 : ℝ) ^ c) ≠ 0 := pow_ne_zero _ two_ne_zero
      field_simp
      ring
    have hxval : (dbcF_cexpm1 (log2n - c)).1 =
        Real.cos (2 * Real.pi * 2 ^ c / 2 ^ log2n) - 1 := by
      show Real.cos (2 * Real.pi / 2 ^ (log2n - c)) - 1 = _
      rw [hphi]
    have hyval : (if inverse then (dbcF_cexpm1 (log2n - c)).2
        else -(dbcF_cexpm1 (log2n - c)).2) =
        dftSgn inverse * Real.sin (2 * Real.pi * 2 ^ c / 2 ^ log2n) := by
      cases inverse with
      | false =>
        show -(dbcF_cexpm1 (log2n - c)).2 = _
        show -Real.sin (2 * Real.pi / 2 ^ (log2n - c)) = _
        rw [hphi, dftSgn]
        norm_num
      | true =>
        show (dbcF_cexpm1 (log2n - c)).2 = _
        show Real.sin (2 * Real.pi / 2 ^ (log2n - c)) = _
        rw [hphi, dftSgn]
        norm_num
    have hkb : 2 ^ (c + 1) ≤ 2 ^ log2b := Nat.pow_le_pow_right (by omega) hc
    have hcross : ∀ u v : ℕ, u < 2 ^ c + 2 ^ c → v < 2 ^ c + 2 ^ c → rB + u ≠ iB + v := by
      intro u v hu hv
      have h2 : (2 : ℕ) ^ c + 2 ^ c = 2 ^ (c + 1) := by ring
      exact hd u v (by omega) (by omega)
    by_cases htc : t < 2 ^ c
    · have hfr := dbcF_twiddle_fill_frame (dbcF_cexpm1 (log2n - c)).1
        (if inverse then (dbcF_cexpm1 (log2n - c)).2 else -(dbcF_cexpm1 (log2n - c)).2)
        rB iB (2 ^ c) (2 ^ c)
      constructor
      · rw [hfr _ (rB + t) ?_]
        · exact (ih hc' t htc).1
        · intro u hu
          refine ⟨?_, hcross t (2 ^ c + u) (by omega) (by omega)⟩
          intro hcon
          have h1 : (t : ℤ) = ((2 ^ c + u : ℕ) : ℤ) := by omega
          have h2 : t = 2 ^ c + u := by exact_mod_cast h1
          omega
      · rw [hfr _ (iB + t) ?_]
        · exact (ih hc' t htc).2
        · intro u hu
          refine ⟨fun hcon => hcross (2 ^ c + u) t (by omega) (by omega) hcon.symm, ?_⟩
          intro hcon
          have h1 : (t : ℤ) = ((2 ^ c + u : ℕ) : ℤ) := by omega
          have h2 : t = 2 ^ c + u := by exact_mod_cast h1
          omega
    · have ht' : t - 2 ^ c < 2 ^ c := by omega
      have hteq : t = 2 ^ c + (t - 2 ^ c) := by omega
      have hspec := dbcF_twiddle_fill_spec (dbcF_cexpm1 (log2n - c)).1
        (if inverse then (dbcF_cexpm1 (log2n - c)).2 else -(dbcF_cexpm1 (log2n - c)).2)
        rB iB (2 ^ c)
        (fun u => Real.cos (2 * Real.pi * u / 2 ^ log2n) - 1)
        (fun u => dftSgn inverse * Real.sin (2 * Real.pi * u / 2 ^ log2n))
        (Nat.two_pow_pos c) (2 ^ c)
        (dbcF_compute_twiddles_outer log2n rB iB inverse c (mset (mset w rB 0) iB 0))
        (le_refl _) (fun u hu => ih hc' u hu) hcross (t - 2 ^ c) ht'
      have hsgn2 : dftSgn inverse * dftSgn inverse = 1 := by
        cases inverse <;> simp [dftSgn]
      have hangle : 2 * Real.pi * 2 ^ c / 2 ^ log2n +
          2 * Real.pi * ((t - 2 ^ c : ℕ) : ℝ) / 2 ^ log2n = 2 * Real.pi * t / 2 ^ log2n := by
        rw [div_add_div_same, ← mul_add]
        congr 2
        have hcast : ((t - 2 ^ c : ℕ) : ℝ) = (t : ℝ) - (2 : ℝ) ^ c := by
          rw [Nat.cast_sub (by omega : 2 ^ c ≤ t)]
          push_cast
          ring
        rw [hcast]
        ring
      constructor
      · conv_lhs => rw [hteq]
        rw [hspec.1, hxval, hyval, ← hangle, Real.cos_add]
        linear_combination
          (-(Real.sin (2 * Real.pi * 2 ^ c / 2 ^ log2n) *
            Real.sin (2 * Real.pi * ((t - 2 ^ c : ℕ) : ℝ) / 2 ^ log2n))) * hsgn2
      · conv_lhs => rw [hteq]
        rw [hspec.2, hxval, hyval, ← hangle, Real.sin_add]
        ring

theorem dbcF_twiddle_addone_frame (rB : ℤ) :
    ∀ (cnt : ℕ) (w : Mem) (addr : ℤ), (∀ t : ℕ, t < cnt → addr ≠ rB + t) →
      dbcF_twiddle_addone rB cnt w addr = w addr := by
  intro cnt
  induction cnt with
  | zero => intro w addr _; rfl
  | succ j ih =>
    intro w addr haddr
    show mset _ _ _ addr = w addr
    rw [mset_other _ _ _ (haddr j (by omega))]
    exact ih w addr fun t ht => haddr t (by omega)

theorem dbcF_twiddle_addone_spec (rB : ℤ) :
    ∀ (cnt : ℕ) (w : Mem) (t : ℕ), t < cnt →
      dbcF_twiddle_addone rB cnt w (rB + t) = 1 + w (rB + t) := by
  intro cnt
  induction cnt with
  | zero => intro w t ht; omega
  | succ j ih =>
    intro w t ht
    by_cases htj : t = j
    · subst htj
      show mset _ _ _ _ = _
      rw [mset_same]
      congr 1
      apply dbcF_twiddle_addone_frame
      intro u hu hcon
      have h1 : (t : ℤ) = (u : ℤ) := by omega
      have h2 : t = u := by exact_mod_cast h1
      omega
    · show mset _ _ _ _ = _
      rw [mset_other, ih w t (by omega)]
      intro hcon
      have h1 : (t : ℤ) = (j : ℤ) := by omega
      have h2 : t = j := by exact_mod_cast h1
      omega

/-- C9: after `compute_twiddles(log2n, log2b, tr, ti, inverse)` with
`log2b ≤ log2n` (and the two buffers disjoint, as they are in every call),
`tr[k] = cos(2πk/2^log2n)` and `ti[k] = −sin(2πk/2^log2n)` for the forward
direction (`+sin` for inverse), for every `k < 2^log2b`, interpreting
arithmetic exactly. -/
theorem c9_compute_twiddles_exact (log2n log2b : ℕ) (rB iB : ℤ) (inverse : Bool) (w : Mem)
    (hbn : log2b ≤ log2n)
    (hd : ∀ u v : ℕ, u < 2 ^ log2b → v < 2 ^ log2b → rB + u ≠ iB + v) :
    ∀ k : ℕ, k < 2 ^ log2b →
      dbcF_compute_twiddles log2n log2b rB iB inverse w (rB + k) =
          Real.cos (2 * Real.pi * k / 2 ^ log2n) ∧
        dbcF_compute_twiddles log2n log2b rB iB inverse w (iB + k) =
          dftSgn inverse * Real.sin (2 * Real.pi * k / 2 ^ log2n) := by
  intro k hk
  have houter := dbcF_compute_twiddles_outer_spec log2n log2b rB iB inverse w hbn hd log2b
    (le_refl _) k hk
  unfold dbcF_compute_twiddles
  constructor
  · rw [dbcF_twiddle_addone_spec rB (2 ^ log2b) _ k hk, houter.1]
    ring
  · rw [dbcF_twiddle_addone_frame rB (2 ^ log2b) _ (iB + k) ?_, houter.2]
    intro t ht hcon
    exact hd t k ht hk hcon.symm

theorem c9_compute_twiddles_exact_witness :
    ((0 : ℕ) ≤ 0 ∧ (∀ u v : ℕ, u < 2 ^ 0 → v < 2 ^ 0 → (0 : ℤ) + u ≠ 1 + v) ∧
      (0 : ℕ) < 2 ^ 0) ∧
      (dbcF_compute_twiddles 0 0 0 1 false (fun _ => 0) ((0 : ℤ) + (0 : ℕ)) =
          Real.cos (2 * Real.pi * (0 : ℕ) / 2 ^ (0 : ℕ)) ∧
        dbcF_compute_twiddles 0 0 0 1 false (fun _ => 0) ((1 : ℤ) + (0 : ℕ)) =
          dftSgn false * Real.sin (2 * Real.pi * (0 : ℕ) / 2 ^ (0 : ℕ))) :=
  ⟨⟨le_refl 0, fun u v hu hv => by omega, Nat.one_pos⟩,
    c9_compute_twiddles_exact 0 0 0 1 false (fun _ => 0) (le_refl 0)
      (fun u v hu hv => by omega) 0 Nat.one_pos⟩

/-! ## Entry-surface facts -/

theorem dbcF_fft_pot_fst (num_elements : ℕ) (src_real src_imag : Option ℤ)
    (srs sis : ℤ) (dst_real dst_imag : ℤ) (drs dis : ℤ) (inverse : Bool) (scale : ℝ)
    (mem : Mem) :
    (dbcF_fft_pot num_elements src_real src_imag srs sis dst_real dst_imag drs dis inverse
      scale mem).1 = 0 := rfl

theorem dbcF_fft_npot_ne_invalid (n : ℕ) (src_real src_imag : Option ℤ)
    (srs sis : ℤ) (dst_real dst_imag : ℤ) (drs dis : ℤ) (inverse : Bool) (scale : ℝ)
    (allocOk : Bool) (mem : Mem) (m' : Mem) :
    dbcF_fft_npot n src_real src_imag srs sis dst_real dst_imag drs dis inverse scale
      allocOk mem ≠ some (-1, m') := by
  intro h
  simp only [dbcF_fft_npot] at h
  by_cases hA : allocOk = false
  · rw [if_pos hA, Option.some_inj, Prod.ext_iff] at h
    have := h.1
    norm_num at this
  · rw [if_neg hA] at h
    cases src_real with
    | none => simp at h
    | some srcR =>
      cases src_imag with
      | none => simp at h
      | some srcI =>
        rw [Option.some_inj, Prod.ext_iff] at h
        have := h.1
        norm_num at this

/-- C7: for every `num_elements < 1` (zero or negative), every entry point
returns 0 (success) and performs no operation: memory is unchanged,
regardless of the other arguments. -/
theorem c7_nonpositive_is_noop (num_elements : ℤ) (src_real src_imag : Option ℤ)
    (srs sis : ℤ) (dst_real dst_imag : ℤ) (drs dis : ℤ) (inverse : Bool) (scale : ℝ)
    (allocOk : Bool) (mem : Mem) (src : Option ℤ) (dst : ℤ)
    (h : num_elements < 1) :
    dbcF_fft num_elements src_real src_imag srs sis dst_real dst_imag drs dis inverse scale
        allocOk mem = some (0, mem) ∧
      dbc_fft_c num_elements src_real src_imag dst_real dst_imag scale allocOk mem
        = some (0, mem) ∧
      dbc_ifft_c num_elements src_real src_imag dst_real dst_imag scale allocOk mem
        = some (0, mem) ∧
      dbc_fft_i num_elements src dst scale allocOk mem = some (0, mem) ∧
      dbc_ifft_i num_elements src dst scale allocOk mem = some (0, mem) ∧
      dbc_fft_s num_elements src_real src_imag srs sis dst_real dst_imag drs dis scale
        allocOk mem = some (0, mem) ∧
      dbc_ifft_s num_elements src_real src_imag srs sis dst_real dst_imag drs dis scale
        allocOk mem = some (0, mem) := by
  simp [dbc_fft_c, dbc_ifft_c, dbc_fft_i, dbc_ifft_i, dbc_fft_s, dbc_ifft_s, dbcF_fft, h]

theorem c7_nonpositive_is_noop_witness :
    (-3 : ℤ) < 1 ∧
      (dbcF_fft (-3) (some 5) (some 6) 1 1 0 100 1 1 false 2 true (fun _ => 0)
          = some (0, fun _ => 0) ∧
        dbc_fft_c (-3) (some 5) (some 6) 0 100 2 true (fun _ => 0) = some (0, fun _ => 0) ∧
        dbc_ifft_c (-3) (some 5) (some 6) 0 100 2 true (fun _ => 0) = some (0, fun _ => 0) ∧
        dbc_fft_i (-3) (some 7) 50 2 true (fun _ => 0) = some (0, fun _ => 0) ∧
        dbc_ifft_i (-3) (some 7) 50 2 true (fun _ => 0) = some (0, fun _ => 0) ∧
        dbc_fft_s (-3) (some 5) (some 6) 1 1 0 100 1 1 2 true (fun _ => 0)
          = some (0, fun _ => 0) ∧
        dbc_ifft_s (-3) (some 5) (some 6) 1 1 0 100 1 1 2 true (fun _ => 0)
          = some (0, fun _ => 0)) :=
  ⟨by norm_num,
    c7_nonpositive_is_noop (-3) (some 5) (some 6) 1 1 0 100 1 1 false 2 true (fun _ => 0)
      (some 7) 50 (by norm_num)⟩

/-- C4 (amended): the entry point rejects exactly the pointer-equality
aliases — same-channel alias with unequal strides, and cross-channel alias in
either direction — returning `INVALID_ARGUMENT` with memory untouched; when
none of those four checks fires (in particular under exact per-channel alias,
and also under partial overlap, which the code does not detect), the call is
never rejected with `INVALID_ARGUMENT`. -/
theorem c4_alias_validation (num_elements : ℤ) (src_real src_imag : Option ℤ)
    (srs sis : ℤ) (dst_real dst_imag : ℤ) (drs dis : ℤ) (inverse : Bool) (scale : ℝ)
    (allocOk : Bool) (mem : Mem) (hn : 1 ≤ num_elements) :
    (((src_real = some dst_real ∧ srs ≠ drs) ∨ (src_imag = some dst_imag ∧ sis ≠ dis) ∨
          src_imag = some dst_real ∨ src_real = some dst_imag) →
        dbcF_fft num_elements src_real src_imag srs sis dst_real dst_imag drs dis inverse
          scale allocOk mem = some (-1, mem)) ∧
      (¬ ((src_real = some dst_real ∧ srs ≠ drs) ∨ (src_imag = some dst_imag ∧ sis ≠ dis) ∨
          src_imag = some dst_real ∨ src_real = some dst_imag) →
        ∀ m' : Mem,
          dbcF_fft num_elements src_real src_imag srs sis dst_real dst_imag drs dis inverse
            scale allocOk mem ≠ some (-1, m')) := by
  constructor
  · intro hA
    unfold dbcF_fft
    rw [if_neg (by omega : ¬ num_elements < 1)]
    by_cases h1 : src_real = some dst_real ∧ srs ≠ drs
    · rw [if_pos h1]
    rw [if_neg h1]
    by_cases h2 : src_imag = some dst_imag ∧ sis ≠ dis
    · rw [if_pos h2]
    rw [if_neg h2]
    by_cases h3 : src_imag = some dst_real
    · rw [if_pos h3]
    rw [if_neg h3]
    by_cases h4 : src_real = some dst_imag
    · rw [if_pos h4]
    tauto
  · intro hA m'
    unfold dbcF_fft
    rw [if_neg (by omega : ¬ num_elements < 1), if_neg (fun h => hA (Or.inl h)),
      if_neg (fun h => hA (Or.inr (Or.inl h))), if_neg (fun h => hA (Or.inr (Or.inr (Or.inl h)))),
      if_neg (fun h => hA (Or.inr (Or.inr (Or.inr h))))]
    by_cases hp : num_elements.toNat &&& (num_elements.toNat - 1) ≠ 0
    · rw [if_pos hp]
      exact dbcF_fft_npot_ne_invalid _ _ _ _ _ _ _ _ _ _ _ _ _ _
    · rw [if_neg hp]
      intro h
      rw [Option.some_inj, Prod.ext_iff] at h
      have h0 := h.1
      rw [dbcF_fft_pot_fst] at h0
      norm_num at h0

theorem c4_alias_validation_witness :
    (1 : ℤ) ≤ 2 ∧
      ((((some 7 : Option ℤ) = some 0 ∧ (1 : ℤ) ≠ 1) ∨
            ((some 50 : Option ℤ) = some 60 ∧ (1 : ℤ) ≠ 1) ∨
            (some 50 : Option ℤ) = some 0 ∨ (some 7 : Option ℤ) = some 60) →
          dbcF_fft 2 (some 7) (some 50) 1 1 0 60 1 1 false 1 true (fun _ => 0)
            = some (-1, fun _ => 0)) ∧
        (¬ (((some 7 : Option ℤ) = some 0 ∧ (1 : ℤ) ≠ 1) ∨
            ((some 50 : Option ℤ) = some 60 ∧ (1 : ℤ) ≠ 1) ∨
            (some 50 : Option ℤ) = some 0 ∨ (some 7 : Option ℤ) = some 60) →
          ∀ m' : Mem,
            dbcF_fft 2 (some 7) (some 50) 1 1 0 60 1 1 false 1 true (fun _ => 0)
              ≠ some (-1, m')) :=
  ⟨by norm_num,
    c4_alias_validation 2 (some 7) (some 50) 1 1 0 60 1 1 false 1 true (fun _ => 0)
      (by norm_num)⟩

/-- C4 counterexample: a partially overlapping source/destination pair
(`src_real = dst_real + 1`, both of length 2 with stride 1, so their address
ranges `{1,2}` and `{0,1}` overlap without pointer equality) is NOT rejected:
the entry point returns 0, not `INVALID_ARGUMENT`. -/
theorem c4_partial_overlap_not_rejected :
    (dbcF_fft 2 (some 1) (some 10) 1 1 0 20 1 1 false 1 true (fun _ => 0)).map Prod.fst
      = some 0 := by
  simp [dbcF_fft, dbcF_fft_pot_fst]

/-- C5 (amended): destination strides are not validated: a call whose
destination stride is zero is not rejected — the entry point never returns
`INVALID_ARGUMENT` for it (when the pointer-equality aliasing checks pass);
zero source strides are likewise accepted. -/
theorem c5_zero_dst_stride_not_rejected (num_elements : ℤ) (src_real src_imag : Option ℤ)
    (srs sis : ℤ) (dst_real dst_imag : ℤ) (drs dis : ℤ) (inverse : Bool) (scale : ℝ)
    (allocOk : Bool) (mem : Mem)
    (hzero : drs = 0 ∨ dis = 0)
    (hA : ¬ ((src_real = some dst_real ∧ srs ≠ drs) ∨ (src_imag = some dst_imag ∧ sis ≠ dis) ∨
      src_imag = some dst_real ∨ src_real = some dst_imag)) :
    ∀ m' : Mem,
      dbcF_fft num_elements src_real src_imag srs sis dst_real dst_imag drs dis inverse scale
        allocOk mem ≠ some (-1, m') := by
  intro m'
  by_cases hn : num_elements < 1
  · unfold dbcF_fft
    rw [if_pos hn]
    intro h
    rw [Option.some_inj, Prod.ext_iff] at h
    have := h.1
    norm_num at this
  · exact (c4_alias_validation num_elements src_real src_imag srs sis dst_real dst_imag drs
      dis inverse scale allocOk mem (by omega)).2 hA m'

theorem c5_zero_dst_stride_not_rejected_witness :
    ((0 : ℤ) = 0 ∨ (0 : ℤ) = 0) ∧
      (¬ (((some 100 : Option ℤ) = some 0 ∧ (1 : ℤ) ≠ 0) ∨
          ((some 200 : Option ℤ) = some 1 ∧ (1 : ℤ) ≠ 0) ∨
          (some 200 : Option ℤ) = some 0 ∨ (some 100 : Option ℤ) = some 1)) ∧
      ∀ m' : Mem,
        dbcF_fft 1 (some 100) (some 200) 1 1 0 1 0 0 false 1 true (fun _ => 0)
          ≠ some (-1, m') :=
  ⟨Or.inl rfl, by norm_num,
    c5_zero_dst_stride_not_rejected 1 (some 100) (some 200) 1 1 0 1 0 0 false 1 true
      (fun _ => 0) (Or.inl rfl) (by norm_num)⟩

/-- C5 counterexample: a call with both destination strides zero returns 0
(success), not `INVALID_ARGUMENT` as the claim states. -/
theorem c5_zero_dst_stride_accepted :
    (dbcF_fft 1 (some 100) (some 200) 1 1 0 1 0 0 false 1 true (fun _ => 0)).map Prod.fst
      = some 0 := by
  simp [dbcF_fft, dbcF_fft_pot_fst]

/-- C6: for non-power-of-two `num_elements`, when the allocator returns null
the entry point returns `OUT_OF_MEMORY` (−2) and memory — in particular the
destination — is completely untouched (the allocation precedes every write). -/
theorem c6_alloc_failure (num_elements : ℤ) (src_real src_imag : Option ℤ)
    (srs sis : ℤ) (dst_real dst_imag : ℤ) (drs dis : ℤ) (inverse : Bool) (scale : ℝ)
    (mem : Mem) (hn : 1 ≤ num_elements)
    (hnp : num_elements.toNat &&& (num_elements.toNat - 1) ≠ 0)
    (hA : ¬ ((src_real = some dst_real ∧ srs ≠ drs) ∨ (src_imag = some dst_imag ∧ sis ≠ dis) ∨
      src_imag = some dst_real ∨ src_real = some dst_imag)) :
    dbcF_fft num_elements src_real src_imag srs sis dst_real dst_imag drs dis inverse scale
      false mem = some (-2, mem) := by
  unfold dbcF_fft
  rw [if_neg (by omega : ¬ num_elements < 1), if_neg (fun h => hA (Or.inl h)),
    if_neg (fun h => hA (Or.inr (Or.inl h))), if_neg (fun h => hA (Or.inr (Or.inr (Or.inl h)))),
    if_neg (fun h => hA (Or.inr (Or.inr (Or.inr h)))), if_pos hnp]
  unfold dbcF_fft_npot
  rw [if_pos rfl]

theorem c6_alloc_failure_witness :
    (1 : ℤ) ≤ 3 ∧ (3 : ℤ).toNat &&& ((3 : ℤ).toNat - 1) ≠ 0 ∧
      (¬ (((some 100 : Option ℤ) = some 0 ∧ (1 : ℤ) ≠ 1) ∨
          ((some 200 : Option ℤ) = some 50 ∧ (1 : ℤ) ≠ 1) ∨
          (some 200 : Option ℤ) = some 0 ∨ (some 100 : Option ℤ) = some 50)) ∧
      dbcF_fft 3 (some 100) (some 200) 1 1 0 50 1 1 false 1 false (fun _ => 0)
        = some (-2, fun _ => 0) :=
  ⟨by norm_num, by decide, by norm_num,
    c6_alloc_failure 3 (some 100) (some 200) 1 1 0 50 1 1 false 1 (fun _ => 0)
      (by norm_num) (by decide) (by norm_num)⟩

set_option maxRecDepth 8000 in
/-- C3 (code bug): the final scaling loop of `dbcF_fft_pot` indexes
`dst_real[i]` / `dst_imag[i]` without the destination strides.  With
`num_elements = 2`, `X = [1, 0]` (real at 100..101, imag at 200..201, zero),
`dst_real = 0` with stride 2, `dst_imag = 50` with stride 1 and `scale = 2`,
the output element `dst_real[1*2]` (address 2, holding `Y₁ = 1` after the
butterfly) is never multiplied: it stays 1 where the claim requires 2, while
address 1 — not an output slot of the strided destination — is scaled
instead. -/
theorem c3_scale_loop_ignores_stride :
    (dbcF_fft_pot 2 (some 100) (some 200) 1 1 0 50 2 1 false 2
        (fun a => if a = 100 then 1 else 0)).2 2 = 1 ∧
      (dbcF_fft_pot 2 (some 100) (some 200) 1 1 0 50 2 1 false 2
        (fun a => if a = 100 then 1 else 0)).2 0 = 2 := by
  have hl2 : Nat.log2 2 = 1 := by simp [Nat.log2]
  have t2 : dbcF_bitreverse_table 2 = 0 := rfl
  have t3 : dbcF_bitreverse_table 3 = 1 := rfl
  have h21 : ((2 : ℝ) = 1) = False := by norm_num
  constructor <;>
  · simp [dbcF_fft_pot, hl2, dbcF_brp_oop_small_eq, dbcF_butterfly_small_eq,
      dbcF_butterfly_multipass_pass_eq, dbcF_butterfly_multipass_zero_eq,
      dbcF_butterfly_pass, dbcF_pass_blocks_h1, dbcF_brp_scatter,
      dbcF_fft_pot_scale_loop, mset, memRead, t2, t3, h21]

set_option maxRecDepth 8000 in
/-- C2 (code bug): null sources are NOT handled as a zero broadcast on the
paths the claim covers.
(1) For non-power-of-two `num_elements` the Bluestein driver dereferences the
null source pointers unconditionally in its chirp loop (only `dbcF_fft_pot`
substitutes the zero dummy), so `dbc_fft_i(3, NULL, dst, scale)` hits
undefined behavior (modelled as `none`).
(2) The interleaved wrapper passes destination strides `src ? 2 : 0`, so with
a null source the destination strides collapse to 0: for `num_elements = 2`
only `dst[0]`/`dst[1]` are written and `dst[2]`, `dst[3]` keep their previous
contents (here 7), instead of the all-zero output the claim requires. -/
theorem c2_null_source_broken :
    dbc_fft_i 3 none 0 1 true (fun _ => 0) = none ∧
      (dbc_fft_i 2 none 0 1 true
          (fun a => if a = 2 then 7 else if a = 3 then 8 else 0)).map (fun p => p.2 2)
        = some 7 := by
  have hl2 : Nat.log2 2 = 1 := by simp [Nat.log2]
  have h11 : ((1 : ℝ) = 1) = True := by norm_num
  constructor
  · simp [dbc_fft_i, dbcF_fft, dbcF_fft_npot]
  · simp [dbc_fft_i, dbcF_fft, dbcF_fft_pot, hl2, dbcF_brp_broadcast_eq, dbcF_brp_broadcast,
      dbcF_butterfly_small_eq, dbcF_butterfly_multipass_pass_eq,
      dbcF_butterfly_multipass_zero_eq, dbcF_butterfly_pass, dbcF_pass_blocks_h1,
      mset, memRead, h11]

/-! ## Bit-reversal permutation: specification lemmas -/

/-- Two distinct indices of a nonzero-stride address family give distinct
addresses. -/
theorem addr_inj {s : ℤ} (hs : s ≠ 0) {base : ℤ} {i j : ℕ} (hne : i ≠ j) :
    base + (i : ℤ) * s ≠ base + (j : ℤ) * s := by
  intro h
  apply hne
  have h2 : (i : ℤ) * s = (j : ℤ) * s := by linarith
  have h3 : (i : ℤ) = (j : ℤ) := mul_right_cancel₀ hs h2
  exact_mod_cast h3

theorem bitrev_inj {b i j : ℕ} (hi : i < 2 ^ b) (hj : j < 2 ^ b)
    (h : bitrev b i = bitrev b j) : i = j := by
  have h2 := congrArg (bitrev b) h
  rwa [bitrev_bitrev hi, bitrev_bitrev hj] at h2

theorem bitrev_even (b t : ℕ) : bitrev (b + 1) (2 * t) = bitrev b t := by
  show 2 * t % 2 * 2 ^ b + bitrev b (2 * t / 2) = _
  rw [Nat.mul_mod_right, Nat.mul_div_cancel_left _ (by norm_num : 0 < 2)]
  ring

theorem bitrev_odd (b t : ℕ) : bitrev (b + 1) (2 * t + 1) = 2 ^ b + bitrev b t := by
  show (2 * t + 1) % 2 * 2 ^ b + bitrev b ((2 * t + 1) / 2) = _
  have h1 : (2 * t + 1) % 2 = 1 := by omega
  have h2 : (2 * t + 1) / 2 = t := by omega
  rw [h1, h2]
  ring

/-- `dbcF_bitreversal_swap_loop`: after `cnt` iterations the first `cnt`
source/destination pairs have been exchanged and nothing else has moved. -/
theorem dbcF_bitreversal_swap_loop_spec (log2n : ℕ) (src ss dst ds : ℤ)
    (h8 : log2n ≤ 8) (hss : ss ≠ 0) (hds : ds ≠ 0)
    (hdisj : ∀ i j : ℕ, i < 2 ^ log2n → j < 2 ^ log2n →
      src + (i : ℤ) * ss ≠ dst + (j : ℤ) * ds)
    (m : Mem) : ∀ cnt : ℕ, cnt ≤ 2 ^ log2n →
    (∀ i : ℕ, i < cnt →
        dbcF_bitreversal_swap_loop log2n src ss dst ds cnt m (src + (i : ℤ) * ss)
          = m (dst + (bitrev log2n i : ℤ) * ds) ∧
        dbcF_bitreversal_swap_loop log2n src ss dst ds cnt m
            (dst + (bitrev log2n i : ℤ) * ds)
          = m (src + (i : ℤ) * ss)) ∧
    (∀ a : ℤ,
        (∀ i : ℕ, i < cnt → a ≠ src + (i : ℤ) * ss ∧ a ≠ dst + (bitrev log2n i : ℤ) * ds) →
        dbcF_bitreversal_swap_loop log2n src ss dst ds cnt m a = m a) := by
  intro cnt
  induction cnt with
  | zero =>
    intro _
    exact ⟨fun i hi => absurd hi (by omega), fun a _ => rfl⟩
  | succ c ihc =>
    intro hc
    obtain ⟨ihv, ihf⟩ := ihc (by omega)
    have hclt : c < 2 ^ log2n := by omega
    have hj : dbcF_bitreverse_table (2 ^ log2n + c) = bitrev log2n c :=
      dbcF_bitreverse_table_eq h8 hclt
    have hxA : dbcF_bitreversal_swap_loop log2n src ss dst ds c m (src + (c : ℤ) * ss)
        = m (src + (c : ℤ) * ss) := by
      apply ihf
      intro i' hi'
      exact ⟨addr_inj hss (by omega), hdisj c _ hclt (bitrev_lt _ _)⟩
    have hyB : dbcF_bitreversal_swap_loop log2n src ss dst ds c m
        (dst + (bitrev log2n c : ℤ) * ds) = m (dst + (bitrev log2n c : ℤ) * ds) := by
      apply ihf
      intro i' hi'
      refine ⟨(hdisj i' _ (by omega) (bitrev_lt _ _)).symm, addr_inj hds ?_⟩
      intro h
      exact absurd (bitrev_inj hclt (by omega) h) (by omega)
    constructor
    · intro i hi
      by_cases hic : i = c
      · subst hic
        simp only [dbcF_bitreversal_swap_loop, hj]
        constructor
        · rw [mset_other _ _ _ (hdisj i _ hclt (bitrev_lt _ _)), mset_same]
          exact hyB
        · rw [mset_same]
          exact hxA
      · have hilt : i < c := by omega
        simp only [dbcF_bitreversal_swap_loop, hj]
        constructor
        · rw [mset_other _ _ _ (hdisj i _ (by omega) (bitrev_lt _ _)),
            mset_other _ _ _ (addr_inj hss hic)]
          exact (ihv i hilt).1
        · have hrne : bitrev log2n i ≠ bitrev log2n c := by
            intro h
            exact absurd (bitrev_inj (by omega) hclt h) (by omega)
          rw [mset_other _ _ _ (addr_inj hds hrne),
            mset_other _ _ _ ((hdisj c _ hclt (bitrev_lt _ _)).symm)]
          exact (ihv i hilt).2
    · intro a ha
      simp only [dbcF_bitreversal_swap_loop, hj]
      rw [mset_other _ _ _ (ha c (by omega)).2, mset_other _ _ _ (ha c (by omega)).1]
      exact ihf a (fun i' hi' => ha i' (by omega))

/-- ℤ-indexed variant of `addr_inj`. -/
theorem addr_ne {base s : ℤ} (hs : s ≠ 0) {u v : ℤ} (hne : u ≠ v) :
    base + u * s ≠ base + v * s := by
  intro h
  apply hne
  have h2 : u * s = v * s := by linarith
  exact mul_right_cancel₀ hs h2

/-- `dbcF_bitreversal_swap`: for disjoint source and destination families with
nonzero strides, `src[i]` and `dst[rev(i)]` are exchanged for every
`i < 2^log2n`, and no other cell moves. -/
theorem dbcF_bitreversal_swap_spec : ∀ (log2n : ℕ) (src ss dst ds : ℤ),
    ss ≠ 0 → ds ≠ 0 →
    (∀ i j : ℕ, i < 2 ^ log2n → j < 2 ^ log2n →
      src + (i : ℤ) * ss ≠ dst + (j : ℤ) * ds) →
    ∀ m : Mem,
    (∀ i : ℕ, i < 2 ^ log2n →
        dbcF_bitreversal_swap log2n src ss dst ds m (src + (i : ℤ) * ss)
          = m (dst + (bitrev log2n i : ℤ) * ds) ∧
        dbcF_bitreversal_swap log2n src ss dst ds m (dst + (bitrev log2n i : ℤ) * ds)
          = m (src + (i : ℤ) * ss)) ∧
    (∀ a : ℤ,
        (∀ i : ℕ, i < 2 ^ log2n →
          a ≠ src + (i : ℤ) * ss ∧ a ≠ dst + (bitrev log2n i : ℤ) * ds) →
        dbcF_bitreversal_swap log2n src ss dst ds m a = m a) := by
  intro log2n
  induction log2n using Nat.strong_induction_on with
  | _ p ih =>
    intro src ss dst ds hss hds hdisj m
    by_cases h8 : p ≤ 8
    · rw [dbcF_bitreversal_swap_small_eq p src ss dst ds m h8]
      exact dbcF_bitreversal_swap_loop_spec p src ss dst ds h8 hss hds hdisj m (2 ^ p) le_rfl
    · rw [dbcF_bitreversal_swap_rec_eq p src ss dst ds m h8]
      have hp1 : p - 1 < p := by omega
      have hp1e : p - 1 + 1 = p := by omega
      have hpow : (2 : ℕ) ^ p = 2 * 2 ^ (p - 1) := by
        conv_lhs => rw [show p = (p - 1) + 1 by omega]
        rw [pow_succ']
      have hbeG : ∀ t : ℕ, bitrev p (2 * t) = bitrev (p - 1) t := by
        intro t
        have h := bitrev_even (p - 1) t
        rwa [hp1e] at h
      have hboG : ∀ t : ℕ, bitrev p (2 * t + 1) = 2 ^ (p - 1) + bitrev (p - 1) t := by
        intro t
        have h := bitrev_odd (p - 1) t
        rwa [hp1e] at h
      have hss2 : 2 * ss ≠ 0 := mul_ne_zero two_ne_zero hss
      have hdisj1 : ∀ i j : ℕ, i < 2 ^ (p - 1) → j < 2 ^ (p - 1) →
          src + (i : ℤ) * (2 * ss) ≠ dst + (j : ℤ) * ds := by
        intro i j hi hj
        have e1 : src + (i : ℤ) * (2 * ss) = src + ((2 * i : ℕ) : ℤ) * ss := by
          push_cast; ring
        rw [e1]
        exact hdisj (2 * i) j (by omega) (by omega)
      have hdisj2 : ∀ i j : ℕ, i < 2 ^ (p - 1) → j < 2 ^ (p - 1) →
          src + ss + (i : ℤ) * (2 * ss)
            ≠ dst + ((2 ^ (p - 1) : ℕ) : ℤ) * ds + (j : ℤ) * ds := by
        intro i j hi hj
        have e1 : src + ss + (i : ℤ) * (2 * ss) = src + ((2 * i + 1 : ℕ) : ℤ) * ss := by
          push_cast; ring
        have e2 : dst + ((2 ^ (p - 1) : ℕ) : ℤ) * ds + (j : ℤ) * ds
            = dst + ((2 ^ (p - 1) + j : ℕ) : ℤ) * ds := by
          push_cast; ring
        rw [e1, e2]
        exact hdisj _ _ (by omega) (by omega)
      obtain ⟨v1, f1⟩ := ih (p - 1) hp1 src (2 * ss) dst ds hss2 hds hdisj1 m
      obtain ⟨v2, f2⟩ := ih (p - 1) hp1 (src + ss) (2 * ss)
        (dst + ((2 ^ (p - 1) : ℕ) : ℤ) * ds) ds hss2 hds hdisj2
        (dbcF_bitreversal_swap (p - 1) src (2 * ss) dst ds m)
      constructor
      · intro i hi
        obtain ⟨t, ht, hcase⟩ : ∃ t, t < 2 ^ (p - 1) ∧ (i = 2 * t ∨ i = 2 * t + 1) :=
          ⟨i / 2, by omega, by omega⟩
        rcases hcase with hieq | hieq
        · subst hieq
          constructor
          · -- src side, even index
            have eA : src + ((2 * t : ℕ) : ℤ) * ss = src + (t : ℤ) * (2 * ss) := by
              push_cast; ring
            rw [eA, hbeG t]
            have hfr2 : dbcF_bitreversal_swap (p - 1) (src + ss) (2 * ss)
                (dst + ((2 ^ (p - 1) : ℕ) : ℤ) * ds) ds
                (dbcF_bitreversal_swap (p - 1) src (2 * ss) dst ds m)
                (src + (t : ℤ) * (2 * ss))
                = dbcF_bitreversal_swap (p - 1) src (2 * ss) dst ds m
                    (src + (t : ℤ) * (2 * ss)) := by
              apply f2
              intro i' hi'
              constructor
              · have e1 : src + (t : ℤ) * (2 * ss) = src + (2 * (t : ℤ)) * ss := by ring
                have e2 : src + ss + (i' : ℤ) * (2 * ss)
                    = src + (2 * (i' : ℤ) + 1) * ss := by ring
                rw [e1, e2]
                exact addr_ne hss (by omega)
              · have e1 : src + (t : ℤ) * (2 * ss) = src + ((2 * t : ℕ) : ℤ) * ss := by
                  push_cast; ring
                have e2 : dst + ((2 ^ (p - 1) : ℕ) : ℤ) * ds + (bitrev (p - 1) i' : ℤ) * ds
                    = dst + ((2 ^ (p - 1) + bitrev (p - 1) i' : ℕ) : ℤ) * ds := by
                  push_cast; ring
                rw [e1, e2]
                have hblt := bitrev_lt (p - 1) i'
                exact hdisj _ _ (by omega) (by omega)
            rw [hfr2]
            exact (v1 t ht).1
          · -- dst side, even index
            rw [hbeG t]
            have hfr2 : dbcF_bitreversal_swap (p - 1) (src + ss) (2 * ss)
                (dst + ((2 ^ (p - 1) : ℕ) : ℤ) * ds) ds
                (dbcF_bitreversal_swap (p - 1) src (2 * ss) dst ds m)
                (dst + (bitrev (p - 1) t : ℤ) * ds)
                = dbcF_bitreversal_swap (p - 1) src (2 * ss) dst ds m
                    (dst + (bitrev (p - 1) t : ℤ) * ds) := by
              apply f2
              intro i' hi'
              constructor
              · have e1 : src + ss + (i' : ℤ) * (2 * ss)
                    = src + ((2 * i' + 1 : ℕ) : ℤ) * ss := by push_cast; ring
                rw [e1]
                exact (hdisj _ _ (by omega) (by
                  have := bitrev_lt (p - 1) t; omega)).symm
              · have e2 : dst + ((2 ^ (p - 1) : ℕ) : ℤ) * ds + (bitrev (p - 1) i' : ℤ) * ds
                    = dst + ((2 ^ (p - 1) + bitrev (p - 1) i' : ℕ) : ℤ) * ds := by
                  push_cast; ring
                rw [e2]
                have hblt := bitrev_lt (p - 1) t
                exact addr_inj hds (by omega)
            rw [hfr2, (v1 t ht).2]
            congr 1
            push_cast; ring
        · subst hieq
          constructor
          · -- src side, odd index
            have eA : src + ((2 * t + 1 : ℕ) : ℤ) * ss
                = src + ss + (t : ℤ) * (2 * ss) := by push_cast; ring
            rw [eA, hboG t, (v2 t ht).1]
            have hfr1 : dbcF_bitreversal_swap (p - 1) src (2 * ss) dst ds m
                (dst + ((2 ^ (p - 1) : ℕ) : ℤ) * ds + (bitrev (p - 1) t : ℤ) * ds)
                = m (dst + ((2 ^ (p - 1) : ℕ) : ℤ) * ds + (bitrev (p - 1) t : ℤ) * ds) := by
              apply f1
              intro i' hi'
              constructor
              · have e2 : dst + ((2 ^ (p - 1) : ℕ) : ℤ) * ds + (bitrev (p - 1) t : ℤ) * ds
                    = dst + ((2 ^ (p - 1) + bitrev (p - 1) t : ℕ) : ℤ) * ds := by
                  push_cast; ring
                have e1 : src + (i' : ℤ) * (2 * ss) = src + ((2 * i' : ℕ) : ℤ) * ss := by
                  push_cast; ring
                rw [e1, e2]
                have hblt := bitrev_lt (p - 1) t
                exact (hdisj _ _ (by omega) (by omega)).symm
              · have hblt := bitrev_lt (p - 1) t
                have hblt' := bitrev_lt (p - 1) i'
                have e2 : dst + ((2 ^ (p - 1) : ℕ) : ℤ) * ds + (bitrev (p - 1) t : ℤ) * ds
                    = dst + ((2 ^ (p - 1) + bitrev (p - 1) t : ℕ) : ℤ) * ds := by
                  push_cast; ring
                rw [e2]
                exact (addr_inj hds (by omega)).symm
            rw [hfr1]
            congr 1
            push_cast; ring
          · -- dst side, odd index
            rw [hboG t]
            have eB : dst + ((2 ^ (p - 1) + bitrev (p - 1) t : ℕ) : ℤ) * ds
                = dst + ((2 ^ (p - 1) : ℕ) : ℤ) * ds + (bitrev (p - 1) t : ℤ) * ds := by
              push_cast; ring
            rw [eB, (v2 t ht).2]
            have hfr1 : dbcF_bitreversal_swap (p - 1) src (2 * ss) dst ds m
                (src + ss + (t : ℤ) * (2 * ss))
                = m (src + ss + (t : ℤ) * (2 * ss)) := by
              apply f1
              intro i' hi'
              constructor
              · have e1 : src + (i' : ℤ) * (2 * ss) = src + (2 * (i' : ℤ)) * ss := by ring
                have e2 : src + ss + (t : ℤ) * (2 * ss) = src + (2 * (t : ℤ) + 1) * ss := by
                  ring
                rw [e1, e2]
                exact addr_ne hss (by omega)
              · have e2 : src + ss + (t : ℤ) * (2 * ss)
                    = src + ((2 * t + 1 : ℕ) : ℤ) * ss := by push_cast; ring
                rw [e2]
                have hblt' := bitrev_lt (p - 1) i'
                exact hdisj _ _ (by omega) (by omega)
            rw [hfr1]
            congr 1
            push_cast; ring
      · intro a ha
        have h2 : ∀ i' : ℕ, i' < 2 ^ (p - 1) →
            a ≠ src + ss + (i' : ℤ) * (2 * ss) ∧
            a ≠ dst + ((2 ^ (p - 1) : ℕ) : ℤ) * ds + (bitrev (p - 1) i' : ℤ) * ds := by
          intro i' hi'
          constructor
          · have e1 : src + ss + (i' : ℤ) * (2 * ss)
                = src + ((2 * i' + 1 : ℕ) : ℤ) * ss := by push_cast; ring
            rw [e1]
            exact (ha (2 * i' + 1) (by omega)).1
          · have e2 : dst + ((2 ^ (p - 1) : ℕ) : ℤ) * ds + (bitrev (p - 1) i' : ℤ) * ds
                = dst + ((2 ^ (p - 1) + bitrev (p - 1) i' : ℕ) : ℤ) * ds := by
              push_cast; ring
            rw [e2, show (2 : ℕ) ^ (p - 1) + bitrev (p - 1) i' = bitrev p (2 * i' + 1) from
              (hboG i').symm]
            exact (ha (2 * i' + 1) (by omega)).2
        have h1 : ∀ i' : ℕ, i' < 2 ^ (p - 1) →
            a ≠ src + (i' : ℤ) * (2 * ss) ∧ a ≠ dst + (bitrev (p - 1) i' : ℤ) * ds := by
          intro i' hi'
          constructor
          · have e1 : src + (i' : ℤ) * (2 * ss) = src + ((2 * i' : ℕ) : ℤ) * ss := by
              push_cast; ring
            rw [e1]
            exact (ha (2 * i') (by omega)).1
          · rw [show bitrev (p - 1) i' = bitrev p (2 * i') from (hbeG i').symm]
            exact (ha (2 * i') (by omega)).2
        rw [f2 a h2, f1 a h1]

/-- Broadcast loop: every family slot holds `x` afterwards, the rest is
untouched. -/
theorem dbcF_brp_broadcast_spec (x : ℝ) (dst ds : ℤ) (m : Mem) : ∀ cnt : ℕ,
    (∀ i : ℕ, i < cnt → dbcF_brp_broadcast x dst ds cnt m (dst + (i : ℤ) * ds) = x) ∧
    (∀ a : ℤ, (∀ i : ℕ, i < cnt → a ≠ dst + (i : ℤ) * ds) →
      dbcF_brp_broadcast x dst ds cnt m a = m a) := by
  intro cnt
  induction cnt with
  | zero => exact ⟨fun i hi => absurd hi (by omega), fun a _ => rfl⟩
  | succ c ihc =>
    obtain ⟨ihv, ihf⟩ := ihc
    constructor
    · intro i hi
      simp only [dbcF_brp_broadcast]
      by_cases he : dst + (i : ℤ) * ds = dst + (c : ℤ) * ds
      · rw [he, mset_same]
      · rw [mset_other _ _ _ he]
        refine ihv i ?_
        by_contra hic
        have : i = c := by omega
        subst this
        exact he rfl
    · intro a ha
      simp only [dbcF_brp_broadcast]
      rw [mset_other _ _ _ (ha c (by omega))]
      exact ihf a (fun i hi => ha i (by omega))

/-- In-place small loop: after `cnt` iterations every position whose index or
reversed index is below `cnt` holds the reversed datum, everything else is
untouched. -/
theorem dbcF_brp_inplace_small_spec (log2n : ℕ) (dst ds : ℤ) (h8 : log2n ≤ 8)
    (hds : ds ≠ 0) (m : Mem) : ∀ cnt : ℕ, cnt ≤ 2 ^ log2n →
    (∀ k : ℕ, k < 2 ^ log2n →
        ((k < cnt ∨ bitrev log2n k < cnt) →
          dbcF_brp_inplace_small log2n dst ds cnt m (dst + (k : ℤ) * ds)
            = m (dst + (bitrev log2n k : ℤ) * ds)) ∧
        (¬ (k < cnt ∨ bitrev log2n k < cnt) →
          dbcF_brp_inplace_small log2n dst ds cnt m (dst + (k : ℤ) * ds)
            = m (dst + (k : ℤ) * ds))) ∧
    (∀ a : ℤ, (∀ i : ℕ, i < 2 ^ log2n → a ≠ dst + (i : ℤ) * ds) →
        dbcF_brp_inplace_small log2n dst ds cnt m a = m a) := by
  intro cnt
  induction cnt with
  | zero =>
    intro _
    exact ⟨fun k hk => ⟨fun hc => absurd hc (by omega), fun _ => rfl⟩, fun a _ => rfl⟩
  | succ c ihc =>
    intro hc
    obtain ⟨ihv, ihf⟩ := ihc (by omega)
    have hclt : c < 2 ^ log2n := by omega
    have hj : dbcF_bitreverse_table (2 ^ log2n + c) = bitrev log2n c :=
      dbcF_bitreverse_table_eq h8 hclt
    have hrevc : bitrev log2n (bitrev log2n c) = c := bitrev_bitrev hclt
    have hrevlt : bitrev log2n c < 2 ^ log2n := bitrev_lt log2n c
    simp only [dbcF_brp_inplace_small, hj]
    by_cases hcj : c < bitrev log2n c
    · rw [if_pos hcj]
      have hMA : dbcF_brp_inplace_small log2n dst ds c m (dst + (c : ℤ) * ds)
          = m (dst + (c : ℤ) * ds) := (ihv c hclt).2 (by omega)
      have hMB : dbcF_brp_inplace_small log2n dst ds c m
          (dst + (bitrev log2n c : ℤ) * ds)
          = m (dst + (bitrev log2n c : ℤ) * ds) := by
        refine (ihv (bitrev log2n c) hrevlt).2 ?_
        rw [hrevc]
        omega
      constructor
      · intro k hk
        constructor
        · intro hcond
          by_cases hkc : k = c
          · subst hkc
            rw [mset_other _ _ _ (addr_inj hds (by omega : k ≠ bitrev log2n k)),
              mset_same]
            exact hMB
          · by_cases hkj : k = bitrev log2n c
            · subst hkj
              rw [mset_same, hrevc]
              exact hMA
            · have hcond' : k < c ∨ bitrev log2n k < c := by
                rcases hcond with hcl | hcl
                · left; omega
                · right
                  by_contra hge
                  have hbk : bitrev log2n k = c := by omega
                  have h2 := (bitrev_bitrev hk).symm
                  rw [hbk] at h2
                  exact hkj h2
              rw [mset_other _ _ _ (addr_inj hds hkj), mset_other _ _ _ (addr_inj hds hkc)]
              exact (ihv k hk).1 hcond'
        · intro hcond
          have hkc : k ≠ c := by omega
          have hkj : k ≠ bitrev log2n c := by
            intro h
            subst h
            exact hcond (Or.inr (by rw [hrevc]; omega))
          rw [mset_other _ _ _ (addr_inj hds hkj), mset_other _ _ _ (addr_inj hds hkc)]
          exact (ihv k hk).2 (by omega)
      · intro a ha
        rw [mset_other _ _ _ (ha (bitrev log2n c) hrevlt), mset_other _ _ _ (ha c hclt)]
        exact ihf a ha
    · rw [if_neg hcj]
      refine ⟨?_, ihf⟩
      intro k hk
      constructor
      · intro hcond
        by_cases hold : k < c ∨ bitrev log2n k < c
        · exact (ihv k hk).1 hold
        · by_cases hkc : k = c
          · subst hkc
            have hbb : bitrev log2n k = k := by omega
            rw [hbb]
            exact (ihv k hk).2 (by omega)
          · have hbk : bitrev log2n k = c := by omega
            have hkrc : k = bitrev log2n c := by
              have h2 := (bitrev_bitrev hk).symm
              rw [hbk] at h2
              exact h2
            exact absurd (Or.inl (by omega)) hold
      · intro hcond
        exact (ihv k hk).2 (by omega)

/-- Out-of-place scatter loop (`log2n ≤ 8`, disjoint buffers):
`dst[rev(i)] = src[i]` for `i < cnt`, the rest untouched. -/
theorem dbcF_brp_scatter_spec (log2n : ℕ) (sp ss dst ds : ℤ) (h8 : log2n ≤ 8)
    (hds : ds ≠ 0)
    (hdisj : ∀ i j : ℕ, i < 2 ^ log2n → j < 2 ^ log2n →
      sp + (i : ℤ) * ss ≠ dst + (j : ℤ) * ds)
    (m : Mem) : ∀ cnt : ℕ, cnt ≤ 2 ^ log2n →
    (∀ i : ℕ, i < cnt →
        dbcF_brp_scatter log2n (some sp) ss dst ds cnt m
            (dst + (bitrev log2n i : ℤ) * ds)
          = m (sp + (i : ℤ) * ss)) ∧
    (∀ a : ℤ, (∀ i : ℕ, i < cnt → a ≠ dst + (bitrev log2n i : ℤ) * ds) →
        dbcF_brp_scatter log2n (some sp) ss dst ds cnt m a = m a) := by
  intro cnt
  induction cnt with
  | zero =>
    intro _
    exact ⟨fun i hi => absurd hi (by omega), fun a _ => rfl⟩
  | succ c ihc =>
    intro hc
    obtain ⟨ihv, ihf⟩ := ihc (by omega)
    have hclt : c < 2 ^ log2n := by omega
    have hj : dbcF_bitreverse_table (2 ^ log2n + c) = bitrev log2n c :=
      dbcF_bitreverse_table_eq h8 hclt
    have hread : dbcF_brp_scatter log2n (some sp) ss dst ds c m (sp + (c : ℤ) * ss)
        = m (sp + (c : ℤ) * ss) :=
      ihf _ (fun i' hi' => hdisj c _ hclt (bitrev_lt _ _))
    simp only [dbcF_brp_scatter, hj, memRead]
    constructor
    · intro i hi
      by_cases hic : i = c
      · subst hic
        rw [mset_same]
        exact hread
      · have hrne : bitrev log2n i ≠ bitrev log2n c := by
          intro h
          exact hic (bitrev_inj (by omega) hclt h)
        rw [mset_other _ _ _ (addr_inj hds hrne)]
        exact ihv i (by omega)
    · intro a ha
      rw [mset_other _ _ _ (ha c (by omega))]
      exact ihf a (fun i hi => ha i (by omega))

/-- Split pass of the large out-of-place regime: `dst[i] = src[2i]`,
`dst[i+h] = src[2i+1]` for `i < cnt`, the rest untouched. -/
theorem dbcF_brp_split_spec (sp ss dst ds : ℤ) (h : ℕ) (hds : ds ≠ 0)
    (hdisj : ∀ i j : ℕ, i < 2 * h → j < 2 * h →
      sp + (i : ℤ) * ss ≠ dst + (j : ℤ) * ds)
    (m : Mem) : ∀ cnt : ℕ, cnt ≤ h →
    (∀ i : ℕ, i < cnt →
        dbcF_brp_split (some sp) ss dst ds h cnt m (dst + (i : ℤ) * ds)
          = m (sp + ((2 * i : ℕ) : ℤ) * ss) ∧
        dbcF_brp_split (some sp) ss dst ds h cnt m (dst + ((i : ℤ) + (h : ℕ)) * ds)
          = m (sp + ((2 * i + 1 : ℕ) : ℤ) * ss)) ∧
    (∀ a : ℤ, (∀ j : ℕ, j < 2 * h → a ≠ dst + (j : ℤ) * ds) →
        dbcF_brp_split (some sp) ss dst ds h cnt m a = m a) := by
  intro cnt
  induction cnt with
  | zero =>
    intro _
    exact ⟨fun i hi => absurd hi (by omega), fun a _ => rfl⟩
  | succ c ihc =>
    intro hc
    obtain ⟨ihv, ihf⟩ := ihc (by omega)
    have hread1 : dbcF_brp_split (some sp) ss dst ds h c m (sp + 2 * (c : ℤ) * ss)
        = m (sp + 2 * (c : ℤ) * ss) := by
      apply ihf
      intro j hj
      have e1 : sp + 2 * (c : ℤ) * ss = sp + ((2 * c : ℕ) : ℤ) * ss := by push_cast; ring
      rw [e1]
      exact hdisj (2 * c) j (by omega) hj
    have hne21 : sp + (2 * (c : ℤ) + 1) * ss ≠ dst + (c : ℤ) * ds := by
      have e1 : sp + (2 * (c : ℤ) + 1) * ss = sp + ((2 * c + 1 : ℕ) : ℤ) * ss := by
        push_cast; ring
      rw [e1]
      exact hdisj (2 * c + 1) c (by omega) (by omega)
    have hread2 :
        mset (dbcF_brp_split (some sp) ss dst ds h c m) (dst + (c : ℤ) * ds)
            (dbcF_brp_split (some sp) ss dst ds h c m (sp + 2 * (c : ℤ) * ss))
            (sp + (2 * (c : ℤ) + 1) * ss)
          = m (sp + (2 * (c : ℤ) + 1) * ss) := by
      rw [mset_other _ _ _ hne21]
      apply ihf
      intro j hj
      have e1 : sp + (2 * (c : ℤ) + 1) * ss = sp + ((2 * c + 1 : ℕ) : ℤ) * ss := by
        push_cast; ring
      rw [e1]
      exact hdisj (2 * c + 1) j (by omega) hj
    simp only [dbcF_brp_split, memRead]
    constructor
    · intro i hi
      by_cases hic : i = c
      · subst hic
        constructor
        · rw [mset_other _ _ _ (addr_ne hds (by omega : (i : ℤ) ≠ (i : ℤ) + (h : ℕ))),
            mset_same, hread1]
          congr 1
        · rw [mset_same, hread2]
          congr 1
      · have hilt : i < c := by omega
        constructor
        · rw [mset_other _ _ _ (addr_ne hds (by
              push_cast
              omega : (i : ℤ) ≠ (c : ℤ) + (h : ℕ))),
            mset_other _ _ _ (addr_ne hds (by
              exact_mod_cast hic : (i : ℤ) ≠ (c : ℤ)))]
          exact (ihv i hilt).1
        · rw [mset_other _ _ _ (addr_ne hds (by
              push_cast
              omega : (i : ℤ) + (h : ℕ) ≠ (c : ℤ) + (h : ℕ))),
            mset_other _ _ _ (addr_ne hds (by
              push_cast
              omega : (i : ℤ) + (h : ℕ) ≠ (c : ℤ)))]
          exact (ihv i hilt).2
    · intro a ha
      have hac : a ≠ dst + (c : ℤ) * ds := ha c (by omega)
      have hach : a ≠ dst + ((c : ℤ) + (h : ℕ)) * ds := by
        have e1 : dst + ((c : ℤ) + (h : ℕ)) * ds = dst + ((c + h : ℕ) : ℤ) * ds := by
          push_cast; ring
        rw [e1]
        exact ha (c + h) (by omega)
      rw [mset_other _ _ _ hach, mset_other _ _ _ hac]
      exact ihf a ha

/-! ### Carter–Gatlin tile addressing -/

theorem DBCF_Q_eq : DBCF_Q = 5 := rfl

theorem two_pow_Q_eq : (2 : ℕ) ^ DBCF_Q = 32 := rfl

/-- tmp-buffer index of the Carter–Gatlin tile: `(a<<Q)^c = 32a + c`. -/
theorem cg_tmp_addr {a c : ℕ} (hc : c < 32) : a <<< DBCF_Q ^^^ c = 32 * a + c := by
  have h32 : (2 : ℕ) ^ 5 = 32 := by norm_num
  rw [DBCF_Q_eq, shiftLeft_xor_eq_add (h32.symm ▸ hc), h32]
  ring

/-- Main-array index of the Carter–Gatlin tile: for in-range fields the
xor-composition `(a<<(p−Q))^(b<<Q)^c` is the positional value. -/
theorem cg_addr_eq {p a b c : ℕ} (hp : 10 ≤ p) (ha : a < 32) (hb : b < 2 ^ (p - 10))
    (hc : c < 32) :
    a <<< (p - DBCF_Q) ^^^ b <<< DBCF_Q ^^^ c = a * 2 ^ (p - 5) + b * 32 + c := by
  have h32 : (2 : ℕ) ^ 5 = 32 := by norm_num
  have hsplit : p - 5 = (p - 10) + 5 := by omega
  have hb32 : b <<< 5 = b * 32 := by rw [Nat.shiftLeft_eq, h32]
  have hbc : b <<< 5 < 2 ^ (p - 5) := by
    rw [hb32, hsplit, pow_add, h32]
    omega
  have s1 : a <<< (p - 5) ^^^ b <<< 5 = a * 2 ^ (p - 5) + b * 32 := by
    rw [shiftLeft_xor_eq_add hbc, hb32]
  have hsum : a * 2 ^ (p - 5) + b * 32 = (a * 2 ^ (p - 10) + b) * 2 ^ 5 := by
    rw [hsplit, pow_add, h32]
    ring
  rw [DBCF_Q_eq]
  calc a <<< (p - 5) ^^^ b <<< 5 ^^^ c
      = (a * 2 ^ (p - 5) + b * 32) ^^^ c := by rw [s1]
    _ = (a * 2 ^ (p - 10) + b) <<< 5 ^^^ c := by rw [Nat.shiftLeft_eq, ← hsum]
    _ = (a * 2 ^ (p - 10) + b) * 2 ^ 5 + c := shiftLeft_xor_eq_add (h32.symm ▸ hc)
    _ = a * 2 ^ (p - 5) + b * 32 + c := by rw [← hsum]

/-- Quotient and remainder of `x*E + y` by `E`. -/
theorem mul_add_div_mod {E x y : ℕ} (hE : 0 < E) (hy : y < E) :
    (x * E + y) % E = y ∧ (x * E + y) / E = x := by
  constructor
  · rw [Nat.mul_comm, Nat.mul_add_mod]
    exact Nat.mod_eq_of_lt hy
  · rw [Nat.mul_comm, Nat.mul_add_div hE, Nat.div_eq_of_lt hy]
    omega

/-- Digit extraction for the tile address. -/
theorem cg_digits {p a b c : ℕ} (hp : 10 ≤ p) (ha : a < 32) (hb : b < 2 ^ (p - 10))
    (hc : c < 32) :
    (a * 2 ^ (p - 5) + b * 32 + c) % 32 = c ∧
    (a * 2 ^ (p - 5) + b * 32 + c) / 32 % 2 ^ (p - 10) = b ∧
    (a * 2 ^ (p - 5) + b * 32 + c) / 2 ^ (p - 5) = a := by
  have hsplit2 : (2 : ℕ) ^ (p - 5) = 32 * 2 ^ (p - 10) := by
    rw [show p - 5 = 5 + (p - 10) by omega, pow_add]
    norm_num
  have hS : a * 2 ^ (p - 5) + b * 32 + c = 32 * (a * 2 ^ (p - 10) + b) + c := by
    rw [hsplit2]
    ring
  have h1 : (32 * (a * 2 ^ (p - 10) + b) + c) % 32 = c := by omega
  have h2 : (32 * (a * 2 ^ (p - 10) + b) + c) / 32 = a * 2 ^ (p - 10) + b := by omega
  have h3 := mul_add_div_mod (Nat.two_pow_pos (p - 10)) hb (x := a)
  have h5 : (32 * (a * 2 ^ (p - 10) + b) + c) / 2 ^ (p - 5) = a := by
    rw [hsplit2, ← Nat.div_div_eq_div_mul, h2, h3.2]
  rw [hS]
  exact ⟨h1, by rw [h2, h3.1], h5⟩

/-- The tile address is injective in its three fields. -/
theorem cg_addr_inj {p : ℕ} (hp : 10 ≤ p) {a b c a2 b2 c2 : ℕ}
    (ha : a < 32) (hb : b < 2 ^ (p - 10)) (hc : c < 32)
    (ha2 : a2 < 32) (hb2 : b2 < 2 ^ (p - 10)) (hc2 : c2 < 32)
    (h : a * 2 ^ (p - 5) + b * 32 + c = a2 * 2 ^ (p - 5) + b2 * 32 + c2) :
    a = a2 ∧ b = b2 ∧ c = c2 := by
  obtain ⟨d1, d2, d3⟩ := cg_digits hp ha hb hc
  obtain ⟨e1, e2, e3⟩ := cg_digits hp ha2 hb2 hc2
  rw [h] at d1 d2 d3
  exact ⟨d3.symm.trans e3, d2.symm.trans e2, d1.symm.trans e1⟩

/-- Every index below `2^p` decomposes into tile fields. -/
theorem cg_decomp {p j : ℕ} (hp : 10 ≤ p) (hj : j < 2 ^ p) :
    j / 2 ^ (p - 5) < 32 ∧ j / 32 % 2 ^ (p - 10) < 2 ^ (p - 10) ∧ j % 32 < 32 ∧
      j = j / 2 ^ (p - 5) * 2 ^ (p - 5) + j / 32 % 2 ^ (p - 10) * 32 + j % 32 := by
  have hsplit2 : (2 : ℕ) ^ (p - 5) = 32 * 2 ^ (p - 10) := by
    rw [show p - 5 = 5 + (p - 10) by omega, pow_add]
    norm_num
  have hfull : (2 : ℕ) ^ p = 2 ^ (p - 5) * 32 := by
    rw [show p = (p - 5) + 5 by omega, pow_add]
    norm_num
  refine ⟨?_, Nat.mod_lt _ (Nat.two_pow_pos _), Nat.mod_lt _ (by norm_num), ?_⟩
  · exact Nat.div_lt_of_lt_mul (hfull ▸ hj)
  · have a3 : j / 32 / 2 ^ (p - 10) = j / 2 ^ (p - 5) := by
      rw [Nat.div_div_eq_div_mul, ← hsplit2]
    have a2 : j / 32 = 2 ^ (p - 10) * (j / 2 ^ (p - 5)) + j / 32 % 2 ^ (p - 10) := by
      conv_lhs => rw [← Nat.div_add_mod (j / 32) (2 ^ (p - 10))]
      rw [a3]
    have a4 : j / 2 ^ (p - 5) * 2 ^ (p - 5)
        = 32 * (2 ^ (p - 10) * (j / 2 ^ (p - 5))) := by
      rw [hsplit2]
      ring
    omega

/-- The tile address stays below `2^p`. -/
theorem cg_addr_lt {p a b c : ℕ} (hp : 10 ≤ p) (ha : a < 32) (hb : b < 2 ^ (p - 10))
    (hc : c < 32) : a * 2 ^ (p - 5) + b * 32 + c < 2 ^ p := by
  have hsplit2 : (2 : ℕ) ^ (p - 5) = 32 * 2 ^ (p - 10) := by
    rw [show p - 5 = 5 + (p - 10) by omega, pow_add]
    norm_num
  have h4 : (2 : ℕ) ^ p = 32 * 2 ^ (p - 5) := by
    rw [show p = 5 + (p - 5) by omega, pow_add]
    norm_num
  have h1 : a * 2 ^ (p - 5) ≤ 31 * 2 ^ (p - 5) :=
    Nat.mul_le_mul_right _ (by omega)
  omega

/-- Bit reversal acts on the tile address by reversing each field and swapping
the outer two. -/
theorem bitrev_cg {p a b c : ℕ} (hp : 10 ≤ p) (ha : a < 32) (hb : b < 2 ^ (p - 10))
    (hc : c < 32) :
    bitrev p (a * 2 ^ (p - 5) + b * 32 + c)
      = bitrev 5 c * 2 ^ (p - 5) + bitrev (p - 10) b * 32 + bitrev 5 a := by
  have h32 : (2 : ℕ) ^ 5 = 32 := by norm_num
  have hsplit2 : (2 : ℕ) ^ (p - 5) = 32 * 2 ^ (p - 10) := by
    rw [show p - 5 = 5 + (p - 10) by omega, pow_add]
    norm_num
  obtain ⟨d1, d2, d3⟩ := cg_digits hp ha hb hc
  have hS32 : (a * 2 ^ (p - 5) + b * 32 + c) / 32 = a * 2 ^ (p - 10) + b := by
    have e : a * 2 ^ (p - 5) = 32 * (a * 2 ^ (p - 10)) := by
      rw [hsplit2]
      ring
    omega
  have s1 := bitrev_split 5 (p - 5) (a * 2 ^ (p - 5) + b * 32 + c)
  rw [show 5 + (p - 5) = p by omega] at s1
  rw [h32] at s1
  rw [s1, d1, hS32]
  have s2 := bitrev_split (p - 10) 5 (a * 2 ^ (p - 10) + b)
  rw [show (p - 10) + 5 = p - 5 by omega] at s2
  have h6 := mul_add_div_mod (Nat.two_pow_pos (p - 10)) hb (x := a)
  rw [s2, h6.1, h6.2, h32]
  ring

/-- Distinct tile coordinates give distinct destination addresses. -/
theorem cg_mem_ne {p : ℕ} (hp : 10 ≤ p) {ds : ℤ} (hds : ds ≠ 0) {dst : ℤ}
    {a b c a2 b2 c2 : ℕ} (ha : a < 32) (hb : b < 2 ^ (p - 10)) (hc : c < 32)
    (ha2 : a2 < 32) (hb2 : b2 < 2 ^ (p - 10)) (hc2 : c2 < 32)
    (hne : ¬ (a = a2 ∧ b = b2 ∧ c = c2)) :
    dst + ((a * 2 ^ (p - 5) + b * 32 + c : ℕ) : ℤ) * ds
      ≠ dst + ((a2 * 2 ^ (p - 5) + b2 * 32 + c2 : ℕ) : ℤ) * ds := by
  apply addr_inj hds
  intro hEq
  exact hne (cg_addr_inj hp ha hb hc ha2 hb2 hc2 hEq)

/-- Carter–Gatlin load, inner loop: copies one row of the tile into `tmp`. -/
theorem dbcF_cg_load_c_spec (p : ℕ) (dst ds : ℤ) (mem : Mem) (b a : ℕ)
    (hp : 10 ≤ p) (ha : a < 32) (hb : b < 2 ^ (p - 10)) (tmp : Mem) :
    ∀ cnt : ℕ, cnt ≤ 32 →
    (∀ c : ℕ, c < cnt →
        dbcF_cg_load_c p dst ds mem b a cnt tmp ((32 * a + c : ℕ) : ℤ)
          = mem (dst + ((a * 2 ^ (p - 5) + b * 32 + c : ℕ) : ℤ) * ds)) ∧
    (∀ t : ℤ, (∀ c : ℕ, c < cnt → t ≠ ((32 * a + c : ℕ) : ℤ)) →
        dbcF_cg_load_c p dst ds mem b a cnt tmp t = tmp t) := by
  intro cnt
  induction cnt with
  | zero => exact fun _ => ⟨fun c hc => absurd hc (by omega), fun t _ => rfl⟩
  | succ k ihc =>
    intro hk
    obtain ⟨ihv, ihf⟩ := ihc (by omega)
    have hkc : k < 32 := by omega
    have e1 : (a <<< DBCF_Q ^^^ k : ℕ) = 32 * a + k := cg_tmp_addr hkc
    have e2 : (a <<< (p - DBCF_Q) ^^^ b <<< DBCF_Q ^^^ k : ℕ)
        = a * 2 ^ (p - 5) + b * 32 + k := cg_addr_eq hp ha hb hkc
    simp only [dbcF_cg_load_c, e1, e2]
    constructor
    · intro c hc
      by_cases hck : c = k
      · subst hck
        rw [mset_same]
      · rw [mset_other _ _ _ (by
            intro hEq
            apply hck
            have h3 : (32 * a + c : ℕ) = ((32 * a + k : ℕ) : ℕ) := by exact_mod_cast hEq
            omega)]
        exact ihv c (by omega)
    · intro t ht
      rw [mset_other _ _ _ (ht k (by omega))]
      exact ihf t (fun c hc => ht c (by omega))

/-- Carter–Gatlin load, outer loop: copies the whole tile into `tmp`. -/
theorem dbcF_cg_load_a_spec (p : ℕ) (dst ds : ℤ) (mem : Mem) (b : ℕ)
    (hp : 10 ≤ p) (hb : b < 2 ^ (p - 10)) (tmp : Mem) :
    ∀ cnt : ℕ, cnt ≤ 32 →
    (∀ a c : ℕ, a < cnt → c < 32 →
        dbcF_cg_load_a p dst ds mem b cnt tmp ((32 * a + c : ℕ) : ℤ)
          = mem (dst + ((a * 2 ^ (p - 5) + b * 32 + c : ℕ) : ℤ) * ds)) ∧
    (∀ t : ℤ, (∀ a c : ℕ, a < cnt → c < 32 → t ≠ ((32 * a + c : ℕ) : ℤ)) →
        dbcF_cg_load_a p dst ds mem b cnt tmp t = tmp t) := by
  intro cnt
  induction cnt with
  | zero => exact fun _ => ⟨fun a c ha _ => absurd ha (by omega), fun t _ => rfl⟩
  | succ k ihs =>
    intro hk
    obtain ⟨ihv, ihf⟩ := ihs (by omega)
    have hkc : k < 32 := by omega
    obtain ⟨lv, lf⟩ := dbcF_cg_load_c_spec p dst ds mem b k hp hkc hb
      (dbcF_cg_load_a p dst ds mem b k tmp) 32 le_rfl
    simp only [dbcF_cg_load_a, two_pow_Q_eq]
    constructor
    · intro a c haa hcc
      by_cases hak : a = k
      · subst hak
        exact lv c hcc
      · rw [lf _ (by
            intro c' hc' hEq
            have h3 : (32 * a + c : ℕ) = ((32 * k + c' : ℕ) : ℕ) := by exact_mod_cast hEq
            omega)]
        exact ihv a c (by omega) hcc
    · intro t ht
      rw [lf t (fun c' hc' => ht k c' (by omega) hc')]
      exact ihf t (fun a c ha hc => ht a c (by omega) hc)

theorem prod_fst_eq {α β : Type} (x : α) (y : β) : (x, y).1 = x := rfl

theorem prod_snd_eq {α β : Type} (x : α) (y : β) : (x, y).2 = y := rfl

/-- Carter–Gatlin swap, inner loop: exchanges one reversed row of the mirror
tile with the corresponding `tmp` row. -/
theorem dbcF_cg_swap_a_spec (p : ℕ) (dst ds : ℤ) (hds : ds ≠ 0) (ib ic c : ℕ)
    (hp : 10 ≤ p) (hic : ic < 32) (hib : ib < 2 ^ (p - 10)) (hc : c < 32)
    (st : Mem × Mem) : ∀ cnt : ℕ, cnt ≤ 32 →
    (∀ a : ℕ, a < cnt →
        (dbcF_cg_swap_a p dst ds ib ic c cnt st).1
            (dst + ((ic * 2 ^ (p - 5) + ib * 32 + bitrev 5 a : ℕ) : ℤ) * ds)
          = st.2 ((32 * a + c : ℕ) : ℤ) ∧
        (dbcF_cg_swap_a p dst ds ib ic c cnt st).2 ((32 * a + c : ℕ) : ℤ)
          = st.1 (dst + ((ic * 2 ^ (p - 5) + ib * 32 + bitrev 5 a : ℕ) : ℤ) * ds)) ∧
    (∀ x : ℤ, (∀ a : ℕ, a < cnt →
          x ≠ dst + ((ic * 2 ^ (p - 5) + ib * 32 + bitrev 5 a : ℕ) : ℤ) * ds) →
        (dbcF_cg_swap_a p dst ds ib ic c cnt st).1 x = st.1 x) ∧
    (∀ t : ℤ, (∀ a : ℕ, a < cnt → t ≠ ((32 * a + c : ℕ) : ℤ)) →
        (dbcF_cg_swap_a p dst ds ib ic c cnt st).2 t = st.2 t) := by
  intro cnt
  induction cnt with
  | zero =>
    exact fun _ => ⟨fun a ha => absurd ha (by omega), fun x _ => rfl, fun t _ => rfl⟩
  | succ k ihs =>
    intro hk
    obtain ⟨ihv, ihf1, ihf2⟩ := ihs (by omega)
    have hkc : k < 32 := by omega
    have h32 : (2 : ℕ) ^ 5 = 32 := by norm_num
    have hia : dbcF_bitreverse k DBCF_Q = bitrev 5 k := by
      rw [DBCF_Q_eq]
      exact dbcF_bitreverse_eq_bitrev 5 k (h32.symm ▸ hkc)
    have hrevk : bitrev 5 k < 32 := h32 ▸ bitrev_lt 5 k
    have e2 : (ic <<< (p - DBCF_Q) ^^^ ib <<< DBCF_Q ^^^ bitrev 5 k : ℕ)
        = ic * 2 ^ (p - 5) + ib * 32 + bitrev 5 k := cg_addr_eq hp hic hib hrevk
    have e1 : (k <<< DBCF_Q ^^^ c : ℕ) = 32 * k + c := cg_tmp_addr hc
    have hmemne : ∀ a' : ℕ, a' < 32 → a' ≠ k →
        dst + ((ic * 2 ^ (p - 5) + ib * 32 + bitrev 5 a' : ℕ) : ℤ) * ds
          ≠ dst + ((ic * 2 ^ (p - 5) + ib * 32 + bitrev 5 k : ℕ) : ℤ) * ds := by
      intro a' ha32 hne
      refine cg_mem_ne hp hds hic hib (h32 ▸ bitrev_lt 5 a') hic hib hrevk ?_
      rintro ⟨-, -, hEq⟩
      refine hne (bitrev_inj ?_ ?_ hEq) <;> rw [h32] <;> omega
    simp only [dbcF_cg_swap_a, hia, e2, e1, prod_fst_eq, prod_snd_eq]
    refine ⟨?_, ?_, ?_⟩
    · intro a ha
      by_cases hak : a = k
      · subst hak
        constructor
        · rw [mset_same]
          refine ihf2 _ ?_
          intro a' ha'
          intro hEq
          have h3 : (32 * a + c : ℕ) = (32 * a' + c : ℕ) := by exact_mod_cast hEq
          omega
        · rw [mset_same]
          refine ihf1 _ ?_
          intro a' ha'
          exact (hmemne a' (by omega) (by omega)).symm
      · have halt : a < k := by omega
        constructor
        · rw [mset_other _ _ _ (hmemne a (by omega) hak)]
          exact (ihv a halt).1
        · rw [mset_other _ _ _ (by
            intro hEq
            have h3 : (32 * a + c : ℕ) = (32 * k + c : ℕ) := by exact_mod_cast hEq
            omega)]
          exact (ihv a halt).2
    · intro x hx
      rw [mset_other _ _ _ (hx k (by omega))]
      exact ihf1 x (fun a' ha' => hx a' (by omega))
    · intro t ht
      rw [mset_other _ _ _ (ht k (by omega))]
      exact ihf2 t (fun a' ha' => ht a' (by omega))

/-- Carter–Gatlin swap, outer loop: exchanges the whole (reversed) mirror tile
with `tmp`. -/
theorem dbcF_cg_swap_c_spec (p : ℕ) (dst ds : ℤ) (hds : ds ≠ 0) (ib : ℕ)
    (hp : 10 ≤ p) (hib : ib < 2 ^ (p - 10)) (st : Mem × Mem) :
    ∀ cnt : ℕ, cnt ≤ 32 →
    (∀ a c : ℕ, a < 32 → c < cnt →
        (dbcF_cg_swap_c p dst ds ib cnt st).1
            (dst + ((bitrev 5 c * 2 ^ (p - 5) + ib * 32 + bitrev 5 a : ℕ) : ℤ) * ds)
          = st.2 ((32 * a + c : ℕ) : ℤ) ∧
        (dbcF_cg_swap_c p dst ds ib cnt st).2 ((32 * a + c : ℕ) : ℤ)
          = st.1 (dst + ((bitrev 5 c * 2 ^ (p - 5) + ib * 32 + bitrev 5 a : ℕ) : ℤ) * ds)) ∧
    (∀ x : ℤ, (∀ a c : ℕ, a < 32 → c < cnt →
          x ≠ dst + ((bitrev 5 c * 2 ^ (p - 5) + ib * 32 + bitrev 5 a : ℕ) : ℤ) * ds) →
        (dbcF_cg_swap_c p dst ds ib cnt st).1 x = st.1 x) ∧
    (∀ t : ℤ, (∀ a c : ℕ, a < 32 → c < cnt → t ≠ ((32 * a + c : ℕ) : ℤ)) →
        (dbcF_cg_swap_c p dst ds ib cnt st).2 t = st.2 t) := by
  intro cnt
  induction cnt with
  | zero =>
    exact fun _ => ⟨fun a c _ hc => absurd hc (by omega), fun x _ => rfl, fun t _ => rfl⟩
  | succ k ihs =>
    intro hk
    obtain ⟨ihv, ihf1, ihf2⟩ := ihs (by omega)
    have hkc : k < 32 := by omega
    have h32 : (2 : ℕ) ^ 5 = 32 := by norm_num
    have hick : dbcF_bitreverse k DBCF_Q = bitrev 5 k := by
      rw [DBCF_Q_eq]
      exact dbcF_bitreverse_eq_bitrev 5 k (h32.symm ▸ hkc)
    have hrevk : bitrev 5 k < 32 := h32 ▸ bitrev_lt 5 k
    obtain ⟨sv, sf1, sf2⟩ := dbcF_cg_swap_a_spec p dst ds hds ib (bitrev 5 k) k hp hrevk
      hib hkc (dbcF_cg_swap_c p dst ds ib k st) 32 le_rfl
    have hrowne : ∀ a' c' : ℕ, a' < 32 → c' < 32 → c' ≠ k →
        dst + ((bitrev 5 c' * 2 ^ (p - 5) + ib * 32 + bitrev 5 a' : ℕ) : ℤ) * ds
          ≠ dst + ((bitrev 5 k * 2 ^ (p - 5) + ib * 32 + bitrev 5 a' : ℕ) : ℤ) * ds :=
      fun a' c' ha' hc' hne => by
        refine cg_mem_ne hp hds (h32 ▸ bitrev_lt 5 c') hib (h32 ▸ bitrev_lt 5 a')
          hrevk hib (h32 ▸ bitrev_lt 5 a') ?_
        rintro ⟨hEq, -, -⟩
        refine hne (bitrev_inj ?_ ?_ hEq) <;> rw [h32] <;> omega
    simp only [dbcF_cg_swap_c, hick, two_pow_Q_eq]
    refine ⟨?_, ?_, ?_⟩
    · intro a c' ha hc'
      by_cases hck : c' = k
      · subst hck
        constructor
        · refine ((sv a ha).1).trans (ihf2 _ ?_)
          intro a2 c2 ha2 hc2
          intro hEq
          have h3 : (32 * a + c' : ℕ) = (32 * a2 + c2 : ℕ) := by exact_mod_cast hEq
          omega
        · refine ((sv a ha).2).trans (ihf1 _ ?_)
          intro a2 c2 ha2 hc2
          refine cg_mem_ne hp hds hrevk hib (h32 ▸ bitrev_lt 5 a)
            (h32 ▸ bitrev_lt 5 c2) hib (h32 ▸ bitrev_lt 5 a2) ?_
          rintro ⟨hEq, -, -⟩
          have h4 : c' = c2 := by
            refine bitrev_inj ?_ ?_ hEq <;> rw [h32] <;> omega
          omega
      · have hclt : c' < k := by omega
        constructor
        · rw [sf1 _ (fun a2 ha2 => by
              refine cg_mem_ne hp hds (h32 ▸ bitrev_lt 5 c') hib (h32 ▸ bitrev_lt 5 a)
                hrevk hib (h32 ▸ bitrev_lt 5 a2) ?_
              rintro ⟨hEq, -, -⟩
              exact hck (bitrev_inj (by rw [h32]; omega) (by rw [h32]; omega) hEq))]
          exact (ihv a c' ha hclt).1
        · rw [sf2 ((32 * a + c' : ℕ) : ℤ) (fun a2 ha2 => by
              intro hEq
              have h3 : (32 * a + c' : ℕ) = (32 * a2 + k : ℕ) := by exact_mod_cast hEq
              omega)]
          exact (ihv a c' ha hclt).2
    · intro x hx
      rw [sf1 x (fun a2 ha2 => hx a2 k ha2 (by omega))]
      exact ihf1 x (fun a2 c2 ha2 hc2 => hx a2 c2 ha2 (by omega))
    · intro t ht
      rw [sf2 t (fun a2 ha2 => ht a2 k ha2 (by omega))]
      exact ihf2 t (fun a2 c2 ha2 hc2 => ht a2 c2 ha2 (by omega))

/-- Carter–Gatlin write-back, inner loop. -/
theorem dbcF_cg_store_c_spec (p : ℕ) (dst ds : ℤ) (hds : ds ≠ 0) (tmp : Mem) (b a : ℕ)
    (hp : 10 ≤ p) (ha : a < 32) (hb : b < 2 ^ (p - 10)) (mem : Mem) :
    ∀ cnt : ℕ, cnt ≤ 32 →
    (∀ c : ℕ, c < cnt →
        dbcF_cg_store_c p dst ds tmp b a cnt mem
            (dst + ((a * 2 ^ (p - 5) + b * 32 + c : ℕ) : ℤ) * ds)
          = tmp ((32 * a + c : ℕ) : ℤ)) ∧
    (∀ x : ℤ, (∀ c : ℕ, c < cnt →
          x ≠ dst + ((a * 2 ^ (p - 5) + b * 32 + c : ℕ) : ℤ) * ds) →
        dbcF_cg_store_c p dst ds tmp b a cnt mem x = mem x) := by
  intro cnt
  induction cnt with
  | zero => exact fun _ => ⟨fun c hc => absurd hc (by omega), fun x _ => rfl⟩
  | succ k ihc =>
    intro hk
    obtain ⟨ihv, ihf⟩ := ihc (by omega)
    have hkc : k < 32 := by omega
    have e1 : (a <<< DBCF_Q ^^^ k : ℕ) = 32 * a + k := cg_tmp_addr hkc
    have e2 : (a <<< (p - DBCF_Q) ^^^ b <<< DBCF_Q ^^^ k : ℕ)
        = a * 2 ^ (p - 5) + b * 32 + k := cg_addr_eq hp ha hb hkc
    simp only [dbcF_cg_store_c, e1, e2]
    constructor
    · intro c hc
      by_cases hck : c = k
      · subst hck
        rw [mset_same]
      · rw [mset_other _ _ _ (cg_mem_ne hp hds ha hb (by omega) ha hb hkc (by
            rintro ⟨-, -, hEq⟩
            exact hck hEq))]
        exact ihv c (by omega)
    · intro x hx
      rw [mset_other _ _ _ (hx k (by omega))]
      exact ihf x (fun c hc => hx c (by omega))

/-- Carter–Gatlin write-back, outer loop: stores the whole tile. -/
theorem dbcF_cg_store_a_spec (p : ℕ) (dst ds : ℤ) (hds : ds ≠ 0) (tmp : Mem) (b : ℕ)
    (hp : 10 ≤ p) (hb : b < 2 ^ (p - 10)) (mem : Mem) :
    ∀ cnt : ℕ, cnt ≤ 32 →
    (∀ a c : ℕ, a < cnt → c < 32 →
        dbcF_cg_store_a p dst ds tmp b cnt mem
            (dst + ((a * 2 ^ (p - 5) + b * 32 + c : ℕ) : ℤ) * ds)
          = tmp ((32 * a + c : ℕ) : ℤ)) ∧
    (∀ x : ℤ, (∀ a c : ℕ, a < cnt → c < 32 →
          x ≠ dst + ((a * 2 ^ (p - 5) + b * 32 + c : ℕ) : ℤ) * ds) →
        dbcF_cg_store_a p dst ds tmp b cnt mem x = mem x) := by
  intro cnt
  induction cnt with
  | zero => exact fun _ => ⟨fun a c ha _ => absurd ha (by omega), fun x _ => rfl⟩
  | succ k ihs =>
    intro hk
    obtain ⟨ihv, ihf⟩ := ihs (by omega)
    have hkc : k < 32 := by omega
    obtain ⟨lv, lf⟩ := dbcF_cg_store_c_spec p dst ds hds tmp b k hp hkc hb
      (dbcF_cg_store_a p dst ds tmp b k mem) 32 le_rfl
    simp only [dbcF_cg_store_a, two_pow_Q_eq]
    constructor
    · intro a c haa hcc
      by_cases hak : a = k
      · subst hak
        exact lv c hcc
      · rw [lf _ (fun c' hc' => cg_mem_ne hp hds (by omega) hb hcc hkc hb hc' (by
            rintro ⟨hEq, -, -⟩
            exact hak hEq))]
        exact ihv a c (by omega) hcc
    · intro x hx
      rw [lf x (fun c' hc' => hx k c' (by omega) hc')]
      exact ihf x (fun a c ha hc => hx a c (by omega) hc)

/-- A Carter–Gatlin iteration with `rev(b) < b` does nothing. -/
theorem dbcF_cg_body_skip (p log2m : ℕ) (dst ds : ℤ) (b : ℕ)
    (h : dbcF_bitreverse b log2m < b) (st : Mem × Mem) :
    dbcF_cg_body p log2m dst ds b st = st := by
  simp only [dbcF_cg_body]
  rw [if_pos h]

/-- An executed Carter–Gatlin iteration bit-reverses the two mirror tiles of
middle index `b` and `rev(b)` and leaves the rest of the array untouched. -/
theorem dbcF_cg_body_spec (p : ℕ) (dst ds : ℤ) (hds : ds ≠ 0) (hp : 10 ≤ p)
    (b : ℕ) (hb : b < 2 ^ (p - 10))
    (hskip : ¬ dbcF_bitreverse b (p - 10) < b) (st : Mem × Mem) :
    (∀ a c : ℕ, a < 32 → c < 32 →
        (dbcF_cg_body p (p - 10) dst ds b st).1
            (dst + ((a * 2 ^ (p - 5) + b * 32 + c : ℕ) : ℤ) * ds)
          = st.1 (dst +
              ((bitrev 5 c * 2 ^ (p - 5) + bitrev (p - 10) b * 32 + bitrev 5 a : ℕ) : ℤ) * ds) ∧
        (dbcF_cg_body p (p - 10) dst ds b st).1
            (dst + ((a * 2 ^ (p - 5) + bitrev (p - 10) b * 32 + c : ℕ) : ℤ) * ds)
          = st.1 (dst + ((bitrev 5 c * 2 ^ (p - 5) + b * 32 + bitrev 5 a : ℕ) : ℤ) * ds)) ∧
    (∀ x : ℤ, (∀ a c : ℕ, a < 32 → c < 32 →
          x ≠ dst + ((a * 2 ^ (p - 5) + b * 32 + c : ℕ) : ℤ) * ds ∧
          x ≠ dst + ((a * 2 ^ (p - 5) + bitrev (p - 10) b * 32 + c : ℕ) : ℤ) * ds) →
        (dbcF_cg_body p (p - 10) dst ds b st).1 x = st.1 x) := by
  have h32 : (2 : ℕ) ^ 5 = 32 := by norm_num
  have hibeq : dbcF_bitreverse b (p - 10) = bitrev (p - 10) b :=
    dbcF_bitreverse_eq_bitrev (p - 10) b hb
  have hib : bitrev (p - 10) b < 2 ^ (p - 10) := bitrev_lt _ _
  have hskip' : ¬ bitrev (p - 10) b < b := by rwa [hibeq] at hskip
  have hblt : ∀ u : ℕ, bitrev 5 u < 32 := fun u => h32 ▸ bitrev_lt 5 u
  have hbb : ∀ u : ℕ, u < 32 → bitrev 5 (bitrev 5 u) = u := fun u hu =>
    bitrev_bitrev (h32.symm ▸ hu)
  obtain ⟨lv, lf⟩ := dbcF_cg_load_a_spec p dst ds st.1 b hp hb st.2 32 le_rfl
  obtain ⟨sv, sf1, sf2⟩ := dbcF_cg_swap_c_spec p dst ds hds (bitrev (p - 10) b) hp hib
    (st.1, dbcF_cg_load_a p dst ds st.1 b 32 st.2) 32 le_rfl
  simp only [dbcF_cg_body, hibeq, two_pow_Q_eq, prod_fst_eq, prod_snd_eq]
  rw [if_neg hskip']
  by_cases hbib : b = bitrev (p - 10) b
  · rw [if_neg (not_not_intro hbib), ← hbib]
    rw [← hbib] at sv sf1
    constructor
    · intro a c ha hc
      have h1 := (sv (bitrev 5 c) (bitrev 5 a) (hblt c) (hblt a)).1
      rw [hbb c hc, hbb a ha] at h1
      have h2 := lv (bitrev 5 c) (bitrev 5 a) (hblt c) (hblt a)
      exact ⟨h1.trans h2, h1.trans h2⟩
    · intro x hx
      exact sf1 x (fun a2 c2 ha2 hc2 => (hx (bitrev 5 c2) (bitrev 5 a2)
        (hblt c2) (hblt a2)).1)
  · rw [if_pos (Ne.symm (fun h => hbib h.symm))]
    obtain ⟨stv, stf⟩ := dbcF_cg_store_a_spec p dst ds hds
      (dbcF_cg_swap_c p dst ds (bitrev (p - 10) b) 32
        (st.1, dbcF_cg_load_a p dst ds st.1 b 32 st.2)).2 b hp hb
      (dbcF_cg_swap_c p dst ds (bitrev (p - 10) b) 32
        (st.1, dbcF_cg_load_a p dst ds st.1 b 32 st.2)).1 32 le_rfl
    constructor
    · intro a c ha hc
      constructor
      · exact (stv a c ha hc).trans ((sv a c ha hc).2)
      · have hstf : dbcF_cg_store_a p dst ds
            (dbcF_cg_swap_c p dst ds (bitrev (p - 10) b) 32
              (st.1, dbcF_cg_load_a p dst ds st.1 b 32 st.2)).2 b 32
            (dbcF_cg_swap_c p dst ds (bitrev (p - 10) b) 32
              (st.1, dbcF_cg_load_a p dst ds st.1 b 32 st.2)).1
            (dst + ((a * 2 ^ (p - 5) + bitrev (p - 10) b * 32 + c : ℕ) : ℤ) * ds)
            = (dbcF_cg_swap_c p dst ds (bitrev (p - 10) b) 32
              (st.1, dbcF_cg_load_a p dst ds st.1 b 32 st.2)).1
              (dst + ((a * 2 ^ (p - 5) + bitrev (p - 10) b * 32 + c : ℕ) : ℤ) * ds) := by
          refine stf _ ?_
          intro a2 c2 ha2 hc2
          refine cg_mem_ne hp hds ha hib hc ha2 hb hc2 ?_
          rintro ⟨-, hEq, -⟩
          exact hbib hEq.symm
        have h1 := (sv (bitrev 5 c) (bitrev 5 a) (hblt c) (hblt a)).1
        rw [hbb c hc, hbb a ha] at h1
        have h2 := lv (bitrev 5 c) (bitrev 5 a) (hblt c) (hblt a)
        exact hstf.trans (h1.trans h2)
    · intro x hx
      have hstf : ∀ a2 c2 : ℕ, a2 < 32 → c2 < 32 →
          x ≠ dst + ((a2 * 2 ^ (p - 5) + b * 32 + c2 : ℕ) : ℤ) * ds :=
        fun a2 c2 ha2 hc2 => (hx a2 c2 ha2 hc2).1
      refine (stf x hstf).trans (sf1 x ?_)
      intro a2 c2 ha2 hc2
      exact (hx (bitrev 5 c2) (bitrev 5 a2) (hblt c2) (hblt a2)).2

/-- The Carter–Gatlin middle loop: after `B` iterations every index whose
middle field or reversed middle field is below `B` holds the bit-reversed
datum; every other index, and everything outside the array, is untouched. -/
theorem dbcF_cg_loop_spec (p : ℕ) (dst ds : ℤ) (hds : ds ≠ 0) (hp : 10 ≤ p)
    (st : Mem × Mem) : ∀ B : ℕ, B ≤ 2 ^ (p - 10) →
    (∀ j : ℕ, j < 2 ^ p →
        ((j / 32 % 2 ^ (p - 10) < B ∨ bitrev (p - 10) (j / 32 % 2 ^ (p - 10)) < B) →
          (dbcF_cg_loop p (p - 10) dst ds B st).1 (dst + (j : ℤ) * ds)
            = st.1 (dst + (bitrev p j : ℤ) * ds)) ∧
        (¬ (j / 32 % 2 ^ (p - 10) < B ∨ bitrev (p - 10) (j / 32 % 2 ^ (p - 10)) < B) →
          (dbcF_cg_loop p (p - 10) dst ds B st).1 (dst + (j : ℤ) * ds)
            = st.1 (dst + (j : ℤ) * ds))) ∧
    (∀ x : ℤ, (∀ i : ℕ, i < 2 ^ p → x ≠ dst + (i : ℤ) * ds) →
        (dbcF_cg_loop p (p - 10) dst ds B st).1 x = st.1 x) := by
  intro B
  induction B with
  | zero =>
    intro _
    exact ⟨fun j hj => ⟨fun hc => absurd hc (by omega), fun _ => rfl⟩, fun x _ => rfl⟩
  | succ k ihB =>
    intro hk
    obtain ⟨ihv, ihf⟩ := ihB (by omega)
    have hkm : k < 2 ^ (p - 10) := by omega
    have h32 : (2 : ℕ) ^ 5 = 32 := by norm_num
    have hblt : ∀ u : ℕ, bitrev 5 u < 32 := fun u => h32 ▸ bitrev_lt 5 u
    have hibk_eq : dbcF_bitreverse k (p - 10) = bitrev (p - 10) k :=
      dbcF_bitreverse_eq_bitrev _ _ hkm
    have hrevk : bitrev (p - 10) k < 2 ^ (p - 10) := bitrev_lt _ _
    have hrevrevk : bitrev (p - 10) (bitrev (p - 10) k) = k := bitrev_bitrev hkm
    simp only [dbcF_cg_loop]
    by_cases hskip : dbcF_bitreverse k (p - 10) < k
    · rw [dbcF_cg_body_skip p (p - 10) dst ds k hskip]
      have hibk_lt : bitrev (p - 10) k < k := by rwa [hibk_eq] at hskip
      constructor
      · intro j hj
        have hjm : j / 32 % 2 ^ (p - 10) < 2 ^ (p - 10) :=
          Nat.mod_lt _ (Nat.two_pow_pos _)
        constructor
        · intro hc
          refine (ihv j hj).1 ?_
          rcases hc with hc | hc
          · by_cases hbk : j / 32 % 2 ^ (p - 10) = k
            · right
              rw [hbk]
              exact hibk_lt
            · left; omega
          · by_cases hbk : bitrev (p - 10) (j / 32 % 2 ^ (p - 10)) = k
            · left
              have h2 : j / 32 % 2 ^ (p - 10) = bitrev (p - 10) k := by
                rw [← hbk, bitrev_bitrev hjm]
              omega
            · right
              omega
        · intro hc
          refine (ihv j hj).2 ?_
          intro hold
          exact hc (by rcases hold with h | h
                       · exact Or.inl (by omega)
                       · exact Or.inr (by omega))
      · exact ihf
    · have hskip2 : ¬ bitrev (p - 10) k < k := by rwa [hibk_eq] at hskip
      obtain ⟨bv, bf⟩ := dbcF_cg_body_spec p dst ds hds hp k hkm hskip
        (dbcF_cg_loop p (p - 10) dst ds k st)
      constructor
      · intro j hj
        obtain ⟨a, b2, c, ha, hb2, hc, rfl⟩ : ∃ a b2 c, a < 32 ∧ b2 < 2 ^ (p - 10) ∧
            c < 32 ∧ j = a * 2 ^ (p - 5) + b2 * 32 + c := by
          obtain ⟨h1, h2, h3, h4⟩ := cg_decomp hp hj
          exact ⟨_, _, _, h1, h2, h3, h4⟩
        have hmid : (a * 2 ^ (p - 5) + b2 * 32 + c) / 32 % 2 ^ (p - 10) = b2 :=
          (cg_digits hp ha hb2 hc).2.1
        have ihvj := ihv _ hj
        rw [hmid] at ihvj
        rw [hmid]
        constructor
        · intro hc2
          by_cases hold : b2 < k ∨ bitrev (p - 10) b2 < k
          · have hb2k : b2 ≠ k := by
              intro hEq
              subst hEq
              rcases hold with h | h
              · omega
              · exact hskip2 h
            have hb2rk : b2 ≠ bitrev (p - 10) k := by
              intro hEq
              rw [hEq] at hold
              rcases hold with h | h
              · exact hskip2 h
              · rw [hrevrevk] at h
                omega
            refine (bf _ ?_).trans (ihvj.1 hold)
            intro a2 c2 ha2 hc2'
            constructor
            · exact cg_mem_ne hp hds ha hb2 hc ha2 hkm hc2' (by
                rintro ⟨-, hEq, -⟩
                exact hb2k hEq)
            · exact cg_mem_ne hp hds ha hb2 hc ha2 hrevk hc2' (by
                rintro ⟨-, hEq, -⟩
                exact hb2rk hEq)
          · obtain ⟨h1, h2⟩ := not_or.mp hold
            have hcase : b2 = k ∨ b2 = bitrev (p - 10) k := by
              rcases hc2 with h | h
              · left; omega
              · right
                have hEq : bitrev (p - 10) b2 = k := by omega
                rw [← hEq, bitrev_bitrev hb2]
            rcases hcase with hEq | hEq
            · subst hEq
              have hv1 := (bv a c ha hc).1
              have hj2 : bitrev 5 c * 2 ^ (p - 5) + bitrev (p - 10) b2 * 32 + bitrev 5 a
                  < 2 ^ p := cg_addr_lt hp (hblt c) hrevk (hblt a)
              have ihv2 := (ihv _ hj2).2
              rw [(cg_digits hp (hblt c) hrevk (hblt a)).2.1] at ihv2
              have hv2 := ihv2 (by
                intro hcon
                rcases hcon with h | h
                · exact hskip2 h
                · rw [hrevrevk] at h
                  omega)
              rw [bitrev_cg hp ha hkm hc]
              exact hv1.trans hv2
            · subst hEq
              have hv1 := (bv a c ha hc).2
              have hj2 : bitrev 5 c * 2 ^ (p - 5) + k * 32 + bitrev 5 a < 2 ^ p :=
                cg_addr_lt hp (hblt c) hkm (hblt a)
              have ihv2 := (ihv _ hj2).2
              rw [(cg_digits hp (hblt c) hkm (hblt a)).2.1] at ihv2
              have hv2 := ihv2 (by
                intro hcon
                rcases hcon with h | h
                · omega
                · exact hskip2 h)
              have h3 := bitrev_cg hp ha hrevk hc
              rw [hrevrevk] at h3
              rw [h3]
              exact hv1.trans hv2
        · intro hc2
          obtain ⟨h1, h2⟩ := not_or.mp hc2
          have hb2k : b2 ≠ k := by omega
          have hb2rk : b2 ≠ bitrev (p - 10) k := by
            intro hEq
            rw [hEq, hrevrevk] at h2
            omega
          refine (bf _ ?_).trans (ihvj.2 (by
            intro hcon
            rcases hcon with h | h
            · omega
            · omega))
          intro a2 c2 ha2 hc2'
          constructor
          · exact cg_mem_ne hp hds ha hb2 hc ha2 hkm hc2' (by
              rintro ⟨-, hEq, -⟩
              exact hb2k hEq)
          · exact cg_mem_ne hp hds ha hb2 hc ha2 hrevk hc2' (by
              rintro ⟨-, hEq, -⟩
              exact hb2rk hEq)
      · intro x hx
        refine (bf x ?_).trans (ihf x hx)
        intro a2 c2 ha2 hc2
        exact ⟨hx _ (cg_addr_lt hp ha2 hkm hc2), hx _ (cg_addr_lt hp ha2 hrevk hc2)⟩

/-- Decomposition of an index into low bit, middle bits and top bit, as used
by the medium in-place regime. -/
theorem medium_decomp {p k : ℕ} (hp : 2 ≤ p) (hk : k < 2 ^ p) :
    ∃ e x f, e < 2 ∧ x < 2 ^ (p - 2) ∧ f < 2 ∧ k = e + 2 * x + f * 2 ^ (p - 1) := by
  have hpow1 : (2 : ℕ) ^ p = 2 * 2 ^ (p - 1) := by
    conv_lhs => rw [show p = (p - 1) + 1 by omega]
    rw [pow_succ']
  have hpow2 : (2 : ℕ) ^ (p - 1) = 2 * 2 ^ (p - 2) := by
    conv_lhs => rw [show p - 1 = (p - 2) + 1 by omega]
    rw [pow_succ']
  refine ⟨k % 2, k / 2 % 2 ^ (p - 2), k / 2 ^ (p - 1), by omega,
    Nat.mod_lt _ (Nat.two_pow_pos _), Nat.div_lt_of_lt_mul (by omega), ?_⟩
  have a1 : k = 2 * (k / 2) + k % 2 := by omega
  have a2 : 2 ^ (p - 2) * (k / 2 / 2 ^ (p - 2)) + k / 2 % 2 ^ (p - 2) = k / 2 :=
    Nat.div_add_mod (k / 2) (2 ^ (p - 2))
  have a3 : k / 2 / 2 ^ (p - 2) = k / 2 ^ (p - 1) := by
    rw [Nat.div_div_eq_div_mul]
    congr 1
    rw [hpow2]
  rw [a3] at a2
  have a4 : k / 2 ^ (p - 1) * 2 ^ (p - 1) = 2 * (2 ^ (p - 2) * (k / 2 ^ (p - 1))) := by
    rw [hpow2]
    ring
  omega

/-- Bit reversal on the low-bit/middle/top-bit decomposition. -/
theorem bitrev_medium {p e x f : ℕ} (hp : 2 ≤ p) (he : e < 2) (hx : x < 2 ^ (p - 2))
    (hf : f < 2) :
    bitrev p (e + 2 * x + f * 2 ^ (p - 1)) = e * 2 ^ (p - 1) + 2 * bitrev (p - 2) x + f := by
  have hpow2 : (2 : ℕ) ^ (p - 1) = 2 * 2 ^ (p - 2) := by
    conv_lhs => rw [show p - 1 = (p - 2) + 1 by omega]
    rw [pow_succ']
  have a4 : f * 2 ^ (p - 1) = 2 * (f * 2 ^ (p - 2)) := by
    rw [hpow2]
    ring
  have hmod : (e + 2 * x + f * 2 ^ (p - 1)) % 2 = e := by omega
  have hdiv : (e + 2 * x + f * 2 ^ (p - 1)) / 2 = x + f * 2 ^ (p - 2) := by omega
  have hs1 := bitrev_split 1 (p - 1) (e + 2 * x + f * 2 ^ (p - 1))
  rw [show 1 + (p - 1) = p by omega] at hs1
  rw [hs1, pow_one, hmod, hdiv, bitrev_one_arg, Nat.mod_eq_of_lt he]
  have hs2 := bitrev_split (p - 2) 1 (x + f * 2 ^ (p - 2))
  rw [show (p - 2) + 1 = p - 1 by omega] at hs2
  have hm2 : (x + f * 2 ^ (p - 2)) % 2 ^ (p - 2) = x := by
    rw [Nat.add_comm]
    exact (mul_add_div_mod (Nat.two_pow_pos _) hx).1
  have hd2 : (x + f * 2 ^ (p - 2)) / 2 ^ (p - 2) = f := by
    rw [Nat.add_comm]
    exact (mul_add_div_mod (Nat.two_pow_pos _) hx).2
  rw [hs2, hm2, hd2, bitrev_one_arg, Nat.mod_eq_of_lt hf, pow_one]
  ring

/-- Master specification of `dbcF_bitreversal_permutation`: with a nonzero
destination stride, in each legal regime — broadcast (`src_stride == 0`),
exact in-place alias (`src == dst` with equal strides), or disjoint
out-of-place buffers — the routine ends with
`dst[rev(k)] = src_original[k]` for every `k < 2^log2n`, and no cell outside
the destination family changes. -/
theorem dbcF_bitreversal_permutation_spec : ∀ (log2n : ℕ) (src : Option ℤ)
    (ss dst ds : ℤ) (st : Mem × Mem), ds ≠ 0 →
    (ss = 0 ∨ (src = some dst ∧ ss = ds) ∨
      (∃ sp, src = some sp ∧ ss ≠ 0 ∧
        ∀ i j : ℕ, i < 2 ^ log2n → j < 2 ^ log2n →
          sp + (i : ℤ) * ss ≠ dst + (j : ℤ) * ds)) →
    (∀ k : ℕ, k < 2 ^ log2n →
        (dbcF_bitreversal_permutation log2n src ss dst ds st).1
            (dst + (bitrev log2n k : ℤ) * ds)
          = memRead st.1 src ((k : ℤ) * ss)) ∧
    (∀ a : ℤ, (∀ i : ℕ, i < 2 ^ log2n → a ≠ dst + (i : ℤ) * ds) →
        (dbcF_bitreversal_permutation log2n src ss dst ds st).1 a = st.1 a) := by
  intro log2n
  induction log2n using Nat.strong_induction_on with
  | _ p ih =>
    intro src ss dst ds st hds H
    rcases H with hss0 | ⟨hsd, hssds⟩ | ⟨sp, hsp, hss, hdisj⟩
    · -- broadcast
      subst hss0
      rw [dbcF_brp_broadcast_eq p src 0 dst ds st rfl]
      obtain ⟨bv, bf⟩ := dbcF_brp_broadcast_spec (memRead st.1 src 0) dst ds st.1 (2 ^ p)
      constructor
      · intro k hk
        rw [mul_zero]
        exact bv (bitrev p k) (bitrev_lt p k)
      · intro a ha
        exact bf a ha
    · -- exact in-place alias
      subst hsd
      have hssds2 : ds = ss := hssds.symm
      subst hssds2
      by_cases h8 : p ≤ 8
      · rw [dbcF_brp_inplace_small_eq p (some dst) ds dst ds st hds rfl h8]
        obtain ⟨iv, ifr⟩ := dbcF_brp_inplace_small_spec p dst ds h8 hds st.1 (2 ^ p) le_rfl
        constructor
        · intro k hk
          have hrk := bitrev_lt p k
          have h1 := (iv (bitrev p k) hrk).1 (Or.inl hrk)
          rw [bitrev_bitrev hk] at h1
          exact h1
        · exact fun a ha => ifr a ha
      · by_cases h16 : p ≤ 16
        · -- in-place medium: swap the mixed classes, recurse on the pure ones
          rw [dbcF_brp_inplace_medium_eq p (some dst) ds dst ds st hds rfl h8 h16]
          have hpow1 : (2 : ℕ) ^ p = 2 * 2 ^ (p - 1) := by
            conv_lhs => rw [show p = (p - 1) + 1 by omega]
            rw [pow_succ']
          have hpow2 : (2 : ℕ) ^ (p - 1) = 2 * 2 ^ (p - 2) := by
            conv_lhs => rw [show p - 1 = (p - 2) + 1 by omega]
            rw [pow_succ']
          have hh : (2 : ℕ) ^ p / 2 = 2 ^ (p - 1) := by omega
          rw [hh]
          have hds2 : (2 : ℤ) * ds ≠ 0 := mul_ne_zero two_ne_zero hds
          have hp2 : p - 2 < p := by omega
          have hhz : ((2 ^ (p - 1) : ℕ) : ℤ) = 2 * ((2 ^ (p - 2) : ℕ) : ℤ) := by
            exact_mod_cast hpow2
          have hdisjsw : ∀ i j : ℕ, i < 2 ^ (p - 2) → j < 2 ^ (p - 2) →
              dst + ds + (i : ℤ) * (2 * ds)
                ≠ dst + ((2 ^ (p - 1) : ℕ) : ℤ) * ds + (j : ℤ) * (2 * ds) := by
            intro i j hi hj
            have e1 : dst + ds + (i : ℤ) * (2 * ds) = dst + (2 * (i : ℤ) + 1) * ds := by
              ring
            have e2 : dst + ((2 ^ (p - 1) : ℕ) : ℤ) * ds + (j : ℤ) * (2 * ds)
                = dst + (((2 ^ (p - 1) : ℕ) : ℤ) + 2 * (j : ℤ)) * ds := by ring
            rw [e1, e2]
            apply addr_ne hds
            omega
          obtain ⟨swv, swf⟩ := dbcF_bitreversal_swap_spec (p - 2) (dst + ds) (2 * ds)
            (dst + ((2 ^ (p - 1) : ℕ) : ℤ) * ds) (2 * ds) hds2 hds2 hdisjsw st.1
          obtain ⟨v1, f1⟩ := ih (p - 2) hp2 (some dst) (2 * ds) dst (2 * ds)
            (dbcF_bitreversal_swap (p - 2) (dst + ds) (2 * ds)
              (dst + ((2 ^ (p - 1) : ℕ) : ℤ) * ds) (2 * ds) st.1, st.2)
            hds2 (Or.inr (Or.inl ⟨rfl, rfl⟩))
          obtain ⟨v2, f2⟩ := ih (p - 2) hp2
            (some (dst + (((2 ^ (p - 1) : ℕ) : ℤ) + 1) * ds)) (2 * ds)
            (dst + (((2 ^ (p - 1) : ℕ) : ℤ) + 1) * ds) (2 * ds)
            (dbcF_bitreversal_permutation (p - 2) (some dst) (2 * ds) dst (2 * ds)
              (dbcF_bitreversal_swap (p - 2) (dst + ds) (2 * ds)
                (dst + ((2 ^ (p - 1) : ℕ) : ℤ) * ds) (2 * ds) st.1, st.2))
            hds2 (Or.inr (Or.inl ⟨rfl, rfl⟩))
          constructor
          · intro k hk
            obtain ⟨e, x, f, he, hx, hf, rfl⟩ := medium_decomp (by omega) hk
            rw [bitrev_medium (by omega) he hx hf]
            have hxr := bitrev_lt (p - 2) x
            have hxrz : (bitrev (p - 2) x : ℤ) < ((2 ^ (p - 2) : ℕ) : ℤ) := by
              exact_mod_cast hxr
            have hxz : (x : ℤ) < ((2 ^ (p - 2) : ℕ) : ℤ) := by exact_mod_cast hx
            have hinv : bitrev (p - 2) (bitrev (p - 2) x) = x := bitrev_bitrev hx
            interval_cases e
            · interval_cases f
              · -- class (0,0): handled by the first recursive permutation
                have hA : dst + ((0 * 2 ^ (p - 1) + 2 * bitrev (p - 2) x + 0 : ℕ) : ℤ) * ds
                    = dst + (bitrev (p - 2) x : ℤ) * (2 * ds) := by push_cast; ring
                rw [hA]
                have h1 := f2 (dst + (bitrev (p - 2) x : ℤ) * (2 * ds)) (by
                  intro i hi
                  have e1 : dst + (bitrev (p - 2) x : ℤ) * (2 * ds)
                      = dst + (2 * (bitrev (p - 2) x : ℤ)) * ds := by ring
                  have e2 : dst + (((2 ^ (p - 1) : ℕ) : ℤ) + 1) * ds + (i : ℤ) * (2 * ds)
                      = dst + (((2 ^ (p - 1) : ℕ) : ℤ) + 1 + 2 * (i : ℤ)) * ds := by ring
                  rw [e1, e2]
                  exact addr_ne hds (by omega))
                have h2 := v1 x hx
                have h3 := swf (dst + (x : ℤ) * (2 * ds)) (by
                  intro i hi
                  have hiz : (i : ℤ) < ((2 ^ (p - 2) : ℕ) : ℤ) := by exact_mod_cast hi
                  constructor
                  · have e1 : dst + (x : ℤ) * (2 * ds) = dst + (2 * (x : ℤ)) * ds := by
                      ring
                    have e2 : dst + ds + (i : ℤ) * (2 * ds)
                        = dst + (2 * (i : ℤ) + 1) * ds := by ring
                    rw [e1, e2]
                    exact addr_ne hds (by omega)
                  · have e1 : dst + (x : ℤ) * (2 * ds) = dst + (2 * (x : ℤ)) * ds := by
                      ring
                    have e2 : dst + ((2 ^ (p - 1) : ℕ) : ℤ) * ds
                          + (bitrev (p - 2) i : ℤ) * (2 * ds)
                        = dst + (((2 ^ (p - 1) : ℕ) : ℤ)
                          + 2 * (bitrev (p - 2) i : ℤ)) * ds := by ring
                    rw [e1, e2]
                    apply addr_ne hds
                    omega)
                exact h1.trans (h2.trans (h3.trans (congrArg st.1 (by push_cast; ring))))
              · -- class (0,1): source half of the swap
                have hA : dst + ((0 * 2 ^ (p - 1) + 2 * bitrev (p - 2) x + 1 : ℕ) : ℤ) * ds
                    = dst + ds + (bitrev (p - 2) x : ℤ) * (2 * ds) := by push_cast; ring
                rw [hA]
                have h1 := f2 (dst + ds + (bitrev (p - 2) x : ℤ) * (2 * ds)) (by
                  intro i hi
                  have hiz : (i : ℤ) < ((2 ^ (p - 2) : ℕ) : ℤ) := by exact_mod_cast hi
                  have e1 : dst + ds + (bitrev (p - 2) x : ℤ) * (2 * ds)
                      = dst + (2 * (bitrev (p - 2) x : ℤ) + 1) * ds := by ring
                  have e2 : dst + (((2 ^ (p - 1) : ℕ) : ℤ) + 1) * ds + (i : ℤ) * (2 * ds)
                      = dst + (((2 ^ (p - 1) : ℕ) : ℤ) + 1 + 2 * (i : ℤ)) * ds := by ring
                  rw [e1, e2]
                  apply addr_ne hds
                  omega)
                have h2 := f1 (dst + ds + (bitrev (p - 2) x : ℤ) * (2 * ds)) (by
                  intro i hi
                  have e1 : dst + ds + (bitrev (p - 2) x : ℤ) * (2 * ds)
                      = dst + (2 * (bitrev (p - 2) x : ℤ) + 1) * ds := by ring
                  have e2 : dst + (i : ℤ) * (2 * ds) = dst + (2 * (i : ℤ)) * ds := by ring
                  rw [e1, e2]
                  exact addr_ne hds (by omega))
                have h3 := (swv (bitrev (p - 2) x) hxr).1
                rw [hinv] at h3
                exact h1.trans (h2.trans (h3.trans (congrArg st.1 (by push_cast; ring))))
            · interval_cases f
              · -- class (1,0): destination half of the swap
                have hA : dst + ((1 * 2 ^ (p - 1) + 2 * bitrev (p - 2) x + 0 : ℕ) : ℤ) * ds
                    = dst + ((2 ^ (p - 1) : ℕ) : ℤ) * ds
                      + (bitrev (p - 2) x : ℤ) * (2 * ds) := by push_cast; ring
                rw [hA]
                have h1 := f2 (dst + ((2 ^ (p - 1) : ℕ) : ℤ) * ds
                    + (bitrev (p - 2) x : ℤ) * (2 * ds)) (by
                  intro i hi
                  have e1 : dst + ((2 ^ (p - 1) : ℕ) : ℤ) * ds
                        + (bitrev (p - 2) x : ℤ) * (2 * ds)
                      = dst + (((2 ^ (p - 1) : ℕ) : ℤ)
                        + 2 * (bitrev (p - 2) x : ℤ)) * ds := by ring
                  have e2 : dst + (((2 ^ (p - 1) : ℕ) : ℤ) + 1) * ds + (i : ℤ) * (2 * ds)
                      = dst + (((2 ^ (p - 1) : ℕ) : ℤ) + 1 + 2 * (i : ℤ)) * ds := by ring
                  rw [e1, e2]
                  apply addr_ne hds
                  omega)
                have h2 := f1 (dst + ((2 ^ (p - 1) : ℕ) : ℤ) * ds
                    + (bitrev (p - 2) x : ℤ) * (2 * ds)) (by
                  intro i hi
                  have hiz : (i : ℤ) < ((2 ^ (p - 2) : ℕ) : ℤ) := by exact_mod_cast hi
                  have e1 : dst + ((2 ^ (p - 1) : ℕ) : ℤ) * ds
                        + (bitrev (p - 2) x : ℤ) * (2 * ds)
                      = dst + (((2 ^ (p - 1) : ℕ) : ℤ)
                        + 2 * (bitrev (p - 2) x : ℤ)) * ds := by ring
                  have e2 : dst + (i : ℤ) * (2 * ds) = dst + (2 * (i : ℤ)) * ds := by ring
                  rw [e1, e2]
                  apply addr_ne hds
                  omega)
                have h3 := (swv x hx).2
                exact h1.trans (h2.trans (h3.trans (congrArg st.1 (by push_cast; ring))))
              · -- class (1,1): handled by the second recursive permutation
                have hA : dst + ((1 * 2 ^ (p - 1) + 2 * bitrev (p - 2) x + 1 : ℕ) : ℤ) * ds
                    = dst + (((2 ^ (p - 1) : ℕ) : ℤ) + 1) * ds
                      + (bitrev (p - 2) x : ℤ) * (2 * ds) := by push_cast; ring
                rw [hA]
                have h1 := v2 x hx
                have h2 := f1 (dst + (((2 ^ (p - 1) : ℕ) : ℤ) + 1) * ds
                    + (x : ℤ) * (2 * ds)) (by
                  intro i hi
                  have e1 : dst + (((2 ^ (p - 1) : ℕ) : ℤ) + 1) * ds + (x : ℤ) * (2 * ds)
                      = dst + (((2 ^ (p - 1) : ℕ) : ℤ) + 1 + 2 * (x : ℤ)) * ds := by ring
                  have e2 : dst + (i : ℤ) * (2 * ds) = dst + (2 * (i : ℤ)) * ds := by ring
                  rw [e1, e2]
                  apply addr_ne hds
                  omega)
                have h3 := swf (dst + (((2 ^ (p - 1) : ℕ) : ℤ) + 1) * ds
                    + (x : ℤ) * (2 * ds)) (by
                  intro i hi
                  have hiz : (i : ℤ) < ((2 ^ (p - 2) : ℕ) : ℤ) := by exact_mod_cast hi
                  constructor
                  · have e1 : dst + (((2 ^ (p - 1) : ℕ) : ℤ) + 1) * ds + (x : ℤ) * (2 * ds)
                        = dst + (((2 ^ (p - 1) : ℕ) : ℤ) + 1 + 2 * (x : ℤ)) * ds := by ring
                    have e2 : dst + ds + (i : ℤ) * (2 * ds)
                        = dst + (2 * (i : ℤ) + 1) * ds := by ring
                    rw [e1, e2]
                    apply addr_ne hds
                    omega
                  · have e1 : dst + (((2 ^ (p - 1) : ℕ) : ℤ) + 1) * ds + (x : ℤ) * (2 * ds)
                        = dst + (((2 ^ (p - 1) : ℕ) : ℤ) + 1 + 2 * (x : ℤ)) * ds := by ring
                    have e2 : dst + ((2 ^ (p - 1) : ℕ) : ℤ) * ds
                          + (bitrev (p - 2) i : ℤ) * (2 * ds)
                        = dst + (((2 ^ (p - 1) : ℕ) : ℤ)
                          + 2 * (bitrev (p - 2) i : ℤ)) * ds := by ring
                    rw [e1, e2]
                    apply addr_ne hds
                    omega)
                exact h1.trans (h2.trans (h3.trans (congrArg st.1 (by push_cast; ring))))
          · intro a ha
            have hele : ∀ n2 : ℕ, n2 < 2 ^ p → ∀ u : ℤ,
                u = dst + (n2 : ℤ) * ds → a ≠ u := by
              intro n2 hn2 u hu
              rw [hu]
              exact ha n2 hn2
            refine (f2 a ?_).trans ((f1 a ?_).trans (swf a ?_))
            · intro i hi
              have e2 : dst + (((2 ^ (p - 1) : ℕ) : ℤ) + 1) * ds + (i : ℤ) * (2 * ds)
                  = dst + ((2 ^ (p - 1) + 1 + 2 * i : ℕ) : ℤ) * ds := by push_cast; ring
              exact hele (2 ^ (p - 1) + 1 + 2 * i) (by omega) _ e2
            · intro i hi
              have e2 : dst + (i : ℤ) * (2 * ds) = dst + ((2 * i : ℕ) : ℤ) * ds := by
                push_cast; ring
              exact hele (2 * i) (by omega) _ e2
            · intro i hi
              have hri := bitrev_lt (p - 2) i
              constructor
              · have e2 : dst + ds + (i : ℤ) * (2 * ds)
                    = dst + ((2 * i + 1 : ℕ) : ℤ) * ds := by push_cast; ring
                exact hele (2 * i + 1) (by omega) _ e2
              · have e2 : dst + ((2 ^ (p - 1) : ℕ) : ℤ) * ds
                      + (bitrev (p - 2) i : ℤ) * (2 * ds)
                    = dst + ((2 ^ (p - 1) + 2 * bitrev (p - 2) i : ℕ) : ℤ) * ds := by
                  push_cast; ring
                exact hele (2 ^ (p - 1) + 2 * bitrev (p - 2) i) (by omega) _ e2
        · -- in-place large: Carter–Gatlin
          rw [dbcF_brp_inplace_large_eq p (some dst) ds dst ds st hds rfl (by omega)]
          have hq : p - 2 * DBCF_Q = p - 10 := by rw [DBCF_Q_eq]
          rw [hq]
          obtain ⟨lv, lf⟩ := dbcF_cg_loop_spec p dst ds hds (by omega) st
            (2 ^ (p - 10)) le_rfl
          constructor
          · intro k hk
            have hrk : bitrev p k < 2 ^ p := bitrev_lt p k
            have h1 := (lv (bitrev p k) hrk).1 (Or.inl (Nat.mod_lt _ (Nat.two_pow_pos _)))
            rw [bitrev_bitrev hk] at h1
            exact h1
          · exact fun a ha => lf a ha
    · -- out-of-place with disjoint buffers
      subst hsp
      have hspd : sp ≠ dst := by
        have h0 := hdisj 0 0 (Nat.two_pow_pos p) (Nat.two_pow_pos p)
        simpa using h0
      have hsdne : ¬ ((some sp : Option ℤ) = some dst) := by simpa using hspd
      by_cases h8 : p ≤ 8
      · rw [dbcF_brp_oop_small_eq p (some sp) ss dst ds st hss hsdne h8]
        obtain ⟨scv, scf⟩ := dbcF_brp_scatter_spec p sp ss dst ds h8 hds hdisj st.1
          (2 ^ p) le_rfl
        constructor
        · intro k hk
          exact scv k hk
        · intro a ha
          exact scf a (fun i hi => ha (bitrev p i) (bitrev_lt p i))
      · have hpow1 : (2 : ℕ) ^ p = 2 * 2 ^ (p - 1) := by
          conv_lhs => rw [show p = (p - 1) + 1 by omega]
          rw [pow_succ']
        have hh : (2 : ℕ) ^ p / 2 = 2 ^ (p - 1) := by omega
        have hp1 : p - 1 < p := by omega
        have hp1e : p - 1 + 1 = p := by omega
        have hbe : ∀ t : ℕ, bitrev p (2 * t) = bitrev (p - 1) t := by
          intro t
          have h := bitrev_even (p - 1) t
          rwa [hp1e] at h
        have hbo : ∀ t : ℕ, bitrev p (2 * t + 1) = 2 ^ (p - 1) + bitrev (p - 1) t := by
          intro t
          have h := bitrev_odd (p - 1) t
          rwa [hp1e] at h
        by_cases h16 : p ≤ 16
        · -- out-of-place medium: recurse on even and odd source halves
          rw [dbcF_brp_oop_medium_eq p (some sp) ss dst ds st hss hsdne h8 h16, hh]
          have hmap : Option.map (· + ss) (some sp) = some (sp + ss) := rfl
          rw [hmap]
          have hss2 : 2 * ss ≠ 0 := mul_ne_zero two_ne_zero hss
          obtain ⟨v1, f1⟩ := ih (p - 1) hp1 (some sp) (2 * ss) dst ds st hds
            (Or.inr (Or.inr ⟨sp, rfl, hss2, by
              intro i j hi hj
              have e1 : sp + (i : ℤ) * (2 * ss) = sp + ((2 * i : ℕ) : ℤ) * ss := by
                push_cast; ring
              rw [e1]
              exact hdisj (2 * i) j (by omega) (by omega)⟩))
          obtain ⟨v2, f2⟩ := ih (p - 1) hp1 (some (sp + ss)) (2 * ss)
            (dst + ((2 ^ (p - 1) : ℕ) : ℤ) * ds) ds
            (dbcF_bitreversal_permutation (p - 1) (some sp) (2 * ss) dst ds st) hds
            (Or.inr (Or.inr ⟨sp + ss, rfl, hss2, by
              intro i j hi hj
              have e1 : sp + ss + (i : ℤ) * (2 * ss) = sp + ((2 * i + 1 : ℕ) : ℤ) * ss := by
                push_cast; ring
              have e2 : dst + ((2 ^ (p - 1) : ℕ) : ℤ) * ds + (j : ℤ) * ds
                  = dst + ((2 ^ (p - 1) + j : ℕ) : ℤ) * ds := by push_cast; ring
              rw [e1, e2]
              exact hdisj _ _ (by omega) (by omega)⟩))
          constructor
          · intro k hk
            obtain ⟨t, ht, hcase⟩ : ∃ t, t < 2 ^ (p - 1) ∧ (k = 2 * t ∨ k = 2 * t + 1) :=
              ⟨k / 2, by omega, by omega⟩
            have hrt := bitrev_lt (p - 1) t
            have hrtz : (bitrev (p - 1) t : ℤ) < ((2 ^ (p - 1) : ℕ) : ℤ) := by
              exact_mod_cast hrt
            rcases hcase with rfl | rfl
            · rw [hbe t]
              have h1 := f2 (dst + (bitrev (p - 1) t : ℤ) * ds) (by
                intro j hj
                have e2 : dst + ((2 ^ (p - 1) : ℕ) : ℤ) * ds + (j : ℤ) * ds
                    = dst + (((2 ^ (p - 1) : ℕ) : ℤ) + (j : ℤ)) * ds := by ring
                rw [e2]
                apply addr_ne hds
                omega)
              have h2 := v1 t ht
              exact h1.trans (h2.trans (congrArg st.1 (by push_cast; ring)))
            · rw [hbo t]
              have hA : dst + ((2 ^ (p - 1) + bitrev (p - 1) t : ℕ) : ℤ) * ds
                  = dst + ((2 ^ (p - 1) : ℕ) : ℤ) * ds + (bitrev (p - 1) t : ℤ) * ds := by
                push_cast; ring
              rw [hA]
              have h1 := v2 t ht
              have h2 := f1 (sp + ss + (t : ℤ) * (2 * ss)) (by
                intro j hj
                have e1 : sp + ss + (t : ℤ) * (2 * ss)
                    = sp + ((2 * t + 1 : ℕ) : ℤ) * ss := by push_cast; ring
                rw [e1]
                exact hdisj (2 * t + 1) j (by omega) (by omega))
              exact h1.trans (h2.trans (congrArg st.1 (by push_cast; ring)))
          · intro a ha
            refine (f2 a ?_).trans (f1 a ?_)
            · intro j hj
              have e2 : dst + ((2 ^ (p - 1) : ℕ) : ℤ) * ds + (j : ℤ) * ds
                  = dst + ((2 ^ (p - 1) + j : ℕ) : ℤ) * ds := by push_cast; ring
              rw [e2]
              exact ha _ (by omega)
            · intro j hj
              exact ha j (by omega)
        · -- out-of-place large: split pass, then two in-place recursions
          rw [dbcF_brp_oop_large_eq p (some sp) ss dst ds st hss hsdne (by omega), hh]
          obtain ⟨spv, spf⟩ := dbcF_brp_split_spec sp ss dst ds (2 ^ (p - 1)) hds
            (fun i j hi hj => hdisj i j (by omega) (by omega)) st.1 (2 ^ (p - 1)) le_rfl
          obtain ⟨v1, f1⟩ := ih (p - 1) hp1 (some dst) ds dst ds
            (dbcF_brp_split (some sp) ss dst ds (2 ^ (p - 1)) (2 ^ (p - 1)) st.1, st.2)
            hds (Or.inr (Or.inl ⟨rfl, rfl⟩))
          obtain ⟨v2, f2⟩ := ih (p - 1) hp1 (some (dst + ((2 ^ (p - 1) : ℕ) : ℤ) * ds)) ds
            (dst + ((2 ^ (p - 1) : ℕ) : ℤ) * ds) ds
            (dbcF_bitreversal_permutation (p - 1) (some dst) ds dst ds
              (dbcF_brp_split (some sp) ss dst ds (2 ^ (p - 1)) (2 ^ (p - 1)) st.1, st.2))
            hds (Or.inr (Or.inl ⟨rfl, rfl⟩))
          constructor
          · intro k hk
            obtain ⟨t, ht, hcase⟩ : ∃ t, t < 2 ^ (p - 1) ∧ (k = 2 * t ∨ k = 2 * t + 1) :=
              ⟨k / 2, by omega, by omega⟩
            have hrt := bitrev_lt (p - 1) t
            have hrtz : (bitrev (p - 1) t : ℤ) < ((2 ^ (p - 1) : ℕ) : ℤ) := by
              exact_mod_cast hrt
            have htz : (t : ℤ) < ((2 ^ (p - 1) : ℕ) : ℤ) := by exact_mod_cast ht
            rcases hcase with rfl | rfl
            · rw [hbe t]
              have h1 := f2 (dst + (bitrev (p - 1) t : ℤ) * ds) (by
                intro j hj
                have e2 : dst + ((2 ^ (p - 1) : ℕ) : ℤ) * ds + (j : ℤ) * ds
                    = dst + (((2 ^ (p - 1) : ℕ) : ℤ) + (j : ℤ)) * ds := by ring
                rw [e2]
                apply addr_ne hds
                omega)
              have h2 := v1 t ht
              have h3 := (spv t ht).1
              exact h1.trans (h2.trans h3)
            · rw [hbo t]
              have hA : dst + ((2 ^ (p - 1) + bitrev (p - 1) t : ℕ) : ℤ) * ds
                  = dst + ((2 ^ (p - 1) : ℕ) : ℤ) * ds + (bitrev (p - 1) t : ℤ) * ds := by
                push_cast; ring
              rw [hA]
              have h1 := v2 t ht
              have h2 := f1 (dst + ((2 ^ (p - 1) : ℕ) : ℤ) * ds + (t : ℤ) * ds) (by
                intro j hj
                have hjz : (j : ℤ) < ((2 ^ (p - 1) : ℕ) : ℤ) := by exact_mod_cast hj
                have e1 : dst + ((2 ^ (p - 1) : ℕ) : ℤ) * ds + (t : ℤ) * ds
                    = dst + (((2 ^ (p - 1) : ℕ) : ℤ) + (t : ℤ)) * ds := by ring
                rw [e1]
                apply addr_ne hds
                omega)
              have hB : dst + ((2 ^ (p - 1) : ℕ) : ℤ) * ds + (t : ℤ) * ds
                  = dst + ((t : ℤ) + ((2 ^ (p - 1) : ℕ) : ℤ)) * ds := by ring
              have h3 := (spv t ht).2
              exact h1.trans (h2.trans ((congrArg _ hB).trans h3))
          · intro a ha
            refine (f2 a ?_).trans ((f1 a ?_).trans (spf a ?_))
            · intro j hj
              have e2 : dst + ((2 ^ (p - 1) : ℕ) : ℤ) * ds + (j : ℤ) * ds
                  = dst + ((2 ^ (p - 1) + j : ℕ) : ℤ) * ds := by push_cast; ring
              rw [e2]
              exact ha _ (by omega)
            · intro j hj
              exact ha j (by omega)
            · intro j hj
              exact ha j (by omega)

/-- C8: for every `log2n ≥ 0` and strides, the bit-reversal permutation
routine satisfies `dst[reverse(k)*dst_stride] = src_original[k*src_stride]`
for every `k < 2^log2n`, in each of its regimes — broadcast
(`src_stride == 0` fills every slot from `src[0]`), in-place (`src == dst`
under the driver's exact-alias contract of equal strides; the direct-swap
(`log2n ≤ 8`), recursive-split (`log2n ≤ 16`) and Carter–Gatlin
(`log2n > 16`) sub-regimes all arise), and out-of-place on disjoint buffers
(direct scatter, recursion on halves, and the split-then-in-place path for
`log2n > 16`).  Destination strides are nonzero per the driver's validation. -/
theorem c8_bitreversal_permutation (log2n : ℕ) (src : Option ℤ) (ss dst ds : ℤ)
    (st : Mem × Mem) (hds : ds ≠ 0)
    (hregime : ss = 0 ∨ (src = some dst ∧ ss = ds) ∨
      (∃ sp, src = some sp ∧ ss ≠ 0 ∧
        ∀ i j : ℕ, i < 2 ^ log2n → j < 2 ^ log2n →
          sp + (i : ℤ) * ss ≠ dst + (j : ℤ) * ds)) :
    ∀ k : ℕ, k < 2 ^ log2n →
      (dbcF_bitreversal_permutation log2n src ss dst ds st).1
          (dst + (bitrev log2n k : ℤ) * ds)
        = memRead st.1 src ((k : ℤ) * ss) :=
  (dbcF_bitreversal_permutation_spec log2n src ss dst ds st hds hregime).1

/-- Witness for `c8_bitreversal_permutation`: a concrete out-of-place call
with `log2n = 2`, `src = 100`, `dst = 0`, unit strides. -/
theorem c8_bitreversal_permutation_witness :
    ((1 : ℤ) ≠ 0) ∧
    (∀ k : ℕ, k < 2 ^ 2 →
      (dbcF_bitreversal_permutation 2 (some 100) 1 0 1
          ((fun a => (a : ℝ)), (fun _ => 0))).1 ((0 : ℤ) + (bitrev 2 k : ℤ) * 1)
        = memRead (fun a => (a : ℝ)) (some 100) ((k : ℤ) * 1)) :=
  ⟨by norm_num,
   c8_bitreversal_permutation 2 (some 100) 1 0 1 ((fun a => (a : ℝ)), (fun _ => 0))
     (by norm_num)
     (Or.inr (Or.inr ⟨100, rfl, by norm_num, by
        intro i j hi hj
        omega⟩))⟩

/-! ## Roots of unity -/

theorem exp_ofReal_mul_I (θ : ℝ) :
    Complex.exp ((θ : ℂ) * Complex.I) = Complex.mk (Real.cos θ) (Real.sin θ) := by
  rw [Complex.exp_mul_I, Complex.mk_eq_add_mul_I, ← Complex.ofReal_cos, ← Complex.ofReal_sin]

theorem Wc_pow (inverse : Bool) (n m : ℕ) :
    Wc inverse n ^ m
      = Complex.exp (Complex.I * ((dftSgn inverse * (2 * Real.pi) * m / n : ℝ) : ℂ)) := by
  rw [Wc, ← Complex.exp_nat_mul]
  congr 1
  push_cast
  ring

theorem Wc_zpow (inverse : Bool) (n : ℕ) (d : ℤ) :
    Wc inverse n ^ d
      = Complex.exp (Complex.I * ((dftSgn inverse * (2 * Real.pi) * d / n : ℝ) : ℂ)) := by
  rw [Wc, ← Complex.exp_int_mul]
  congr 1
  push_cast
  ring

theorem Wc_pow_eq (inverse : Bool) (n m : ℕ) :
    Wc inverse n ^ m
      = Complex.mk (Real.cos (2 * Real.pi * m / n))
        (dftSgn inverse * Real.sin (2 * Real.pi * m / n)) := by
  rw [Wc_pow]
  have e1 : Complex.I * ((dftSgn inverse * (2 * Real.pi) * m / n : ℝ) : ℂ)
      = (((dftSgn inverse * (2 * Real.pi) * m / n : ℝ) : ℂ)) * Complex.I := mul_comm _ _
  rw [e1, exp_ofReal_mul_I]
  cases inverse
  · have hσ : dftSgn false = -1 := rfl
    rw [hσ]
    have e2 : (-1 : ℝ) * (2 * Real.pi) * m / n = -(2 * Real.pi * m / n) := by ring
    rw [e2, Real.cos_neg, Real.sin_neg]
    rw [Complex.mk.injEq]
    constructor
    · rfl
    · ring
  · have hσ : dftSgn true = 1 := rfl
    rw [hσ]
    have e2 : (1 : ℝ) * (2 * Real.pi) * m / n = 2 * Real.pi * m / n := by ring
    rw [e2, Complex.mk.injEq]
    constructor
    · rfl
    · ring

theorem Wc_pow_n (inverse : Bool) (n : ℕ) (hn : n ≠ 0) : Wc inverse n ^ n = 1 := by
  rw [Wc_pow_eq]
  have hnR : (n : ℝ) ≠ 0 := Nat.cast_ne_zero.mpr hn
  have e : 2 * Real.pi * n / n = 2 * Real.pi := by
    field_simp
  rw [e, Real.cos_two_pi, Real.sin_two_pi]
  simp [Complex.ext_iff]

theorem Wc_pow_mod (inverse : Bool) {n : ℕ} (hn : n ≠ 0) (m : ℕ) :
    Wc inverse n ^ m = Wc inverse n ^ (m % n) := by
  conv_lhs => rw [← Nat.div_add_mod m n]
  rw [pow_add, pow_mul, Wc_pow_n inverse n hn, one_pow, one_mul]

theorem Wc_two_mul_sq (inverse : Bool) (n : ℕ) :
    Wc inverse (2 * n) ^ 2 = Wc inverse n := by
  rw [Wc_pow, Wc]
  congr 1
  congr 1
  rw [Complex.ofReal_inj]
  push_cast
  rcases eq_or_ne (n : ℝ) 0 with h | h
  · rw [h]
    norm_num
  · field_simp
    ring

theorem Wc_pow_half (inverse : Bool) (n : ℕ) (hn : n ≠ 0) :
    Wc inverse (2 * n) ^ n = -1 := by
  rw [Wc_pow_eq]
  have hnR : (n : ℝ) ≠ 0 := Nat.cast_ne_zero.mpr hn
  have e : 2 * Real.pi * n / ((2 * n : ℕ) : ℝ) = Real.pi := by
    push_cast
    field_simp
    ring
  rw [e, Real.cos_pi, Real.sin_pi]
  simp [Complex.ext_iff]

theorem Wc_ne_zero (inverse : Bool) (n : ℕ) : Wc inverse n ≠ 0 := Complex.exp_ne_zero _

theorem Wc_conj_pow (inverse : Bool) (n m : ℕ) :
    (starRingEnd ℂ) (Wc inverse n ^ m) = Wc inverse n ^ (-(m : ℤ)) := by
  rw [Wc_pow, Wc_zpow, ← Complex.exp_conj]
  congr 1
  rw [map_mul, Complex.conj_I, Complex.conj_ofReal]
  push_cast
  ring

theorem Wc_zpow_eq_one_iff (inverse : Bool) {m : ℕ} (hm : m ≠ 0) (d : ℤ) :
    Wc inverse m ^ d = 1 ↔ (m : ℤ) ∣ d := by
  have hπ : Real.pi ≠ 0 := Real.pi_ne_zero
  have h2π : (2 * Real.pi : ℝ) ≠ 0 := by positivity
  have hmR : (m : ℝ) ≠ 0 := Nat.cast_ne_zero.mpr hm
  rw [Wc_zpow, Complex.exp_eq_one_iff]
  constructor
  · rintro ⟨k, hk⟩
    have h2 : (dftSgn inverse * (2 * Real.pi) * d / m : ℝ) = k * (2 * Real.pi) := by
      have him := congrArg Complex.im hk
      simpa using him
    have h2' : (dftSgn inverse * d / m) * (2 * Real.pi) = (k : ℝ) * (2 * Real.pi) := by
      linear_combination h2
    have h5 : dftSgn inverse * (d : ℝ) / m = k := mul_right_cancel₀ h2π h2'
    cases inverse
    · have hσ : dftSgn false = -1 := rfl
      rw [hσ] at h5
      have h6 : (-1 : ℝ) * d = k * m := (div_eq_iff hmR).mp h5
      refine ⟨-k, ?_⟩
      have h7 : (d : ℝ) = (m : ℝ) * (-k) := by linarith
      exact_mod_cast h7
    · have hσ : dftSgn true = 1 := rfl
      rw [hσ] at h5
      have h6 : (1 : ℝ) * d = k * m := (div_eq_iff hmR).mp h5
      refine ⟨k, ?_⟩
      have h7 : (d : ℝ) = (m : ℝ) * k := by linarith
      exact_mod_cast h7
  · rintro ⟨c, rfl⟩
    cases inverse
    · refine ⟨-c, ?_⟩
      have e : (dftSgn false * (2 * Real.pi) * ((m : ℤ) * c : ℤ) / m : ℝ)
          = ((-c : ℤ) : ℝ) * (2 * Real.pi) := by
        have hσ : dftSgn false = -1 := rfl
        rw [hσ]
        push_cast
        field_simp
        ring
      rw [e]
      push_cast
      ring
    · refine ⟨c, ?_⟩
      have e : (dftSgn true * (2 * Real.pi) * ((m : ℤ) * c : ℤ) / m : ℝ)
          = ((c : ℤ) : ℝ) * (2 * Real.pi) := by
        have hσ : dftSgn true = 1 := rfl
        rw [hσ]
        push_cast
        field_simp
        ring
      rw [e]
      push_cast
      ring

theorem Wc_geom_sum (inverse : Bool) {m : ℕ} (hm : m ≠ 0) (d : ℤ) :
    ∑ j ∈ Finset.range m, (Wc inverse m ^ d) ^ j
      = if (m : ℤ) ∣ d then (m : ℂ) else 0 := by
  by_cases hdvd : (m : ℤ) ∣ d
  · rw [if_pos hdvd]
    have h1 : Wc inverse m ^ d = 1 := (Wc_zpow_eq_one_iff inverse hm d).mpr hdvd
    simp [h1]
  · rw [if_neg hdvd]
    have hne1 : Wc inverse m ^ d ≠ 1 := fun h => hdvd ((Wc_zpow_eq_one_iff inverse hm d).mp h)
    rw [geom_sum_eq hne1]
    have h2 : (Wc inverse m ^ d) ^ m = 1 := by
      rw [← zpow_natCast (Wc inverse m ^ d) m, ← zpow_mul, mul_comm, zpow_mul,
        zpow_natCast, Wc_pow_n inverse m hm, one_zpow]
    rw [h2]
    simp

/-- `N & (N−1) == 0` really does detect powers of two. -/
theorem pow2_of_land_pred (N : ℕ) (h1 : 1 ≤ N) (h0 : N &&& (N - 1) = 0) :
    N = 2 ^ Nat.log2 N := by
  by_contra hne
  have hb1 : 2 ^ Nat.log2 N ≤ N := Nat.log2_self_le (by omega)
  have hb2 : N < 2 ^ (Nat.log2 N + 1) := Nat.lt_log2_self
  have hpow : (2 : ℕ) ^ (Nat.log2 N + 1) = 2 * 2 ^ Nat.log2 N := by rw [pow_succ']
  have ht1 : N.testBit (Nat.log2 N) = true := by
    rw [Nat.testBit_to_div_mod]
    have hdq : N / 2 ^ Nat.log2 N = 1 :=
      Nat.div_eq_of_lt_le (by omega) (by omega)
    simp [hdq]
  have ht2 : (N - 1).testBit (Nat.log2 N) = true := by
    rw [Nat.testBit_to_div_mod]
    have hdq : (N - 1) / 2 ^ Nat.log2 N = 1 :=
      Nat.div_eq_of_lt_le (by omega) (by omega)
    simp [hdq]
  have hcon := congrArg (fun x => x.testBit (Nat.log2 N)) h0
  simp only [Nat.testBit_and, ht1, ht2, Nat.zero_testBit, Bool.and_self] at hcon
  exact Bool.noConfusion hcon

/-! ## Twiddle buffers as `Wc` powers -/

/-- Packaged form of the C9 chain: after `dbcF_compute_twiddles` the buffer
pair holds the powers of the primitive `2^log2d`-th root. -/
theorem dbcF_compute_twiddles_Wc (log2d log2t : ℕ) (rB iB : ℤ) (inverse : Bool) (w : Mem)
    (hbn : log2t ≤ log2d)
    (hd : ∀ u v : ℕ, u < 2 ^ log2t → v < 2 ^ log2t → rB + u ≠ iB + v) :
    ∀ k : ℕ, k < 2 ^ log2t →
      Complex.mk (dbcF_compute_twiddles log2d log2t rB iB inverse w (rB + k))
          (dbcF_compute_twiddles log2d log2t rB iB inverse w (iB + k))
        = Wc inverse (2 ^ log2d) ^ k := by
  intro k hk
  have houter := dbcF_compute_twiddles_outer_spec log2d log2t rB iB inverse w hbn hd log2t
    le_rfl k hk
  rw [Wc_pow_eq, Complex.mk.injEq]
  unfold dbcF_compute_twiddles
  constructor
  · rw [dbcF_twiddle_addone_spec rB (2 ^ log2t) _ k hk, houter.1]
    push_cast
    ring
  · rw [dbcF_twiddle_addone_frame rB (2 ^ log2t) _ (iB + k)
      (fun t ht hcon => hd t k ht hk hcon.symm), houter.2]
    push_cast
    ring

/-- Real part of one twiddle-doubling step. -/
theorem twiddle_step_re (A B σ : ℝ) (hσ : σ * σ = 1) :
    ((Real.cos A - 1) * (Real.cos B - 1) - (σ * Real.sin A) * (σ * Real.sin B))
      + ((Real.cos A - 1) + (Real.cos B - 1)) = Real.cos (A + B) - 1 := by
  have h := Real.cos_add A B
  linear_combination -h - Real.sin A * Real.sin B * hσ

/-- Imaginary part of one twiddle-doubling step. -/
theorem twiddle_step_im (A B σ : ℝ) :
    ((σ * Real.sin A) * (Real.cos B - 1) + (Real.cos A - 1) * (σ * Real.sin B))
      + ((σ * Real.sin A) + (σ * Real.sin B)) = σ * Real.sin (A + B) := by
  have h := Real.sin_add A B
  linear_combination -σ * h

/-- One step of the NPOT twiddle doubling loop, unfolded. -/
theorem dbcF_compute_twiddles_npot_outer_succ (n : ℕ) (rB iB : ℤ) (inverse : Bool)
    (h e : ℕ) (w : Mem) :
    dbcF_compute_twiddles_npot_outer n rB iB inverse h (e + 1) w
      = if 2 ^ e < h then
          dbcF_twiddle_fill (dbcF_cexpm1_npot (2 ^ e) n).1
            (if inverse then (dbcF_cexpm1_npot (2 ^ e) n).2
              else -(dbcF_cexpm1_npot (2 ^ e) n).2)
            rB iB (2 ^ e) (if h < 2 ^ e * 2 then h - 2 ^ e else 2 ^ e)
            (dbcF_compute_twiddles_npot_outer n rB iB inverse h e w)
        else dbcF_compute_twiddles_npot_outer n rB iB inverse h e w := rfl

/-- The NPOT doubling phase only writes inside the prefixes `rB+[0,h)`, `iB+[0,h)`. -/
theorem dbcF_compute_twiddles_npot_outer_frame (n : ℕ) (rB iB : ℤ) (inverse : Bool)
    (h : ℕ) : ∀ (e : ℕ) (w : Mem) (addr : ℤ),
    (∀ t : ℕ, t < h → addr ≠ rB + t ∧ addr ≠ iB + t) →
    dbcF_compute_twiddles_npot_outer n rB iB inverse h e w addr = w addr := by
  intro e
  induction e with
  | zero => intro w addr _; rfl
  | succ e ih =>
    intro w addr haddr
    rw [dbcF_compute_twiddles_npot_outer_succ]
    by_cases hlt : 2 ^ e < h
    · rw [if_pos hlt]
      have hjh : 2 ^ e + (if h < 2 ^ e * 2 then h - 2 ^ e else 2 ^ e) ≤ h := by
        by_cases hc : h < 2 ^ e * 2
        · rw [if_pos hc]; omega
        · rw [if_neg hc]; omega
      rw [dbcF_twiddle_fill_frame _ _ _ _ _ _ _ addr ?_]
      · exact ih w addr haddr
      · intro t ht
        exact haddr (2 ^ e + t) (by omega)
    · rw [if_neg hlt]
      exact ih w addr haddr

/-- Values established by the NPOT doubling phase: after iteration `e` the
prefix of length `min (2^e) h` holds `(cos(2πt/n) − 1, σ·sin(2πt/n))`. -/
theorem dbcF_compute_twiddles_npot_outer_spec (n h : ℕ) (rB iB : ℤ) (inverse : Bool)
    (w : Mem) (hh : 1 ≤ h)
    (hd : ∀ u v : ℕ, u < h → v < h → rB + u ≠ iB + v) :
    ∀ e : ℕ, ∀ t : ℕ, t < min (2 ^ e) h →
      dbcF_compute_twiddles_npot_outer n rB iB inverse h e (mset (mset w rB 0) iB 0)
          (rB + t) = Real.cos (2 * Real.pi * t / n) - 1 ∧
        dbcF_compute_twiddles_npot_outer n rB iB inverse h e (mset (mset w rB 0) iB 0)
          (iB + t) = dftSgn inverse * Real.sin (2 * Real.pi * t / n) := by
  intro e
  induction e with
  | zero =>
    intro t ht
    have ht0 : t = 0 := by omega
    subst ht0
    have hne : rB + ((0 : ℕ) : ℤ) ≠ iB + ((0 : ℕ) : ℤ) := hd 0 0 hh hh
    show (mset (mset w rB 0) iB 0) (rB + ((0 : ℕ) : ℤ)) = _ ∧
      (mset (mset w rB 0) iB 0) (iB + ((0 : ℕ) : ℤ)) = _
    push_cast
    push_cast at hne
    rw [add_zero, add_zero]
    rw [add_zero, add_zero] at hne
    constructor
    · rw [mset_other _ _ _ hne, mset_same]
      norm_num
    · rw [mset_same]
      norm_num
  | succ e ih =>
    intro t ht
    rw [dbcF_compute_twiddles_npot_outer_succ]
    have h2e : 2 ^ (e + 1) = 2 ^ e * 2 := by ring
    by_cases hlt : 2 ^ e < h
    · rw [if_pos hlt]
      have hj_le : (if h < 2 ^ e * 2 then h - 2 ^ e else 2 ^ e) ≤ 2 ^ e := by
        by_cases hc : h < 2 ^ e * 2
        · rw [if_pos hc]; omega
        · rw [if_neg hc]
      have hjh : 2 ^ e + (if h < 2 ^ e * 2 then h - 2 ^ e else 2 ^ e) ≤ h := by
        by_cases hc : h < 2 ^ e * 2
        · rw [if_pos hc]; omega
        · rw [if_neg hc]; omega
      have hjmin : min (2 ^ (e + 1)) h
          = 2 ^ e + (if h < 2 ^ e * 2 then h - 2 ^ e else 2 ^ e) := by
        by_cases hc : h < 2 ^ e * 2
        · rw [if_pos hc]; omega
        · rw [if_neg hc]; omega
      have hminE : min (2 ^ e) h = 2 ^ e := by omega
      have hxval : (dbcF_cexpm1_npot (2 ^ e) n).1 =
          Real.cos (2 * Real.pi * ((2 ^ e : ℕ) : ℝ) / n) - 1 := rfl
      have hyval : (if inverse then (dbcF_cexpm1_npot (2 ^ e) n).2
          else -(dbcF_cexpm1_npot (2 ^ e) n).2) =
          dftSgn inverse * Real.sin (2 * Real.pi * ((2 ^ e : ℕ) : ℝ) / n) := by
        cases inverse with
        | false =>
          show -(dbcF_cexpm1_npot (2 ^ e) n).2 = _
          show -Real.sin (2 * Real.pi * ((2 ^ e : ℕ) : ℝ) / n) = _
          rw [dftSgn]
          norm_num
        | true =>
          show (dbcF_cexpm1_npot (2 ^ e) n).2 = _
          show Real.sin (2 * Real.pi * ((2 ^ e : ℕ) : ℝ) / n) = _
          rw [dftSgn]
          norm_num
      have hcross : ∀ u v : ℕ,
          u < 2 ^ e + (if h < 2 ^ e * 2 then h - 2 ^ e else 2 ^ e) →
          v < 2 ^ e + (if h < 2 ^ e * 2 then h - 2 ^ e else 2 ^ e) →
          rB + u ≠ iB + v := by
        intro u v hu hv
        exact hd u v (by omega) (by omega)
      by_cases htc : t < 2 ^ e
      · have hfr := dbcF_twiddle_fill_frame (dbcF_cexpm1_npot (2 ^ e) n).1
          (if inverse then (dbcF_cexpm1_npot (2 ^ e) n).2
            else -(dbcF_cexpm1_npot (2 ^ e) n).2)
          rB iB (2 ^ e) (if h < 2 ^ e * 2 then h - 2 ^ e else 2 ^ e)
        constructor
        · rw [hfr _ (rB + t) ?_]
          · exact (ih t (by omega)).1
          · intro u hu
            refine ⟨?_, hcross t (2 ^ e + u) (by omega) (by omega)⟩
            intro hcon
            have h1 : (t : ℤ) = ((2 ^ e + u : ℕ) : ℤ) := by omega
            have h2 : t = 2 ^ e + u := by exact_mod_cast h1
            omega
        · rw [hfr _ (iB + t) ?_]
          · exact (ih t (by omega)).2
          · intro u hu
            refine ⟨fun hcon => hcross (2 ^ e + u) t (by omega) (by omega) hcon.symm, ?_⟩
            intro hcon
            have h1 : (t : ℤ) = ((2 ^ e + u : ℕ) : ℤ) := by omega
            have h2 : t = 2 ^ e + u := by exact_mod_cast h1
            omega
      · have ht' : t - 2 ^ e < (if h < 2 ^ e * 2 then h - 2 ^ e else 2 ^ e) := by omega
        have hteq : t = 2 ^ e + (t - 2 ^ e) := by omega
        have hspec := dbcF_twiddle_fill_spec (dbcF_cexpm1_npot (2 ^ e) n).1
          (if inverse then (dbcF_cexpm1_npot (2 ^ e) n).2
            else -(dbcF_cexpm1_npot (2 ^ e) n).2)
          rB iB (2 ^ e)
          (fun u => Real.cos (2 * Real.pi * u / n) - 1)
          (fun u => dftSgn inverse * Real.sin (2 * Real.pi * u / n))
          (Nat.two_pow_pos e) (if h < 2 ^ e * 2 then h - 2 ^ e else 2 ^ e)
          (dbcF_compute_twiddles_npot_outer n rB iB inverse h e (mset (mset w rB 0) iB 0))
          hj_le (fun u hu => ih u (by omega)) hcross (t - 2 ^ e) ht'
        have hsgn2 : dftSgn inverse * dftSgn inverse = 1 := by
          cases inverse <;> simp [dftSgn]
        have hangle : 2 * Real.pi * ((2 ^ e : ℕ) : ℝ) / n +
            2 * Real.pi * ((t - 2 ^ e : ℕ) : ℝ) / n = 2 * Real.pi * t / n := by
          rw [div_add_div_same, ← mul_add]
          congr 2
          have hcast : ((t - 2 ^ e : ℕ) : ℝ) = (t : ℝ) - ((2 ^ e : ℕ) : ℝ) := by
            rw [Nat.cast_sub (by omega : 2 ^ e ≤ t)]
          rw [hcast]
          ring
        constructor
        · conv_lhs => rw [hteq]
          rw [hspec.1, hxval, hyval]
          have hstep := twiddle_step_re (2 * Real.pi * ((2 ^ e : ℕ) : ℝ) / n)
            (2 * Real.pi * ((t - 2 ^ e : ℕ) : ℝ) / n) (dftSgn inverse) hsgn2
          rw [hangle] at hstep
          exact hstep
        · conv_lhs => rw [hteq]
          rw [hspec.2, hxval, hyval]
          have hstep := twiddle_step_im (2 * Real.pi * ((2 ^ e : ℕ) : ℝ) / n)
            (2 * Real.pi * ((t - 2 ^ e : ℕ) : ℝ) / n) (dftSgn inverse)
          rw [hangle] at hstep
          exact hstep
    · rw [if_neg hlt]
      exact ih t (by omega)

/-- The NPOT mirror loop extends a correct `(cos, σ·sin)` prefix of length `h`
to length `h + cnt`, and touches nothing outside `rB/iB + [h, h+cnt)`. -/
theorem dbcF_npot_mirror_spec (n m h : ℕ) (rB iB : ℤ) (σ : ℝ) (w : Mem)
    (hn : n = 2 * m) (hm1 : 1 ≤ m) (hm2 : m < 2 * h) (hhm : h ≤ m)
    (hd : ∀ u v : ℕ, u < m → v < m → rB + u ≠ iB + v)
    (hw : ∀ t : ℕ, t < h →
      w (rB + t) = Real.cos (2 * Real.pi * t / n) ∧
        w (iB + t) = σ * Real.sin (2 * Real.pi * t / n)) :
    ∀ cnt : ℕ, cnt ≤ m - h →
      (∀ t : ℕ, t < h + cnt →
        dbcF_npot_mirror rB iB m h cnt w (rB + t) = Real.cos (2 * Real.pi * t / n) ∧
          dbcF_npot_mirror rB iB m h cnt w (iB + t) = σ * Real.sin (2 * Real.pi * t / n)) ∧
      (∀ addr : ℤ, (∀ t : ℕ, h ≤ t → t < h + cnt → addr ≠ rB + t ∧ addr ≠ iB + t) →
        dbcF_npot_mirror rB iB m h cnt w addr = w addr) := by
  intro cnt
  induction cnt with
  | zero =>
    refine fun _ => ⟨fun t ht => hw t (by omega), fun addr _ => rfl⟩
  | succ c ih =>
    intro hcnt
    obtain ⟨ihv, ihf⟩ := ih (by omega)
    have him : h + c < m := by omega
    have ht0lt : m - (h + c) < h := by omega
    have hrd := ihv (m - (h + c)) (by omega)
    have hang : 2 * Real.pi * ((m - (h + c) : ℕ) : ℝ) / n
        = Real.pi - 2 * Real.pi * ((h + c : ℕ) : ℝ) / n := by
      have hcast : ((m - (h + c) : ℕ) : ℝ) = (m : ℝ) - ((h + c : ℕ) : ℝ) :=
        Nat.cast_sub (by omega)
      have hmR : ((m : ℕ) : ℝ) ≠ 0 := by
        exact_mod_cast (by omega : (m : ℕ) ≠ 0)
      rw [hcast, hn]
      push_cast
      field_simp
      ring
    constructor
    · intro t ht
      show (mset (mset (dbcF_npot_mirror rB iB m h c w)
          (rB + ((h + c : ℕ) : ℤ)) _) (iB + ((h + c : ℕ) : ℤ)) _) (rB + (t : ℤ)) = _ ∧
        (mset (mset (dbcF_npot_mirror rB iB m h c w)
          (rB + ((h + c : ℕ) : ℤ)) _) (iB + ((h + c : ℕ) : ℤ)) _) (iB + (t : ℤ)) = _
      by_cases htc : t = h + c
      · subst htc
        constructor
        · rw [mset_other _ _ _ (hd (h + c) (h + c) him him), mset_same]
          rw [hrd.1, hang, Real.cos_pi_sub, neg_neg]
        · rw [mset_same]
          rw [hrd.2, hang, Real.sin_pi_sub]
      · have htlt : t < h + c := by omega
        have hner : (rB + (t : ℤ)) ≠ rB + ((h + c : ℕ) : ℤ) := by
          intro hcon
          have h1 : (t : ℤ) = ((h + c : ℕ) : ℤ) := by omega
          have h2 : t = h + c := by exact_mod_cast h1
          omega
        have hnei : (iB + (t : ℤ)) ≠ iB + ((h + c : ℕ) : ℤ) := by
          intro hcon
          have h1 : (t : ℤ) = ((h + c : ℕ) : ℤ) := by omega
          have h2 : t = h + c := by exact_mod_cast h1
          omega
        constructor
        · rw [mset_other _ _ _ (hd t (h + c) (by omega) him), mset_other _ _ _ hner]
          exact (ihv t htlt).1
        · rw [mset_other _ _ _ hnei,
            mset_other _ _ _ (fun hcon => hd (h + c) t him (by omega) hcon.symm)]
          exact (ihv t htlt).2
    · intro addr haddr
      show (mset (mset (dbcF_npot_mirror rB iB m h c w)
          (rB + ((h + c : ℕ) : ℤ)) _) (iB + ((h + c : ℕ) : ℤ)) _) addr = _
      rw [mset_other _ _ _ (haddr (h + c) (by omega) (by omega)).2,
        mset_other _ _ _ (haddr (h + c) (by omega) (by omega)).1]
      exact ihf addr fun t h1 h2 => haddr t h1 (by omega)

/-- The NPOT negate-half loop extends a correct `(cos, σ·sin)` prefix of
length `m` to length `m + cnt`, and touches nothing outside
`rB/iB + [m, m+cnt)`. -/
theorem dbcF_npot_neghalf_spec (n m : ℕ) (rB iB : ℤ) (σ : ℝ) (w : Mem)
    (hn : n = 2 * m) (hm1 : 1 ≤ m)
    (hd : ∀ u v : ℕ, u < 2 * m → v < 2 * m → rB + u ≠ iB + v)
    (hw : ∀ t : ℕ, t < m →
      w (rB + t) = Real.cos (2 * Real.pi * t / n) ∧
        w (iB + t) = σ * Real.sin (2 * Real.pi * t / n)) :
    ∀ cnt : ℕ, cnt ≤ m →
      (∀ t : ℕ, t < m + cnt →
        dbcF_npot_neghalf rB iB m cnt w (rB + t) = Real.cos (2 * Real.pi * t / n) ∧
          dbcF_npot_neghalf rB iB m cnt w (iB + t) = σ * Real.sin (2 * Real.pi * t / n)) ∧
      (∀ addr : ℤ, (∀ t : ℕ, m ≤ t → t < m + cnt → addr ≠ rB + t ∧ addr ≠ iB + t) →
        dbcF_npot_neghalf rB iB m cnt w addr = w addr) := by
  intro cnt
  induction cnt with
  | zero =>
    refine fun _ => ⟨fun t ht => hw t (by omega), fun addr _ => rfl⟩
  | succ c ih =>
    intro hcnt
    obtain ⟨ihv, ihf⟩ := ih (by omega)
    have hrd := ihv c (by omega)
    have hang : 2 * Real.pi * ((m + c : ℕ) : ℝ) / n
        = Real.pi + 2 * Real.pi * ((c : ℕ) : ℝ) / n := by
      have hmR : ((m : ℕ) : ℝ) ≠ 0 := by
        exact_mod_cast (by omega : (m : ℕ) ≠ 0)
      rw [hn]
      push_cast
      field_simp
      ring
    have hcospi : ∀ x : ℝ, Real.cos (Real.pi + x) = -Real.cos x := by
      intro x
      rw [Real.cos_add, Real.cos_pi, Real.sin_pi]
      ring
    have hsinpi : ∀ x : ℝ, Real.sin (Real.pi + x) = -Real.sin x := by
      intro x
      rw [Real.sin_add, Real.cos_pi, Real.sin_pi]
      ring
    constructor
    · intro t ht
      show (mset (mset (dbcF_npot_neghalf rB iB m c w)
          (rB + ((m + c : ℕ) : ℤ)) _) (iB + ((m + c : ℕ) : ℤ)) _) (rB + (t : ℤ)) = _ ∧
        (mset (mset (dbcF_npot_neghalf rB iB m c w)
          (rB + ((m + c : ℕ) : ℤ)) _) (iB + ((m + c : ℕ) : ℤ)) _) (iB + (t : ℤ)) = _
      by_cases htc : t = m + c
      · subst htc
        constructor
        · rw [mset_other _ _ _ (hd (m + c) (m + c) (by omega) (by omega)), mset_same]
          rw [hrd.1, hang, hcospi]
        · rw [mset_same]
          rw [hrd.2, hang, hsinpi]
          ring
      · have htlt : t < m + c := by omega
        have hner : (rB + (t : ℤ)) ≠ rB + ((m + c : ℕ) : ℤ) := by
          intro hcon
          have h1 : (t : ℤ) = ((m + c : ℕ) : ℤ) := by omega
          have h2 : t = m + c := by exact_mod_cast h1
          omega
        have hnei : (iB + (t : ℤ)) ≠ iB + ((m + c : ℕ) : ℤ) := by
          intro hcon
          have h1 : (t : ℤ) = ((m + c : ℕ) : ℤ) := by omega
          have h2 : t = m + c := by exact_mod_cast h1
          omega
        constructor
        · rw [mset_other _ _ _ (hd t (m + c) (by omega) (by omega)),
            mset_other _ _ _ hner]
          exact (ihv t htlt).1
        · rw [mset_other _ _ _ hnei,
            mset_other _ _ _
              (fun hcon => hd (m + c) t (by omega) (by omega) hcon.symm)]
          exact (ihv t htlt).2
    · intro addr haddr
      show (mset (mset (dbcF_npot_neghalf rB iB m c w)
          (rB + ((m + c : ℕ) : ℤ)) _) (iB + ((m + c : ℕ) : ℤ)) _) addr = _
      rw [mset_other _ _ _ (haddr (m + c) (by omega) (by omega)).2,
        mset_other _ _ _ (haddr (m + c) (by omega) (by omega)).1]
      exact ihf addr fun t h1 h2 => haddr t h1 (by omega)

/-- `dbcF_compute_twiddles_npot` on an even length `2m` fills the buffers with
the `2m`-th roots of unity (`real[k] = cos(2πk/2m)`, `imag[k] = σ·sin(2πk/2m)`,
i.e. `Wc^k`), and writes nowhere else. -/
theorem dbcF_compute_twiddles_npot_Wc (m : ℕ) (rB iB : ℤ) (inverse : Bool) (w : Mem)
    (hm1 : 1 ≤ m)
    (hd : ∀ u v : ℕ, u < 2 * m → v < 2 * m → rB + u ≠ iB + v) :
    (∀ k : ℕ, k < 2 * m →
      Complex.mk (dbcF_compute_twiddles_npot (2 * m) rB iB inverse w (rB + k))
          (dbcF_compute_twiddles_npot (2 * m) rB iB inverse w (iB + k))
        = Wc inverse (2 * m) ^ k) ∧
      (∀ addr : ℤ, (∀ t : ℕ, t < 2 * m → addr ≠ rB + t ∧ addr ≠ iB + t) →
        dbcF_compute_twiddles_npot (2 * m) rB iB inverse w addr = w addr) := by
  have hdiv : 2 * m / 2 = m := by omega
  have hE : dbcF_compute_twiddles_npot (2 * m) rB iB inverse w
      = dbcF_npot_neghalf rB iB m m
          (dbcF_npot_mirror rB iB m ((m + 2) / 2) (m - (m + 2) / 2)
            (dbcF_twiddle_addone rB ((m + 2) / 2)
              (dbcF_compute_twiddles_npot_outer (2 * m) rB iB inverse ((m + 2) / 2)
                (2 * m) (mset (mset w rB 0) iB 0)))) := by
    simp only [dbcF_compute_twiddles_npot]
    rw [if_neg (by omega : ¬ (2 * m < 1)), hdiv]
  have hh1 : 1 ≤ (m + 2) / 2 := by omega
  have hhm : (m + 2) / 2 ≤ m := by omega
  have hm2h : m < 2 * ((m + 2) / 2) := by omega
  have hpow := Nat.lt_two_pow (2 * m)
  have houter := dbcF_compute_twiddles_npot_outer_spec (2 * m) ((m + 2) / 2) rB iB
    inverse w hh1 (fun u v hu hv => hd u v (by omega) (by omega)) (2 * m)
  have hpre : ∀ t : ℕ, t < (m + 2) / 2 →
      dbcF_twiddle_addone rB ((m + 2) / 2)
          (dbcF_compute_twiddles_npot_outer (2 * m) rB iB inverse ((m + 2) / 2)
            (2 * m) (mset (mset w rB 0) iB 0)) (rB + t)
        = Real.cos (2 * Real.pi * t / ((2 * m : ℕ) : ℝ)) ∧
      dbcF_twiddle_addone rB ((m + 2) / 2)
          (dbcF_compute_twiddles_npot_outer (2 * m) rB iB inverse ((m + 2) / 2)
            (2 * m) (mset (mset w rB 0) iB 0)) (iB + t)
        = dftSgn inverse * Real.sin (2 * Real.pi * t / ((2 * m : ℕ) : ℝ)) := by
    intro t ht
    constructor
    · rw [dbcF_twiddle_addone_spec rB ((m + 2) / 2) _ t ht,
        (houter t (by omega)).1]
      ring
    · rw [dbcF_twiddle_addone_frame rB ((m + 2) / 2) _ (iB + t)
        (fun u hu hcon => hd u t (by omega) (by omega) hcon.symm)]
      exact (houter t (by omega)).2
  obtain ⟨hmv, hmf⟩ := dbcF_npot_mirror_spec (2 * m) m ((m + 2) / 2) rB iB
    (dftSgn inverse) _ rfl hm1 hm2h hhm
    (fun u v hu hv => hd u v (by omega) (by omega)) hpre
    (m - (m + 2) / 2) (le_refl _)
  obtain ⟨hnv, hnf⟩ := dbcF_npot_neghalf_spec (2 * m) m rB iB (dftSgn inverse) _
    rfl hm1 hd (fun t ht => hmv t (by omega)) m (le_refl m)
  constructor
  · intro k hk
    rw [hE, (hnv k (by omega)).1, (hnv k (by omega)).2, Wc_pow_eq]
  · intro addr haddr
    have h0r : addr ≠ rB := by
      have := (haddr 0 (by omega)).1
      simpa using this
    have h0i : addr ≠ iB := by
      have := (haddr 0 (by omega)).2
      simpa using this
    rw [hE, hnf addr (fun t h1 h2 => haddr t (by omega)),
      hmf addr (fun t h1 h2 => haddr t (by omega)),
      dbcF_twiddle_addone_frame rB _ _ addr (fun t ht => (haddr t (by omega)).1),
      dbcF_compute_twiddles_npot_outer_frame _ _ _ _ _ _ _ addr
        (fun t ht => haddr t (by omega)),
      mset_other _ _ _ h0i, mset_other _ _ _ h0r]

theorem cmk_re (a b : ℝ) : (Complex.mk a b).re = a := rfl

theorem cmk_im (a b : ℝ) : (Complex.mk a b).im = b := rfl

/-- `sin(2π/8) = cos(2π/8)` (both are `√2/2`). -/
theorem sin_two_pi_div_eight : Real.sin (2 * Real.pi / 8) = Real.cos (2 * Real.pi / 8) := by
  have e : 2 * Real.pi / 8 = Real.pi / 4 := by ring
  rw [e, Real.sin_pi_div_four, Real.cos_pi_div_four]

theorem Wc8_pow0 (inverse : Bool) : Wc inverse 8 ^ (0 : ℕ) = Complex.mk 1 0 := by
  rw [Wc_pow_eq]
  have e : 2 * Real.pi * ((0 : ℕ) : ℝ) / ((8 : ℕ) : ℝ) = 0 := by norm_num
  rw [e, Real.cos_zero, Real.sin_zero, mul_zero]

theorem Wc8_pow1 (inverse : Bool) :
    Wc inverse 8 ^ (1 : ℕ) = Complex.mk (Real.cos (2 * Real.pi / 8))
      (dftSgn inverse * Real.cos (2 * Real.pi / 8)) := by
  rw [Wc_pow_eq]
  have e : 2 * Real.pi * ((1 : ℕ) : ℝ) / ((8 : ℕ) : ℝ) = 2 * Real.pi / 8 := by norm_num
  rw [e, sin_two_pi_div_eight]

theorem Wc8_pow2 (inverse : Bool) :
    Wc inverse 8 ^ (2 : ℕ) = Complex.mk 0 (dftSgn inverse) := by
  rw [Wc_pow_eq]
  have e : 2 * Real.pi * ((2 : ℕ) : ℝ) / ((8 : ℕ) : ℝ) = Real.pi / 2 := by
    push_cast
    ring
  rw [e, Real.cos_pi_div_two, Real.sin_pi_div_two, mul_one]

theorem Wc8_pow3 (inverse : Bool) :
    Wc inverse 8 ^ (3 : ℕ) = Complex.mk (-Real.cos (2 * Real.pi / 8))
      (dftSgn inverse * Real.cos (2 * Real.pi / 8)) := by
  rw [Wc_pow_eq]
  have e : 2 * Real.pi * ((3 : ℕ) : ℝ) / ((8 : ℕ) : ℝ) = Real.pi - 2 * Real.pi / 8 := by
    push_cast
    ring
  rw [e, Real.cos_pi_sub, Real.sin_pi_sub, sin_two_pi_div_eight]

theorem Wc8_pow4 (inverse : Bool) : Wc inverse 8 ^ (4 : ℕ) = Complex.mk (-1) 0 := by
  rw [Wc_pow_eq]
  have e : 2 * Real.pi * ((4 : ℕ) : ℝ) / ((8 : ℕ) : ℝ) = Real.pi := by
    push_cast
    ring
  rw [e, Real.cos_pi, Real.sin_pi, mul_zero]

theorem Wc8_pow5 (inverse : Bool) :
    Wc inverse 8 ^ (5 : ℕ) = Complex.mk (-Real.cos (2 * Real.pi / 8))
      (dftSgn inverse * -Real.cos (2 * Real.pi / 8)) := by
  rw [Wc_pow_eq]
  have e : 2 * Real.pi * ((5 : ℕ) : ℝ) / ((8 : ℕ) : ℝ) = Real.pi + 2 * Real.pi / 8 := by
    push_cast
    ring
  have hcv : Real.cos (Real.pi + 2 * Real.pi / 8) = -Real.cos (2 * Real.pi / 8) := by
    rw [Real.cos_add, Real.cos_pi, Real.sin_pi]
    ring
  have hsv : Real.sin (Real.pi + 2 * Real.pi / 8) = -Real.cos (2 * Real.pi / 8) := by
    rw [Real.sin_add, Real.cos_pi, Real.sin_pi, sin_two_pi_div_eight]
    ring
  rw [e, hcv, hsv]

theorem Wc8_pow6 (inverse : Bool) :
    Wc inverse 8 ^ (6 : ℕ) = Complex.mk 0 (dftSgn inverse * -1) := by
  rw [Wc_pow_eq]
  have e : 2 * Real.pi * ((6 : ℕ) : ℝ) / ((8 : ℕ) : ℝ) = Real.pi + Real.pi / 2 := by
    push_cast
    ring
  have hcv : Real.cos (Real.pi + Real.pi / 2) = 0 := by
    rw [Real.cos_add, Real.cos_pi, Real.sin_pi, Real.cos_pi_div_two]
    ring
  have hsv : Real.sin (Real.pi + Real.pi / 2) = -1 := by
    rw [Real.sin_add, Real.cos_pi, Real.sin_pi, Real.sin_pi_div_two]
    ring
  rw [e, hcv, hsv]

theorem Wc8_pow7 (inverse : Bool) :
    Wc inverse 8 ^ (7 : ℕ) = Complex.mk (Real.cos (2 * Real.pi / 8))
      (dftSgn inverse * -Real.cos (2 * Real.pi / 8)) := by
  rw [Wc_pow_eq]
  have e : 2 * Real.pi * ((7 : ℕ) : ℝ) / ((8 : ℕ) : ℝ)
      = 2 * Real.pi - 2 * Real.pi / 8 := by
    push_cast
    ring
  have hcv : Real.cos (2 * Real.pi - 2 * Real.pi / 8) = Real.cos (2 * Real.pi / 8) := by
    rw [Real.cos_sub, Real.cos_two_pi, Real.sin_two_pi]
    ring
  have hsv : Real.sin (2 * Real.pi - 2 * Real.pi / 8) = -Real.cos (2 * Real.pi / 8) := by
    rw [Real.sin_sub, Real.cos_two_pi, Real.sin_two_pi, sin_two_pi_div_eight]
    ring
  rw [e, hcv, hsv]

/-- Even/odd split of a sum over `range (2n)`. -/
theorem sum_range_even_odd (f : ℕ → ℂ) (n : ℕ) :
    ∑ t ∈ Finset.range (2 * n), f t
      = (∑ t ∈ Finset.range n, f (2 * t)) + ∑ t ∈ Finset.range n, f (2 * t + 1) := by
  induction n with
  | zero => simp
  | succ n ih =>
    have h2 : 2 * (n + 1) = 2 * n + 1 + 1 := by ring
    rw [h2, Finset.sum_range_succ, Finset.sum_range_succ, ih,
      Finset.sum_range_succ, Finset.sum_range_succ]
    ring

/-- One radix-2 butterfly pass advances the stage invariant: if aligned blocks
of size `2^s` hold their own DFTs and the pass combines block pairs with
twiddles `W₂ₛ₊₁^d`, the resulting blocks of size `2^(s+1)` hold their DFTs. -/
theorem stageInv_step (inverse : Bool) (v arrIn arrOut : ℕ → ℂ) (s cnt : ℕ)
    (hIn : stageInv inverse v arrIn s (2 * cnt))
    (hOut : ∀ i d : ℕ, i < cnt → d < 2 ^ s →
      arrOut (i * 2 ^ (s + 1) + d)
          = arrIn (i * 2 ^ (s + 1) + d)
            + Wc inverse (2 ^ (s + 1)) ^ d * arrIn (i * 2 ^ (s + 1) + (2 ^ s + d)) ∧
        arrOut (i * 2 ^ (s + 1) + (2 ^ s + d))
          = arrIn (i * 2 ^ (s + 1) + d)
            - Wc inverse (2 ^ (s + 1)) ^ d * arrIn (i * 2 ^ (s + 1) + (2 ^ s + d))) :
    stageInv inverse v arrOut (s + 1) cnt := by
  intro g r hg hr
  have hR : (2 : ℕ) ^ (s + 1) = 2 * 2 ^ s := by ring
  have hWsq : Wc inverse (2 * 2 ^ s) ^ 2 = Wc inverse (2 ^ s) := Wc_two_mul_sq inverse (2 ^ s)
  have hWn : Wc inverse (2 * 2 ^ s) ^ (2 * 2 ^ s) = 1 := Wc_pow_n inverse _ (by positivity)
  have hWhalf : Wc inverse (2 * 2 ^ s) ^ ((2 : ℕ) ^ s) = -1 :=
    Wc_pow_half inverse (2 ^ s) (by positivity)
  rw [hR] at hr ⊢
  rw [sum_range_even_odd (fun t => v (g * (2 * 2 ^ s) + bitrev (s + 1) t)
    * Wc inverse (2 * 2 ^ s) ^ (r * t)) (2 ^ s)]
  by_cases hcase : r < 2 ^ s
  · obtain ⟨hO1, _⟩ := hOut g r hg hcase
    rw [hR] at hO1
    have hL := hIn (2 * g) r (by omega) hcase
    have hH := hIn (2 * g + 1) r (by omega) hcase
    rw [show (2 * g) * 2 ^ s = g * (2 * 2 ^ s) from by ring] at hL
    rw [show (2 * g + 1) * 2 ^ s = g * (2 * 2 ^ s) + 2 ^ s from by ring] at hH
    have hEvenEq : (∑ t ∈ Finset.range (2 ^ s),
        v (g * (2 * 2 ^ s) + bitrev (s + 1) (2 * t)) * Wc inverse (2 * 2 ^ s) ^ (r * (2 * t)))
        = ∑ t ∈ Finset.range (2 ^ s),
            v (g * (2 * 2 ^ s) + bitrev s t) * Wc inverse (2 ^ s) ^ (r * t) := by
      refine Finset.sum_congr rfl ?_
      intro t _
      rw [bitrev_even]
      congr 1
      rw [show r * (2 * t) = 2 * (r * t) from by ring, pow_mul, hWsq]
    have hOddEq : (∑ t ∈ Finset.range (2 ^ s),
        v (g * (2 * 2 ^ s) + bitrev (s + 1) (2 * t + 1))
          * Wc inverse (2 * 2 ^ s) ^ (r * (2 * t + 1)))
        = Wc inverse (2 * 2 ^ s) ^ r * ∑ t ∈ Finset.range (2 ^ s),
            v (g * (2 * 2 ^ s) + 2 ^ s + bitrev s t) * Wc inverse (2 ^ s) ^ (r * t) := by
      rw [Finset.mul_sum]
      refine Finset.sum_congr rfl ?_
      intro t _
      rw [bitrev_odd]
      rw [show g * (2 * 2 ^ s) + (2 ^ s + bitrev s t)
          = g * (2 * 2 ^ s) + 2 ^ s + bitrev s t from by omega]
      rw [show r * (2 * t + 1) = 2 * (r * t) + r from by ring, pow_add, pow_mul, hWsq]
      ring
    rw [hEvenEq, hOddEq, ← hL, ← hH, hO1,
      show g * (2 * 2 ^ s) + (2 ^ s + r) = g * (2 * 2 ^ s) + 2 ^ s + r from by omega]
  · obtain ⟨d, rfl⟩ : ∃ d, r = 2 ^ s + d := ⟨r - 2 ^ s, by omega⟩
    have hd2 : d < 2 ^ s := by omega
    obtain ⟨_, hO2⟩ := hOut g d hg hd2
    rw [hR] at hO2
    have hL := hIn (2 * g) d (by omega) hd2
    have hH := hIn (2 * g + 1) d (by omega) hd2
    rw [show (2 * g) * 2 ^ s = g * (2 * 2 ^ s) from by ring] at hL
    rw [show (2 * g + 1) * 2 ^ s = g * (2 * 2 ^ s) + 2 ^ s from by ring] at hH
    have hEvenEq : (∑ t ∈ Finset.range (2 ^ s),
        v (g * (2 * 2 ^ s) + bitrev (s + 1) (2 * t))
          * Wc inverse (2 * 2 ^ s) ^ ((2 ^ s + d) * (2 * t)))
        = ∑ t ∈ Finset.range (2 ^ s),
            v (g * (2 * 2 ^ s) + bitrev s t) * Wc inverse (2 ^ s) ^ (d * t) := by
      refine Finset.sum_congr rfl ?_
      intro t _
      rw [bitrev_even]
      congr 1
      rw [show (2 ^ s + d) * (2 * t) = (2 * 2 ^ s) * t + 2 * (d * t) from by ring,
        pow_add, pow_mul, hWn, one_pow, one_mul, pow_mul, hWsq]
    have hOddEq : (∑ t ∈ Finset.range (2 ^ s),
        v (g * (2 * 2 ^ s) + bitrev (s + 1) (2 * t + 1))
          * Wc inverse (2 * 2 ^ s) ^ ((2 ^ s + d) * (2 * t + 1)))
        = -(Wc inverse (2 * 2 ^ s) ^ d * ∑ t ∈ Finset.range (2 ^ s),
            v (g * (2 * 2 ^ s) + 2 ^ s + bitrev s t) * Wc inverse (2 ^ s) ^ (d * t)) := by
      rw [Finset.mul_sum, ← Finset.sum_neg_distrib]
      refine Finset.sum_congr rfl ?_
      intro t _
      rw [bitrev_odd]
      rw [show g * (2 * 2 ^ s) + (2 ^ s + bitrev s t)
          = g * (2 * 2 ^ s) + 2 ^ s + bitrev s t from by omega]
      rw [show (2 ^ s + d) * (2 * t + 1) = (2 * 2 ^ s) * t + 2 * (d * t) + 2 ^ s + d
          from by ring, pow_add, pow_add, pow_add, pow_mul, hWn, one_pow, one_mul,
        pow_mul, hWsq, hWhalf]
      ring
    rw [hEvenEq, hOddEq, ← hL, ← hH, hO2,
      show g * (2 * 2 ^ s) + (2 ^ s + d) = g * (2 * 2 ^ s) + 2 ^ s + d from by omega]
    ring

/-- One butterfly of the unrolled hot loop: with twiddle `T = (tr[d], ti[d])`,
`(L, H) ← (L + T·H, L − T·H)` at offset `d`, and no other cell changes. -/
theorem dbcF_pass_body_spec (real imag rs ims trB tiB : ℤ) (tw : Mem)
    (lo hi d N : ℕ) (mem : Mem) (hrs : rs ≠ 0) (hims : ims ≠ 0)
    (hcross : ∀ u v : ℕ, u < N → v < N → real + u * rs ≠ imag + v * ims)
    (hlo : lo + d < N) (hhi : hi + d < N) (hne : lo + d ≠ hi + d) :
    (cview (dbcF_pass_body (real + (lo : ℤ) * rs) (imag + (lo : ℤ) * ims)
          (real + (hi : ℤ) * rs) (imag + (hi : ℤ) * ims) rs ims trB tiB tw d mem)
        real rs imag ims (lo + d)
      = cview mem real rs imag ims (lo + d)
        + Complex.mk (tw (trB + d)) (tw (tiB + d)) * cview mem real rs imag ims (hi + d)) ∧
    (cview (dbcF_pass_body (real + (lo : ℤ) * rs) (imag + (lo : ℤ) * ims)
          (real + (hi : ℤ) * rs) (imag + (hi : ℤ) * ims) rs ims trB tiB tw d mem)
        real rs imag ims (hi + d)
      = cview mem real rs imag ims (lo + d)
        - Complex.mk (tw (trB + d)) (tw (tiB + d)) * cview mem real rs imag ims (hi + d)) ∧
    (∀ a : ℤ, a ≠ real + ((lo + d : ℕ) : ℤ) * rs → a ≠ imag + ((lo + d : ℕ) : ℤ) * ims →
      a ≠ real + ((hi + d : ℕ) : ℤ) * rs → a ≠ imag + ((hi + d : ℕ) : ℤ) * ims →
      dbcF_pass_body (real + (lo : ℤ) * rs) (imag + (lo : ℤ) * ims)
          (real + (hi : ℤ) * rs) (imag + (hi : ℤ) * ims) rs ims trB tiB tw d mem a = mem a) := by
  have eLR : real + (lo : ℤ) * rs + (d : ℤ) * rs = real + ((lo + d : ℕ) : ℤ) * rs := by
    push_cast
    ring
  have eLI : imag + (lo : ℤ) * ims + (d : ℤ) * ims = imag + ((lo + d : ℕ) : ℤ) * ims := by
    push_cast
    ring
  have eHR : real + (hi : ℤ) * rs + (d : ℤ) * rs = real + ((hi + d : ℕ) : ℤ) * rs := by
    push_cast
    ring
  have eHI : imag + (hi : ℤ) * ims + (d : ℤ) * ims = imag + ((hi + d : ℕ) : ℤ) * ims := by
    push_cast
    ring
  have hnR : real + ((lo + d : ℕ) : ℤ) * rs ≠ real + ((hi + d : ℕ) : ℤ) * rs :=
    addr_inj hrs hne
  have hnI : imag + ((lo + d : ℕ) : ℤ) * ims ≠ imag + ((hi + d : ℕ) : ℤ) * ims :=
    addr_inj hims hne
  have hx1 := hcross (lo + d) (lo + d) hlo hlo
  have hx2 := hcross (lo + d) (hi + d) hlo hhi
  have hx3 := hcross (hi + d) (lo + d) hhi hlo
  have hx4 := hcross (hi + d) (hi + d) hhi hhi
  simp only [dbcF_pass_body, cview]
  rw [eLR, eLI, eHR, eHI]
  refine ⟨?_, ?_, ?_⟩
  · rw [mset_other _ _ _ hx2, mset_other _ _ _ hnR, mset_other _ _ _ hx1, mset_same,
      mset_other _ _ _ hnI, mset_other _ _ _ hx3.symm, mset_same]
    refine Complex.ext ?_ ?_ <;>
      simp only [Complex.add_re, Complex.add_im, Complex.sub_re, Complex.sub_im,
        Complex.mul_re, Complex.mul_im, cmk_re, cmk_im] <;>
      try ring
  · rw [mset_other _ _ _ hx4, mset_same, mset_same]
    refine Complex.ext ?_ ?_ <;>
      simp only [Complex.add_re, Complex.add_im, Complex.sub_re, Complex.sub_im,
        Complex.mul_re, Complex.mul_im, cmk_re, cmk_im] <;>
      try ring
  · intro a h1 h2 h3 h4
    rw [mset_other _ _ _ h4, mset_other _ _ _ h3, mset_other _ _ _ h2,
      mset_other _ _ _ h1]

/-- Two memories agreeing on a slot's real and imaginary cells have the same
complex view there. -/
theorem cview_eq_of (m1 m2 : Mem) (real rs imag ims : ℤ) (j : ℕ)
    (h1 : m1 (real + (j : ℤ) * rs) = m2 (real + (j : ℤ) * rs))
    (h2 : m1 (imag + (j : ℤ) * ims) = m2 (imag + (j : ℤ) * ims)) :
    cview m1 real rs imag ims j = cview m2 real rs imag ims j := by
  simp only [cview, h1, h2]

/-- The twice-unrolled inner loop applies the butterfly at every offset
`d < 2·cnt2` exactly once (offsets are pairwise independent), and leaves all
other cells unchanged. -/
theorem dbcF_pass_loop2_spec (real imag rs ims trB tiB : ℤ) (tw : Mem)
    (lo hi N : ℕ) (hrs : rs ≠ 0) (hims : ims ≠ 0)
    (hcross : ∀ u v : ℕ, u < N → v < N → real + u * rs ≠ imag + v * ims) :
    ∀ (cnt2 : ℕ) (mem : Mem), lo + 2 * cnt2 ≤ hi → hi + 2 * cnt2 ≤ N →
      (∀ d : ℕ, d < 2 * cnt2 →
        cview (dbcF_pass_loop2 (real + (lo : ℤ) * rs) (imag + (lo : ℤ) * ims)
              (real + (hi : ℤ) * rs) (imag + (hi : ℤ) * ims) rs ims trB tiB tw cnt2 mem)
            real rs imag ims (lo + d)
          = cview mem real rs imag ims (lo + d)
            + Complex.mk (tw (trB + d)) (tw (tiB + d))
              * cview mem real rs imag ims (hi + d) ∧
        cview (dbcF_pass_loop2 (real + (lo : ℤ) * rs) (imag + (lo : ℤ) * ims)
              (real + (hi : ℤ) * rs) (imag + (hi : ℤ) * ims) rs ims trB tiB tw cnt2 mem)
            real rs imag ims (hi + d)
          = cview mem real rs imag ims (lo + d)
            - Complex.mk (tw (trB + d)) (tw (tiB + d))
              * cview mem real rs imag ims (hi + d)) ∧
      (∀ a : ℤ,
        (∀ d : ℕ, d < 2 * cnt2 → a ≠ real + ((lo + d : ℕ) : ℤ) * rs ∧
          a ≠ imag + ((lo + d : ℕ) : ℤ) * ims ∧ a ≠ real + ((hi + d : ℕ) : ℤ) * rs ∧
          a ≠ imag + ((hi + d : ℕ) : ℤ) * ims) →
        dbcF_pass_loop2 (real + (lo : ℤ) * rs) (imag + (lo : ℤ) * ims)
            (real + (hi : ℤ) * rs) (imag + (hi : ℤ) * ims) rs ims trB tiB tw cnt2 mem a
          = mem a) := by
  intro cnt2
  induction cnt2 with
  | zero =>
    intro mem _ _
    exact ⟨fun d hd => absurd hd (by omega), fun a _ => rfl⟩
  | succ step ih =>
    intro mem hsep hN
    obtain ⟨ihv, ihf⟩ := ih mem (by omega) (by omega)
    have hfr' : ∀ u : ℕ, u < N → (∀ d : ℕ, d < 2 * step → u ≠ lo + d ∧ u ≠ hi + d) →
        dbcF_pass_loop2 (real + (lo : ℤ) * rs) (imag + (lo : ℤ) * ims)
            (real + (hi : ℤ) * rs) (imag + (hi : ℤ) * ims) rs ims trB tiB tw step mem
            (real + (u : ℤ) * rs) = mem (real + (u : ℤ) * rs) ∧
          dbcF_pass_loop2 (real + (lo : ℤ) * rs) (imag + (lo : ℤ) * ims)
            (real + (hi : ℤ) * rs) (imag + (hi : ℤ) * ims) rs ims trB tiB tw step mem
            (imag + (u : ℤ) * ims) = mem (imag + (u : ℤ) * ims) := by
      intro u hu hud
      constructor
      · refine ihf _ fun d hd => ⟨addr_inj hrs (hud d hd).1,
          hcross u (lo + d) hu (by omega), addr_inj hrs (hud d hd).2,
          hcross u (hi + d) hu (by omega)⟩
      · refine ihf _ fun d hd => ⟨(hcross (lo + d) u (by omega) hu).symm,
          addr_inj hims (hud d hd).1, (hcross (hi + d) u (by omega) hu).symm,
          addr_inj hims (hud d hd).2⟩
    obtain ⟨hb1L, hb1H, hb1F⟩ := dbcF_pass_body_spec real imag rs ims trB tiB tw
      lo hi (2 * step) N
      (dbcF_pass_loop2 (real + (lo : ℤ) * rs) (imag + (lo : ℤ) * ims)
        (real + (hi : ℤ) * rs) (imag + (hi : ℤ) * ims) rs ims trB tiB tw step mem)
      hrs hims hcross (by omega) (by omega) (by omega)
    obtain ⟨hb2L, hb2H, hb2F⟩ := dbcF_pass_body_spec real imag rs ims trB tiB tw
      lo hi (2 * step + 1) N
      (dbcF_pass_body (real + (lo : ℤ) * rs) (imag + (lo : ℤ) * ims)
        (real + (hi : ℤ) * rs) (imag + (hi : ℤ) * ims) rs ims trB tiB tw (2 * step)
        (dbcF_pass_loop2 (real + (lo : ℤ) * rs) (imag + (lo : ℤ) * ims)
          (real + (hi : ℤ) * rs) (imag + (hi : ℤ) * ims) rs ims trB tiB tw step mem))
      hrs hims hcross (by omega) (by omega) (by omega)
    have hfin : ∀ u : ℕ, u < N →
        u ≠ lo + (2 * step + 1) → u ≠ hi + (2 * step + 1) →
        dbcF_pass_loop2 (real + (lo : ℤ) * rs) (imag + (lo : ℤ) * ims)
            (real + (hi : ℤ) * rs) (imag + (hi : ℤ) * ims) rs ims trB tiB tw (step + 1) mem
            (real + (u : ℤ) * rs)
          = dbcF_pass_body (real + (lo : ℤ) * rs) (imag + (lo : ℤ) * ims)
              (real + (hi : ℤ) * rs) (imag + (hi : ℤ) * ims) rs ims trB tiB tw (2 * step)
              (dbcF_pass_loop2 (real + (lo : ℤ) * rs) (imag + (lo : ℤ) * ims)
                (real + (hi : ℤ) * rs) (imag + (hi : ℤ) * ims) rs ims trB tiB tw step mem)
              (real + (u : ℤ) * rs) ∧
          dbcF_pass_loop2 (real + (lo : ℤ) * rs) (imag + (lo : ℤ) * ims)
            (real + (hi : ℤ) * rs) (imag + (hi : ℤ) * ims) rs ims trB tiB tw (step + 1) mem
            (imag + (u : ℤ) * ims)
          = dbcF_pass_body (real + (lo : ℤ) * rs) (imag + (lo : ℤ) * ims)
              (real + (hi : ℤ) * rs) (imag + (hi : ℤ) * ims) rs ims trB tiB tw (2 * step)
              (dbcF_pass_loop2 (real + (lo : ℤ) * rs) (imag + (lo : ℤ) * ims)
                (real + (hi : ℤ) * rs) (imag + (hi : ℤ) * ims) rs ims trB tiB tw step mem)
              (imag + (u : ℤ) * ims) := by
      intro u hu h3 h4
      constructor
      · exact hb2F _ (addr_inj hrs h3) (hcross u (lo + (2 * step + 1)) hu (by omega))
          (addr_inj hrs h4) (hcross u (hi + (2 * step + 1)) hu (by omega))
      · exact hb2F _ ((hcross (lo + (2 * step + 1)) u (by omega) hu).symm)
          (addr_inj hims h3) ((hcross (hi + (2 * step + 1)) u (by omega) hu).symm)
          (addr_inj hims h4)
    have hbody1fr : ∀ u : ℕ, u < N → u ≠ lo + 2 * step → u ≠ hi + 2 * step →
        dbcF_pass_body (real + (lo : ℤ) * rs) (imag + (lo : ℤ) * ims)
            (real + (hi : ℤ) * rs) (imag + (hi : ℤ) * ims) rs ims trB tiB tw (2 * step)
            (dbcF_pass_loop2 (real + (lo : ℤ) * rs) (imag + (lo : ℤ) * ims)
              (real + (hi : ℤ) * rs) (imag + (hi : ℤ) * ims) rs ims trB tiB tw step mem)
            (real + (u : ℤ) * rs)
          = dbcF_pass_loop2 (real + (lo : ℤ) * rs) (imag + (lo : ℤ) * ims)
              (real + (hi : ℤ) * rs) (imag + (hi : ℤ) * ims) rs ims trB tiB tw step mem
              (real + (u : ℤ) * rs) ∧
          dbcF_pass_body (real + (lo : ℤ) * rs) (imag + (lo : ℤ) * ims)
            (real + (hi : ℤ) * rs) (imag + (hi : ℤ) * ims) rs ims trB tiB tw (2 * step)
            (dbcF_pass_loop2 (real + (lo : ℤ) * rs) (imag + (lo : ℤ) * ims)
              (real + (hi : ℤ) * rs) (imag + (hi : ℤ) * ims) rs ims trB tiB tw step mem)
            (imag + (u : ℤ) * ims)
          = dbcF_pass_loop2 (real + (lo : ℤ) * rs) (imag + (lo : ℤ) * ims)
              (real + (hi : ℤ) * rs) (imag + (hi : ℤ) * ims) rs ims trB tiB tw step mem
              (imag + (u : ℤ) * ims) := by
      intro u hu h1 h2
      constructor
      · exact hb1F _ (addr_inj hrs h1) (hcross u (lo + 2 * step) hu (by omega))
          (addr_inj hrs h2) (hcross u (hi + 2 * step) hu (by omega))
      · exact hb1F _ ((hcross (lo + 2 * step) u (by omega) hu).symm)
          (addr_inj hims h1) ((hcross (hi + 2 * step) u (by omega) hu).symm)
          (addr_inj hims h2)
    constructor
    · intro d hd
      by_cases hdA : d < 2 * step
      · have hv := ihv d hdA
        have hcvL : cview (dbcF_pass_loop2 (real + (lo : ℤ) * rs) (imag + (lo : ℤ) * ims)
            (real + (hi : ℤ) * rs) (imag + (hi : ℤ) * ims) rs ims trB tiB tw (step + 1) mem)
            real rs imag ims (lo + d)
            = cview (dbcF_pass_loop2 (real + (lo : ℤ) * rs) (imag + (lo : ℤ) * ims)
              (real + (hi : ℤ) * rs) (imag + (hi : ℤ) * ims) rs ims trB tiB tw step mem)
              real rs imag ims (lo + d) := by
          have hA := hfin (lo + d) (by omega) (by omega) (by omega)
          have hB := hbody1fr (lo + d) (by omega) (by omega) (by omega)
          exact cview_eq_of _ _ _ _ _ _ _ (hA.1.trans hB.1) (hA.2.trans hB.2)
        have hcvH : cview (dbcF_pass_loop2 (real + (lo : ℤ) * rs) (imag + (lo : ℤ) * ims)
            (real + (hi : ℤ) * rs) (imag + (hi : ℤ) * ims) rs ims trB tiB tw (step + 1) mem)
            real rs imag ims (hi + d)
            = cview (dbcF_pass_loop2 (real + (lo : ℤ) * rs) (imag + (lo : ℤ) * ims)
              (real + (hi : ℤ) * rs) (imag + (hi : ℤ) * ims) rs ims trB tiB tw step mem)
              real rs imag ims (hi + d) := by
          have hA := hfin (hi + d) (by omega) (by omega) (by omega)
          have hB := hbody1fr (hi + d) (by omega) (by omega) (by omega)
          exact cview_eq_of _ _ _ _ _ _ _ (hA.1.trans hB.1) (hA.2.trans hB.2)
        exact ⟨hcvL.trans hv.1, hcvH.trans hv.2⟩
      · have hcvmemL : cview (dbcF_pass_loop2 (real + (lo : ℤ) * rs)
            (imag + (lo : ℤ) * ims) (real + (hi : ℤ) * rs) (imag + (hi : ℤ) * ims)
            rs ims trB tiB tw step mem) real rs imag ims (lo + d)
            = cview mem real rs imag ims (lo + d) := by
          have h := hfr' (lo + d) (by omega) (fun d' hd' => ⟨by omega, by omega⟩)
          exact cview_eq_of _ _ _ _ _ _ _ h.1 h.2
        have hcvmemH : cview (dbcF_pass_loop2 (real + (lo : ℤ) * rs)
            (imag + (lo : ℤ) * ims) (real + (hi : ℤ) * rs) (imag + (hi : ℤ) * ims)
            rs ims trB tiB tw step mem) real rs imag ims (hi + d)
            = cview mem real rs imag ims (hi + d) := by
          have h := hfr' (hi + d) (by omega) (fun d' hd' => ⟨by omega, by omega⟩)
          exact cview_eq_of _ _ _ _ _ _ _ h.1 h.2
        by_cases hdB : d = 2 * step
        · subst hdB
          have hAL := hfin (lo + 2 * step) (by omega) (by omega) (by omega)
          have hAH := hfin (hi + 2 * step) (by omega) (by omega) (by omega)
          have hcvL := cview_eq_of _ _ real rs imag ims (lo + 2 * step) hAL.1 hAL.2
          have hcvH := cview_eq_of _ _ real rs imag ims (hi + 2 * step) hAH.1 hAH.2
          exact ⟨hcvL.trans (hb1L.trans (by rw [hcvmemL, hcvmemH])),
            hcvH.trans (hb1H.trans (by rw [hcvmemL, hcvmemH]))⟩
        · have hdC : d = 2 * step + 1 := by omega
          subst hdC
          have hbLa := hbody1fr (lo + (2 * step + 1)) (by omega) (by omega) (by omega)
          have hbHa := hbody1fr (hi + (2 * step + 1)) (by omega) (by omega) (by omega)
          have hmL := hfr' (lo + (2 * step + 1)) (by omega)
            (fun d' hd' => ⟨by omega, by omega⟩)
          have hmH := hfr' (hi + (2 * step + 1)) (by omega)
            (fun d' hd' => ⟨by omega, by omega⟩)
          have hbL := cview_eq_of _ _ real rs imag ims (lo + (2 * step + 1))
            (hbLa.1.trans hmL.1) (hbLa.2.trans hmL.2)
          have hbH := cview_eq_of _ _ real rs imag ims (hi + (2 * step + 1))
            (hbHa.1.trans hmH.1) (hbHa.2.trans hmH.2)
          exact ⟨hb2L.trans (by rw [hbL, hbH]), hb2H.trans (by rw [hbL, hbH])⟩
    · intro a ha
      have h1 := ha (2 * step) (by omega)
      have h2 := ha (2 * step + 1) (by omega)
      show dbcF_pass_body _ _ _ _ _ _ _ _ _ (2 * step + 1) _ a = mem a
      rw [hb2F a h2.1 h2.2.1 h2.2.2.1 h2.2.2.2,
        hb1F a h1.1 h1.2.1 h1.2.2.1 h1.2.2.2]
      exact ihf a fun d hd => ha d (by omega)

/-- The `h > 1` block loop of `dbcF_butterfly_pass`: in every block `i < cnt`
of size `n = 4·h2`, the butterfly with twiddle `(tr[d], ti[d])` combines the
cells at offsets `d` and `n/2 + d`; cells outside the first `cnt·n` slots are
untouched. -/
theorem dbcF_pass_blocks_spec (n : ℕ) (real imag rs ims trB tiB : ℤ) (tw : Mem)
    (h2 N : ℕ) (hrs : rs ≠ 0) (hims : ims ≠ 0)
    (hcross : ∀ u v : ℕ, u < N → v < N → real + u * rs ≠ imag + v * ims)
    (hn : n = 4 * h2) :
    ∀ (cnt : ℕ) (mem : Mem), cnt * n ≤ N →
      (∀ i d : ℕ, i < cnt → d < 2 * h2 →
        cview (dbcF_pass_blocks n real imag rs ims trB tiB tw h2 cnt mem)
            real rs imag ims (i * n + d)
          = cview mem real rs imag ims (i * n + d)
            + Complex.mk (tw (trB + d)) (tw (tiB + d))
              * cview mem real rs imag ims (i * n + (2 * h2 + d)) ∧
        cview (dbcF_pass_blocks n real imag rs ims trB tiB tw h2 cnt mem)
            real rs imag ims (i * n + (2 * h2 + d))
          = cview mem real rs imag ims (i * n + d)
            - Complex.mk (tw (trB + d)) (tw (tiB + d))
              * cview mem real rs imag ims (i * n + (2 * h2 + d))) ∧
      (∀ a : ℤ, (∀ u : ℕ, u < cnt * n → a ≠ real + (u : ℤ) * rs ∧
          a ≠ imag + (u : ℤ) * ims) →
        dbcF_pass_blocks n real imag rs ims trB tiB tw h2 cnt mem a = mem a) := by
  have hdiv : ((n / 2 : ℕ) : ℤ) = ((2 * h2 : ℕ) : ℤ) := by
    have h : n / 2 = 2 * h2 := by omega
    rw [h]
  intro cnt
  induction cnt with
  | zero =>
    intro mem _
    exact ⟨fun i d hi => absurd hi (by omega), fun a _ => rfl⟩
  | succ i ih =>
    intro mem hN
    have hin : (i + 1) * n = i * n + n := by ring
    obtain ⟨ihv, ihf⟩ := ih mem (by omega)
    have e1 : real + (i : ℤ) * (n : ℤ) * rs = real + ((i * n : ℕ) : ℤ) * rs := by
      push_cast
      ring
    have e2 : imag + (i : ℤ) * (n : ℤ) * ims = imag + ((i * n : ℕ) : ℤ) * ims := by
      push_cast
      ring
    have e3 : real + ((i : ℤ) * (n : ℤ) + ((n / 2 : ℕ) : ℤ)) * rs
        = real + ((i * n + 2 * h2 : ℕ) : ℤ) * rs := by
      rw [hdiv]
      push_cast
      ring
    have e4 : imag + ((i : ℤ) * (n : ℤ) + ((n / 2 : ℕ) : ℤ)) * ims
        = imag + ((i * n + 2 * h2 : ℕ) : ℤ) * ims := by
      rw [hdiv]
      push_cast
      ring
    have hout : dbcF_pass_blocks n real imag rs ims trB tiB tw h2 (i + 1) mem
        = dbcF_pass_loop2 (real + ((i * n : ℕ) : ℤ) * rs) (imag + ((i * n : ℕ) : ℤ) * ims)
            (real + ((i * n + 2 * h2 : ℕ) : ℤ) * rs)
            (imag + ((i * n + 2 * h2 : ℕ) : ℤ) * ims) rs ims trB tiB tw h2
            (dbcF_pass_blocks n real imag rs ims trB tiB tw h2 i mem) := by
      show dbcF_pass_loop2 (real + (i : ℤ) * (n : ℤ) * rs) (imag + (i : ℤ) * (n : ℤ) * ims)
          (real + ((i : ℤ) * (n : ℤ) + ((n / 2 : ℕ) : ℤ)) * rs)
          (imag + ((i : ℤ) * (n : ℤ) + ((n / 2 : ℕ) : ℤ)) * ims) rs ims trB tiB tw h2
          (dbcF_pass_blocks n real imag rs ims trB tiB tw h2 i mem) = _
      rw [e1, e2, e3, e4]
    obtain ⟨l2v, l2f⟩ := dbcF_pass_loop2_spec real imag rs ims trB tiB tw
      (i * n) (i * n + 2 * h2) N hrs hims hcross h2
      (dbcF_pass_blocks n real imag rs ims trB tiB tw h2 i mem) (by omega) (by omega)
    have hmem' : ∀ u : ℕ, i * n ≤ u → u < N →
        dbcF_pass_blocks n real imag rs ims trB tiB tw h2 i mem (real + (u : ℤ) * rs)
            = mem (real + (u : ℤ) * rs) ∧
          dbcF_pass_blocks n real imag rs ims trB tiB tw h2 i mem (imag + (u : ℤ) * ims)
            = mem (imag + (u : ℤ) * ims) := by
      intro u hu huN
      constructor
      · refine ihf _ fun u' hu' => ⟨addr_inj hrs (by omega),
          hcross u u' huN (by omega)⟩
      · refine ihf _ fun u' hu' => ⟨(hcross u' u (by omega) huN).symm,
          addr_inj hims (by omega)⟩
    constructor
    · intro j d hj hd
      rw [hout]
      by_cases hji : j = i
      · subst hji
        have hv := l2v d hd
        have eL : j * n + 2 * h2 + d = j * n + (2 * h2 + d) := by omega
        rw [eL] at hv
        have hmL := hmem' (j * n + d) (by omega) (by omega)
        have hmH := hmem' (j * n + (2 * h2 + d)) (by omega) (by omega)
        have hcvL := cview_eq_of _ _ real rs imag ims (j * n + d) hmL.1 hmL.2
        have hcvH := cview_eq_of _ _ real rs imag ims (j * n + (2 * h2 + d)) hmH.1 hmH.2
        exact ⟨hv.1.trans (by rw [hcvL, hcvH]), hv.2.trans (by rw [hcvL, hcvH])⟩
      · have hji' : j < i := by omega
        have hjn : (j + 1) * n ≤ i * n := Nat.mul_le_mul_right n (by omega)
        have hjn' : (j + 1) * n = j * n + n := by ring
        have hfrL : ∀ u : ℕ, u < i * n →
            dbcF_pass_loop2 (real + ((i * n : ℕ) : ℤ) * rs)
                (imag + ((i * n : ℕ) : ℤ) * ims)
                (real + ((i * n + 2 * h2 : ℕ) : ℤ) * rs)
                (imag + ((i * n + 2 * h2 : ℕ) : ℤ) * ims) rs ims trB tiB tw h2
                (dbcF_pass_blocks n real imag rs ims trB tiB tw h2 i mem)
                (real + (u : ℤ) * rs)
              = dbcF_pass_blocks n real imag rs ims trB tiB tw h2 i mem
                  (real + (u : ℤ) * rs) ∧
              dbcF_pass_loop2 (real + ((i * n : ℕ) : ℤ) * rs)
                (imag + ((i * n : ℕ) : ℤ) * ims)
                (real + ((i * n + 2 * h2 : ℕ) : ℤ) * rs)
                (imag + ((i * n + 2 * h2 : ℕ) : ℤ) * ims) rs ims trB tiB tw h2
                (dbcF_pass_blocks n real imag rs ims trB tiB tw h2 i mem)
                (imag + (u : ℤ) * ims)
              = dbcF_pass_blocks n real imag rs ims trB tiB tw h2 i mem
                  (imag + (u : ℤ) * ims) := by
          intro u hu
          constructor
          · refine l2f _ fun d' hd' => ⟨addr_inj hrs (by omega),
              hcross u (i * n + d') (by omega) (by omega), addr_inj hrs (by omega),
              hcross u (i * n + 2 * h2 + d') (by omega) (by omega)⟩
          · refine l2f _ fun d' hd' => ⟨(hcross (i * n + d') u (by omega) (by omega)).symm,
              addr_inj hims (by omega),
              (hcross (i * n + 2 * h2 + d') u (by omega) (by omega)).symm,
              addr_inj hims (by omega)⟩
        have hA := hfrL (j * n + d) (by omega)
        have hB := hfrL (j * n + (2 * h2 + d)) (by omega)
        have hcvL := cview_eq_of _ _ real rs imag ims (j * n + d) hA.1 hA.2
        have hcvH := cview_eq_of _ _ real rs imag ims (j * n + (2 * h2 + d)) hB.1 hB.2
        exact ⟨hcvL.trans (ihv j d hji' hd).1, hcvH.trans (ihv j d hji' hd).2⟩
    · intro a ha
      rw [hout]
      rw [l2f a fun d' hd' => ⟨(ha (i * n + d') (by omega)).1,
        (ha (i * n + d') (by omega)).2, (ha (i * n + 2 * h2 + d') (by omega)).1,
        (ha (i * n + 2 * h2 + d') (by omega)).2⟩]
      exact ihf a fun u hu => ha u (by omega)

/-- The `h = 1` (twiddle-free) block loop of `dbcF_butterfly_pass`: every
block of size `n = 2` becomes `(L + H, L − H)`; other cells are untouched. -/
theorem dbcF_pass_blocks_h1_spec (n : ℕ) (real imag rs ims : ℤ) (N : ℕ)
    (hrs : rs ≠ 0) (hims : ims ≠ 0)
    (hcross : ∀ u v : ℕ, u < N → v < N → real + u * rs ≠ imag + v * ims)
    (hn : n = 2) :
    ∀ (cnt : ℕ) (mem : Mem), cnt * n ≤ N →
      (∀ i : ℕ, i < cnt →
        cview (dbcF_pass_blocks_h1 n real imag rs ims cnt mem) real rs imag ims (i * n)
          = cview mem real rs imag ims (i * n)
            + cview mem real rs imag ims (i * n + 1) ∧
        cview (dbcF_pass_blocks_h1 n real imag rs ims cnt mem) real rs imag ims (i * n + 1)
          = cview mem real rs imag ims (i * n)
            - cview mem real rs imag ims (i * n + 1)) ∧
      (∀ a : ℤ, (∀ u : ℕ, u < cnt * n → a ≠ real + (u : ℤ) * rs ∧
          a ≠ imag + (u : ℤ) * ims) →
        dbcF_pass_blocks_h1 n real imag rs ims cnt mem a = mem a) := by
  subst hn
  intro cnt
  induction cnt with
  | zero =>
    intro mem _
    exact ⟨fun i hi => absurd hi (by omega), fun a _ => rfl⟩
  | succ i ih =>
    intro mem hN
    have hin : (i + 1) * 2 = i * 2 + 2 := by ring
    obtain ⟨ihv, ihf⟩ := ih mem (by omega)
    have e1 : real + (i : ℤ) * ((2 : ℕ) : ℤ) * rs = real + ((i * 2 : ℕ) : ℤ) * rs := by
      push_cast
      ring
    have e2 : imag + (i : ℤ) * ((2 : ℕ) : ℤ) * ims = imag + ((i * 2 : ℕ) : ℤ) * ims := by
      push_cast
      ring
    have e3 : real + (i : ℤ) * ((2 : ℕ) : ℤ) * rs + (((2 : ℕ) / 2 : ℕ) : ℤ) * rs
        = real + ((i * 2 + 1 : ℕ) : ℤ) * rs := by
      push_cast
      ring
    have e4 : imag + (i : ℤ) * ((2 : ℕ) : ℤ) * ims + (((2 : ℕ) / 2 : ℕ) : ℤ) * ims
        = imag + ((i * 2 + 1 : ℕ) : ℤ) * ims := by
      push_cast
      ring
    have hnR : real + ((i * 2 : ℕ) : ℤ) * rs ≠ real + ((i * 2 + 1 : ℕ) : ℤ) * rs :=
      addr_inj hrs (by omega)
    have hnI : imag + ((i * 2 : ℕ) : ℤ) * ims ≠ imag + ((i * 2 + 1 : ℕ) : ℤ) * ims :=
      addr_inj hims (by omega)
    have hx1 := hcross (i * 2) (i * 2) (by omega) (by omega)
    have hx2 := hcross (i * 2) (i * 2 + 1) (by omega) (by omega)
    have hx3 := hcross (i * 2 + 1) (i * 2) (by omega) (by omega)
    have hx4 := hcross (i * 2 + 1) (i * 2 + 1) (by omega) (by omega)
    have hmem' : ∀ u : ℕ, i * 2 ≤ u → u < N →
        dbcF_pass_blocks_h1 2 real imag rs ims i mem (real + (u : ℤ) * rs)
            = mem (real + (u : ℤ) * rs) ∧
          dbcF_pass_blocks_h1 2 real imag rs ims i mem (imag + (u : ℤ) * ims)
            = mem (imag + (u : ℤ) * ims) := by
      intro u hu huN
      constructor
      · refine ihf _ fun u' hu' => ⟨addr_inj hrs (by omega),
          hcross u u' huN (by omega)⟩
      · refine ihf _ fun u' hu' => ⟨(hcross u' u (by omega) huN).symm,
          addr_inj hims (by omega)⟩
    constructor
    · intro j hj
      show (cview (mset (mset (mset (mset
          (dbcF_pass_blocks_h1 2 real imag rs ims i mem) _ _) _ _) _ _) _ _)
          real rs imag ims (j * 2) = _) ∧
        (cview (mset (mset (mset (mset
          (dbcF_pass_blocks_h1 2 real imag rs ims i mem) _ _) _ _) _ _) _ _)
          real rs imag ims (j * 2 + 1) = _)
      rw [e3, e4, e1, e2]
      by_cases hji : j = i
      · subst hji
        have hmL := hmem' (j * 2) (by omega) (by omega)
        have hmH := hmem' (j * 2 + 1) (by omega) (by omega)
        constructor
        · show cview _ real rs imag ims (j * 2) = _
          simp only [cview]
          rw [mset_other _ _ _ hx2, mset_other _ _ _ hnR, mset_other _ _ _ hx1, mset_same,
            mset_other _ _ _ hnI, mset_other _ _ _ hx3.symm, mset_same,
            hmL.1, hmL.2, hmH.1, hmH.2]
          refine Complex.ext ?_ ?_ <;>
            simp only [Complex.add_re, Complex.add_im, cmk_re, cmk_im] <;>
            try ring
        · show cview _ real rs imag ims (j * 2 + 1) = _
          simp only [cview]
          rw [mset_other _ _ _ hx4, mset_same, mset_same,
            hmL.1, hmL.2, hmH.1, hmH.2]
          refine Complex.ext ?_ ?_ <;>
            simp only [Complex.sub_re, Complex.sub_im, cmk_re, cmk_im] <;>
            try ring
      · have hji' : j < i := by omega
        have hfr4 : ∀ u : ℕ, u < N → u ≠ i * 2 → u ≠ i * 2 + 1 →
            (mset (mset (mset (mset (dbcF_pass_blocks_h1 2 real imag rs ims i mem)
                (real + ((i * 2 : ℕ) : ℤ) * rs)
                (dbcF_pass_blocks_h1 2 real imag rs ims i mem (real + ((i * 2 : ℕ) : ℤ) * rs)
                  + dbcF_pass_blocks_h1 2 real imag rs ims i mem
                      (real + ((i * 2 + 1 : ℕ) : ℤ) * rs)))
                (imag + ((i * 2 : ℕ) : ℤ) * ims)
                (dbcF_pass_blocks_h1 2 real imag rs ims i mem (imag + ((i * 2 : ℕ) : ℤ) * ims)
                  + dbcF_pass_blocks_h1 2 real imag rs ims i mem
                      (imag + ((i * 2 + 1 : ℕ) : ℤ) * ims)))
                (real + ((i * 2 + 1 : ℕ) : ℤ) * rs)
                (dbcF_pass_blocks_h1 2 real imag rs ims i mem (real + ((i * 2 : ℕ) : ℤ) * rs)
                  - dbcF_pass_blocks_h1 2 real imag rs ims i mem
                      (real + ((i * 2 + 1 : ℕ) : ℤ) * rs)))
                (imag + ((i * 2 + 1 : ℕ) : ℤ) * ims)
                (dbcF_pass_blocks_h1 2 real imag rs ims i mem (imag + ((i * 2 : ℕ) : ℤ) * ims)
                  - dbcF_pass_blocks_h1 2 real imag rs ims i mem
                      (imag + ((i * 2 + 1 : ℕ) : ℤ) * ims)))
              (real + (u : ℤ) * rs)
              = dbcF_pass_blocks_h1 2 real imag rs ims i mem (real + (u : ℤ) * rs) ∧
            (mset (mset (mset (mset (dbcF_pass_blocks_h1 2 real imag rs ims i mem)
                (real + ((i * 2 : ℕ) : ℤ) * rs)
                (dbcF_pass_blocks_h1 2 real imag rs ims i mem (real + ((i * 2 : ℕ) : ℤ) * rs)
                  + dbcF_pass_blocks_h1 2 real imag rs ims i mem
                      (real + ((i * 2 + 1 : ℕ) : ℤ) * rs)))
                (imag + ((i * 2 : ℕ) : ℤ) * ims)
                (dbcF_pass_blocks_h1 2 real imag rs ims i mem (imag + ((i * 2 : ℕ) : ℤ) * ims)
                  + dbcF_pass_blocks_h1 2 real imag rs ims i mem
                      (imag + ((i * 2 + 1 : ℕ) : ℤ) * ims)))
                (real + ((i * 2 + 1 : ℕ) : ℤ) * rs)
                (dbcF_pass_blocks_h1 2 real imag rs ims i mem (real + ((i * 2 : ℕ) : ℤ) * rs)
                  - dbcF_pass_blocks_h1 2 real imag rs ims i mem
                      (real + ((i * 2 + 1 : ℕ) : ℤ) * rs)))
                (imag + ((i * 2 + 1 : ℕ) : ℤ) * ims)
                (dbcF_pass_blocks_h1 2 real imag rs ims i mem (imag + ((i * 2 : ℕ) : ℤ) * ims)
                  - dbcF_pass_blocks_h1 2 real imag rs ims i mem
                      (imag + ((i * 2 + 1 : ℕ) : ℤ) * ims)))
              (imag + (u : ℤ) * ims)
              = dbcF_pass_blocks_h1 2 real imag rs ims i mem (imag + (u : ℤ) * ims) := by
          intro u hu h1 h2
          constructor
          · rw [mset_other _ _ _ (hcross u (i * 2 + 1) hu (by omega)),
              mset_other _ _ _ (addr_inj hrs h2),
              mset_other _ _ _ (hcross u (i * 2) hu (by omega)),
              mset_other _ _ _ (addr_inj hrs h1)]
          · rw [mset_other _ _ _ (addr_inj hims h2),
              mset_other _ _ _ ((hcross (i * 2 + 1) u (by omega) hu).symm),
              mset_other _ _ _ (addr_inj hims h1),
              mset_other _ _ _ ((hcross (i * 2) u (by omega) hu).symm)]
        have hA := hfr4 (j * 2) (by omega) (by omega) (by omega)
        have hB := hfr4 (j * 2 + 1) (by omega) (by omega) (by omega)
        have hcvL := cview_eq_of _ _ real rs imag ims (j * 2) hA.1 hA.2
        have hcvH := cview_eq_of _ _ real rs imag ims (j * 2 + 1) hB.1 hB.2
        exact ⟨hcvL.trans (ihv j hji').1, hcvH.trans (ihv j hji').2⟩
    · intro a ha
      show (mset (mset (mset (mset
          (dbcF_pass_blocks_h1 2 real imag rs ims i mem) _ _) _ _) _ _) _ _) a = mem a
      rw [e3, e4, e1, e2]
      rw [mset_other _ _ _ (ha (i * 2 + 1) (by omega)).2,
        mset_other _ _ _ (ha (i * 2 + 1) (by omega)).1,
        mset_other _ _ _ (ha (i * 2) (by omega)).2,
        mset_other _ _ _ (ha (i * 2) (by omega)).1]
      exact ihf a fun u hu => ha u (by omega)

/-- The leaf loop of `dbcF_butterfly_block`: butterfly at every offset
`d < cnt` with twiddle `(C + iS)·(tr[d] + i·ti[d])`; other cells untouched. -/
theorem dbcF_butterfly_block_loop_spec (real imag rs ims : ℤ) (C S : ℝ) (trB tiB : ℤ)
    (tw : Mem) (lo hi N : ℕ) (hrs : rs ≠ 0) (hims : ims ≠ 0)
    (hcross : ∀ u v : ℕ, u < N → v < N → real + u * rs ≠ imag + v * ims) :
    ∀ (cnt : ℕ) (mem : Mem), lo + cnt ≤ hi → hi + cnt ≤ N →
      (∀ d : ℕ, d < cnt →
        cview (dbcF_butterfly_block_loop (real + (lo : ℤ) * rs) (imag + (lo : ℤ) * ims)
              (real + (hi : ℤ) * rs) (imag + (hi : ℤ) * ims) rs ims C S trB tiB tw cnt mem)
            real rs imag ims (lo + d)
          = cview mem real rs imag ims (lo + d)
            + Complex.mk C S * Complex.mk (tw (trB + d)) (tw (tiB + d))
              * cview mem real rs imag ims (hi + d) ∧
        cview (dbcF_butterfly_block_loop (real + (lo : ℤ) * rs) (imag + (lo : ℤ) * ims)
              (real + (hi : ℤ) * rs) (imag + (hi : ℤ) * ims) rs ims C S trB tiB tw cnt mem)
            real rs imag ims (hi + d)
          = cview mem real rs imag ims (lo + d)
            - Complex.mk C S * Complex.mk (tw (trB + d)) (tw (tiB + d))
              * cview mem real rs imag ims (hi + d)) ∧
      (∀ a : ℤ,
        (∀ d : ℕ, d < cnt → a ≠ real + ((lo + d : ℕ) : ℤ) * rs ∧
          a ≠ imag + ((lo + d : ℕ) : ℤ) * ims ∧ a ≠ real + ((hi + d : ℕ) : ℤ) * rs ∧
          a ≠ imag + ((hi + d : ℕ) : ℤ) * ims) →
        dbcF_butterfly_block_loop (real + (lo : ℤ) * rs) (imag + (lo : ℤ) * ims)
            (real + (hi : ℤ) * rs) (imag + (hi : ℤ) * ims) rs ims C S trB tiB tw cnt mem a
          = mem a) := by
  intro cnt
  induction cnt with
  | zero =>
    intro mem _ _
    exact ⟨fun d hd => absurd hd (by omega), fun a _ => rfl⟩
  | succ i ih =>
    intro mem hsep hN
    obtain ⟨ihv, ihf⟩ := ih mem (by omega) (by omega)
    have e1 : real + (lo : ℤ) * rs + (i : ℤ) * rs = real + ((lo + i : ℕ) : ℤ) * rs := by
      push_cast
      ring
    have e2 : imag + (lo : ℤ) * ims + (i : ℤ) * ims = imag + ((lo + i : ℕ) : ℤ) * ims := by
      push_cast
      ring
    have e3 : real + (hi : ℤ) * rs + (i : ℤ) * rs = real + ((hi + i : ℕ) : ℤ) * rs := by
      push_cast
      ring
    have e4 : imag + (hi : ℤ) * ims + (i : ℤ) * ims = imag + ((hi + i : ℕ) : ℤ) * ims := by
      push_cast
      ring
    have hnR : real + ((lo + i : ℕ) : ℤ) * rs ≠ real + ((hi + i : ℕ) : ℤ) * rs :=
      addr_inj hrs (by omega)
    have hnI : imag + ((lo + i : ℕ) : ℤ) * ims ≠ imag + ((hi + i : ℕ) : ℤ) * ims :=
      addr_inj hims (by omega)
    have hx1 := hcross (lo + i) (lo + i) (by omega) (by omega)
    have hx2 := hcross (lo + i) (hi + i) (by omega) (by omega)
    have hx3 := hcross (hi + i) (lo + i) (by omega) (by omega)
    have hx4 := hcross (hi + i) (hi + i) (by omega) (by omega)
    have hmem' : ∀ u : ℕ, u < N → (∀ d : ℕ, d < i → u ≠ lo + d ∧ u ≠ hi + d) →
        dbcF_butterfly_block_loop (real + (lo : ℤ) * rs) (imag + (lo : ℤ) * ims)
            (real + (hi : ℤ) * rs) (imag + (hi : ℤ) * ims) rs ims C S trB tiB tw i mem
            (real + (u : ℤ) * rs) = mem (real + (u : ℤ) * rs) ∧
          dbcF_butterfly_block_loop (real + (lo : ℤ) * rs) (imag + (lo : ℤ) * ims)
            (real + (hi : ℤ) * rs) (imag + (hi : ℤ) * ims) rs ims C S trB tiB tw i mem
            (imag + (u : ℤ) * ims) = mem (imag + (u : ℤ) * ims) := by
      intro u hu hud
      constructor
      · refine ihf _ fun d hd => ⟨addr_inj hrs (hud d hd).1,
          hcross u (lo + d) hu (by omega), addr_inj hrs (hud d hd).2,
          hcross u (hi + d) hu (by omega)⟩
      · refine ihf _ fun d hd => ⟨(hcross (lo + d) u (by omega) hu).symm,
          addr_inj hims (hud d hd).1, (hcross (hi + d) u (by omega) hu).symm,
          addr_inj hims (hud d hd).2⟩
    constructor
    · intro d hd
      show (cview (mset (mset (mset (mset
          (dbcF_butterfly_block_loop (real + (lo : ℤ) * rs) (imag + (lo : ℤ) * ims)
            (real + (hi : ℤ) * rs) (imag + (hi : ℤ) * ims) rs ims C S trB tiB tw i mem)
          _ _) _ _) _ _) _ _) real rs imag ims (lo + d) = _) ∧
        (cview (mset (mset (mset (mset
          (dbcF_butterfly_block_loop (real + (lo : ℤ) * rs) (imag + (lo : ℤ) * ims)
            (real + (hi : ℤ) * rs) (imag + (hi : ℤ) * ims) rs ims C S trB tiB tw i mem)
          _ _) _ _) _ _) _ _) real rs imag ims (hi + d) = _)
      rw [e1, e2, e3, e4]
      by_cases hdi : d = i
      · subst hdi
        have hmL := hmem' (lo + d) (by omega) (fun d' hd' => ⟨by omega, by omega⟩)
        have hmH := hmem' (hi + d) (by omega) (fun d' hd' => ⟨by omega, by omega⟩)
        constructor
        · show cview _ real rs imag ims (lo + d) = _
          simp only [cview]
          rw [mset_other _ _ _ hx2, mset_other _ _ _ hnR, mset_other _ _ _ hx1, mset_same,
            mset_other _ _ _ hnI, mset_other _ _ _ hx3.symm, mset_same,
            hmL.1, hmL.2, hmH.1, hmH.2]
          refine Complex.ext ?_ ?_ <;>
            simp only [Complex.add_re, Complex.add_im, Complex.mul_re, Complex.mul_im,
              cmk_re, cmk_im] <;>
            try ring
        · show cview _ real rs imag ims (hi + d) = _
          simp only [cview]
          rw [mset_other _ _ _ hx4, mset_same, mset_same,
            hmL.1, hmL.2, hmH.1, hmH.2]
          refine Complex.ext ?_ ?_ <;>
            simp only [Complex.sub_re, Complex.sub_im, Complex.mul_re, Complex.mul_im,
              cmk_re, cmk_im] <;>
            try ring
      · have hdi' : d < i := by omega
        have hfr4 : ∀ (v1 v2 v3 v4 : ℝ) (u : ℕ), u < N → u ≠ lo + i → u ≠ hi + i →
            (mset (mset (mset (mset
              (dbcF_butterfly_block_loop (real + (lo : ℤ) * rs) (imag + (lo : ℤ) * ims)
                (real + (hi : ℤ) * rs) (imag + (hi : ℤ) * ims) rs ims C S trB tiB tw i mem)
              (real + ((lo + i : ℕ) : ℤ) * rs) v1) (imag + ((lo + i : ℕ) : ℤ) * ims) v2)
              (real + ((hi + i : ℕ) : ℤ) * rs) v3) (imag + ((hi + i : ℕ) : ℤ) * ims) v4)
              (real + (u : ℤ) * rs)
              = dbcF_butterfly_block_loop (real + (lo : ℤ) * rs) (imag + (lo : ℤ) * ims)
                  (real + (hi : ℤ) * rs) (imag + (hi : ℤ) * ims) rs ims C S trB tiB tw i mem
                  (real + (u : ℤ) * rs) ∧
            (mset (mset (mset (mset
              (dbcF_butterfly_block_loop (real + (lo : ℤ) * rs) (imag + (lo : ℤ) * ims)
                (real + (hi : ℤ) * rs) (imag + (hi : ℤ) * ims) rs ims C S trB tiB tw i mem)
              (real + ((lo + i : ℕ) : ℤ) * rs) v1) (imag + ((lo + i : ℕ) : ℤ) * ims) v2)
              (real + ((hi + i : ℕ) : ℤ) * rs) v3) (imag + ((hi + i : ℕ) : ℤ) * ims) v4)
              (imag + (u : ℤ) * ims)
              = dbcF_butterfly_block_loop (real + (lo : ℤ) * rs) (imag + (lo : ℤ) * ims)
                  (real + (hi : ℤ) * rs) (imag + (hi : ℤ) * ims) rs ims C S trB tiB tw i mem
                  (imag + (u : ℤ) * ims) := by
          intro v1 v2 v3 v4 u hu h1 h2
          constructor
          · rw [mset_other _ _ _ (hcross u (hi + i) hu (by omega)),
              mset_other _ _ _ (addr_inj hrs h2),
              mset_other _ _ _ (hcross u (lo + i) hu (by omega)),
              mset_other _ _ _ (addr_inj hrs h1)]
          · rw [mset_other _ _ _ (addr_inj hims h2),
              mset_other _ _ _ ((hcross (hi + i) u (by omega) hu).symm),
              mset_other _ _ _ (addr_inj hims h1),
              mset_other _ _ _ ((hcross (lo + i) u (by omega) hu).symm)]
        refine ⟨(cview_eq_of _ _ real rs imag ims (lo + d)
            (hfr4 _ _ _ _ (lo + d) (by omega) (by omega) (by omega)).1
            (hfr4 _ _ _ _ (lo + d) (by omega) (by omega) (by omega)).2).trans
              (ihv d hdi').1,
          (cview_eq_of _ _ real rs imag ims (hi + d)
            (hfr4 _ _ _ _ (hi + d) (by omega) (by omega) (by omega)).1
            (hfr4 _ _ _ _ (hi + d) (by omega) (by omega) (by omega)).2).trans
              (ihv d hdi').2⟩
    · intro a ha
      show (mset (mset (mset (mset
          (dbcF_butterfly_block_loop (real + (lo : ℤ) * rs) (imag + (lo : ℤ) * ims)
            (real + (hi : ℤ) * rs) (imag + (hi : ℤ) * ims) rs ims C S trB tiB tw i mem)
          _ _) _ _) _ _) _ _) a = mem a
      rw [e1, e2, e3, e4]
      rw [mset_other _ _ _ (ha i (by omega)).2.2.2,
        mset_other _ _ _ (ha i (by omega)).2.2.1,
        mset_other _ _ _ (ha i (by omega)).2.1,
        mset_other _ _ _ (ha i (by omega)).1]
      exact ihf a fun d hd => ha d (by omega)

/-- Raising the primitive `2^a`-th root to the `2^c` gives the `2^(a−c)`-th
root. -/
theorem Wc_pow_pow2 (inverse : Bool) (a c : ℕ) (hca : c ≤ a) :
    Wc inverse (2 ^ a) ^ ((2 : ℕ) ^ c) = Wc inverse (2 ^ (a - c)) := by
  rw [Wc_pow, Wc]
  congr 1
  congr 1
  rw [Complex.ofReal_inj]
  have hsplit : (2 : ℝ) ^ (a - c) * 2 ^ c = 2 ^ a := by
    rw [← pow_add]
    congr 1
    omega
  have hC : ((2 : ℝ) ^ (a - c)) ≠ 0 := pow_ne_zero _ two_ne_zero
  have hc2 : ((2 : ℝ) ^ c) ≠ 0 := pow_ne_zero _ two_ne_zero
  push_cast
  rw [← hsplit]
  field_simp
  ring

/-- The sign-adjusted `dbcF_cexp` value is the primitive root `Wc`. -/
theorem cexp_Wc (inverse : Bool) (k : ℕ) :
    Complex.mk (dbcF_cexp k).1
        (if inverse then (dbcF_cexp k).2 else -(dbcF_cexp k).2)
      = Wc inverse (2 ^ k) := by
  have h1 : Wc inverse (2 ^ k) = Wc inverse (2 ^ k) ^ (1 : ℕ) := (pow_one _).symm
  rw [h1, Wc_pow_eq]
  have hang : 2 * Real.pi * ((1 : ℕ) : ℝ) / ((2 ^ k : ℕ) : ℝ) = 2 * Real.pi / 2 ^ k := by
    push_cast
    ring
  rw [hang]
  have hre : (dbcF_cexp k).1 = Real.cos (2 * Real.pi / 2 ^ k) := by
    show 1 + (Real.cos (2 * Real.pi / 2 ^ k) - 1) = _
    ring
  have him : (if inverse then (dbcF_cexp k).2 else -(dbcF_cexp k).2)
      = dftSgn inverse * Real.sin (2 * Real.pi / 2 ^ k) := by
    cases inverse with
    | false =>
      show -(dbcF_cexp k).2 = _
      show -Real.sin (2 * Real.pi / 2 ^ k) = _
      rw [dftSgn]
      norm_num
    | true =>
      show (dbcF_cexp k).2 = _
      show Real.sin (2 * Real.pi / 2 ^ k) = _
      rw [dftSgn]
      norm_num
  rw [hre, him]

/-- `dbcF_butterfly_block` with base twiddle `C + iS = W^off` applies the
butterfly with twiddle `W^(off+d)` at every offset `d < 2^log2b` of the block,
and touches nothing else. -/
theorem dbcF_butterfly_block_spec (real imag rs ims : ℤ) (inverse : Bool) (trB tiB : ℤ)
    (tw : Mem) (log2n N : ℕ) (hrs : rs ≠ 0) (hims : ims ≠ 0)
    (hcross : ∀ u v : ℕ, u < N → v < N → real + u * rs ≠ imag + v * ims)
    (htw : ∀ k : ℕ, k < 2 ^ DBCF_TWIDDLES_BUF_LOG2 →
      Complex.mk (tw (trB + k)) (tw (tiB + k)) = Wc inverse (2 ^ log2n) ^ k) :
    ∀ (log2b : ℕ) (lo hi off : ℕ) (C S : ℝ) (mem : Mem),
      log2b < log2n →
      lo + 2 ^ log2b ≤ hi → hi + 2 ^ log2b ≤ N →
      Complex.mk C S = Wc inverse (2 ^ log2n) ^ off →
      (∀ d : ℕ, d < 2 ^ log2b →
        cview (dbcF_butterfly_block log2n log2b (real + (lo : ℤ) * rs)
              (imag + (lo : ℤ) * ims) (real + (hi : ℤ) * rs) (imag + (hi : ℤ) * ims)
              rs ims C S inverse trB tiB tw mem) real rs imag ims (lo + d)
          = cview mem real rs imag ims (lo + d)
            + Wc inverse (2 ^ log2n) ^ (off + d) * cview mem real rs imag ims (hi + d) ∧
        cview (dbcF_butterfly_block log2n log2b (real + (lo : ℤ) * rs)
              (imag + (lo : ℤ) * ims) (real + (hi : ℤ) * rs) (imag + (hi : ℤ) * ims)
              rs ims C S inverse trB tiB tw mem) real rs imag ims (hi + d)
          = cview mem real rs imag ims (lo + d)
            - Wc inverse (2 ^ log2n) ^ (off + d) * cview mem real rs imag ims (hi + d)) ∧
      (∀ a : ℤ,
        (∀ d : ℕ, d < 2 ^ log2b → a ≠ real + ((lo + d : ℕ) : ℤ) * rs ∧
          a ≠ imag + ((lo + d : ℕ) : ℤ) * ims ∧ a ≠ real + ((hi + d : ℕ) : ℤ) * rs ∧
          a ≠ imag + ((hi + d : ℕ) : ℤ) * ims) →
        dbcF_butterfly_block log2n log2b (real + (lo : ℤ) * rs) (imag + (lo : ℤ) * ims)
            (real + (hi : ℤ) * rs) (imag + (hi : ℤ) * ims) rs ims C S inverse trB tiB tw
            mem a = mem a) := by
  intro log2b
  induction log2b using Nat.strong_induction_on with
  | _ log2b ih =>
    intro lo hi off C S mem hbn hsep hN hCS
    by_cases hleaf : log2b ≤ DBCF_TWIDDLES_BUF_LOG2
    · have hE : dbcF_butterfly_block log2n log2b (real + (lo : ℤ) * rs)
          (imag + (lo : ℤ) * ims) (real + (hi : ℤ) * rs) (imag + (hi : ℤ) * ims)
          rs ims C S inverse trB tiB tw mem
          = dbcF_butterfly_block_loop (real + (lo : ℤ) * rs) (imag + (lo : ℤ) * ims)
              (real + (hi : ℤ) * rs) (imag + (hi : ℤ) * ims) rs ims C S trB tiB tw
              (2 ^ log2b) mem := by
        rw [dbcF_butterfly_block]
        rw [if_pos hleaf]
      obtain ⟨lv, lf⟩ := dbcF_butterfly_block_loop_spec real imag rs ims C S trB tiB tw
        lo hi N hrs hims hcross (2 ^ log2b) mem hsep hN
      constructor
      · intro d hd
        have hdle : d < 2 ^ DBCF_TWIDDLES_BUF_LOG2 :=
          lt_of_lt_of_le hd (Nat.pow_le_pow_right (by norm_num) hleaf)
        have hT : Complex.mk C S * Complex.mk (tw (trB + d)) (tw (tiB + d))
            = Wc inverse (2 ^ log2n) ^ (off + d) := by
          rw [hCS, htw d hdle, ← pow_add]
        have hv := lv d hd
        rw [hT] at hv
        rw [hE]
        exact hv
      · intro a ha
        rw [hE]
        exact lf a ha
    · have hb1 : 1 ≤ log2b := by omega
      have h2b : (2 : ℕ) ^ log2b = 2 * 2 ^ (log2b - 1) := by
        rw [← pow_succ']
        congr 1
        omega
      have hhb : (2 : ℕ) ^ log2b / 2 = 2 ^ (log2b - 1) := by omega
      have hE : dbcF_butterfly_block log2n log2b (real + (lo : ℤ) * rs)
          (imag + (lo : ℤ) * ims) (real + (hi : ℤ) * rs) (imag + (hi : ℤ) * ims)
          rs ims C S inverse trB tiB tw mem
          = dbcF_butterfly_block log2n (log2b - 1)
              (real + ((lo + 2 ^ (log2b - 1) : ℕ) : ℤ) * rs)
              (imag + ((lo + 2 ^ (log2b - 1) : ℕ) : ℤ) * ims)
              (real + ((hi + 2 ^ (log2b - 1) : ℕ) : ℤ) * rs)
              (imag + ((hi + 2 ^ (log2b - 1) : ℕ) : ℤ) * ims) rs ims
              (C * (dbcF_cexp (log2n - log2b + 1)).1
                - S * (if inverse then (dbcF_cexp (log2n - log2b + 1)).2
                    else -(dbcF_cexp (log2n - log2b + 1)).2))
              (S * (dbcF_cexp (log2n - log2b + 1)).1
                + C * (if inverse then (dbcF_cexp (log2n - log2b + 1)).2
                    else -(dbcF_cexp (log2n - log2b + 1)).2))
              inverse trB tiB tw
              (dbcF_butterfly_block log2n (log2b - 1) (real + (lo : ℤ) * rs)
                (imag + (lo : ℤ) * ims) (real + (hi : ℤ) * rs) (imag + (hi : ℤ) * ims)
                rs ims C S inverse trB tiB tw mem) := by
        rw [dbcF_butterfly_block]
        rw [if_neg hleaf]
        show dbcF_butterfly_block log2n (log2b - 1)
            (real + (lo : ℤ) * rs + ((2 ^ log2b / 2 : ℕ) : ℤ) * rs)
            (imag + (lo : ℤ) * ims + ((2 ^ log2b / 2 : ℕ) : ℤ) * ims)
            (real + (hi : ℤ) * rs + ((2 ^ log2b / 2 : ℕ) : ℤ) * rs)
            (imag + (hi : ℤ) * ims + ((2 ^ log2b / 2 : ℕ) : ℤ) * ims) rs ims
            (C * (dbcF_cexp (log2n - log2b + 1)).1
              - S * (if inverse then (dbcF_cexp (log2n - log2b + 1)).2
                  else -(dbcF_cexp (log2n - log2b + 1)).2))
            (S * (dbcF_cexp (log2n - log2b + 1)).1
              + C * (if inverse then (dbcF_cexp (log2n - log2b + 1)).2
                  else -(dbcF_cexp (log2n - log2b + 1)).2))
            inverse trB tiB tw
            (dbcF_butterfly_block log2n (log2b - 1) (real + (lo : ℤ) * rs)
              (imag + (lo : ℤ) * ims) (real + (hi : ℤ) * rs) (imag + (hi : ℤ) * ims)
              rs ims C S inverse trB tiB tw mem) = _
        rw [hhb]
        have p1 : real + (lo : ℤ) * rs + ((2 ^ (log2b - 1) : ℕ) : ℤ) * rs
            = real + ((lo + 2 ^ (log2b - 1) : ℕ) : ℤ) * rs := by
          push_cast
          ring
        have p2 : imag + (lo : ℤ) * ims + ((2 ^ (log2b - 1) : ℕ) : ℤ) * ims
            = imag + ((lo + 2 ^ (log2b - 1) : ℕ) : ℤ) * ims := by
          push_cast
          ring
        have p3 : real + (hi : ℤ) * rs + ((2 ^ (log2b - 1) : ℕ) : ℤ) * rs
            = real + ((hi + 2 ^ (log2b - 1) : ℕ) : ℤ) * rs := by
          push_cast
          ring
        have p4 : imag + (hi : ℤ) * ims + ((2 ^ (log2b - 1) : ℕ) : ℤ) * ims
            = imag + ((hi + 2 ^ (log2b - 1) : ℕ) : ℤ) * ims := by
          push_cast
          ring
        rw [p1, p2, p3, p4]
      have hXY : Complex.mk (dbcF_cexp (log2n - log2b + 1)).1
          (if inverse then (dbcF_cexp (log2n - log2b + 1)).2
            else -(dbcF_cexp (log2n - log2b + 1)).2)
          = Wc inverse (2 ^ log2n) ^ ((2 : ℕ) ^ (log2b - 1)) := by
        rw [cexp_Wc, Wc_pow_pow2 inverse log2n (log2b - 1) (by omega)]
        congr 2
        omega
      have hCS' : Complex.mk
          (C * (dbcF_cexp (log2n - log2b + 1)).1
            - S * (if inverse then (dbcF_cexp (log2n - log2b + 1)).2
                else -(dbcF_cexp (log2n - log2b + 1)).2))
          (S * (dbcF_cexp (log2n - log2b + 1)).1
            + C * (if inverse then (dbcF_cexp (log2n - log2b + 1)).2
                else -(dbcF_cexp (log2n - log2b + 1)).2))
          = Wc inverse (2 ^ log2n) ^ (off + 2 ^ (log2b - 1)) := by
        have hmul : Complex.mk
            (C * (dbcF_cexp (log2n - log2b + 1)).1
              - S * (if inverse then (dbcF_cexp (log2n - log2b + 1)).2
                  else -(dbcF_cexp (log2n - log2b + 1)).2))
            (S * (dbcF_cexp (log2n - log2b + 1)).1
              + C * (if inverse then (dbcF_cexp (log2n - log2b + 1)).2
                  else -(dbcF_cexp (log2n - log2b + 1)).2))
            = Complex.mk C S * Complex.mk (dbcF_cexp (log2n - log2b + 1)).1
                (if inverse then (dbcF_cexp (log2n - log2b + 1)).2
                  else -(dbcF_cexp (log2n - log2b + 1)).2) := by
          refine Complex.ext ?_ ?_ <;>
            simp only [Complex.mul_re, Complex.mul_im, cmk_re, cmk_im] <;>
            ring
        rw [hmul, hCS, hXY, ← pow_add]
      obtain ⟨iv, ifr⟩ := ih (log2b - 1) (by omega) lo hi off C S mem (by omega)
        (by omega) (by omega) hCS
      obtain ⟨ov, ofr⟩ := ih (log2b - 1) (by omega) (lo + 2 ^ (log2b - 1))
        (hi + 2 ^ (log2b - 1)) (off + 2 ^ (log2b - 1)) _ _
        (dbcF_butterfly_block log2n (log2b - 1) (real + (lo : ℤ) * rs)
          (imag + (lo : ℤ) * ims) (real + (hi : ℤ) * rs) (imag + (hi : ℤ) * ims)
          rs ims C S inverse trB tiB tw mem)
        (by omega) (by omega) (by omega) hCS'
      have hinner_fr : ∀ u : ℕ, u < N →
          (∀ d : ℕ, d < 2 ^ (log2b - 1) → u ≠ lo + d ∧ u ≠ hi + d) →
          dbcF_butterfly_block log2n (log2b - 1) (real + (lo : ℤ) * rs)
              (imag + (lo : ℤ) * ims) (real + (hi : ℤ) * rs) (imag + (hi : ℤ) * ims)
              rs ims C S inverse trB tiB tw mem (real + (u : ℤ) * rs)
            = mem (real + (u : ℤ) * rs) ∧
            dbcF_butterfly_block log2n (log2b - 1) (real + (lo : ℤ) * rs)
              (imag + (lo : ℤ) * ims) (real + (hi : ℤ) * rs) (imag + (hi : ℤ) * ims)
              rs ims C S inverse trB tiB tw mem (imag + (u : ℤ) * ims)
            = mem (imag + (u : ℤ) * ims) := by
        intro u hu hud
        constructor
        · refine ifr _ fun d hd => ⟨addr_inj hrs (hud d hd).1,
            hcross u (lo + d) hu (by omega), addr_inj hrs (hud d hd).2,
            hcross u (hi + d) hu (by omega)⟩
        · refine ifr _ fun d hd => ⟨(hcross (lo + d) u (by omega) hu).symm,
            addr_inj hims (hud d hd).1, (hcross (hi + d) u (by omega) hu).symm,
            addr_inj hims (hud d hd).2⟩
      have houter_fr : ∀ u : ℕ, u < N →
          (∀ d : ℕ, d < 2 ^ (log2b - 1) →
            u ≠ lo + 2 ^ (log2b - 1) + d ∧ u ≠ hi + 2 ^ (log2b - 1) + d) →
          dbcF_butterfly_block log2n (log2b - 1)
              (real + ((lo + 2 ^ (log2b - 1) : ℕ) : ℤ) * rs)
              (imag + ((lo + 2 ^ (log2b - 1) : ℕ) : ℤ) * ims)
              (real + ((hi + 2 ^ (log2b - 1) : ℕ) : ℤ) * rs)
              (imag + ((hi + 2 ^ (log2b - 1) : ℕ) : ℤ) * ims) rs ims
              (C * (dbcF_cexp (log2n - log2b + 1)).1
                - S * (if inverse then (dbcF_cexp (log2n - log2b + 1)).2
                    else -(dbcF_cexp (log2n - log2b + 1)).2))
              (S * (dbcF_cexp (log2n - log2b + 1)).1
                + C * (if inverse then (dbcF_cexp (log2n - log2b + 1)).2
                    else -(dbcF_cexp (log2n - log2b + 1)).2))
              inverse trB tiB tw
              (dbcF_butterfly_block log2n (log2b - 1) (real + (lo : ℤ) * rs)
                (imag + (lo : ℤ) * ims) (real + (hi : ℤ) * rs) (imag + (hi : ℤ) * ims)
                rs ims C S inverse trB tiB tw mem) (real + (u : ℤ) * rs)
            = dbcF_butterfly_block log2n (log2b - 1) (real + (lo : ℤ) * rs)
                (imag + (lo : ℤ) * ims) (real + (hi : ℤ) * rs) (imag + (hi : ℤ) * ims)
                rs ims C S inverse trB tiB tw mem (real + (u : ℤ) * rs) ∧
            dbcF_butterfly_block log2n (log2b - 1)
              (real + ((lo + 2 ^ (log2b - 1) : ℕ) : ℤ) * rs)
              (imag + ((lo + 2 ^ (log2b - 1) : ℕ) : ℤ) * ims)
              (real + ((hi + 2 ^ (log2b - 1) : ℕ) : ℤ) * rs)
              (imag + ((hi + 2 ^ (log2b - 1) : ℕ) : ℤ) * ims) rs ims
              (C * (dbcF_cexp (log2n - log2b + 1)).1
                - S * (if inverse then (dbcF_cexp (log2n - log2b + 1)).2
                    else -(dbcF_cexp (log2n - log2b + 1)).2))
              (S * (dbcF_cexp (log2n - log2b + 1)).1
                + C * (if inverse then (dbcF_cexp (log2n - log2b + 1)).2
                    else -(dbcF_cexp (log2n - log2b + 1)).2))
              inverse trB tiB tw
              (dbcF_butterfly_block log2n (log2b - 1) (real + (lo : ℤ) * rs)
                (imag + (lo : ℤ) * ims) (real + (hi : ℤ) * rs) (imag + (hi : ℤ) * ims)
                rs ims C S inverse trB tiB tw mem) (imag + (u : ℤ) * ims)
            = dbcF_butterfly_block log2n (log2b - 1) (real + (lo : ℤ) * rs)
                (imag + (lo : ℤ) * ims) (real + (hi : ℤ) * rs) (imag + (hi : ℤ) * ims)
                rs ims C S inverse trB tiB tw mem (imag + (u : ℤ) * ims) := by
        intro u hu hud
        constructor
        · refine ofr _ fun d hd => ⟨addr_inj hrs (by
              have := (hud d hd).1
              omega),
            hcross u (lo + 2 ^ (log2b - 1) + d) hu (by omega), addr_inj hrs (by
              have := (hud d hd).2
              omega),
            hcross u (hi + 2 ^ (log2b - 1) + d) hu (by omega)⟩
        · refine ofr _ fun d hd => ⟨(hcross (lo + 2 ^ (log2b - 1) + d) u (by omega)
              hu).symm,
            addr_inj hims (by
              have := (hud d hd).1
              omega),
            (hcross (hi + 2 ^ (log2b - 1) + d) u (by omega) hu).symm,
            addr_inj hims (by
              have := (hud d hd).2
              omega)⟩
      rw [hE]
      constructor
      · intro d hd
        by_cases hdh : d < 2 ^ (log2b - 1)
        · have hA := houter_fr (lo + d) (by omega)
            (fun d' hd' => ⟨by omega, by omega⟩)
          have hB := houter_fr (hi + d) (by omega)
            (fun d' hd' => ⟨by omega, by omega⟩)
          have hcvL := cview_eq_of _ _ real rs imag ims (lo + d) hA.1 hA.2
          have hcvH := cview_eq_of _ _ real rs imag ims (hi + d) hB.1 hB.2
          exact ⟨hcvL.trans (iv d hdh).1, hcvH.trans (iv d hdh).2⟩
        · have hd' : d - 2 ^ (log2b - 1) < 2 ^ (log2b - 1) := by omega
          have hov := ov (d - 2 ^ (log2b - 1)) hd'
          have eL : lo + 2 ^ (log2b - 1) + (d - 2 ^ (log2b - 1)) = lo + d := by omega
          have eH : hi + 2 ^ (log2b - 1) + (d - 2 ^ (log2b - 1)) = hi + d := by omega
          have eW : off + 2 ^ (log2b - 1) + (d - 2 ^ (log2b - 1)) = off + d := by omega
          rw [eL, eH, eW] at hov
          have hA := hinner_fr (lo + d) (by omega)
            (fun d' hd'2 => ⟨by omega, by omega⟩)
          have hB := hinner_fr (hi + d) (by omega)
            (fun d' hd'2 => ⟨by omega, by omega⟩)
          have hcvL := cview_eq_of _ _ real rs imag ims (lo + d) hA.1 hA.2
          have hcvH := cview_eq_of _ _ real rs imag ims (hi + d) hB.1 hB.2
          exact ⟨hov.1.trans (by rw [hcvL, hcvH]), hov.2.trans (by rw [hcvL, hcvH])⟩
      · intro a ha
        rw [ofr a fun d hd => by
          refine ⟨?_, ?_, ?_, ?_⟩
          · have h := (ha (2 ^ (log2b - 1) + d) (by omega)).1
            rw [show lo + (2 ^ (log2b - 1) + d) = lo + 2 ^ (log2b - 1) + d
              from by omega] at h
            exact h
          · have h := (ha (2 ^ (log2b - 1) + d) (by omega)).2.1
            rw [show lo + (2 ^ (log2b - 1) + d) = lo + 2 ^ (log2b - 1) + d
              from by omega] at h
            exact h
          · have h := (ha (2 ^ (log2b - 1) + d) (by omega)).2.2.1
            rw [show hi + (2 ^ (log2b - 1) + d) = hi + 2 ^ (log2b - 1) + d
              from by omega] at h
            exact h
          · have h := (ha (2 ^ (log2b - 1) + d) (by omega)).2.2.2
            rw [show hi + (2 ^ (log2b - 1) + d) = hi + 2 ^ (log2b - 1) + d
              from by omega] at h
            exact h]
        exact ifr a fun d hd => ha d (by omega)

/-- The recursive-regime block loop of `dbcF_butterfly_pass`: every block of
size `2^log2n` gets a full butterfly stage with twiddles `W^d`. -/
theorem dbcF_pass_blockrec_spec (log2n : ℕ) (real imag rs ims : ℤ) (inverse : Bool)
    (trB tiB : ℤ) (tw : Mem) (N : ℕ) (hrs : rs ≠ 0) (hims : ims ≠ 0)
    (hcross : ∀ u v : ℕ, u < N → v < N → real + u * rs ≠ imag + v * ims)
    (htw : ∀ k : ℕ, k < 2 ^ DBCF_TWIDDLES_BUF_LOG2 →
      Complex.mk (tw (trB + k)) (tw (tiB + k)) = Wc inverse (2 ^ log2n) ^ k)
    (hlog : 1 ≤ log2n) :
    ∀ (cnt : ℕ) (mem : Mem), cnt * 2 ^ log2n ≤ N →
      (∀ i d : ℕ, i < cnt → d < 2 ^ (log2n - 1) →
        cview (dbcF_pass_blockrec log2n real imag rs ims inverse trB tiB tw cnt mem)
            real rs imag ims (i * 2 ^ log2n + d)
          = cview mem real rs imag ims (i * 2 ^ log2n + d)
            + Wc inverse (2 ^ log2n) ^ d
              * cview mem real rs imag ims (i * 2 ^ log2n + (2 ^ (log2n - 1) + d)) ∧
        cview (dbcF_pass_blockrec log2n real imag rs ims inverse trB tiB tw cnt mem)
            real rs imag ims (i * 2 ^ log2n + (2 ^ (log2n - 1) + d))
          = cview mem real rs imag ims (i * 2 ^ log2n + d)
            - Wc inverse (2 ^ log2n) ^ d
              * cview mem real rs imag ims (i * 2 ^ log2n + (2 ^ (log2n - 1) + d))) ∧
      (∀ a : ℤ, (∀ u : ℕ, u < cnt * 2 ^ log2n → a ≠ real + (u : ℤ) * rs ∧
          a ≠ imag + (u : ℤ) * ims) →
        dbcF_pass_blockrec log2n real imag rs ims inverse trB tiB tw cnt mem a = mem a) := by
  have h2b : (2 : ℕ) ^ log2n = 2 * 2 ^ (log2n - 1) := by
    rw [← pow_succ']
    congr 1
    omega
  have hdiv : ((2 ^ log2n / 2 : ℕ) : ℤ) = ((2 ^ (log2n - 1) : ℕ) : ℤ) := by
    have h : (2 : ℕ) ^ log2n / 2 = 2 ^ (log2n - 1) := by omega
    rw [h]
  intro cnt
  induction cnt with
  | zero =>
    intro mem _
    exact ⟨fun i d hi => absurd hi (by omega), fun a _ => rfl⟩
  | succ i ih =>
    intro mem hN
    have hin : (i + 1) * 2 ^ log2n = i * 2 ^ log2n + 2 ^ log2n := by ring
    obtain ⟨ihv, ihf⟩ := ih mem (by omega)
    have e1 : real + (i : ℤ) * ((2 ^ log2n : ℕ) : ℤ) * rs
        = real + ((i * 2 ^ log2n : ℕ) : ℤ) * rs := by
      push_cast
      ring
    have e2 : imag + (i : ℤ) * ((2 ^ log2n : ℕ) : ℤ) * ims
        = imag + ((i * 2 ^ log2n : ℕ) : ℤ) * ims := by
      push_cast
      ring
    have e3 : real + (i : ℤ) * ((2 ^ log2n : ℕ) : ℤ) * rs
          + ((2 ^ log2n / 2 : ℕ) : ℤ) * rs
        = real + ((i * 2 ^ log2n + 2 ^ (log2n - 1) : ℕ) : ℤ) * rs := by
      rw [hdiv]
      push_cast
      ring
    have e4 : imag + (i : ℤ) * ((2 ^ log2n : ℕ) : ℤ) * ims
          + ((2 ^ log2n / 2 : ℕ) : ℤ) * ims
        = imag + ((i * 2 ^ log2n + 2 ^ (log2n - 1) : ℕ) : ℤ) * ims := by
      rw [hdiv]
      push_cast
      ring
    have hout : dbcF_pass_blockrec log2n real imag rs ims inverse trB tiB tw (i + 1) mem
        = dbcF_butterfly_block log2n (log2n - 1)
            (real + ((i * 2 ^ log2n : ℕ) : ℤ) * rs)
            (imag + ((i * 2 ^ log2n : ℕ) : ℤ) * ims)
            (real + ((i * 2 ^ log2n + 2 ^ (log2n - 1) : ℕ) : ℤ) * rs)
            (imag + ((i * 2 ^ log2n + 2 ^ (log2n - 1) : ℕ) : ℤ) * ims) rs ims 1 0
            inverse trB tiB tw
            (dbcF_pass_blockrec log2n real imag rs ims inverse trB tiB tw i mem) := by
      show dbcF_butterfly_block log2n (log2n - 1)
          (real + (i : ℤ) * ((2 ^ log2n : ℕ) : ℤ) * rs)
          (imag + (i : ℤ) * ((2 ^ log2n : ℕ) : ℤ) * ims)
          (real + (i : ℤ) * ((2 ^ log2n : ℕ) : ℤ) * rs + ((2 ^ log2n / 2 : ℕ) : ℤ) * rs)
          (imag + (i : ℤ) * ((2 ^ log2n : ℕ) : ℤ) * ims + ((2 ^ log2n / 2 : ℕ) : ℤ) * ims)
          rs ims 1 0 inverse trB tiB tw
          (dbcF_pass_blockrec log2n real imag rs ims inverse trB tiB tw i mem) = _
      rw [e3, e4, e1, e2]
    obtain ⟨bv, bf⟩ := dbcF_butterfly_block_spec real imag rs ims inverse trB tiB tw
      log2n N hrs hims hcross htw (log2n - 1) (i * 2 ^ log2n)
      (i * 2 ^ log2n + 2 ^ (log2n - 1)) 0 1 0
      (dbcF_pass_blockrec log2n real imag rs ims inverse trB tiB tw i mem)
      (by omega) (by omega) (by omega)
      (by rw [pow_zero]; rfl)
    have hmem' : ∀ u : ℕ, i * 2 ^ log2n ≤ u → u < N →
        dbcF_pass_blockrec log2n real imag rs ims inverse trB tiB tw i mem
            (real + (u : ℤ) * rs) = mem (real + (u : ℤ) * rs) ∧
          dbcF_pass_blockrec log2n real imag rs ims inverse trB tiB tw i mem
            (imag + (u : ℤ) * ims) = mem (imag + (u : ℤ) * ims) := by
      intro u hu huN
      constructor
      · refine ihf _ fun u' hu' => ⟨addr_inj hrs (by omega),
          hcross u u' huN (by omega)⟩
      · refine ihf _ fun u' hu' => ⟨(hcross u' u (by omega) huN).symm,
          addr_inj hims (by omega)⟩
    constructor
    · intro j d hj hd
      rw [hout]
      by_cases hji : j = i
      · subst hji
        have hv := bv d hd
        rw [show 0 + d = d from by omega] at hv
        have eH : j * 2 ^ log2n + 2 ^ (log2n - 1) + d
            = j * 2 ^ log2n + (2 ^ (log2n - 1) + d) := by omega
        rw [eH] at hv
        have hmL := hmem' (j * 2 ^ log2n + d) (by omega) (by omega)
        have hmH := hmem' (j * 2 ^ log2n + (2 ^ (log2n - 1) + d)) (by omega) (by omega)
        have hcvL := cview_eq_of _ _ real rs imag ims (j * 2 ^ log2n + d) hmL.1 hmL.2
        have hcvH := cview_eq_of _ _ real rs imag ims
          (j * 2 ^ log2n + (2 ^ (log2n - 1) + d)) hmH.1 hmH.2
        exact ⟨hv.1.trans (by rw [hcvL, hcvH]), hv.2.trans (by rw [hcvL, hcvH])⟩
      · have hji' : j < i := by omega
        have hjn : (j + 1) * 2 ^ log2n ≤ i * 2 ^ log2n :=
          Nat.mul_le_mul_right _ (by omega)
        have hjn' : (j + 1) * 2 ^ log2n = j * 2 ^ log2n + 2 ^ log2n := by ring
        have hbfr : ∀ u : ℕ, u < i * 2 ^ log2n →
            dbcF_butterfly_block log2n (log2n - 1)
                (real + ((i * 2 ^ log2n : ℕ) : ℤ) * rs)
                (imag + ((i * 2 ^ log2n : ℕ) : ℤ) * ims)
                (real + ((i * 2 ^ log2n + 2 ^ (log2n - 1) : ℕ) : ℤ) * rs)
                (imag + ((i * 2 ^ log2n + 2 ^ (log2n - 1) : ℕ) : ℤ) * ims) rs ims 1 0
                inverse trB tiB tw
                (dbcF_pass_blockrec log2n real imag rs ims inverse trB tiB tw i mem)
                (real + (u : ℤ) * rs)
              = dbcF_pass_blockrec log2n real imag rs ims inverse trB tiB tw i mem
                  (real + (u : ℤ) * rs) ∧
              dbcF_butterfly_block log2n (log2n - 1)
                (real + ((i * 2 ^ log2n : ℕ) : ℤ) * rs)
                (imag + ((i * 2 ^ log2n : ℕ) : ℤ) * ims)
                (real + ((i * 2 ^ log2n + 2 ^ (log2n - 1) : ℕ) : ℤ) * rs)
                (imag + ((i * 2 ^ log2n + 2 ^ (log2n - 1) : ℕ) : ℤ) * ims) rs ims 1 0
                inverse trB tiB tw
                (dbcF_pass_blockrec log2n real imag rs ims inverse trB tiB tw i mem)
                (imag + (u : ℤ) * ims)
              = dbcF_pass_blockrec log2n real imag rs ims inverse trB tiB tw i mem
                  (imag + (u : ℤ) * ims) := by
          intro u hu
          constructor
          · refine bf _ fun d' hd' => ⟨addr_inj hrs (by omega),
              hcross u (i * 2 ^ log2n + d') (by omega) (by omega),
              addr_inj hrs (by omega),
              hcross u (i * 2 ^ log2n + 2 ^ (log2n - 1) + d') (by omega) (by omega)⟩
          · refine bf _ fun d' hd' =>
              ⟨(hcross (i * 2 ^ log2n + d') u (by omega) (by omega)).symm,
              addr_inj hims (by omega),
              (hcross (i * 2 ^ log2n + 2 ^ (log2n - 1) + d') u (by omega)
                (by omega)).symm,
              addr_inj hims (by omega)⟩
        have hA := hbfr (j * 2 ^ log2n + d) (by omega)
        have hB := hbfr (j * 2 ^ log2n + (2 ^ (log2n - 1) + d)) (by omega)
        have hcvL := cview_eq_of _ _ real rs imag ims (j * 2 ^ log2n + d) hA.1 hA.2
        have hcvH := cview_eq_of _ _ real rs imag ims
          (j * 2 ^ log2n + (2 ^ (log2n - 1) + d)) hB.1 hB.2
        exact ⟨hcvL.trans (ihv j d hji' hd).1, hcvH.trans (ihv j d hji' hd).2⟩
    · intro a ha
      rw [hout]
      rw [bf a fun d' hd' => by
        refine ⟨(ha (i * 2 ^ log2n + d') (by omega)).1,
          (ha (i * 2 ^ log2n + d') (by omega)).2, ?_, ?_⟩
        · have h := (ha (i * 2 ^ log2n + (2 ^ (log2n - 1) + d')) (by omega)).1
          rw [show i * 2 ^ log2n + (2 ^ (log2n - 1) + d')
            = i * 2 ^ log2n + 2 ^ (log2n - 1) + d' from by omega] at h
          exact h
        · have h := (ha (i * 2 ^ log2n + (2 ^ (log2n - 1) + d')) (by omega)).2
          rw [show i * 2 ^ log2n + (2 ^ (log2n - 1) + d')
            = i * 2 ^ log2n + 2 ^ (log2n - 1) + d' from by omega] at h
          exact h]
      exact ihf a fun u hu => ha u (by omega)

/-- `dbcF_fft8` performs an 8-point DFT with bit-reversed input order:
`out[r] = Σ_t in[bitrev 3 t] · W₈^(r·t)` on both channels, and writes
nothing outside the 16 element slots. -/
theorem dbcF_fft8_spec (real imag rs ims : ℤ) (inverse : Bool) (mem : Mem)
    (hrs : rs ≠ 0) (hims : ims ≠ 0)
    (hcr : ∀ u v : ℤ, 0 ≤ u → u < 8 → 0 ≤ v → v < 8 →
      real + u * rs ≠ imag + v * ims) :
    (∀ r : ℕ, r < 8 →
      Complex.mk
          (dbcF_fft8 real imag rs ims inverse (Real.cos (2 * Real.pi / 8)) mem
            (real + (r : ℤ) * rs))
          (dbcF_fft8 real imag rs ims inverse (Real.cos (2 * Real.pi / 8)) mem
            (imag + (r : ℤ) * ims))
        = ∑ t ∈ Finset.range 8,
            Complex.mk (mem (real + ((bitrev 3 t : ℕ) : ℤ) * rs))
                (mem (imag + ((bitrev 3 t : ℕ) : ℤ) * ims))
              * Wc inverse 8 ^ (r * t)) ∧
    (∀ a : ℤ, (∀ u : ℤ, 0 ≤ u → u < 8 → a ≠ real + u * rs ∧ a ≠ imag + u * ims) →
      dbcF_fft8 real imag rs ims inverse (Real.cos (2 * Real.pi / 8)) mem a = mem a) := by
  have hb0 : bitrev 3 0 = 0 := by decide
  have hb1 : bitrev 3 1 = 4 := by decide
  have hb2 : bitrev 3 2 = 2 := by decide
  have hb3 : bitrev 3 3 = 6 := by decide
  have hb4 : bitrev 3 4 = 1 := by decide
  have hb5 : bitrev 3 5 = 5 := by decide
  have hb6 : bitrev 3 6 = 3 := by decide
  have hb7 : bitrev 3 7 = 7 := by decide
  cases inverse with
  | false =>
    have hσ : dftSgn false = -1 := rfl
    constructor
    · intro r hr
      interval_cases r
      · rw [Finset.sum_range_succ, Finset.sum_range_succ, Finset.sum_range_succ, Finset.sum_range_succ,
          Finset.sum_range_succ, Finset.sum_range_succ, Finset.sum_range_succ, Finset.sum_range_succ,
          Finset.sum_range_zero]
        rw [hb0, hb1, hb2, hb3, hb4, hb5, hb6, hb7]
        push_cast
        simp only [dbcF_fft8]
        rw [if_true]
        rw [mset_other _ _ _ (hcr 0 7 (by norm_num) (by norm_num) (by norm_num) (by norm_num))]
        rw [mset_other _ _ _ (show real + 0 * rs ≠ real + 7 * rs from by omega)]
        rw [mset_other _ _ _ (hcr 0 6 (by norm_num) (by norm_num) (by norm_num) (by norm_num))]
        rw [mset_other _ _ _ (show real + 0 * rs ≠ real + 6 * rs from by omega)]
        rw [mset_other _ _ _ (hcr 0 5 (by norm_num) (by norm_num) (by norm_num) (by norm_num))]
        rw [mset_other _ _ _ (show real + 0 * rs ≠ real + 5 * rs from by omega)]
        rw [mset_other _ _ _ (hcr 0 4 (by norm_num) (by norm_num) (by norm_num) (by norm_num))]
        rw [mset_other _ _ _ (show real + 0 * rs ≠ real + 4 * rs from by omega)]
        rw [mset_other _ _ _ (hcr 0 3 (by norm_num) (by norm_num) (by norm_num) (by norm_num))]
        rw [mset_other _ _ _ (show real + 0 * rs ≠ real + 3 * rs from by omega)]
        rw [mset_other _ _ _ (hcr 0 2 (by norm_num) (by norm_num) (by norm_num) (by norm_num))]
        rw [mset_other _ _ _ (show real + 0 * rs ≠ real + 2 * rs from by omega)]
        rw [mset_other _ _ _ (hcr 0 1 (by norm_num) (by norm_num) (by norm_num) (by norm_num))]
        rw [mset_other _ _ _ (show real + 0 * rs ≠ real + 1 * rs from by omega)]
        rw [mset_other _ _ _ (hcr 0 0 (by norm_num) (by norm_num) (by norm_num) (by norm_num))]
        rw [mset_same]
        rw [mset_other _ _ _ (show imag + 0 * ims ≠ imag + 7 * ims from by omega)]
        rw [mset_other _ _ _ ((hcr 7 0 (by norm_num) (by norm_num) (by norm_num) (by norm_num)).symm)]
        rw [mset_other _ _ _ (show imag + 0 * ims ≠ imag + 6 * ims from by omega)]
        rw [mset_other _ _ _ ((hcr 6 0 (by norm_num) (by norm_num) (by norm_num) (by norm_num)).symm)]
        rw [mset_other _ _ _ (show imag + 0 * ims ≠ imag + 5 * ims from by omega)]
        rw [mset_other _ _ _ ((hcr 5 0 (by norm_num) (by norm_num) (by norm_num) (by norm_num)).symm)]
        rw [mset_other _ _ _ (show imag + 0 * ims ≠ imag + 4 * ims from by omega)]
        rw [mset_other _ _ _ ((hcr 4 0 (by norm_num) (by norm_num) (by norm_num) (by norm_num)).symm)]
        rw [mset_other _ _ _ (show imag + 0 * ims ≠ imag + 3 * ims from by omega)]
        rw [mset_other _ _ _ ((hcr 3 0 (by norm_num) (by norm_num) (by norm_num) (by norm_num)).symm)]
        rw [mset_other _ _ _ (show imag + 0 * ims ≠ imag + 2 * ims from by omega)]
        rw [mset_other _ _ _ ((hcr 2 0 (by norm_num) (by norm_num) (by norm_num) (by norm_num)).symm)]
        rw [mset_other _ _ _ (show imag + 0 * ims ≠ imag + 1 * ims from by omega)]
        rw [mset_other _ _ _ ((hcr 1 0 (by norm_num) (by norm_num) (by norm_num) (by norm_num)).symm)]
        rw [mset_same]
        have hp0 : Wc false 8 ^ (0 : ℕ) = Complex.mk 1 0 := Wc8_pow0 false
        rw [hp0]
        apply Complex.ext
        · simp only [Complex.add_re, Complex.mul_re, Complex.zero_re, cmk_re, cmk_im, hσ]
          ring
        · simp only [Complex.add_im, Complex.mul_im, Complex.zero_im, cmk_re, cmk_im, hσ]
          ring
      · rw [Finset.sum_range_succ, Finset.sum_range_succ, Finset.sum_range_succ, Finset.sum_range_succ,
          Finset.sum_range_succ, Finset.sum_range_succ, Finset.sum_range_succ, Finset.sum_range_succ,
          Finset.sum_range_zero]
        rw [hb0, hb1, hb2, hb3, hb4, hb5, hb6, hb7]
        push_cast
        simp only [dbcF_fft8]
        rw [if_true]
        rw [mset_other _ _ _ (hcr 1 7 (by norm_num) (by norm_num) (by norm_num) (by norm_num))]
        rw [mset_other _ _ _ (show real + 1 * rs ≠ real + 7 * rs from by omega)]
        rw [mset_other _ _ _ (hcr 1 6 (by norm_num) (by norm_num) (by norm_num) (by norm_num))]
        rw [mset_other _ _ _ (show real + 1 * rs ≠ real + 6 * rs from by omega)]
        rw [mset_other _ _ _ (hcr 1 5 (by norm_num) (by norm_num) (by norm_num) (by norm_num))]
        rw [mset_other _ _ _ (show real + 1 * rs ≠ real + 5 * rs from by omega)]
        rw [mset_other _ _ _ (hcr 1 4 (by norm_num) (by norm_num) (by norm_num) (by norm_num))]
        rw [mset_other _ _ _ (show real + 1 * rs ≠ real + 4 * rs from by omega)]
        rw [mset_other _ _ _ (hcr 1 3 (by norm_num) (by norm_num) (by norm_num) (by norm_num))]
        rw [mset_other _ _ _ (show real + 1 * rs ≠ real + 3 * rs from by omega)]
        rw [mset_other _ _ _ (hcr 1 2 (by norm_num) (by norm_num) (by norm_num) (by norm_num))]
        rw [mset_other _ _ _ (show real + 1 * rs ≠ real + 2 * rs from by omega)]
        rw [mset_other _ _ _ (hcr 1 1 (by norm_num) (by norm_num) (by norm_num) (by norm_num))]
        rw [mset_same]
        rw [mset_other _ _ _ (show imag + 1 * ims ≠ imag + 7 * ims from by omega)]
        rw [mset_other _ _ _ ((hcr 7 1 (by norm_num) (by norm_num) (by norm_num) (by norm_num)).symm)]
        rw [mset_other _ _ _ (show imag + 1 * ims ≠ imag + 6 * ims from by omega)]
        rw [mset_other _ _ _ ((hcr 6 1 (by norm_num) (by norm_num) (by norm_num) (by norm_num)).symm)]
        rw [mset_other _ _ _ (show imag + 1 * ims ≠ imag + 5 * ims from by omega)]
        rw [mset_other _ _ _ ((hcr 5 1 (by norm_num) (by norm_num) (by norm_num) (by norm_num)).symm)]
        rw [mset_other _ _ _ (show imag + 1 * ims ≠ imag + 4 * ims from by omega)]
        rw [mset_other _ _ _ ((hcr 4 1 (by norm_num) (by norm_num) (by norm_num) (by norm_num)).symm)]
        rw [mset_other _ _ _ (show imag + 1 * ims ≠ imag + 3 * ims from by omega)]
        rw [mset_other _ _ _ ((hcr 3 1 (by norm_num) (by norm_num) (by norm_num) (by norm_num)).symm)]
        rw [mset_other _ _ _ (show imag + 1 * ims ≠ imag + 2 * ims from by omega)]
        rw [mset_other _ _ _ ((hcr 2 1 (by norm_num) (by norm_num) (by norm_num) (by norm_num)).symm)]
        rw [mset_same]
        have hp0 : Wc false 8 ^ (0 : ℕ) = Complex.mk 1 0 := Wc8_pow0 false
        have hp1 : Wc false 8 ^ (1 : ℕ) = Complex.mk (Real.cos (2 * Real.pi / 8)) (dftSgn false * Real.cos (2 * Real.pi / 8)) := Wc8_pow1 false
        have hp2 : Wc false 8 ^ (2 : ℕ) = Complex.mk 0 (dftSgn false) := Wc8_pow2 false
        have hp3 : Wc false 8 ^ (3 : ℕ) = Complex.mk (-Real.cos (2 * Real.pi / 8)) (dftSgn false * Real.cos (2 * Real.pi / 8)) := Wc8_pow3 false
        have hp4 : Wc false 8 ^ (4 : ℕ) = Complex.mk (-1) 0 := Wc8_pow4 false
        have hp5 : Wc false 8 ^ (5 : ℕ) = Complex.mk (-Real.cos (2 * Real.pi / 8)) (dftSgn false * -Real.cos (2 * Real.pi / 8)) := Wc8_pow5 false
        have hp6 : Wc false 8 ^ (6 : ℕ) = Complex.mk 0 (dftSgn false * -1) := Wc8_pow6 false
        have hp7 : Wc false 8 ^ (7 : ℕ) = Complex.mk (Real.cos (2 * Real.pi / 8)) (dftSgn false * -Real.cos (2 * Real.pi / 8)) := Wc8_pow7 false
        rw [hp0, hp1, hp2, hp3, hp4, hp5, hp6, hp7]
        apply Complex.ext
        · simp only [Complex.add_re, Complex.mul_re, Complex.zero_re, cmk_re, cmk_im, hσ]
          ring
        · simp only [Complex.add_im, Complex.mul_im, Complex.zero_im, cmk_re, cmk_im, hσ]
          ring
      · rw [Finset.sum_range_succ, Finset.sum_range_succ, Finset.sum_range_succ, Finset.sum_range_succ,
          Finset.sum_range_succ, Finset.sum_range_succ, Finset.sum_range_succ, Finset.sum_range_succ,
          Finset.sum_range_zero]
        rw [hb0, hb1, hb2, hb3, hb4, hb5, hb6, hb7]
        push_cast
        simp only [dbcF_fft8]
        rw [if_true]
        rw [mset_other _ _ _ (hcr 2 7 (by norm_num) (by norm_num) (by norm_num) (by norm_num))]
        rw [mset_other _ _ _ (show real + 2 * rs ≠ real + 7 * rs from by omega)]
        rw [mset_other _ _ _ (hcr 2 6 (by norm_num) (by norm_num) (by norm_num) (by norm_num))]
        rw [mset_other _ _ _ (show real + 2 * rs ≠ real + 6 * rs from by omega)]
        rw [mset_other _ _ _ (hcr 2 5 (by norm_num) (by norm_num) (by norm_num) (by norm_num))]
        rw [mset_other _ _ _ (show real + 2 * rs ≠ real + 5 * rs from by omega)]
        rw [mset_other _ _ _ (hcr 2 4 (by norm_num) (by norm_num) (by norm_num) (by norm_num))]
        rw [mset_other _ _ _ (show real + 2 * rs ≠ real + 4 * rs from by omega)]
        rw [mset_other _ _ _ (hcr 2 3 (by norm_num) (by norm_num) (by norm_num) (by norm_num))]
        rw [mset_other _ _ _ (show real + 2 * rs ≠ real + 3 * rs from by omega)]
        rw [mset_other _ _ _ (hcr 2 2 (by norm_num) (by norm_num) (by norm_num) (by norm_num))]
        rw [mset_same]
        rw [mset_other _ _ _ (show imag + 2 * ims ≠ imag + 7 * ims from by omega)]
        rw [mset_other _ _ _ ((hcr 7 2 (by norm_num) (by norm_num) (by norm_num) (by norm_num)).symm)]
        rw [mset_other _ _ _ (show imag + 2 * ims ≠ imag + 6 * ims from by omega)]
        rw [mset_other _ _ _ ((hcr 6 2 (by norm_num) (by norm_num) (by norm_num) (by norm_num)).symm)]
        rw [mset_other _ _ _ (show imag + 2 * ims ≠ imag + 5 * ims from by omega)]
        rw [mset_other _ _ _ ((hcr 5 2 (by norm_num) (by norm_num) (by norm_num) (by norm_num)).symm)]
        rw [mset_other _ _ _ (show imag + 2 * ims ≠ imag + 4 * ims from by omega)]
        rw [mset_other _ _ _ ((hcr 4 2 (by norm_num) (by norm_num) (by norm_num) (by norm_num)).symm)]
        rw [mset_other _ _ _ (show imag + 2 * ims ≠ imag + 3 * ims from by omega)]
        rw [mset_other _ _ _ ((hcr 3 2 (by norm_num) (by norm_num) (by norm_num) (by norm_num)).symm)]
        rw [mset_same]
        have hp0 : Wc false 8 ^ (0 : ℕ) = Complex.mk 1 0 := Wc8_pow0 false
        have hp2 : Wc false 8 ^ (2 : ℕ) = Complex.mk 0 (dftSgn false) := Wc8_pow2 false
        have hp4 : Wc false 8 ^ (4 : ℕ) = Complex.mk (-1) 0 := Wc8_pow4 false
        have hp6 : Wc false 8 ^ (6 : ℕ) = Complex.mk 0 (dftSgn false * -1) := Wc8_pow6 false
        have hp8 : Wc false 8 ^ (8 : ℕ) = Complex.mk 1 0 := by rw [Wc_pow_mod false (by norm_num) 8, show (8 % 8 : ℕ) = 0 from by norm_num, Wc8_pow0 false]
        have hp10 : Wc false 8 ^ (10 : ℕ) = Complex.mk 0 (dftSgn false) := by rw [Wc_pow_mod false (by norm_num) 10, show (10 % 8 : ℕ) = 2 from by norm_num, Wc8_pow2 false]
        have hp12 : Wc false 8 ^ (12 : ℕ) = Complex.mk (-1) 0 := by rw [Wc_pow_mod false (by norm_num) 12, show (12 % 8 : ℕ) = 4 from by norm_num, Wc8_pow4 false]
        have hp14 : Wc false 8 ^ (14 : ℕ) = Complex.mk 0 (dftSgn false * -1) := by rw [Wc_pow_mod false (by norm_num) 14, show (14 % 8 : ℕ) = 6 from by norm_num, Wc8_pow6 false]
        rw [hp0, hp2, hp4, hp6, hp8, hp10, hp12, hp14]
        apply Complex.ext
        · simp only [Complex.add_re, Complex.mul_re, Complex.zero_re, cmk_re, cmk_im, hσ]
          ring
        · simp only [Complex.add_im, Complex.mul_im, Complex.zero_im, cmk_re, cmk_im, hσ]
          ring
      · rw [Finset.sum_range_succ, Finset.sum_range_succ, Finset.sum_range_succ, Finset.sum_range_succ,
          Finset.sum_range_succ, Finset.sum_range_succ, Finset.sum_range_succ, Finset.sum_range_succ,
          Finset.sum_range_zero]
        rw [hb0, hb1, hb2, hb3, hb4, hb5, hb6, hb7]
        push_cast
        simp only [dbcF_fft8]
        rw [if_true]
        rw [mset_other _ _ _ (hcr 3 7 (by norm_num) (by norm_num) (by norm_num) (by norm_num))]
        rw [mset_other _ _ _ (show real + 3 * rs ≠ real + 7 * rs from by omega)]
        rw [mset_other _ _ _ (hcr 3 6 (by norm_num) (by norm_num) (by norm_num) (by norm_num))]
        rw [mset_other _ _ _ (show real + 3 * rs ≠ real + 6 * rs from by omega)]
        rw [mset_other _ _ _ (hcr 3 5 (by norm_num) (by norm_num) (by norm_num) (by norm_num))]
        rw [mset_other _ _ _ (show real + 3 * rs ≠ real + 5 * rs from by omega)]
        rw [mset_other _ _ _ (hcr 3 4 (by norm_num) (by norm_num) (by norm_num) (by norm_num))]
        rw [mset_other _ _ _ (show real + 3 * rs ≠ real + 4 * rs from by omega)]
        rw [mset_other _ _ _ (hcr 3 3 (by norm_num) (by norm_num) (by norm_num) (by norm_num))]
        rw [mset_same]
        rw [mset_other _ _ _ (show imag + 3 * ims ≠ imag + 7 * ims from by omega)]
        rw [mset_other _ _ _ ((hcr 7 3 (by norm_num) (by norm_num) (by norm_num) (by norm_num)).symm)]
        rw [mset_other _ _ _ (show imag + 3 * ims ≠ imag + 6 * ims from by omega)]
        rw [mset_other _ _ _ ((hcr 6 3 (by norm_num) (by norm_num) (by norm_num) (by norm_num)).symm)]
        rw [mset_other _ _ _ (show imag + 3 * ims ≠ imag + 5 * ims from by omega)]
        rw [mset_other _ _ _ ((hcr 5 3 (by norm_num) (by norm_num) (by norm_num) (by norm_num)).symm)]
        rw [mset_other _ _ _ (show imag + 3 * ims ≠ imag + 4 * ims from by omega)]
        rw [mset_other _ _ _ ((hcr 4 3 (by norm_num) (by norm_num) (by norm_num) (by norm_num)).symm)]
        rw [mset_same]
        have hp0 : Wc false 8 ^ (0 : ℕ) = Complex.mk 1 0 := Wc8_pow0 false
        have hp3 : Wc false 8 ^ (3 : ℕ) = Complex.mk (-Real.cos (2 * Real.pi / 8)) (dftSgn false * Real.cos (2 * Real.pi / 8)) := Wc8_pow3 false
        have hp6 : Wc false 8 ^ (6 : ℕ) = Complex.mk 0 (dftSgn false * -1) := Wc8_pow6 false
        have hp9 : Wc false 8 ^ (9 : ℕ) = Complex.mk (Real.cos (2 * Real.pi / 8)) (dftSgn false * Real.cos (2 * Real.pi / 8)) := by rw [Wc_pow_mod false (by norm_num) 9, show (9 % 8 : ℕ) = 1 from by norm_num, Wc8_pow1 false]
        have hp12 : Wc false 8 ^ (12 : ℕ) = Complex.mk (-1) 0 := by rw [Wc_pow_mod false (by norm_num) 12, show (12 % 8 : ℕ) = 4 from by norm_num, Wc8_pow4 false]
        have hp15 : Wc false 8 ^ (15 : ℕ) = Complex.mk (Real.cos (2 * Real.pi / 8)) (dftSgn false * -Real.cos (2 * Real.pi / 8)) := by rw [Wc_pow_mod false (by norm_num) 15, show (15 % 8 : ℕ) = 7 from by norm_num, Wc8_pow7 false]
        have hp18 : Wc false 8 ^ (18 : ℕ) = Complex.mk 0 (dftSgn false) := by rw [Wc_pow_mod false (by norm_num) 18, show (18 % 8 : ℕ) = 2 from by norm_num, Wc8_pow2 false]
        have hp21 : Wc false 8 ^ (21 : ℕ) = Complex.mk (-Real.cos (2 * Real.pi / 8)) (dftSgn false * -Real.cos (2 * Real.pi / 8)) := by rw [Wc_pow_mod false (by norm_num) 21, show (21 % 8 : ℕ) = 5 from by norm_num, Wc8_pow5 false]
        rw [hp0, hp3, hp6, hp9, hp12, hp15, hp18, hp21]
        apply Complex.ext
        · simp only [Complex.add_re, Complex.mul_re, Complex.zero_re, cmk_re, cmk_im, hσ]
          ring
        · simp only [Complex.add_im, Complex.mul_im, Complex.zero_im, cmk_re, cmk_im, hσ]
          ring
      · rw [Finset.sum_range_succ, Finset.sum_range_succ, Finset.sum_range_succ, Finset.sum_range_succ,
          Finset.sum_range_succ, Finset.sum_range_succ, Finset.sum_range_succ, Finset.sum_range_succ,
          Finset.sum_range_zero]
        rw [hb0, hb1, hb2, hb3, hb4, hb5, hb6, hb7]
        push_cast
        simp only [dbcF_fft8]
        rw [if_true]
        rw [mset_other _ _ _ (hcr 4 7 (by norm_num) (by norm_num) (by norm_num) (by norm_num))]
        rw [mset_other _ _ _ (show real + 4 * rs ≠ real + 7 * rs from by omega)]
        rw [mset_other _ _ _ (hcr 4 6 (by norm_num) (by norm_num) (by norm_num) (by norm_num))]
        rw [mset_other _ _ _ (show real + 4 * rs ≠ real + 6 * rs from by omega)]
        rw [mset_other _ _ _ (hcr 4 5 (by norm_num) (by norm_num) (by norm_num) (by norm_num))]
        rw [mset_other _ _ _ (show real + 4 * rs ≠ real + 5 * rs from by omega)]
        rw [mset_other _ _ _ (hcr 4 4 (by norm_num) (by norm_num) (by norm_num) (by norm_num))]
        rw [mset_same]
        rw [mset_other _ _ _ (show imag + 4 * ims ≠ imag + 7 * ims from by omega)]
        rw [mset_other _ _ _ ((hcr 7 4 (by norm_num) (by norm_num) (by norm_num) (by norm_num)).symm)]
        rw [mset_other _ _ _ (show imag + 4 * ims ≠ imag + 6 * ims from by omega)]
        rw [mset_other _ _ _ ((hcr 6 4 (by norm_num) (by norm_num) (by norm_num) (by norm_num)).symm)]
        rw [mset_other _ _ _ (show imag + 4 * ims ≠ imag + 5 * ims from by omega)]
        rw [mset_other _ _ _ ((hcr 5 4 (by norm_num) (by norm_num) (by norm_num) (by norm_num)).symm)]
        rw [mset_same]
        have hp0 : Wc false 8 ^ (0 : ℕ) = Complex.mk 1 0 := Wc8_pow0 false
        have hp4 : Wc false 8 ^ (4 : ℕ) = Complex.mk (-1) 0 := Wc8_pow4 false
        have hp8 : Wc false 8 ^ (8 : ℕ) = Complex.mk 1 0 := by rw [Wc_pow_mod false (by norm_num) 8, show (8 % 8 : ℕ) = 0 from by norm_num, Wc8_pow0 false]
        have hp12 : Wc false 8 ^ (12 : ℕ) = Complex.mk (-1) 0 := by rw [Wc_pow_mod false (by norm_num) 12, show (12 % 8 : ℕ) = 4 from by norm_num, Wc8_pow4 false]
        have hp16 : Wc false 8 ^ (16 : ℕ) = Complex.mk 1 0 := by rw [Wc_pow_mod false (by norm_num) 16, show (16 % 8 : ℕ) = 0 from by norm_num, Wc8_pow0 false]
        have hp20 : Wc false 8 ^ (20 : ℕ) = Complex.mk (-1) 0 := by rw [Wc_pow_mod false (by norm_num) 20, show (20 % 8 : ℕ) = 4 from by norm_num, Wc8_pow4 false]
        have hp24 : Wc false 8 ^ (24 : ℕ) = Complex.mk 1 0 := by rw [Wc_pow_mod false (by norm_num) 24, show (24 % 8 : ℕ) = 0 from by norm_num, Wc8_pow0 false]
        have hp28 : Wc false 8 ^ (28 : ℕ) = Complex.mk (-1) 0 := by rw [Wc_pow_mod false (by norm_num) 28, show (28 % 8 : ℕ) = 4 from by norm_num, Wc8_pow4 false]
        rw [hp0, hp4, hp8, hp12, hp16, hp20, hp24, hp28]
        apply Complex.ext
        · simp only [Complex.add_re, Complex.mul_re, Complex.zero_re, cmk_re, cmk_im, hσ]
          ring
        · simp only [Complex.add_im, Complex.mul_im, Complex.zero_im, cmk_re, cmk_im, hσ]
          ring
      · rw [Finset.sum_range_succ, Finset.sum_range_succ, Finset.sum_range_succ, Finset.sum_range_succ,
          Finset.sum_range_succ, Finset.sum_range_succ, Finset.sum_range_succ, Finset.sum_range_succ,
          Finset.sum_range_zero]
        rw [hb0, hb1, hb2, hb3, hb4, hb5, hb6, hb7]
        push_cast
        simp only [dbcF_fft8]
        rw [if_true]
        rw [mset_other _ _ _ (hcr 5 7 (by norm_num) (by norm_num) (by norm_num) (by norm_num))]
        rw [mset_other _ _ _ (show real + 5 * rs ≠ real + 7 * rs from by omega)]
        rw [mset_other _ _ _ (hcr 5 6 (by norm_num) (by norm_num) (by norm_num) (by norm_num))]
        rw [mset_other _ _ _ (show real + 5 * rs ≠ real + 6 * rs from by omega)]
        rw [mset_other _ _ _ (hcr 5 5 (by norm_num) (by norm_num) (by norm_num) (by norm_num))]
        rw [mset_same]
        rw [mset_other _ _ _ (show imag + 5 * ims ≠ imag + 7 * ims from by omega)]
        rw [mset_other _ _ _ ((hcr 7 5 (by norm_num) (by norm_num) (by norm_num) (by norm_num)).symm)]
        rw [mset_other _ _ _ (show imag + 5 * ims ≠ imag + 6 * ims from by omega)]
        rw [mset_other _ _ _ ((hcr 6 5 (by norm_num) (by norm_num) (by norm_num) (by norm_num)).symm)]
        rw [mset_same]
        have hp0 : Wc false 8 ^ (0 : ℕ) = Complex.mk 1 0 := Wc8_pow0 false
        have hp5 : Wc false 8 ^ (5 : ℕ) = Complex.mk (-Real.cos (2 * Real.pi / 8)) (dftSgn false * -Real.cos (2 * Real.pi / 8)) := Wc8_pow5 false
        have hp10 : Wc false 8 ^ (10 : ℕ) = Complex.mk 0 (dftSgn false) := by rw [Wc_pow_mod false (by norm_num) 10, show (10 % 8 : ℕ) = 2 from by norm_num, Wc8_pow2 false]
        have hp15 : Wc false 8 ^ (15 : ℕ) = Complex.mk (Real.cos (2 * Real.pi / 8)) (dftSgn false * -Real.cos (2 * Real.pi / 8)) := by rw [Wc_pow_mod false (by norm_num) 15, show (15 % 8 : ℕ) = 7 from by norm_num, Wc8_pow7 false]
        have hp20 : Wc false 8 ^ (20 : ℕ) = Complex.mk (-1) 0 := by rw [Wc_pow_mod false (by norm_num) 20, show (20 % 8 : ℕ) = 4 from by norm_num, Wc8_pow4 false]
        have hp25 : Wc false 8 ^ (25 : ℕ) = Complex.mk (Real.cos (2 * Real.pi / 8)) (dftSgn false * Real.cos (2 * Real.pi / 8)) := by rw [Wc_pow_mod false (by norm_num) 25, show (25 % 8 : ℕ) = 1 from by norm_num, Wc8_pow1 false]
        have hp30 : Wc false 8 ^ (30 : ℕ) = Complex.mk 0 (dftSgn false * -1) := by rw [Wc_pow_mod false (by norm_num) 30, show (30 % 8 : ℕ) = 6 from by norm_num, Wc8_pow6 false]
        have hp35 : Wc false 8 ^ (35 : ℕ) = Complex.mk (-Real.cos (2 * Real.pi / 8)) (dftSgn false * Real.cos (2 * Real.pi / 8)) := by rw [Wc_pow_mod false (by norm_num) 35, show (35 % 8 : ℕ) = 3 from by norm_num, Wc8_pow3 false]
        rw [hp0, hp5, hp10, hp15, hp20, hp25, hp30, hp35]
        apply Complex.ext
        · simp only [Complex.add_re, Complex.mul_re, Complex.zero_re, cmk_re, cmk_im, hσ]
          ring
        · simp only [Complex.add_im, Complex.mul_im, Complex.zero_im, cmk_re, cmk_im, hσ]
          ring
      · rw [Finset.sum_range_succ, Finset.sum_range_succ, Finset.sum_range_succ, Finset.sum_range_succ,
          Finset.sum_range_succ, Finset.sum_range_succ, Finset.sum_range_succ, Finset.sum_range_succ,
          Finset.sum_range_zero]
        rw [hb0, hb1, hb2, hb3, hb4, hb5, hb6, hb7]
        push_cast
        simp only [dbcF_fft8]
        rw [if_true]
        rw [mset_other _ _ _ (hcr 6 7 (by norm_num) (by norm_num) (by norm_num) (by norm_num))]
        rw [mset_other _ _ _ (show real + 6 * rs ≠ real + 7 * rs from by omega)]
        rw [mset_other _ _ _ (hcr 6 6 (by norm_num) (by norm_num) (by norm_num) (by norm_num))]
        rw [mset_same]
        rw [mset_other _ _ _ (show imag + 6 * ims ≠ imag + 7 * ims from by omega)]
        rw [mset_other _ _ _ ((hcr 7 6 (by norm_num) (by norm_num) (by norm_num) (by norm_num)).symm)]
        rw [mset_same]
        have hp0 : Wc false 8 ^ (0 : ℕ) = Complex.mk 1 0 := Wc8_pow0 false
        have hp6 : Wc false 8 ^ (6 : ℕ) = Complex.mk 0 (dftSgn false * -1) := Wc8_pow6 false
        have hp12 : Wc false 8 ^ (12 : ℕ) = Complex.mk (-1) 0 := by rw [Wc_pow_mod false (by norm_num) 12, show (12 % 8 : ℕ) = 4 from by norm_num, Wc8_pow4 false]
        have hp18 : Wc false 8 ^ (18 : ℕ) = Complex.mk 0 (dftSgn false) := by rw [Wc_pow_mod false (by norm_num) 18, show (18 % 8 : ℕ) = 2 from by norm_num, Wc8_pow2 false]
        have hp24 : Wc false 8 ^ (24 : ℕ) = Complex.mk 1 0 := by rw [Wc_pow_mod false (by norm_num) 24, show (24 % 8 : ℕ) = 0 from by norm_num, Wc8_pow0 false]
        have hp30 : Wc false 8 ^ (30 : ℕ) = Complex.mk 0 (dftSgn false * -1) := by rw [Wc_pow_mod false (by norm_num) 30, show (30 % 8 : ℕ) = 6 from by norm_num, Wc8_pow6 false]
        have hp36 : Wc false 8 ^ (36 : ℕ) = Complex.mk (-1) 0 := by rw [Wc_pow_mod false (by norm_num) 36, show (36 % 8 : ℕ) = 4 from by norm_num, Wc8_pow4 false]
        have hp42 : Wc false 8 ^ (42 : ℕ) = Complex.mk 0 (dftSgn false) := by rw [Wc_pow_mod false (by norm_num) 42, show (42 % 8 : ℕ) = 2 from by norm_num, Wc8_pow2 false]
        rw [hp0, hp6, hp12, hp18, hp24, hp30, hp36, hp42]
        apply Complex.ext
        · simp only [Complex.add_re, Complex.mul_re, Complex.zero_re, cmk_re, cmk_im, hσ]
          ring
        · simp only [Complex.add_im, Complex.mul_im, Complex.zero_im, cmk_re, cmk_im, hσ]
          ring
      · rw [Finset.sum_range_succ, Finset.sum_range_succ, Finset.sum_range_succ, Finset.sum_range_succ,
          Finset.sum_range_succ, Finset.sum_range_succ, Finset.sum_range_succ, Finset.sum_range_succ,
          Finset.sum_range_zero]
        rw [hb0, hb1, hb2, hb3, hb4, hb5, hb6, hb7]
        push_cast
        simp only [dbcF_fft8]
        rw [if_true]
        rw [mset_other _ _ _ (hcr 7 7 (by norm_num) (by norm_num) (by norm_num) (by norm_num))]
        rw [mset_same]
        rw [mset_same]
        have hp0 : Wc false 8 ^ (0 : ℕ) = Complex.mk 1 0 := Wc8_pow0 false
        have hp7 : Wc false 8 ^ (7 : ℕ) = Complex.mk (Real.cos (2 * Real.pi / 8)) (dftSgn false * -Real.cos (2 * Real.pi / 8)) := Wc8_pow7 false
        have hp14 : Wc false 8 ^ (14 : ℕ) = Complex.mk 0 (dftSgn false * -1) := by rw [Wc_pow_mod false (by norm_num) 14, show (14 % 8 : ℕ) = 6 from by norm_num, Wc8_pow6 false]
        have hp21 : Wc false 8 ^ (21 : ℕ) = Complex.mk (-Real.cos (2 * Real.pi / 8)) (dftSgn false * -Real.cos (2 * Real.pi / 8)) := by rw [Wc_pow_mod false (by norm_num) 21, show (21 % 8 : ℕ) = 5 from by norm_num, Wc8_pow5 false]
        have hp28 : Wc false 8 ^ (28 : ℕ) = Complex.mk (-1) 0 := by rw [Wc_pow_mod false (by norm_num) 28, show (28 % 8 : ℕ) = 4 from by norm_num, Wc8_pow4 false]
        have hp35 : Wc false 8 ^ (35 : ℕ) = Complex.mk (-Real.cos (2 * Real.pi / 8)) (dftSgn false * Real.cos (2 * Real.pi / 8)) := by rw [Wc_pow_mod false (by norm_num) 35, show (35 % 8 : ℕ) = 3 from by norm_num, Wc8_pow3 false]
        have hp42 : Wc false 8 ^ (42 : ℕ) = Complex.mk 0 (dftSgn false) := by rw [Wc_pow_mod false (by norm_num) 42, show (42 % 8 : ℕ) = 2 from by norm_num, Wc8_pow2 false]
        have hp49 : Wc false 8 ^ (49 : ℕ) = Complex.mk (Real.cos (2 * Real.pi / 8)) (dftSgn false * Real.cos (2 * Real.pi / 8)) := by rw [Wc_pow_mod false (by norm_num) 49, show (49 % 8 : ℕ) = 1 from by norm_num, Wc8_pow1 false]
        rw [hp0, hp7, hp14, hp21, hp28, hp35, hp42, hp49]
        apply Complex.ext
        · simp only [Complex.add_re, Complex.mul_re, Complex.zero_re, cmk_re, cmk_im, hσ]
          ring
        · simp only [Complex.add_im, Complex.mul_im, Complex.zero_im, cmk_re, cmk_im, hσ]
          ring
    · intro a ha
      simp only [dbcF_fft8]
      rw [if_true]
      rw [mset_other _ _ _ (ha 7 (by norm_num) (by norm_num)).2]
      rw [mset_other _ _ _ (ha 7 (by norm_num) (by norm_num)).1]
      rw [mset_other _ _ _ (ha 6 (by norm_num) (by norm_num)).2]
      rw [mset_other _ _ _ (ha 6 (by norm_num) (by norm_num)).1]
      rw [mset_other _ _ _ (ha 5 (by norm_num) (by norm_num)).2]
      rw [mset_other _ _ _ (ha 5 (by norm_num) (by norm_num)).1]
      rw [mset_other _ _ _ (ha 4 (by norm_num) (by norm_num)).2]
      rw [mset_other _ _ _ (ha 4 (by norm_num) (by norm_num)).1]
      rw [mset_other _ _ _ (ha 3 (by norm_num) (by norm_num)).2]
      rw [mset_other _ _ _ (ha 3 (by norm_num) (by norm_num)).1]
      rw [mset_other _ _ _ (ha 2 (by norm_num) (by norm_num)).2]
      rw [mset_other _ _ _ (ha 2 (by norm_num) (by norm_num)).1]
      rw [mset_other _ _ _ (ha 1 (by norm_num) (by norm_num)).2]
      rw [mset_other _ _ _ (ha 1 (by norm_num) (by norm_num)).1]
      rw [mset_other _ _ _ (ha 0 (by norm_num) (by norm_num)).2]
      rw [mset_other _ _ _ (ha 0 (by norm_num) (by norm_num)).1]
  | true =>
    have hσ : dftSgn true = 1 := rfl
    constructor
    · intro r hr
      interval_cases r
      · rw [Finset.sum_range_succ, Finset.sum_range_succ, Finset.sum_range_succ, Finset.sum_range_succ,
          Finset.sum_range_succ, Finset.sum_range_succ, Finset.sum_range_succ, Finset.sum_range_succ,
          Finset.sum_range_zero]
        rw [hb0, hb1, hb2, hb3, hb4, hb5, hb6, hb7]
        push_cast
        simp only [dbcF_fft8]
        rw [if_neg (show ¬((true : Bool) = false) from by simp)]
        rw [mset_other _ _ _ (hcr 0 7 (by norm_num) (by norm_num) (by norm_num) (by norm_num))]
        rw [mset_other _ _ _ (show real + 0 * rs ≠ real + 7 * rs from by omega)]
        rw [mset_other _ _ _ (hcr 0 6 (by norm_num) (by norm_num) (by norm_num) (by norm_num))]
        rw [mset_other _ _ _ (show real + 0 * rs ≠ real + 6 * rs from by omega)]
        rw [mset_other _ _ _ (hcr 0 5 (by norm_num) (by norm_num) (by norm_num) (by norm_num))]
        rw [mset_other _ _ _ (show real + 0 * rs ≠ real + 5 * rs from by omega)]
        rw [mset_other _ _ _ (hcr 0 4 (by norm_num) (by norm_num) (by norm_num) (by norm_num))]
        rw [mset_other _ _ _ (show real + 0 * rs ≠ real + 4 * rs from by omega)]
        rw [mset_other _ _ _ (hcr 0 3 (by norm_num) (by norm_num) (by norm_num) (by norm_num))]
        rw [mset_other _ _ _ (show real + 0 * rs ≠ real + 3 * rs from by omega)]
        rw [mset_other _ _ _ (hcr 0 2 (by norm_num) (by norm_num) (by norm_num) (by norm_num))]
        rw [mset_other _ _ _ (show real + 0 * rs ≠ real + 2 * rs from by omega)]
        rw [mset_other _ _ _ (hcr 0 1 (by norm_num) (by norm_num) (by norm_num) (by norm_num))]
        rw [mset_other _ _ _ (show real + 0 * rs ≠ real + 1 * rs from by omega)]
        rw [mset_other _ _ _ (hcr 0 0 (by norm_num) (by norm_num) (by norm_num) (by norm_num))]
        rw [mset_same]
        rw [mset_other _ _ _ (show imag + 0 * ims ≠ imag + 7 * ims from by omega)]
        rw [mset_other _ _ _ ((hcr 7 0 (by norm_num) (by norm_num) (by norm_num) (by norm_num)).symm)]
        rw [mset_other _ _ _ (show imag + 0 * ims ≠ imag + 6 * ims from by omega)]
        rw [mset_other _ _ _ ((hcr 6 0 (by norm_num) (by norm_num) (by norm_num) (by norm_num)).symm)]
        rw [mset_other _ _ _ (show imag + 0 * ims ≠ imag + 5 * ims from by omega)]
        rw [mset_other _ _ _ ((hcr 5 0 (by norm_num) (by norm_num) (by norm_num) (by norm_num)).symm)]
        rw [mset_other _ _ _ (show imag + 0 * ims ≠ imag + 4 * ims from by omega)]
        rw [mset_other _ _ _ ((hcr 4 0 (by norm_num) (by norm_num) (by norm_num) (by norm_num)).symm)]
        rw [mset_other _ _ _ (show imag + 0 * ims ≠ imag + 3 * ims from by omega)]
        rw [mset_other _ _ _ ((hcr 3 0 (by norm_num) (by norm_num) (by norm_num) (by norm_num)).symm)]
        rw [mset_other _ _ _ (show imag + 0 * ims ≠ imag + 2 * ims from by omega)]
        rw [mset_other _ _ _ ((hcr 2 0 (by norm_num) (by norm_num) (by norm_num) (by norm_num)).symm)]
        rw [mset_other _ _ _ (show imag + 0 * ims ≠ imag + 1 * ims from by omega)]
        rw [mset_other _ _ _ ((hcr 1 0 (by norm_num) (by norm_num) (by norm_num) (by norm_num)).symm)]
        rw [mset_same]
        have hp0 : Wc true 8 ^ (0 : ℕ) = Complex.mk 1 0 := Wc8_pow0 true
        rw [hp0]
        apply Complex.ext
        · simp only [Complex.add_re, Complex.mul_re, Complex.zero_re, cmk_re, cmk_im, hσ]
          ring
        · simp only [Complex.add_im, Complex.mul_im, Complex.zero_im, cmk_re, cmk_im, hσ]
          ring
      · rw [Finset.sum_range_succ, Finset.sum_range_succ, Finset.sum_range_succ, Finset.sum_range_succ,
          Finset.sum_range_succ, Finset.sum_range_succ, Finset.sum_range_succ, Finset.sum_range_succ,
          Finset.sum_range_zero]
        rw [hb0, hb1, hb2, hb3, hb4, hb5, hb6, hb7]
        push_cast
        simp only [dbcF_fft8]
        rw [if_neg (show ¬((true : Bool) = false) from by simp)]
        rw [mset_other _ _ _ (hcr 1 7 (by norm_num) (by norm_num) (by norm_num) (by norm_num))]
        rw [mset_other _ _ _ (show real + 1 * rs ≠ real + 7 * rs from by omega)]
        rw [mset_other _ _ _ (hcr 1 6 (by norm_num) (by norm_num) (by norm_num) (by norm_num))]
        rw [mset_other _ _ _ (show real + 1 * rs ≠ real + 6 * rs from by omega)]
        rw [mset_other _ _ _ (hcr 1 5 (by norm_num) (by norm_num) (by norm_num) (by norm_num))]
        rw [mset_other _ _ _ (show real + 1 * rs ≠ real + 5 * rs from by omega)]
        rw [mset_other _ _ _ (hcr 1 4 (by norm_num) (by norm_num) (by norm_num) (by norm_num))]
        rw [mset_other _ _ _ (show real + 1 * rs ≠ real + 4 * rs from by omega)]
        rw [mset_other _ _ _ (hcr 1 3 (by norm_num) (by norm_num) (by norm_num) (by norm_num))]
        rw [mset_other _ _ _ (show real + 1 * rs ≠ real + 3 * rs from by omega)]
        rw [mset_other _ _ _ (hcr 1 2 (by norm_num) (by norm_num) (by norm_num) (by norm_num))]
        rw [mset_other _ _ _ (show real + 1 * rs ≠ real + 2 * rs from by omega)]
        rw [mset_other _ _ _ (hcr 1 1 (by norm_num) (by norm_num) (by norm_num) (by norm_num))]
        rw [mset_same]
        rw [mset_other _ _ _ (show imag + 1 * ims ≠ imag + 7 * ims from by omega)]
        rw [mset_other _ _ _ ((hcr 7 1 (by norm_num) (by norm_num) (by norm_num) (by norm_num)).symm)]
        rw [mset_other _ _ _ (show imag + 1 * ims ≠ imag + 6 * ims from by omega)]
        rw [mset_other _ _ _ ((hcr 6 1 (by norm_num) (by norm_num) (by norm_num) (by norm_num)).symm)]
        rw [mset_other _ _ _ (show imag + 1 * ims ≠ imag + 5 * ims from by omega)]
        rw [mset_other _ _ _ ((hcr 5 1 (by norm_num) (by norm_num) (by norm_num) (by norm_num)).symm)]
        rw [mset_other _ _ _ (show imag + 1 * ims ≠ imag + 4 * ims from by omega)]
        rw [mset_other _ _ _ ((hcr 4 1 (by norm_num) (by norm_num) (by norm_num) (by norm_num)).symm)]
        rw [mset_other _ _ _ (show imag + 1 * ims ≠ imag + 3 * ims from by omega)]
        rw [mset_other _ _ _ ((hcr 3 1 (by norm_num) (by norm_num) (by norm_num) (by norm_num)).symm)]
        rw [mset_other _ _ _ (show imag + 1 * ims ≠ imag + 2 * ims from by omega)]
        rw [mset_other _ _ _ ((hcr 2 1 (by norm_num) (by norm_num) (by norm_num) (by norm_num)).symm)]
        rw [mset_same]
        have hp0 : Wc true 8 ^ (0 : ℕ) = Complex.mk 1 0 := Wc8_pow0 true
        have hp1 : Wc true 8 ^ (1 : ℕ) = Complex.mk (Real.cos (2 * Real.pi / 8)) (dftSgn true * Real.cos (2 * Real.pi / 8)) := Wc8_pow1 true
        have hp2 : Wc true 8 ^ (2 : ℕ) = Complex.mk 0 (dftSgn true) := Wc8_pow2 true
        have hp3 : Wc true 8 ^ (3 : ℕ) = Complex.mk (-Real.cos (2 * Real.pi / 8)) (dftSgn true * Real.cos (2 * Real.pi / 8)) := Wc8_pow3 true
        have hp4 : Wc true 8 ^ (4 : ℕ) = Complex.mk (-1) 0 := Wc8_pow4 true
        have hp5 : Wc true 8 ^ (5 : ℕ) = Complex.mk (-Real.cos (2 * Real.pi / 8)) (dftSgn true * -Real.cos (2 * Real.pi / 8)) := Wc8_pow5 true
        have hp6 : Wc true 8 ^ (6 : ℕ) = Complex.mk 0 (dftSgn true * -1) := Wc8_pow6 true
        have hp7 : Wc true 8 ^ (7 : ℕ) = Complex.mk (Real.cos (2 * Real.pi / 8)) (dftSgn true * -Real.cos (2 * Real.pi / 8)) := Wc8_pow7 true
        rw [hp0, hp1, hp2, hp3, hp4, hp5, hp6, hp7]
        apply Complex.ext
        · simp only [Complex.add_re, Complex.mul_re, Complex.zero_re, cmk_re, cmk_im, hσ]
          ring
        · simp only [Complex.add_im, Complex.mul_im, Complex.zero_im, cmk_re, cmk_im, hσ]
          ring
      · rw [Finset.sum_range_succ, Finset.sum_range_succ, Finset.sum_range_succ, Finset.sum_range_succ,
          Finset.sum_range_succ, Finset.sum_range_succ, Finset.sum_range_succ, Finset.sum_range_succ,
          Finset.sum_range_zero]
        rw [hb0, hb1, hb2, hb3, hb4, hb5, hb6, hb7]
        push_cast
        simp only [dbcF_fft8]
        rw [if_neg (show ¬((true : Bool) = false) from by simp)]
        rw [mset_other _ _ _ (hcr 2 7 (by norm_num) (by norm_num) (by norm_num) (by norm_num))]
        rw [mset_other _ _ _ (show real + 2 * rs ≠ real + 7 * rs from by omega)]
        rw [mset_other _ _ _ (hcr 2 6 (by norm_num) (by norm_num) (by norm_num) (by norm_num))]
        rw [mset_other _ _ _ (show real + 2 * rs ≠ real + 6 * rs from by omega)]
        rw [mset_other _ _ _ (hcr 2 5 (by norm_num) (by norm_num) (by norm_num) (by norm_num))]
        rw [mset_other _ _ _ (show real + 2 * rs ≠ real + 5 * rs from by omega)]
        rw [mset_other _ _ _ (hcr 2 4 (by norm_num) (by norm_num) (by norm_num) (by norm_num))]
        rw [mset_other _ _ _ (show real + 2 * rs ≠ real + 4 * rs from by omega)]
        rw [mset_other _ _ _ (hcr 2 3 (by norm_num) (by norm_num) (by norm_num) (by norm_num))]
        rw [mset_other _ _ _ (show real + 2 * rs ≠ real + 3 * rs from by omega)]
        rw [mset_other _ _ _ (hcr 2 2 (by norm_num) (by norm_num) (by norm_num) (by norm_num))]
        rw [mset_same]
        rw [mset_other _ _ _ (show imag + 2 * ims ≠ imag + 7 * ims from by omega)]
        rw [mset_other _ _ _ ((hcr 7 2 (by norm_num) (by norm_num) (by norm_num) (by norm_num)).symm)]
        rw [mset_other _ _ _ (show imag + 2 * ims ≠ imag + 6 * ims from by omega)]
        rw [mset_other _ _ _ ((hcr 6 2 (by norm_num) (by norm_num) (by norm_num) (by norm_num)).symm)]
        rw [mset_other _ _ _ (show imag + 2 * ims ≠ imag + 5 * ims from by omega)]
        rw [mset_other _ _ _ ((hcr 5 2 (by norm_num) (by norm_num) (by norm_num) (by norm_num)).symm)]
        rw [mset_other _ _ _ (show imag + 2 * ims ≠ imag + 4 * ims from by omega)]
        rw [mset_other _ _ _ ((hcr 4 2 (by norm_num) (by norm_num) (by norm_num) (by norm_num)).symm)]
        rw [mset_other _ _ _ (show imag + 2 * ims ≠ imag + 3 * ims from by omega)]
        rw [mset_other _ _ _ ((hcr 3 2 (by norm_num) (by norm_num) (by norm_num) (by norm_num)).symm)]
        rw [mset_same]
        have hp0 : Wc true 8 ^ (0 : ℕ) = Complex.mk 1 0 := Wc8_pow0 true
        have hp2 : Wc true 8 ^ (2 : ℕ) = Complex.mk 0 (dftSgn true) := Wc8_pow2 true
        have hp4 : Wc true 8 ^ (4 : ℕ) = Complex.mk (-1) 0 := Wc8_pow4 true
        have hp6 : Wc true 8 ^ (6 : ℕ) = Complex.mk 0 (dftSgn true * -1) := Wc8_pow6 true
        have hp8 : Wc true 8 ^ (8 : ℕ) = Complex.mk 1 0 := by rw [Wc_pow_mod true (by norm_num) 8, show (8 % 8 : ℕ) = 0 from by norm_num, Wc8_pow0 true]
        have hp10 : Wc true 8 ^ (10 : ℕ) = Complex.mk 0 (dftSgn true) := by rw [Wc_pow_mod true (by norm_num) 10, show (10 % 8 : ℕ) = 2 from by norm_num, Wc8_pow2 true]
        have hp12 : Wc true 8 ^ (12 : ℕ) = Complex.mk (-1) 0 := by rw [Wc_pow_mod true (by norm_num) 12, show (12 % 8 : ℕ) = 4 from by norm_num, Wc8_pow4 true]
        have hp14 : Wc true 8 ^ (14 : ℕ) = Complex.mk 0 (dftSgn true * -1) := by rw [Wc_pow_mod true (by norm_num) 14, show (14 % 8 : ℕ) = 6 from by norm_num, Wc8_pow6 true]
        rw [hp0, hp2, hp4, hp6, hp8, hp10, hp12, hp14]
        apply Complex.ext
        · simp only [Complex.add_re, Complex.mul_re, Complex.zero_re, cmk_re, cmk_im, hσ]
          ring
        · simp only [Complex.add_im, Complex.mul_im, Complex.zero_im, cmk_re, cmk_im, hσ]
          ring
      · rw [Finset.sum_range_succ, Finset.sum_range_succ, Finset.sum_range_succ, Finset.sum_range_succ,
          Finset.sum_range_succ, Finset.sum_range_succ, Finset.sum_range_succ, Finset.sum_range_succ,
          Finset.sum_range_zero]
        rw [hb0, hb1, hb2, hb3, hb4, hb5, hb6, hb7]
        push_cast
        simp only [dbcF_fft8]
        rw [if_neg (show ¬((true : Bool) = false) from by simp)]
        rw [mset_other _ _ _ (hcr 3 7 (by norm_num) (by norm_num) (by norm_num) (by norm_num))]
        rw [mset_other _ _ _ (show real + 3 * rs ≠ real + 7 * rs from by omega)]
        rw [mset_other _ _ _ (hcr 3 6 (by norm_num) (by norm_num) (by norm_num) (by norm_num))]
        rw [mset_other _ _ _ (show real + 3 * rs ≠ real + 6 * rs from by omega)]
        rw [mset_other _ _ _ (hcr 3 5 (by norm_num) (by norm_num) (by norm_num) (by norm_num))]
        rw [mset_other _ _ _ (show real + 3 * rs ≠ real + 5 * rs from by omega)]
        rw [mset_other _ _ _ (hcr 3 4 (by norm_num) (by norm_num) (by norm_num) (by norm_num))]
        rw [mset_other _ _ _ (show real + 3 * rs ≠ real + 4 * rs from by omega)]
        rw [mset_other _ _ _ (hcr 3 3 (by norm_num) (by norm_num) (by norm_num) (by norm_num))]
        rw [mset_same]
        rw [mset_other _ _ _ (show imag + 3 * ims ≠ imag + 7 * ims from by omega)]
        rw [mset_other _ _ _ ((hcr 7 3 (by norm_num) (by norm_num) (by norm_num) (by norm_num)).symm)]
        rw [mset_other _ _ _ (show imag + 3 * ims ≠ imag + 6 * ims from by omega)]
        rw [mset_other _ _ _ ((hcr 6 3 (by norm_num) (by norm_num) (by norm_num) (by norm_num)).symm)]
        rw [mset_other _ _ _ (show imag + 3 * ims ≠ imag + 5 * ims from by omega)]
        rw [mset_other _ _ _ ((hcr 5 3 (by norm_num) (by norm_num) (by norm_num) (by norm_num)).symm)]
        rw [mset_other _ _ _ (show imag + 3 * ims ≠ imag + 4 * ims from by omega)]
        rw [mset_other _ _ _ ((hcr 4 3 (by norm_num) (by norm_num) (by norm_num) (by norm_num)).symm)]
        rw [mset_same]
        have hp0 : Wc true 8 ^ (0 : ℕ) = Complex.mk 1 0 := Wc8_pow0 true
        have hp3 : Wc true 8 ^ (3 : ℕ) = Complex.mk (-Real.cos (2 * Real.pi / 8)) (dftSgn true * Real.cos (2 * Real.pi / 8)) := Wc8_pow3 true
        have hp6 : Wc true 8 ^ (6 : ℕ) = Complex.mk 0 (dftSgn true * -1) := Wc8_pow6 true
        have hp9 : Wc true 8 ^ (9 : ℕ) = Complex.mk (Real.cos (2 * Real.pi / 8)) (dftSgn true * Real.cos (2 * Real.pi / 8)) := by rw [Wc_pow_mod true (by norm_num) 9, show (9 % 8 : ℕ) = 1 from by norm_num, Wc8_pow1 true]
        have hp12 : Wc true 8 ^ (12 : ℕ) = Complex.mk (-1) 0 := by rw [Wc_pow_mod true (by norm_num) 12, show (12 % 8 : ℕ) = 4 from by norm_num, Wc8_pow4 true]
        have hp15 : Wc true 8 ^ (15 : ℕ) = Complex.mk (Real.cos (2 * Real.pi / 8)) (dftSgn true * -Real.cos (2 * Real.pi / 8)) := by rw [Wc_pow_mod true (by norm_num) 15, show (15 % 8 : ℕ) = 7 from by norm_num, Wc8_pow7 true]
        have hp18 : Wc true 8 ^ (18 : ℕ) = Complex.mk 0 (dftSgn true) := by rw [Wc_pow_mod true (by norm_num) 18, show (18 % 8 : ℕ) = 2 from by norm_num, Wc8_pow2 true]
        have hp21 : Wc true 8 ^ (21 : ℕ) = Complex.mk (-Real.cos (2 * Real.pi / 8)) (dftSgn true * -Real.cos (2 * Real.pi / 8)) := by rw [Wc_pow_mod true (by norm_num) 21, show (21 % 8 : ℕ) = 5 from by norm_num, Wc8_pow5 true]
        rw [hp0, hp3, hp6, hp9, hp12, hp15, hp18, hp21]
        apply Complex.ext
        · simp only [Complex.add_re, Complex.mul_re, Complex.zero_re, cmk_re, cmk_im, hσ]
          ring
        · simp only [Complex.add_im, Complex.mul_im, Complex.zero_im, cmk_re, cmk_im, hσ]
          ring
      · rw [Finset.sum_range_succ, Finset.sum_range_succ, Finset.sum_range_succ, Finset.sum_range_succ,
          Finset.sum_range_succ, Finset.sum_range_succ, Finset.sum_range_succ, Finset.sum_range_succ,
          Finset.sum_range_zero]
        rw [hb0, hb1, hb2, hb3, hb4, hb5, hb6, hb7]
        push_cast
        simp only [dbcF_fft8]
        rw [if_neg (show ¬((true : Bool) = false) from by simp)]
        rw [mset_other _ _ _ (hcr 4 7 (by norm_num) (by norm_num) (by norm_num) (by norm_num))]
        rw [mset_other _ _ _ (show real + 4 * rs ≠ real + 7 * rs from by omega)]
        rw [mset_other _ _ _ (hcr 4 6 (by norm_num) (by norm_num) (by norm_num) (by norm_num))]
        rw [mset_other _ _ _ (show real + 4 * rs ≠ real + 6 * rs from by omega)]
        rw [mset_other _ _ _ (hcr 4 5 (by norm_num) (by norm_num) (by norm_num) (by norm_num))]
        rw [mset_other _ _ _ (show real + 4 * rs ≠ real + 5 * rs from by omega)]
        rw [mset_other _ _ _ (hcr 4 4 (by norm_num) (by norm_num) (by norm_num) (by norm_num))]
        rw [mset_same]
        rw [mset_other _ _ _ (show imag + 4 * ims ≠ imag + 7 * ims from by omega)]
        rw [mset_other _ _ _ ((hcr 7 4 (by norm_num) (by norm_num) (by norm_num) (by norm_num)).symm)]
        rw [mset_other _ _ _ (show imag + 4 * ims ≠ imag + 6 * ims from by omega)]
        rw [mset_other _ _ _ ((hcr 6 4 (by norm_num) (by norm_num) (by norm_num) (by norm_num)).symm)]
        rw [mset_other _ _ _ (show imag + 4 * ims ≠ imag + 5 * ims from by omega)]
        rw [mset_other _ _ _ ((hcr 5 4 (by norm_num) (by norm_num) (by norm_num) (by norm_num)).symm)]
        rw [mset_same]
        have hp0 : Wc true 8 ^ (0 : ℕ) = Complex.mk 1 0 := Wc8_pow0 true
        have hp4 : Wc true 8 ^ (4 : ℕ) = Complex.mk (-1) 0 := Wc8_pow4 true
        have hp8 : Wc true 8 ^ (8 : ℕ) = Complex.mk 1 0 := by rw [Wc_pow_mod true (by norm_num) 8, show (8 % 8 : ℕ) = 0 from by norm_num, Wc8_pow0 true]
        have hp12 : Wc true 8 ^ (12 : ℕ) = Complex.mk (-1) 0 := by rw [Wc_pow_mod true (by norm_num) 12, show (12 % 8 : ℕ) = 4 from by norm_num, Wc8_pow4 true]
        have hp16 : Wc true 8 ^ (16 : ℕ) = Complex.mk 1 0 := by rw [Wc_pow_mod true (by norm_num) 16, show (16 % 8 : ℕ) = 0 from by norm_num, Wc8_pow0 true]
        have hp20 : Wc true 8 ^ (20 : ℕ) = Complex.mk (-1) 0 := by rw [Wc_pow_mod true (by norm_num) 20, show (20 % 8 : ℕ) = 4 from by norm_num, Wc8_pow4 true]
        have hp24 : Wc true 8 ^ (24 : ℕ) = Complex.mk 1 0 := by rw [Wc_pow_mod true (by norm_num) 24, show (24 % 8 : ℕ) = 0 from by norm_num, Wc8_pow0 true]
        have hp28 : Wc true 8 ^ (28 : ℕ) = Complex.mk (-1) 0 := by rw [Wc_pow_mod true (by norm_num) 28, show (28 % 8 : ℕ) = 4 from by norm_num, Wc8_pow4 true]
        rw [hp0, hp4, hp8, hp12, hp16, hp20, hp24, hp28]
        apply Complex.ext
        · simp only [Complex.add_re, Complex.mul_re, Complex.zero_re, cmk_re, cmk_im, hσ]
          ring
        · simp only [Complex.add_im, Complex.mul_im, Complex.zero_im, cmk_re, cmk_im, hσ]
          ring
      · rw [Finset.sum_range_succ, Finset.sum_range_succ, Finset.sum_range_succ, Finset.sum_range_succ,
          Finset.sum_range_succ, Finset.sum_range_succ, Finset.sum_range_succ, Finset.sum_range_succ,
          Finset.sum_range_zero]
        rw [hb0, hb1, hb2, hb3, hb4, hb5, hb6, hb7]
        push_cast
        simp only [dbcF_fft8]
        rw [if_neg (show ¬((true : Bool) = false) from by simp)]
        rw [mset_other _ _ _ (hcr 5 7 (by norm_num) (by norm_num) (by norm_num) (by norm_num))]
        rw [mset_other _ _ _ (show real + 5 * rs ≠ real + 7 * rs from by omega)]
        rw [mset_other _ _ _ (hcr 5 6 (by norm_num) (by norm_num) (by norm_num) (by norm_num))]
        rw [mset_other _ _ _ (show real + 5 * rs ≠ real + 6 * rs from by omega)]
        rw [mset_other _ _ _ (hcr 5 5 (by norm_num) (by norm_num) (by norm_num) (by norm_num))]
        rw [mset_same]
        rw [mset_other _ _ _ (show imag + 5 * ims ≠ imag + 7 * ims from by omega)]
        rw [mset_other _ _ _ ((hcr 7 5 (by norm_num) (by norm_num) (by norm_num) (by norm_num)).symm)]
        rw [mset_other _ _ _ (show imag + 5 * ims ≠ imag + 6 * ims from by omega)]
        rw [mset_other _ _ _ ((hcr 6 5 (by norm_num) (by norm_num) (by norm_num) (by norm_num)).symm)]
        rw [mset_same]
        have hp0 : Wc true 8 ^ (0 : ℕ) = Complex.mk 1 0 := Wc8_pow0 true
        have hp5 : Wc true 8 ^ (5 : ℕ) = Complex.mk (-Real.cos (2 * Real.pi / 8)) (dftSgn true * -Real.cos (2 * Real.pi / 8)) := Wc8_pow5 true
        have hp10 : Wc true 8 ^ (10 : ℕ) = Complex.mk 0 (dftSgn true) := by rw [Wc_pow_mod true (by norm_num) 10, show (10 % 8 : ℕ) = 2 from by norm_num, Wc8_pow2 true]
        have hp15 : Wc true 8 ^ (15 : ℕ) = Complex.mk (Real.cos (2 * Real.pi / 8)) (dftSgn true * -Real.cos (2 * Real.pi / 8)) := by rw [Wc_pow_mod true (by norm_num) 15, show (15 % 8 : ℕ) = 7 from by norm_num, Wc8_pow7 true]
        have hp20 : Wc true 8 ^ (20 : ℕ) = Complex.mk (-1) 0 := by rw [Wc_pow_mod true (by norm_num) 20, show (20 % 8 : ℕ) = 4 from by norm_num, Wc8_pow4 true]
        have hp25 : Wc true 8 ^ (25 : ℕ) = Complex.mk (Real.cos (2 * Real.pi / 8)) (dftSgn true * Real.cos (2 * Real.pi / 8)) := by rw [Wc_pow_mod true (by norm_num) 25, show (25 % 8 : ℕ) = 1 from by norm_num, Wc8_pow1 true]
        have hp30 : Wc true 8 ^ (30 : ℕ) = Complex.mk 0 (dftSgn true * -1) := by rw [Wc_pow_mod true (by norm_num) 30, show (30 % 8 : ℕ) = 6 from by norm_num, Wc8_pow6 true]
        have hp35 : Wc true 8 ^ (35 : ℕ) = Complex.mk (-Real.cos (2 * Real.pi / 8)) (dftSgn true * Real.cos (2 * Real.pi / 8)) := by rw [Wc_pow_mod true (by norm_num) 35, show (35 % 8 : ℕ) = 3 from by norm_num, Wc8_pow3 true]
        rw [hp0, hp5, hp10, hp15, hp20, hp25, hp30, hp35]
        apply Complex.ext
        · simp only [Complex.add_re, Complex.mul_re, Complex.zero_re, cmk_re, cmk_im, hσ]
          ring
        · simp only [Complex.add_im, Complex.mul_im, Complex.zero_im, cmk_re, cmk_im, hσ]
          ring
      · rw [Finset.sum_range_succ, Finset.sum_range_succ, Finset.sum_range_succ, Finset.sum_range_succ,
          Finset.sum_range_succ, Finset.sum_range_succ, Finset.sum_range_succ, Finset.sum_range_succ,
          Finset.sum_range_zero]
        rw [hb0, hb1, hb2, hb3, hb4, hb5, hb6, hb7]
        push_cast
        simp only [dbcF_fft8]
        rw [if_neg (show ¬((true : Bool) = false) from by simp)]
        rw [mset_other _ _ _ (hcr 6 7 (by norm_num) (by norm_num) (by norm_num) (by norm_num))]
        rw [mset_other _ _ _ (show real + 6 * rs ≠ real + 7 * rs from by omega)]
        rw [mset_other _ _ _ (hcr 6 6 (by norm_num) (by norm_num) (by norm_num) (by norm_num))]
        rw [mset_same]
        rw [mset_other _ _ _ (show imag + 6 * ims ≠ imag + 7 * ims from by omega)]
        rw [mset_other _ _ _ ((hcr 7 6 (by norm_num) (by norm_num) (by norm_num) (by norm_num)).symm)]
        rw [mset_same]
        have hp0 : Wc true 8 ^ (0 : ℕ) = Complex.mk 1 0 := Wc8_pow0 true
        have hp6 : Wc true 8 ^ (6 : ℕ) = Complex.mk 0 (dftSgn true * -1) := Wc8_pow6 true
        have hp12 : Wc true 8 ^ (12 : ℕ) = Complex.mk (-1) 0 := by rw [Wc_pow_mod true (by norm_num) 12, show (12 % 8 : ℕ) = 4 from by norm_num, Wc8_pow4 true]
        have hp18 : Wc true 8 ^ (18 : ℕ) = Complex.mk 0 (dftSgn true) := by rw [Wc_pow_mod true (by norm_num) 18, show (18 % 8 : ℕ) = 2 from by norm_num, Wc8_pow2 true]
        have hp24 : Wc true 8 ^ (24 : ℕ) = Complex.mk 1 0 := by rw [Wc_pow_mod true (by norm_num) 24, show (24 % 8 : ℕ) = 0 from by norm_num, Wc8_pow0 true]
        have hp30 : Wc true 8 ^ (30 : ℕ) = Complex.mk 0 (dftSgn true * -1) := by rw [Wc_pow_mod true (by norm_num) 30, show (30 % 8 : ℕ) = 6 from by norm_num, Wc8_pow6 true]
        have hp36 : Wc true 8 ^ (36 : ℕ) = Complex.mk (-1) 0 := by rw [Wc_pow_mod true (by norm_num) 36, show (36 % 8 : ℕ) = 4 from by norm_num, Wc8_pow4 true]
        have hp42 : Wc true 8 ^ (42 : ℕ) = Complex.mk 0 (dftSgn true) := by rw [Wc_pow_mod true (by norm_num) 42, show (42 % 8 : ℕ) = 2 from by norm_num, Wc8_pow2 true]
        rw [hp0, hp6, hp12, hp18, hp24, hp30, hp36, hp42]
        apply Complex.ext
        · simp only [Complex.add_re, Complex.mul_re, Complex.zero_re, cmk_re, cmk_im, hσ]
          ring
        · simp only [Complex.add_im, Complex.mul_im, Complex.zero_im, cmk_re, cmk_im, hσ]
          ring
      · rw [Finset.sum_range_succ, Finset.sum_range_succ, Finset.sum_range_succ, Finset.sum_range_succ,
          Finset.sum_range_succ, Finset.sum_range_succ, Finset.sum_range_succ, Finset.sum_range_succ,
          Finset.sum_range_zero]
        rw [hb0, hb1, hb2, hb3, hb4, hb5, hb6, hb7]
        push_cast
        simp only [dbcF_fft8]
        rw [if_neg (show ¬((true : Bool) = false) from by simp)]
        rw [mset_other _ _ _ (hcr 7 7 (by norm_num) (by norm_num) (by norm_num) (by norm_num))]
        rw [mset_same]
        rw [mset_same]
        have hp0 : Wc true 8 ^ (0 : ℕ) = Complex.mk 1 0 := Wc8_pow0 true
        have hp7 : Wc true 8 ^ (7 : ℕ) = Complex.mk (Real.cos (2 * Real.pi / 8)) (dftSgn true * -Real.cos (2 * Real.pi / 8)) := Wc8_pow7 true
        have hp14 : Wc true 8 ^ (14 : ℕ) = Complex.mk 0 (dftSgn true * -1) := by rw [Wc_pow_mod true (by norm_num) 14, show (14 % 8 : ℕ) = 6 from by norm_num, Wc8_pow6 true]
        have hp21 : Wc true 8 ^ (21 : ℕ) = Complex.mk (-Real.cos (2 * Real.pi / 8)) (dftSgn true * -Real.cos (2 * Real.pi / 8)) := by rw [Wc_pow_mod true (by norm_num) 21, show (21 % 8 : ℕ) = 5 from by norm_num, Wc8_pow5 true]
        have hp28 : Wc true 8 ^ (28 : ℕ) = Complex.mk (-1) 0 := by rw [Wc_pow_mod true (by norm_num) 28, show (28 % 8 : ℕ) = 4 from by norm_num, Wc8_pow4 true]
        have hp35 : Wc true 8 ^ (35 : ℕ) = Complex.mk (-Real.cos (2 * Real.pi / 8)) (dftSgn true * Real.cos (2 * Real.pi / 8)) := by rw [Wc_pow_mod true (by norm_num) 35, show (35 % 8 : ℕ) = 3 from by norm_num, Wc8_pow3 true]
        have hp42 : Wc true 8 ^ (42 : ℕ) = Complex.mk 0 (dftSgn true) := by rw [Wc_pow_mod true (by norm_num) 42, show (42 % 8 : ℕ) = 2 from by norm_num, Wc8_pow2 true]
        have hp49 : Wc true 8 ^ (49 : ℕ) = Complex.mk (Real.cos (2 * Real.pi / 8)) (dftSgn true * Real.cos (2 * Real.pi / 8)) := by rw [Wc_pow_mod true (by norm_num) 49, show (49 % 8 : ℕ) = 1 from by norm_num, Wc8_pow1 true]
        rw [hp0, hp7, hp14, hp21, hp28, hp35, hp42, hp49]
        apply Complex.ext
        · simp only [Complex.add_re, Complex.mul_re, Complex.zero_re, cmk_re, cmk_im, hσ]
          ring
        · simp only [Complex.add_im, Complex.mul_im, Complex.zero_im, cmk_re, cmk_im, hσ]
          ring
    · intro a ha
      simp only [dbcF_fft8]
      rw [if_neg (show ¬((true : Bool) = false) from by simp)]
      rw [mset_other _ _ _ (ha 7 (by norm_num) (by norm_num)).2]
      rw [mset_other _ _ _ (ha 7 (by norm_num) (by norm_num)).1]
      rw [mset_other _ _ _ (ha 6 (by norm_num) (by norm_num)).2]
      rw [mset_other _ _ _ (ha 6 (by norm_num) (by norm_num)).1]
      rw [mset_other _ _ _ (ha 5 (by norm_num) (by norm_num)).2]
      rw [mset_other _ _ _ (ha 5 (by norm_num) (by norm_num)).1]
      rw [mset_other _ _ _ (ha 4 (by norm_num) (by norm_num)).2]
      rw [mset_other _ _ _ (ha 4 (by norm_num) (by norm_num)).1]
      rw [mset_other _ _ _ (ha 3 (by norm_num) (by norm_num)).2]
      rw [mset_other _ _ _ (ha 3 (by norm_num) (by norm_num)).1]
      rw [mset_other _ _ _ (ha 2 (by norm_num) (by norm_num)).2]
      rw [mset_other _ _ _ (ha 2 (by norm_num) (by norm_num)).1]
      rw [mset_other _ _ _ (ha 1 (by norm_num) (by norm_num)).2]
      rw [mset_other _ _ _ (ha 1 (by norm_num) (by norm_num)).1]
      rw [mset_other _ _ _ (ha 0 (by norm_num) (by norm_num)).2]
      rw [mset_other _ _ _ (ha 0 (by norm_num) (by norm_num)).1]
end DbcFft